import Mathlib

/-!
# go-parser: infix compiler, call-tree parser, evaluator and conditional expression

A shallow embedding of the Go sources

* `internal/parser/parser.go` (tokenizer and recursive-descent infix parser),
* `function.go` (call-tree parser and evaluator),
* `function_list.go` (built-in function table),
* `parser.go` (`ParseExpression`, `ParseAndExecute`, `Expression.Parse`, `Expression.Eval`).

Conventions.

* A Go `string` is a byte sequence.  It is represented by a Lean `String` whose characters
  stand for the bytes (code points `0 .. 255`).
* A Go call either returns a value, returns a non-nil `error`, or panics at run time
  (index out of range, integer division by zero, ...).  The three cases are the first three
  constructors of `Outcome`.  Recursive Go functions are embedded by structural recursion on a
  fuel argument; the fourth constructor `outOfFuel` marks an exhausted budget and never stands
  for a behaviour of the Go program.  The entry points `tokenize`, `Parse` and `ParseExpression`
  are given budgets that are proved never to be exhausted.
* Go machine integers are modelled by `Int`, wrapped explicitly to 64 bits where the Go code
  computes in `int64`.
-/

namespace GoParser

/-! ## Outcomes -/

/-- Result of running a Go function: a value, a returned `error`, a run-time panic, or (model
only) an exhausted fuel budget. -/
inductive Outcome (α : Type) where
  | ok (a : α)
  | error (msg : String)
  | panic
  | outOfFuel
deriving DecidableEq, Repr

/-- Sequencing: anything but `ok` propagates unchanged. -/
def Outcome.bind {α β : Type} : Outcome α → (α → Outcome β) → Outcome β
  | .ok a, f => f a
  | .error msg, _ => .error msg
  | .panic, _ => .panic
  | .outOfFuel, _ => .outOfFuel

/-- Whether the outcome is a returned value. -/
def Outcome.isOk {α : Type} : Outcome α → Bool
  | .ok _ => true
  | _ => false

/-! ## Tokens (`internal/parser/parser.go`) -/

/-- Go `TokenType`. -/
inductive TokenType where
  | Literal | Add | Sub | Mul | Div | Mod | OpenParen | CloseParen | At | Dollar
  | Identifier | Comma | And | Or | Not | Gt | Gte | Lt | Lte | Eq | Ne
deriving DecidableEq, Repr

/-- Go `Token`; the field `Type` is spelled `Typ`. -/
structure Token where
  Typ : TokenType
  Value : String
deriving DecidableEq, Repr

/-- Go `unicode.IsLetter(rune(b))` for a byte `b`: the ASCII letters and the Latin-1 letters. -/
def isLetter (c : Char) : Bool :=
  let n := c.toNat
  (65 ≤ n && n ≤ 90) || (97 ≤ n && n ≤ 122) || n == 170 || n == 181 || n == 186 ||
    (192 ≤ n && n ≤ 214) || (216 ≤ n && n ≤ 246) || (248 ≤ n && n ≤ 255)

/-- Go `unicode.IsDigit(rune(b))` for a byte `b`: the ASCII digits. -/
def isDigit (c : Char) : Bool :=
  48 ≤ c.toNat && c.toNat ≤ 57

/-- Continuation test of the identifier scan in `tokenize`. -/
def isIdentChar (c : Char) : Bool :=
  isLetter c || isDigit c || c == '_'

/-- Continuation test of the number scan in `tokenize`. -/
def isNumberChar (c : Char) : Bool :=
  isDigit c || c == '.'

/-- The bytes Go `%c` prints for the byte `c`: the UTF-8 encoding of the code point with that
value, one byte below `0x80` and two bytes from `0x80` on. -/
def runeBytes (c : Char) : List Char :=
  if c.toNat < 0x80 then [c]
  else [Char.ofNat (0xC0 + c.toNat / 64), Char.ofNat (0x80 + c.toNat % 64)]

/-- The loop of Go `tokenize`.  The loop index `i` is represented by the unread suffix
`input[i:]`; a read of `input[i+1]` past the end of the input is a panic. -/
def tokenizeLoop : Nat → List Char → List Token → Outcome (List Token)
  | 0, _, _ => .outOfFuel
  | _ + 1, [], tokens => .ok tokens
  | fuel + 1, c :: rest, tokens =>
    if c = '+' then tokenizeLoop fuel rest (tokens ++ [⟨.Add, "+"⟩])
    else if c = '-' then tokenizeLoop fuel rest (tokens ++ [⟨.Sub, "-"⟩])
    else if c = '*' then tokenizeLoop fuel rest (tokens ++ [⟨.Mul, "*"⟩])
    else if c = '/' then tokenizeLoop fuel rest (tokens ++ [⟨.Div, "/"⟩])
    else if c = '%' then tokenizeLoop fuel rest (tokens ++ [⟨.Mod, "%"⟩])
    else if c = '(' then tokenizeLoop fuel rest (tokens ++ [⟨.OpenParen, "("⟩])
    else if c = ')' then tokenizeLoop fuel rest (tokens ++ [⟨.CloseParen, ")"⟩])
    else if c = '@' then tokenizeLoop fuel rest (tokens ++ [⟨.At, "@"⟩])
    else if c = '$' then tokenizeLoop fuel rest (tokens ++ [⟨.Dollar, "$"⟩])
    else if c = ',' then tokenizeLoop fuel rest (tokens ++ [⟨.Comma, ","⟩])
    else if c = '&' then
      match rest with
      | [] => .panic
      | d :: rest2 =>
        if d = '&' then tokenizeLoop fuel rest2 (tokens ++ [⟨.And, "&&"⟩])
        else .error "expected &&"
    else if c = '|' then
      match rest with
      | [] => .panic
      | d :: rest2 =>
        if d = '|' then tokenizeLoop fuel rest2 (tokens ++ [⟨.Or, "||"⟩])
        else .error "expected ||"
    else if c = '!' then
      match rest with
      | [] => .panic
      | d :: rest2 =>
        if d = '=' then tokenizeLoop fuel rest2 (tokens ++ [⟨.Ne, "!="⟩])
        else tokenizeLoop fuel rest (tokens ++ [⟨.Not, "!"⟩])
    else if c = '>' then
      match rest with
      | [] => .panic
      | d :: rest2 =>
        if d = '=' then tokenizeLoop fuel rest2 (tokens ++ [⟨.Gte, ">="⟩])
        else tokenizeLoop fuel rest (tokens ++ [⟨.Gt, ">"⟩])
    else if c = '<' then
      match rest with
      | [] => .panic
      | d :: rest2 =>
        if d = '=' then tokenizeLoop fuel rest2 (tokens ++ [⟨.Lte, "<="⟩])
        else tokenizeLoop fuel rest (tokens ++ [⟨.Lt, "<"⟩])
    else if c = '=' then
      match rest with
      | [] => .error "expected =="
      | d :: rest2 =>
        if d = '=' then tokenizeLoop fuel rest2 (tokens ++ [⟨.Eq, "=="⟩])
        else .error "expected =="
    else if c = '"' then
      match rest.dropWhile (fun d => d != '"') with
      | [] => .error "expected \""
      | _ :: rest2 =>
        tokenizeLoop fuel rest2
          (tokens ++ [⟨.Literal, String.mk (rest.takeWhile (fun d => d != '"')) ++ ":str"⟩])
    else if isLetter c then
      tokenizeLoop fuel ((c :: rest).dropWhile isIdentChar)
        (tokens ++ [⟨.Identifier, String.mk ((c :: rest).takeWhile isIdentChar)⟩])
    else if isDigit c then
      let token := (c :: rest).takeWhile isNumberChar
      if token.contains '.' then
        tokenizeLoop fuel ((c :: rest).dropWhile isNumberChar)
          (tokens ++ [⟨.Literal, String.mk token ++ ":float"⟩])
      else
        tokenizeLoop fuel ((c :: rest).dropWhile isNumberChar)
          (tokens ++ [⟨.Literal, String.mk token ++ ":int"⟩])
    else if c = ' ' then tokenizeLoop fuel rest tokens
    else .error ("unexpected character: " ++ String.mk (runeBytes c))

/-- Go `tokenize`.  Every iteration of the loop consumes at least one byte, so a budget of
`len(input) + 1` iterations is never exhausted (`tokenize_fuel_adequate`). -/
def tokenize (input : String) : Outcome (List Token) :=
  tokenizeLoop (input.data.length + 1) input.data []

/-! ## Infix parser (`internal/parser/parser.go`) -/

/-- Go `fmt.Sprintf("name(%s,%s)", left, right)`. -/
def call2 (name left right : String) : String :=
  name ++ "(" ++ left ++ "," ++ right ++ ")"

/-- The built-in emitted for a comparison token (`case Eq, Ne, Gt, Gte, Lt, Lte`). -/
def comparisonName : TokenType → Option String
  | .Eq => some "eq"
  | .Ne => some "ne"
  | .Gt => some "gt"
  | .Gte => some "gte"
  | .Lt => some "lt"
  | .Lte => some "lte"
  | _ => none

/-- Parser results: the emitted text and the parser position `p.pos` after the call. -/
abbrev Parsed := Outcome (String × Nat)

mutual

/-- Go `parser.parseLogicalExpression`. -/
def parseLogicalExpression : Nat → List Token → Nat → Parsed
  | 0, _, _ => .outOfFuel
  | fuel + 1, tokens, pos =>
    (parseComparisonExpression fuel tokens pos).bind fun r =>
      parseLogicalLoop fuel tokens r.2 r.1
termination_by structural fuel => fuel

/-- The `for p.pos < len(p.tokens)` loop of `parseLogicalExpression`. -/
def parseLogicalLoop : Nat → List Token → Nat → String → Parsed
  | 0, _, _, _ => .outOfFuel
  | fuel + 1, tokens, pos, left =>
    match tokens[pos]? with
    | none => .ok (left, pos)
    | some tok =>
      match tok.Typ with
      | .And =>
        (parseComparisonExpression fuel tokens (pos + 1)).bind fun r =>
          parseLogicalLoop fuel tokens r.2 (call2 "and" left r.1)
      | .Or =>
        (parseComparisonExpression fuel tokens (pos + 1)).bind fun r =>
          parseLogicalLoop fuel tokens r.2 (call2 "or" left r.1)
      | _ => .ok (left, pos)
termination_by structural fuel => fuel

/-- Go `parser.parseComparisonExpression`. -/
def parseComparisonExpression : Nat → List Token → Nat → Parsed
  | 0, _, _ => .outOfFuel
  | fuel + 1, tokens, pos =>
    match tokens[pos]? with
    | none => .error "unexpected end of input"
    | some tok =>
      if tok.Typ = .Not then
        (parseComparisonExpression fuel tokens (pos + 1)).bind fun r =>
          .ok ("not(" ++ r.1 ++ ")", r.2)
      else if tok.Typ = .OpenParen then
        let startPos := pos + 1
        let inner : Parsed :=
          match parseLogicalExpression fuel tokens startPos with
          | .error _ => additive fuel tokens startPos
          | r => r
        inner.bind fun r =>
          match tokens[r.2]? with
          | none => .error "expected right parenthesis"
          | some close =>
            if close.Typ ≠ .CloseParen then .error "expected right parenthesis"
            else
              match tokens[r.2 + 1]? with
              | none => .ok (r.1, r.2 + 1)
              | some op =>
                match comparisonName op.Typ with
                | some name =>
                  (additive fuel tokens (r.2 + 2)).bind fun q =>
                    .ok (call2 name r.1 q.1, q.2)
                | none => .ok (r.1, r.2 + 1)
      else
        (additive fuel tokens pos).bind fun r =>
          match tokens[r.2]? with
          | none => .ok (r.1, r.2)
          | some op =>
            match comparisonName op.Typ with
            | some name =>
              (additive fuel tokens (r.2 + 1)).bind fun q =>
                .ok (call2 name r.1 q.1, q.2)
            | none => .ok (r.1, r.2)
termination_by structural fuel => fuel

/-- Go `parser.additive`. -/
def additive : Nat → List Token → Nat → Parsed
  | 0, _, _ => .outOfFuel
  | fuel + 1, tokens, pos =>
    (term fuel tokens pos).bind fun r => additiveLoop fuel tokens r.2 r.1
termination_by structural fuel => fuel

/-- The `for p.pos < len(p.tokens)` loop of `additive`. -/
def additiveLoop : Nat → List Token → Nat → String → Parsed
  | 0, _, _, _ => .outOfFuel
  | fuel + 1, tokens, pos, acc =>
    match tokens[pos]? with
    | none => .ok (acc, pos)
    | some tok =>
      match tok.Typ with
      | .Add =>
        (term fuel tokens (pos + 1)).bind fun r =>
          additiveLoop fuel tokens r.2 (call2 "add" acc r.1)
      | .Sub =>
        (term fuel tokens (pos + 1)).bind fun r =>
          additiveLoop fuel tokens r.2 (call2 "sub" acc r.1)
      | _ => .ok (acc, pos)
termination_by structural fuel => fuel

/-- Go `parser.term`. -/
def term : Nat → List Token → Nat → Parsed
  | 0, _, _ => .outOfFuel
  | fuel + 1, tokens, pos =>
    (factor fuel tokens pos).bind fun r => termLoop fuel tokens r.2 r.1
termination_by structural fuel => fuel

/-- The `for p.pos < len(p.tokens)` loop of `term`. -/
def termLoop : Nat → List Token → Nat → String → Parsed
  | 0, _, _, _ => .outOfFuel
  | fuel + 1, tokens, pos, acc =>
    match tokens[pos]? with
    | none => .ok (acc, pos)
    | some tok =>
      match tok.Typ with
      | .Mul =>
        (factor fuel tokens (pos + 1)).bind fun r =>
          termLoop fuel tokens r.2 (call2 "multi" acc r.1)
      | .Div =>
        (factor fuel tokens (pos + 1)).bind fun r =>
          termLoop fuel tokens r.2 (call2 "div" acc r.1)
      | .Mod =>
        (factor fuel tokens (pos + 1)).bind fun r =>
          termLoop fuel tokens r.2 (call2 "mod" acc r.1)
      | _ => .ok (acc, pos)
termination_by structural fuel => fuel

/-- Go `parser.factor`.  The reads `p.tokens[p.pos]` and `p.tokens[p.pos+1]` are not guarded by
a bounds check in the source: a read at or past `len(p.tokens)` is a panic. -/
def factor : Nat → List Token → Nat → Parsed
  | 0, _, _ => .outOfFuel
  | fuel + 1, tokens, pos =>
    match tokens[pos]? with
    | none => .panic
    | some tok =>
      if tok.Typ = .OpenParen then
        (additive fuel tokens (pos + 1)).bind fun r =>
          match tokens[r.2]? with
          | none => .panic
          | some close =>
            if close.Typ ≠ .CloseParen then .error "expected )"
            else .ok (r.1, r.2 + 1)
      else if tok.Typ = .At then
        match tokens[pos + 1]? with
        | none => .panic
        | some nameTok =>
          if nameTok.Typ ≠ .Identifier then .error "expected function name"
          else
            match tokens[pos + 2]? with
            | none => .panic
            | some open_ =>
              if open_.Typ ≠ .OpenParen then .error "expected ("
              else
                (factorArgs fuel tokens (pos + 3) []).bind fun a =>
                  match tokens[a.2]? with
                  | none => .panic
                  | some close =>
                    if close.Typ ≠ .CloseParen then .error "expected )"
                    else
                      .ok (nameTok.Value ++ "(" ++ String.intercalate "," a.1 ++ ")", a.2 + 1)
      else if tok.Typ = .Dollar then
        match tokens[pos + 1]? with
        | none => .panic
        | some nameTok =>
          if nameTok.Typ ≠ .Identifier then .error "expected variable name"
          else
            let name := tok.Value ++ nameTok.Value
            match tokens[pos + 2]? with
            | none => .ok (name, pos + 2)
            | some next =>
              if next.Typ = .Add then
                (term fuel tokens (pos + 3)).bind fun r => .ok (call2 "add" name r.1, r.2)
              else .ok (name, pos + 2)
      else if tok.Typ = .Literal then .ok (tok.Value, pos + 1)
      else .error "expected literal"
termination_by structural fuel => fuel

/-- The argument loop `for p.tokens[p.pos].Type != CloseParen` of `factor`; returns the
collected arguments and the position at which the loop was left. -/
def factorArgs : Nat → List Token → Nat → List String → Outcome (List String × Nat)
  | 0, _, _, _ => .outOfFuel
  | fuel + 1, tokens, pos, args =>
    match tokens[pos]? with
    | none => .panic
    | some tok =>
      if tok.Typ = .CloseParen then .ok (args, pos)
      else
        (parseLogicalExpression fuel tokens pos).bind fun r =>
          match tokens[r.2]? with
          | none => .panic
          | some sep =>
            if sep.Typ = .CloseParen then .ok (args ++ [r.1], r.2)
            else if sep.Typ ≠ .Comma then .error "expected ,"
            else factorArgs fuel tokens (r.2 + 1) (args ++ [r.1])
termination_by structural fuel => fuel

end

/-- Fuel handed to the parser for a token sequence: every call and every loop iteration of
the Go parser spends one unit along a call chain; four units per unread token and five more
are enough (`parser_fuel_adequate`), so this budget is never exhausted
(`parseTokens_fuel_adequate`). -/
def parseFuel (tokens : List Token) : Nat :=
  8 * tokens.length + 8

/-- Go `parser.parse` after tokenizing: parse from position `0`, returning text and final
position. -/
def parseTokens (tokens : List Token) : Parsed :=
  parseLogicalExpression (parseFuel tokens) tokens 0

/-- Go `Parse` (`internal/parser`): the canonical call-notation text of an infix input. -/
def Parse (input : String) : Outcome String :=
  (tokenize input).bind fun tokens =>
    (parseTokens tokens).bind fun r => .ok r.1

/-! ## Dynamic values and external collaborators -/

/-- The Go signed integer types that `getArgType` classifies as integers. -/
inductive IntKind where
  | int | int64 | int32 | int16 | int8
deriving DecidableEq, Repr

/-- A Go value of type `any` as it occurs in bindings, constants and results: the nil
interface, a signed integer of some kind, a `float64` given by its IEEE-754 bit pattern, a
string, or a boolean. -/
inductive Value where
  | nil
  | int (kind : IntKind) (n : Int)
  | float (bits : Nat)
  | str (s : String)
  | bool (b : Bool)
deriving DecidableEq, Repr

/-- Two's-complement wrap-around of a mathematical integer to Go `int64`. -/
def wrapInt64 (x : Int) : Int :=
  (x + 2 ^ 63) % 2 ^ 64 - 2 ^ 63

/-- The third-party capabilities the program consumes without defining them: the `cast`
conversions, `strconv.ParseFloat`, the decimal arithmetic (rounded to `decimalsPlace`, with
`none` for the panic of a division by zero), the `float64` order, and regular expressions
(`none` for the panic of `regexp.MustCompile`).  Floats are bit patterns throughout. -/
structure Lib where
  ToBool : Value → Bool
  ToInt64 : Value → Int
  ToFloat64 : Value → Nat
  ToString : Value → String
  ParseFloat : String → Nat
  decAdd : Nat → Nat → Nat
  decSub : Nat → Nat → Nat
  decMul : Nat → Nat → Nat
  decDiv : Nat → Nat → Option Nat
  floatLt : Nat → Nat → Bool
  floatLe : Nat → Nat → Bool
  regexpMatch : String → String → Option Bool

/-- Value of Go `strconv.ParseUint` on a run of decimal digits, before any range check. -/
def digitsValue (ds : List Char) : Nat :=
  ds.foldl (fun acc c => 10 * acc + (c.toNat - 48)) 0

/-- Go `val, _ := strconv.ParseInt(s, 10, 64)`: the returned value, the error being discarded.
A syntax error gives `0`; a range error gives the nearest bound. -/
def ParseInt (s : String) : Int :=
  match s.data with
  | [] => 0
  | c :: rest =>
    let neg : Bool := c == '-'
    let ds := if c = '+' ∨ c = '-' then rest else c :: rest
    if ds = [] ∨ ds.all isDigit = false then 0
    else
      let un := digitsValue ds
      if neg = false ∧ un ≥ 2 ^ 63 then 2 ^ 63 - 1
      else if neg = true ∧ un > 2 ^ 63 then -(2 ^ 63)
      else if neg then -(un : Int)
      else (un : Int)

/-- Go `strings.Index(s, string(c))`, with `none` for `-1`. -/
def indexByte (s : List Char) (c : Char) : Option Nat :=
  if s.indexOf c < s.length then some (s.indexOf c) else none

/-- Go `strings.LastIndex(s, string(c))`, with `none` for `-1`. -/
def lastIndexByte (s : List Char) (c : Char) : Option Nat :=
  if s.reverse.indexOf c < s.length then some (s.length - 1 - s.reverse.indexOf c) else none

/-- ASCII white space as recognised by Go `unicode.IsSpace`. -/
def isSpace (c : Char) : Bool :=
  c == ' ' || c == '\t' || c == '\n' || c == '\r' || c.toNat == 11 || c.toNat == 12

/-- The byte at index `i` of the text, `0` past its end. -/
def byteAt : List Char → Nat → Nat
  | [], _ => 0
  | c :: _, 0 => c.toNat
  | _ :: rest, i + 1 => byteAt rest i

/-- The two bytes are the UTF-8 encoding of a white-space code point of Go `unicode.IsSpace`:
U+0085 (`C2 85`) or U+00A0 (`C2 A0`). -/
def spaceRune2 (b0 b1 : Nat) : Bool :=
  b0 == 0xC2 && (b1 == 0x85 || b1 == 0xA0)

/-- The three bytes are the UTF-8 encoding of a white-space code point of Go
`unicode.IsSpace`: U+1680 (`E1 9A 80`), U+2000..U+200A (`E2 80 80` .. `E2 80 8A`), U+2028,
U+2029, U+202F (`E2 80 A8`, `E2 80 A9`, `E2 80 AF`), U+205F (`E2 81 9F`) or U+3000
(`E3 80 80`). -/
def spaceRune3 (b0 b1 b2 : Nat) : Bool :=
  (b0 == 0xE1 && b1 == 0x9A && b2 == 0x80) ||
    (b0 == 0xE2 && b1 == 0x80 &&
      ((0x80 ≤ b2 && b2 ≤ 0x8A) || b2 == 0xA8 || b2 == 0xA9 || b2 == 0xAF)) ||
    (b0 == 0xE2 && b1 == 0x81 && b2 == 0x9F) ||
    (b0 == 0xE3 && b1 == 0x80 && b2 == 0x80)

/-- Number of bytes of the white-space rune at the head of the text, as Go
`utf8.DecodeRuneInString` and `unicode.IsSpace` find it, and `0` when the text does not start
with white space (an invalid or cut-off encoding decodes to U+FFFD, which is none). -/
def spaceWidth (s : List Char) : Nat :=
  if s.head?.any isSpace then 1
  else if spaceRune2 (byteAt s 0) (byteAt s 1) then 2
  else if spaceRune3 (byteAt s 0) (byteAt s 1) (byteAt s 2) then 3
  else 0

/-- Number of bytes of the white-space rune at the end of the text, as Go
`utf8.DecodeLastRuneInString` and `unicode.IsSpace` find it, and `0` when the text does not
end with white space. -/
def lastSpaceWidth (s : List Char) : Nat :=
  if s.getLast?.any isSpace then 1
  else if spaceRune2 (byteAt s.reverse 1) (byteAt s.reverse 0) then 2
  else if spaceRune3 (byteAt s.reverse 2) (byteAt s.reverse 1) (byteAt s.reverse 0) then 3
  else 0

/-- Go `strings.TrimLeftFunc(s, unicode.IsSpace)`: the white-space runes at the head are
dropped one after the other; `fuel` bounds their number. -/
def trimLeft : Nat → List Char → List Char
  | 0, s => s
  | fuel + 1, s => if spaceWidth s = 0 then s else trimLeft fuel (s.drop (spaceWidth s))

/-- Go `strings.TrimRightFunc(s, unicode.IsSpace)`: the white-space runes at the end are
dropped one after the other; `fuel` bounds their number. -/
def trimRight : Nat → List Char → List Char
  | 0, s => s
  | fuel + 1, s =>
    if lastSpaceWidth s = 0 then s else trimRight fuel (s.take (s.length - lastSpaceWidth s))

/-- Go `strings.TrimSpace`: the text without the white-space runes at its head and at its
end, white space being what `unicode.IsSpace` accepts, read as UTF-8.  Every step drops at
least one byte, so the length of the text bounds the number of steps (`trimLeft_done`,
`trimRight_done`). -/
def TrimSpace (s : String) : String :=
  String.mk (trimRight s.data.length (trimLeft s.data.length s.data))

/-- Go `strings.Trim(s, cutset)` for a cutset of ASCII bytes, which Go applies byte by
byte. -/
def Trim (s cutset : String) : String :=
  String.mk
    ((s.data.dropWhile (fun c => cutset.data.contains c)).reverse.dropWhile
      (fun c => cutset.data.contains c)).reverse

/-- Go `strings.Contains(s, sub)`. -/
def Contains (s sub : String) : Bool :=
  s.data.tails.any (fun t => sub.data.isPrefixOf t)

/-! ## Built-in function table (`function_list.go`) -/

/-- Go `ArgType`. -/
inductive ArgType where
  | ArgTypeInt | ArgTypeFloat | ArgTypeString
deriving DecidableEq, Repr

/-- Go `isContainDot`. -/
def isContainDot (s : String) : Bool :=
  Contains s "."

/-- Go `getArgType`. -/
def getArgType : Value → ArgType
  | .int _ _ => .ArgTypeInt
  | .float _ => .ArgTypeFloat
  | _ => .ArgTypeString

/-- Go `getComputeType`. -/
def getComputeType (L : Lib) (a b : Value) : ArgType :=
  if getArgType a = .ArgTypeFloat ∨ getArgType b = .ArgTypeFloat then .ArgTypeFloat
  else if getArgType a = .ArgTypeInt ∧ getArgType b = .ArgTypeInt then .ArgTypeInt
  else if isContainDot (L.ToString a) || isContainDot (L.ToString b) then .ArgTypeFloat
  else .ArgTypeInt

/-- Go `Function`: a callable on the evaluated arguments.  It returns a value or panics. -/
abbrev Function := List Value → Outcome Value

/-- Go `funcMap["append"]`. -/
def fnAppend (L : Lib) : Function
  | [] => .ok (.str "")
  | [a] => .ok a
  | a :: b :: _ => .ok (.str (L.ToString a ++ L.ToString b))

/-- Go `funcMap["trim"]`. -/
def fnTrim (L : Lib) : Function
  | [] => .ok (.str "")
  | [a] => .ok a
  | a :: b :: _ => .ok (.str (Trim (L.ToString a) (L.ToString b)))

/-- Go `funcMap["trimInt"]`. -/
def fnTrimInt (L : Lib) : Function
  | [] => .ok (.int .int 0)
  | [a] => .ok (.int .int64 (L.ToInt64 a))
  | a :: b :: _ => .ok (.int .int64 (L.ToInt64 (.str (Trim (L.ToString a) (L.ToString b)))))

/-- Go `funcMap["add"]`. -/
def fnAdd (L : Lib) : Function
  | [] => .ok (.int .int 0)
  | [a] => .ok a
  | a :: b :: _ =>
    if getComputeType L a b = .ArgTypeFloat then
      .ok (.float (L.decAdd (L.ToFloat64 a) (L.ToFloat64 b)))
    else .ok (.int .int64 (wrapInt64 (L.ToInt64 a + L.ToInt64 b)))

/-- Go `funcMap["sub"]`. -/
def fnSub (L : Lib) : Function
  | [] => .ok (.int .int 0)
  | [a] => .ok a
  | a :: b :: _ =>
    if getComputeType L a b = .ArgTypeFloat then
      .ok (.float (L.decSub (L.ToFloat64 a) (L.ToFloat64 b)))
    else .ok (.int .int64 (wrapInt64 (L.ToInt64 a - L.ToInt64 b)))

/-- Go `funcMap["multi"]`. -/
def fnMulti (L : Lib) : Function
  | [] => .ok (.int .int 0)
  | [a] => .ok a
  | a :: b :: _ =>
    if getComputeType L a b = .ArgTypeFloat then
      .ok (.float (L.decMul (L.ToFloat64 a) (L.ToFloat64 b)))
    else .ok (.int .int64 (wrapInt64 (L.ToInt64 a * L.ToInt64 b)))

/-- Go `funcMap["div"]`.  The integer quotient `cast.ToInt64(args[0]) / cast.ToInt64(args[1])`
is computed without a test of the divisor: Go panics when the divisor is zero. -/
def fnDiv (L : Lib) : Function
  | [] => .ok (.int .int 0)
  | [a] => .ok a
  | a :: b :: _ =>
    if getComputeType L a b = .ArgTypeFloat then
      match L.decDiv (L.ToFloat64 a) (L.ToFloat64 b) with
      | some q => .ok (.float q)
      | none => .panic
    else if L.ToInt64 b = 0 then .panic
    else .ok (.int .int64 (wrapInt64 (Int.tdiv (L.ToInt64 a) (L.ToInt64 b))))

/-- Go `funcMap["mod"]`. -/
def fnMod (L : Lib) : Function
  | [] => .ok (.int .int 0)
  | [a] => .ok a
  | a :: b :: _ =>
    if L.ToInt64 b = 0 then .ok (.int .int 0)
    else .ok (.int .int64 (wrapInt64 (Int.tmod (L.ToInt64 a) (L.ToInt64 b))))

/-- Go `funcMap["eq"]`. -/
def fnEq (L : Lib) : Function
  | a :: b :: _ => .ok (.bool (L.ToString a == L.ToString b))
  | _ => .ok (.bool false)

/-- Go `funcMap["ne"]`. -/
def fnNe (L : Lib) : Function
  | a :: b :: _ => .ok (.bool (L.ToString a != L.ToString b))
  | _ => .ok (.bool false)

/-- Go `funcMap["gt"]`. -/
def fnGt (L : Lib) : Function
  | a :: b :: _ =>
    if getComputeType L a b = .ArgTypeFloat then
      .ok (.bool (L.floatLt (L.ToFloat64 b) (L.ToFloat64 a)))
    else .ok (.bool (decide (L.ToInt64 a > L.ToInt64 b)))
  | _ => .ok (.bool false)

/-- Go `funcMap["gte"]`. -/
def fnGte (L : Lib) : Function
  | a :: b :: _ =>
    if getComputeType L a b = .ArgTypeFloat then
      .ok (.bool (L.floatLe (L.ToFloat64 b) (L.ToFloat64 a)))
    else .ok (.bool (decide (L.ToInt64 a ≥ L.ToInt64 b)))
  | _ => .ok (.bool false)

/-- Go `funcMap["lt"]`. -/
def fnLt (L : Lib) : Function
  | a :: b :: _ =>
    if getComputeType L a b = .ArgTypeFloat then
      .ok (.bool (L.floatLt (L.ToFloat64 a) (L.ToFloat64 b)))
    else .ok (.bool (decide (L.ToInt64 a < L.ToInt64 b)))
  | _ => .ok (.bool false)

/-- Go `funcMap["lte"]`. -/
def fnLte (L : Lib) : Function
  | a :: b :: _ =>
    if getComputeType L a b = .ArgTypeFloat then
      .ok (.bool (L.floatLe (L.ToFloat64 a) (L.ToFloat64 b)))
    else .ok (.bool (decide (L.ToInt64 a ≤ L.ToInt64 b)))
  | _ => .ok (.bool false)

/-- Go `funcMap["hasPrefix"]`. -/
def fnHasPrefix (L : Lib) : Function
  | a :: b :: _ => .ok (.bool ((L.ToString b).data.isPrefixOf (L.ToString a).data))
  | _ => .ok (.bool false)

/-- Go `funcMap["hasSuffix"]`. -/
def fnHasSuffix (L : Lib) : Function
  | a :: b :: _ => .ok (.bool ((L.ToString b).data.isSuffixOf (L.ToString a).data))
  | _ => .ok (.bool false)

/-- Go `funcMap["contains"]`. -/
def fnContains (L : Lib) : Function
  | a :: b :: _ => .ok (.bool (Contains (L.ToString a) (L.ToString b)))
  | _ => .ok (.bool false)

/-- Go `funcMap["regexp"]`. -/
def fnRegexp (L : Lib) : Function
  | a :: b :: _ =>
    match L.regexpMatch (L.ToString b) (L.ToString a) with
    | some m => .ok (.bool m)
    | none => .panic
  | _ => .ok (.bool false)

/-- Go `funcMap["not"]`. -/
def fnNot (L : Lib) : Function
  | [] => .ok (.bool false)
  | a :: _ => .ok (.bool (!L.ToBool a))

/-- Go `funcMap["and"]`: `cast.ToBool(args[0]) && cast.ToBool(args[1])`; the read of `args[1]`
happens only when the first operand is true, and panics when there is one argument. -/
def fnAnd (L : Lib) : Function
  | [] => .ok (.bool false)
  | a :: rest =>
    if L.ToBool a then
      match rest with
      | [] => .panic
      | b :: _ => .ok (.bool (L.ToBool b))
    else .ok (.bool false)

/-- Go `funcMap["or"]`: `cast.ToBool(args[0]) || cast.ToBool(args[1])`; the read of `args[1]`
happens only when the first operand is false, and panics when there is one argument. -/
def fnOr (L : Lib) : Function
  | [] => .ok (.bool false)
  | a :: rest =>
    if L.ToBool a then .ok (.bool true)
    else
      match rest with
      | [] => .panic
      | b :: _ => .ok (.bool (L.ToBool b))

/-- Go `funcMap` as initialised in `function_list.go` (no `RegisterFunc` call made). -/
def funcMap (L : Lib) (name : String) : Option Function :=
  if name = "append" then some (fnAppend L)
  else if name = "trim" then some (fnTrim L)
  else if name = "trimInt" then some (fnTrimInt L)
  else if name = "add" then some (fnAdd L)
  else if name = "sub" then some (fnSub L)
  else if name = "multi" then some (fnMulti L)
  else if name = "div" then some (fnDiv L)
  else if name = "mod" then some (fnMod L)
  else if name = "eq" then some (fnEq L)
  else if name = "ne" then some (fnNe L)
  else if name = "gt" then some (fnGt L)
  else if name = "gte" then some (fnGte L)
  else if name = "lt" then some (fnLt L)
  else if name = "lte" then some (fnLte L)
  else if name = "hasPrefix" then some (fnHasPrefix L)
  else if name = "hasSuffix" then some (fnHasSuffix L)
  else if name = "contains" then some (fnContains L)
  else if name = "regexp" then some (fnRegexp L)
  else if name = "not" then some (fnNot L)
  else if name = "and" then some (fnAnd L)
  else if name = "or" then some (fnOr L)
  else none

/-! ## Call-tree parser and evaluator (`function.go`) -/

mutual

/-- Go `FunctionCall`.  `Function = none` is the nil callable. -/
inductive FunctionCall where
  | mk (Expression : String) (Function : Option Function) (FunctionName : String)
      (Args : List FunctionArg) (Variable : String) (Const : Value)

/-- Go `FunctionArg`.  `FunctionCall = none` is the nil pointer. -/
inductive FunctionArg where
  | mk (FunctionCall : Option FunctionCall) (Variable : String) (Const : Value)

end

/-- Field `Expression` of a `FunctionCall`. -/
def FunctionCall.Expression : FunctionCall → String
  | .mk e _ _ _ _ _ => e

/-- Field `Function` of a `FunctionCall`. -/
def FunctionCall.Function : FunctionCall → Option Function
  | .mk _ f _ _ _ _ => f

/-- Field `FunctionName` of a `FunctionCall`. -/
def FunctionCall.FunctionName : FunctionCall → String
  | .mk _ _ n _ _ _ => n

/-- Field `Args` of a `FunctionCall`. -/
def FunctionCall.Args : FunctionCall → List FunctionArg
  | .mk _ _ _ a _ _ => a

/-- Field `Variable` of a `FunctionCall`. -/
def FunctionCall.Variable : FunctionCall → String
  | .mk _ _ _ _ v _ => v

/-- Field `Const` of a `FunctionCall`. -/
def FunctionCall.Const : FunctionCall → Value
  | .mk _ _ _ _ _ c => c

/-- Field `FunctionCall` of a `FunctionArg`. -/
def FunctionArg.FunctionCall : FunctionArg → Option FunctionCall
  | .mk f _ _ => f

/-- Field `Variable` of a `FunctionArg`. -/
def FunctionArg.Variable : FunctionArg → String
  | .mk _ v _ => v

/-- Field `Const` of a `FunctionArg`. -/
def FunctionArg.Const : FunctionArg → Value
  | .mk _ _ c => c

/-- The type tag and the payload of a constant, as computed in `parseArgument` and `parseVar`:
`index := strings.LastIndex(arg, ":")`, `typ := arg[index+1:]`, and then `typ = "int"` when
there is no colon, `arg = arg[:index]` otherwise.  Returns `(typ, arg)`. -/
def splitType (arg : String) : String × String :=
  match lastIndexByte arg.data ':' with
  | none => ("int", arg)
  | some index => (String.mk (arg.data.drop (index + 1)), String.mk (arg.data.take index))

/-- Go `parseVar`.  The read `arg[0]` precedes the test `arg == ""`, so the empty text
panics. -/
def parseVar (L : Lib) (arg : String) : Outcome FunctionArg :=
  match arg.data with
  | [] => .panic
  | c :: rest =>
    if c = '$' then .ok (.mk none (String.mk rest) .nil)
    else
      let typ := (splitType arg).1
      let body := (splitType arg).2
      if typ = "int" then .ok (.mk none "" (.int .int64 (ParseInt body)))
      else if typ = "float" then .ok (.mk none "" (.float (L.ParseFloat body)))
      else .ok (.mk none "" (.str body))

/-- The pieces `paramList[start:i]` cut at the commas of nesting level `0` by the loop
`for i, ch := range paramList` of `ParseFunctionExpression`, followed by the last piece
`paramList[start:]`.  `cur` is the text `paramList[start:i]` read so far. -/
def splitParams : List Char → Int → List Char → List String → List String
  | [], _, cur, pieces => pieces ++ [String.mk cur]
  | ch :: rest, level, cur, pieces =>
    if ch = '(' then splitParams rest (level + 1) (cur ++ [ch]) pieces
    else if ch = ')' then splitParams rest (level - 1) (cur ++ [ch]) pieces
    else if ch = ',' then
      if level = 0 then splitParams rest level [] (pieces ++ [String.mk cur])
      else splitParams rest level (cur ++ [ch]) pieces
    else splitParams rest level (cur ++ [ch]) pieces

/-- Run `f` on the elements from left to right, stopping at the first that is not `ok`. -/
def Outcome.mapM {α β : Type} (f : α → Outcome β) : List α → Outcome (List β)
  | [] => .ok []
  | a :: rest => (f a).bind fun b => (Outcome.mapM f rest).bind fun bs => .ok (b :: bs)

mutual

/-- Go `ParseFunctionExpression`.  The arguments are parsed in order, each when its closing
comma (or the end of the list) is reached; the slice `expr[left+1 : right]` panics when
`right < left + 1`. -/
def ParseFunctionExpression (L : Lib) : Nat → String → Outcome FunctionCall
  | 0, _ => .outOfFuel
  | fuel + 1, expr =>
    match indexByte expr.data '(', lastIndexByte expr.data ')' with
    | some left, some right =>
      if right < left + 1 then .panic
      else
        let funcName := TrimSpace (String.mk (expr.data.take left))
        let paramList := (expr.data.take right).drop (left + 1)
        match funcMap L funcName with
        | none => .error ("function not found: " ++ funcName)
        | some f =>
          (Outcome.mapM (fun piece => parseArgument L fuel (TrimSpace piece))
              (splitParams paramList 0 [] [])).bind fun args =>
            .ok (.mk expr (some f) funcName args "" .nil)
    | _, _ =>
      (parseVar L expr).bind fun fVar => .ok (.mk expr none "" [] fVar.Variable fVar.Const)
termination_by structural fuel => fuel

/-- Go `parseArgument`. -/
def parseArgument (L : Lib) : Nat → String → Outcome FunctionArg
  | 0, _ => .outOfFuel
  | fuel + 1, arg =>
    if arg.data.contains '(' then
      (ParseFunctionExpression L fuel arg).bind fun f => .ok (.mk (some f) "" .nil)
    else
      match arg.data with
      | [] => .ok (.mk none "" (.str arg))
      | c :: rest =>
        if c = '$' then .ok (.mk none (String.mk rest) .nil)
        else
          let typ := (splitType arg).1
          let body := (splitType arg).2
          if typ = "int" then .ok (.mk none "" (.int .int64 (ParseInt body)))
          else if typ = "float" then .ok (.mk none "" (.float (L.ParseFloat body)))
          else if typ = "str" then .ok (.mk none "" (.str body))
          else .error ("invalid argument: " ++ body)
termination_by structural fuel => fuel

end

/-- Fuel for the call-tree parser: a nested call is a text at least two bytes shorter and each
nesting level spends two units, so this budget is never exhausted
(`callTree_fuel_adequate`). -/
def callFuel (expr : String) : Nat :=
  2 * expr.data.length + 2

/-- Go binding map `map[string]any`. -/
abbrev Vars := String → Option Value

mutual

/-- Go `executeFunctionCall`. -/
def executeFunctionCall (vars : Vars) : FunctionCall → Outcome Value
  | .mk _ none _ _ name const =>
    if name ≠ "" then
      match vars name with
      | some val => .ok val
      | none => .ok (.str name)
    else .ok const
  | .mk _ (some f) _ args _ _ => (executeArgs vars args).bind f

/-- The loop `for i, arg := range call.Args` of `executeFunctionCall`. -/
def executeArgs (vars : Vars) : List FunctionArg → Outcome (List Value)
  | [] => .ok []
  | arg :: rest =>
    (executeArg vars arg).bind fun v => (executeArgs vars rest).bind fun vs => .ok (v :: vs)

/-- One iteration of the argument loop of `executeFunctionCall`. -/
def executeArg (vars : Vars) : FunctionArg → Outcome Value
  | .mk (some f) _ _ => executeFunctionCall vars f
  | .mk none name const =>
    if name ≠ "" then
      match vars name with
      | some val => .ok val
      | none => .ok (.str name)
    else .ok const

end

/-- Go `(*FunctionCall).Execute`. -/
def FunctionCall.Execute (f : FunctionCall) (vars : Vars) : Outcome Value :=
  executeFunctionCall vars f

/-! ## Public entry points and conditional expressions (`parser.go`) -/

/-- Go `ParseExpression`. -/
def ParseExpression (L : Lib) (expr : String) : Outcome FunctionCall :=
  (Parse expr).bind fun canonical => ParseFunctionExpression L (callFuel canonical) canonical

/-- Go `ParseAndExecute`. -/
def ParseAndExecute (L : Lib) (expr : String) (vars : Vars) : Outcome Value :=
  (ParseExpression L expr).bind fun f => f.Execute vars

/-- Go `Action`; `execute` is the (non-nil) compiled tree. -/
structure Action where
  Expression : String
  execute : FunctionCall

/-- Go `Expression`; a nil `*Action` is `none`. -/
structure Expression where
  If : String
  Then : String
  Otherwise : String
  ifAction : Option Action
  thenAction : Option Action
  otherwiseAction : Option Action

/-- A freshly built `Expression{If: i, Then: t, Otherwise: o}`: no compiled tree. -/
def Expression.fresh (i t o : String) : Expression :=
  ⟨i, t, o, none, none, none⟩

/-- Go `(*Expression).Parse`: the receiver after the call, and the returned error
(`ok ()` for `nil`). -/
def Expression.Parse (L : Lib) (e : Expression) : Expression × Outcome Unit :=
  if e.Then = "" then (e, .error "then is required")
  else
    let afterIf : Expression × Outcome Unit :=
      if e.If ≠ "" then
        match ParseExpression L e.If with
        | .ok expr => ({ e with ifAction := some ⟨e.If, expr⟩ }, .ok ())
        | .error msg => (e, .error msg)
        | .panic => (e, .panic)
        | .outOfFuel => (e, .outOfFuel)
      else (e, .ok ())
    match afterIf with
    | (e1, .ok ()) =>
      let afterThen : Expression × Outcome Unit :=
        if e1.Then ≠ "" then
          match ParseExpression L e1.Then with
          | .ok execute => ({ e1 with thenAction := some ⟨e1.Then, execute⟩ }, .ok ())
          | .error msg => (e1, .error msg)
          | .panic => (e1, .panic)
          | .outOfFuel => (e1, .outOfFuel)
        else (e1, .ok ())
      match afterThen with
      | (e2, .ok ()) =>
        if e2.Otherwise ≠ "" then
          match ParseExpression L e2.Otherwise with
          | .ok execute => ({ e2 with otherwiseAction := some ⟨e2.Otherwise, execute⟩ }, .ok ())
          | .error msg => (e2, .error msg)
          | .panic => (e2, .panic)
          | .outOfFuel => (e2, .outOfFuel)
        else (e2, .ok ())
      | failed => failed
    | failed => failed

/-- Go `(*Expression).Eval`. -/
def Expression.Eval (L : Lib) (e : Expression) (vars : Vars) : Outcome Value :=
  let condition : Outcome Bool :=
    match e.ifAction with
    | some action => (action.execute.Execute vars).bind fun conditionRes =>
        .ok (L.ToBool conditionRes)
    | none => .ok true
  condition.bind fun condition =>
    if condition = true ∧ e.Then ≠ "" ∧ e.thenAction.isSome then
      match e.thenAction with
      | some action => executeFunctionCall vars action.execute
      | none => .error "invalid expression"
    else if condition = false ∧ e.Otherwise ≠ "" ∧ e.otherwiseAction.isSome then
      match e.otherwiseAction with
      | some action => executeFunctionCall vars action.execute
      | none => .error "invalid expression"
    else .error "invalid expression"

/-- A reference instance of the external capabilities, used only to run the model on concrete
inputs.  On integers, booleans and decimal texts its conversions agree with the `cast`
package (`strconv.ParseBool` accepts `1 t T TRUE true True`); it reads a string as base-10
text only, where `cast` also accepts the prefixes of base 0, and its floating-point fields
are constant, so it says nothing about floating-point results. -/
def refLib : Lib where
  ToBool := fun v =>
    match v with
    | .bool b => b
    | .int _ n => n != 0
    | .str s => s == "1" || s == "t" || s == "T" || s == "TRUE" || s == "true" || s == "True"
    | _ => false
  ToInt64 := fun v =>
    match v with
    | .int _ n => n
    | .bool b => if b then 1 else 0
    | .str s => ParseInt s
    | _ => 0
  ToFloat64 := fun _ => 0
  ToString := fun v =>
    match v with
    | .str s => s
    | .bool b => if b then "true" else "false"
    | .int _ n => toString n
    | _ => ""
  ParseFloat := fun _ => 0
  decAdd := fun _ _ => 0
  decSub := fun _ _ => 0
  decMul := fun _ _ => 0
  decDiv := fun _ _ => none
  floatLt := fun _ _ => false
  floatLe := fun _ _ => false
  regexpMatch := fun _ _ => none


/-! ## Inputs used in the statements below -/

/-- The conditional of test-0 in `examples/simple/main.go`:
`Expression{If: "$stock>100", Then: "$stock*100+5"}` after `Parse()`. -/
def stockExpression (L : Lib) : Expression :=
  ((Expression.fresh "$stock>100" "$stock*100+5" "").Parse L).1

/-- The binding map `map[string]any{"stock": n}` with `n` a Go `int`. -/
def stockVars (n : Int) : Vars :=
  fun name => if name = "stock" then some (.int .int n) else none

/-- The conditional `Expression{If: "$a>1", Then: "1", Otherwise: "2"}` after `Parse()`, with
`If` then set to the empty text and `Parse()` called a second time. -/
def staleExpression (L : Lib) : Expression :=
  (Expression.Parse L { ((Expression.fresh "$a>1" "1" "2").Parse L).1 with If := "" }).1

/-- The binding map `map[string]any{"a": n}` with `n` a Go `int`. -/
def aVars (n : Int) : Vars :=
  fun name => if name = "a" then some (.int .int n) else none

/-- An operand of an infix expression: an unsigned integer literal, given by its digits, or
a variable `$name`, given by its name. -/
inductive Operand where
  | lit (digits : List Char)
  | var (name : List Char)
deriving DecidableEq, Repr

/-- A literal is a non-empty run of digits; a variable name is a letter followed by letters,
digits and underscores. -/
def Operand.wellFormed : Operand → Bool
  | .lit [] => false
  | .lit (c :: cs) => isDigit c && cs.all isDigit
  | .var [] => false
  | .var (c :: cs) => isLetter c && cs.all isIdentChar

/-- The infix text of an operand. -/
def Operand.text : Operand → List Char
  | .lit digits => digits
  | .var name => '$' :: name

/-- The tokens of an operand. -/
def Operand.tokens : Operand → List Token
  | .lit digits => [⟨.Literal, String.mk digits ++ ":int"⟩]
  | .var name => [⟨.Dollar, "$"⟩, ⟨.Identifier, String.mk name⟩]

/-- The canonical form of an operand: `n:int` or `$name`. -/
def Operand.canon : Operand → String
  | .lit digits => String.mk digits ++ ":int"
  | .var name => "$" ++ String.mk name

/-- The unread input does not continue a number or an identifier: it is empty or starts with
a byte that is neither a letter, a digit, `_` nor `.`. -/
def scanStops : List Char → Bool
  | [] => true
  | c :: _ => !isIdentChar c && !isNumberChar c

/-! ## Chains of integer literals -/

/-- The five arithmetic operators of the infix language. -/
inductive ArithOp where
  | add | sub | mul | div | mod
deriving DecidableEq, Repr

/-- The byte of an operator in the infix text. -/
def ArithOp.char : ArithOp → Char
  | .add => '+'
  | .sub => '-'
  | .mul => '*'
  | .div => '/'
  | .mod => '%'

/-- The token `tokenize` emits for an operator. -/
def ArithOp.token : ArithOp → Token
  | .add => ⟨.Add, "+"⟩
  | .sub => ⟨.Sub, "-"⟩
  | .mul => ⟨.Mul, "*"⟩
  | .div => ⟨.Div, "/"⟩
  | .mod => ⟨.Mod, "%"⟩

/-- The built-in an operator stands for. -/
def ArithOp.builtin : ArithOp → String
  | .add => "add"
  | .sub => "sub"
  | .mul => "multi"
  | .div => "div"
  | .mod => "mod"

/-- The operators `* / %`. -/
def ArithOp.multiplicative : ArithOp → Bool
  | .mul => true
  | .div => true
  | .mod => true
  | _ => false

/-- The text `op1 d1 op2 d2 ...` that follows the first literal of a chain. -/
def chainTail : List (ArithOp × List Char) → List Char
  | [] => []
  | x :: rest => x.1.char :: (x.2 ++ chainTail rest)

/-- The infix text `d0 op1 d1 op2 d2 ...` of a chain of literals joined by operators. -/
def chainText (first : List Char) (rest : List (ArithOp × List Char)) : List Char :=
  first ++ chainTail rest

/-- The tokens of `chainTail`. -/
def chainTailTokens : List (ArithOp × List Char) → List Token
  | [] => []
  | x :: rest => x.1.token :: ⟨.Literal, String.mk x.2 ++ ":int"⟩ :: chainTailTokens rest

/-- Every literal of the chain is a non-empty run of digits. -/
def chainWellFormed (first : List Char) (rest : List (ArithOp × List Char)) : Bool :=
  (Operand.lit first).wellFormed && rest.all fun x => (Operand.lit x.2).wellFormed

/-- Specification, first pass (`* / %` are grouped first, left to right): starting from the
term `acc` built so far, fold the following multiplicative operands into it; at an additive
operator the term is complete and a new one starts.  Returns the first term and the later
terms, each with the additive operator in front of it. -/
def specGroupTerms (acc : String) : List (ArithOp × List Char) → String × List (ArithOp × String)
  | [] => (acc, [])
  | x :: rest =>
    if x.1.multiplicative then
      specGroupTerms (call2 x.1.builtin acc (String.mk x.2 ++ ":int")) rest
    else
      (acc, (x.1, (specGroupTerms (String.mk x.2 ++ ":int") rest).1) ::
        (specGroupTerms (String.mk x.2 ++ ":int") rest).2)

/-- Specification of the canonical form of a chain: group `* / %` first, left to right, and
then group the resulting terms with `+ -`, left to right. -/
def specCanonical (first : List Char) (rest : List (ArithOp × List Char)) : String :=
  (specGroupTerms (String.mk first ++ ":int") rest).2.foldl
    (fun sum x => call2 x.1.builtin sum x.2) (specGroupTerms (String.mk first ++ ":int") rest).1

/-! ## Termination measure of the infix parser -/

/-- A parser call made progress: it did not exhaust its budget, and when it returned, the
position it returned is not before `pos`. -/
def Progress {α : Type} (pos : Nat) (r : Outcome (α × Nat)) : Prop :=
  r ≠ .outOfFuel ∧ ∀ a p, r = .ok (a, p) → pos ≤ p


/-! ## Lexemes and their composition -/

/-- No condition on the unread input. -/
def followAny : List Char → Bool :=
  fun _ => true

/-- The unread input is not empty and does not start with `=` (what `tokenize` needs after a
lone `!`, `>` or `<`). -/
def followNotEq : List Char → Bool
  | [] => false
  | c :: _ => c != '='

/-- The text `s` is tokenized to `toks` in front of every unread input `rest` that `follow`
accepts: the loop of `tokenize`, started on `s ++ rest`, reaches `rest` with `toks` appended
to its tokens after a number of iterations that does not depend on the fuel. -/
def LexesTo (follow : List Char → Bool) (s : List Char) (toks : List Token) : Prop :=
  ∀ rest, follow rest = true → ∃ k, ∀ fuel acc,
    tokenizeLoop (fuel + k) (s ++ rest) acc = tokenizeLoop fuel rest (acc ++ toks)

/-- A variable or function name: a letter followed by letters, digits and underscores. -/
def isIdentifier (name : List Char) : Bool :=
  (Operand.var name).wellFormed

/-- An unsigned integer literal: a non-empty run of digits. -/
def isNumeral (digits : List Char) : Bool :=
  (Operand.lit digits).wellFormed

/-- The six comparison operators of the infix language. -/
inductive CmpOp where
  | eq | ne | gt | gte | lt | lte
deriving DecidableEq, Repr

/-- The text of a comparison operator. -/
def CmpOp.text : CmpOp → List Char
  | .eq => ['=', '=']
  | .ne => ['!', '=']
  | .gt => ['>']
  | .gte => ['>', '=']
  | .lt => ['<']
  | .lte => ['<', '=']

/-- The token `tokenize` emits for a comparison operator. -/
def CmpOp.token : CmpOp → Token
  | .eq => ⟨.Eq, "=="⟩
  | .ne => ⟨.Ne, "!="⟩
  | .gt => ⟨.Gt, ">"⟩
  | .gte => ⟨.Gte, ">="⟩
  | .lt => ⟨.Lt, "<"⟩
  | .lte => ⟨.Lte, "<="⟩

/-- The built-in a comparison operator stands for. -/
def CmpOp.builtin : CmpOp → String
  | .eq => "eq"
  | .ne => "ne"
  | .gt => "gt"
  | .gte => "gte"
  | .lt => "lt"
  | .lte => "lte"

/-- The thirteen binary operators of the infix language. -/
inductive InfixOp where
  | arith (op : ArithOp)
  | and
  | or
  | cmp (op : CmpOp)
deriving DecidableEq, Repr

/-- The text of a binary operator. -/
def InfixOp.text : InfixOp → List Char
  | .arith op => [op.char]
  | .and => ['&', '&']
  | .or => ['|', '|']
  | .cmp op => op.text

/-- The token `tokenize` emits for a binary operator. -/
def InfixOp.token : InfixOp → Token
  | .arith op => op.token
  | .and => ⟨.And, "&&"⟩
  | .or => ⟨.Or, "||"⟩
  | .cmp op => op.token

/-- The built-in a binary operator stands for. -/
def InfixOp.builtin : InfixOp → String
  | .arith op => op.builtin
  | .and => "and"
  | .or => "or"
  | .cmp op => op.builtin

/-- A literal of the infix language: an unsigned integer, a number `whole.frac`, or a string
between double quotes. -/
inductive Literal where
  | int (digits : List Char)
  | float (whole frac : List Char)
  | str (body : List Char)
deriving DecidableEq, Repr

/-- Digits are digits, and a string body has no double quote. -/
def Literal.wellFormed : Literal → Bool
  | .int digits => isNumeral digits
  | .float whole frac => isNumeral whole && isNumeral frac
  | .str body => !body.contains '"'

/-- The infix text of a literal. -/
def Literal.text : Literal → List Char
  | .int digits => digits
  | .float whole frac => whole ++ '.' :: frac
  | .str body => '"' :: (body ++ ['"'])

/-- The canonical form of a literal, which is also the value of its token. -/
def Literal.canon : Literal → String
  | .int digits => String.mk digits ++ ":int"
  | .float whole frac => String.mk (whole ++ '.' :: frac) ++ ":float"
  | .str body => String.mk body ++ ":str"

/-- A simple comparison `$var op literal`, with `before` spaces in front of the operator and
`after` spaces behind it. -/
structure Comparison where
  var : List Char
  before : Nat
  op : CmpOp
  after : Nat
  lit : Literal
deriving DecidableEq, Repr

/-- The variable is an identifier and the literal is well formed. -/
def Comparison.wellFormed (x : Comparison) : Bool :=
  isIdentifier x.var && x.lit.wellFormed

/-- The infix text `$var op literal` of a simple comparison. -/
def Comparison.text (x : Comparison) : List Char :=
  '$' :: (x.var ++ (List.replicate x.before ' ' ++ (x.op.text ++
    (List.replicate x.after ' ' ++ x.lit.text))))

/-- The tokens of a simple comparison. -/
def Comparison.tokens (x : Comparison) : List Token :=
  [⟨.Dollar, "$"⟩, ⟨.Identifier, String.mk x.var⟩, x.op.token, ⟨.Literal, x.lit.canon⟩]

/-- The canonical form `F($var,literal)` of a simple comparison. -/
def Comparison.canon (x : Comparison) : String :=
  call2 x.op.builtin ("$" ++ String.mk x.var) x.lit.canon

/-- The token read at a loop head, if any, is not an arithmetic operator: the loops of `term`
and `additive` stop there. -/
def arithStops : Option Token → Bool
  | none => true
  | some t =>
    t.Typ != .Mul && t.Typ != .Div && t.Typ != .Mod && t.Typ != .Add && t.Typ != .Sub

/-- The infix text `(x && y) j z` of a parenthesized conjunction joined to a third comparison
by the logical operator `j`, with `s1`, `s2` spaces around `&&` and `s3`, `s4` around `j`. -/
def groupText (x y z : Comparison) (j : List Char) (s1 s2 s3 s4 : Nat) : List Char :=
  '(' :: (x.text ++ (List.replicate s1 ' ' ++ ('&' :: '&' :: (List.replicate s2 ' ' ++
    (y.text ++ (')' :: (List.replicate s3 ' ' ++ (j ++ (List.replicate s4 ' ' ++
      z.text)))))))))

/-- The tokens of `groupText`, `j` being the token of the outer operator. -/
def groupTokens (x y z : Comparison) (j : Token) : List Token :=
  ⟨.OpenParen, "("⟩ :: (x.tokens ++ ⟨.And, "&&"⟩ :: (y.tokens ++ ⟨.CloseParen, ")"⟩ :: j ::
    z.tokens))

/-! ## Nesting of parentheses and embedding of token sequences -/

/-- Scanning `ts` from nesting depth `d`, a closing parenthesis is met that has no partner:
one that would bring the depth below zero. -/
def closes : List Token → Nat → Bool
  | [], _ => false
  | t :: ts, d =>
    if t.Typ = .OpenParen then closes ts (d + 1)
    else if t.Typ = .CloseParen then d == 0 || closes ts (d - 1)
    else closes ts d

/-- A parser call started at `x` that returned stopped at a position `p` in range, and the
tokens from `x` up to `p` are balanced: scanning from `x` or from `p` finds the same
closing parentheses without a partner, at every depth. -/
def Bal {α : Type} (T : List Token) (x : Nat) (R : Outcome (α × Nat)) : Prop :=
  ∀ a p, R = .ok (a, p) → x ≤ p ∧ p ≤ T.length ∧ ∀ d, closes (T.drop x) d = closes (T.drop p) d

/-- Move the position of a result `k` tokens to the right. -/
def Outcome.shift {α : Type} (k : Nat) : Outcome (α × Nat) → Outcome (α × Nat)
  | .ok (a, p) => .ok (a, k + p)
  | .error msg => .error msg
  | .panic => .panic
  | .outOfFuel => .outOfFuel

/-- The token sequence `T` stands inside `T2` from position `k` on, and is followed there by
a comma or a closing parenthesis. -/
def Embeds (T T2 : List Token) (k : Nat) : Prop :=
  (∀ i, i < T.length → T2[k + i]? = T[i]?) ∧
    ∃ c, T2[k + T.length]? = some c ∧ (c.Typ = .Comma ∨ c.Typ = .CloseParen)

/-- The result `R2` of a parser call inside the larger sequence simulates the result `R` of
the same call on the sequence alone: a returned result is the same up to the shift by `k`,
and under the condition `D` (a closing parenthesis without partner lies ahead of the call)
the two results are the same in all cases, unless the budget of `R` ran out. -/
def Sim {α : Type} (k : Nat) (D : Prop) (R R2 : Outcome (α × Nat)) : Prop :=
  (∀ a p, R = .ok (a, p) → R2 = .ok (a, k + p)) ∧ (D → R ≠ .outOfFuel → R2 = R.shift k)

/-! ## Function calls and their arguments -/

/-- The unread input starts with `,` or `)`: the bytes that end an argument of a call. -/
def followSep : List Char → Bool
  | [] => false
  | c :: _ => c == ',' || c == ')'

/-- The pieces joined with the separator between them. -/
def joinWith {α : Type} (sep : α) : List (List α) → List α
  | [] => []
  | [e] => e
  | e :: e2 :: es => e ++ sep :: joinWith sep (e2 :: es)

/-- The tokens of the call `@name(e1,...,en)` whose arguments have the tokens `args`. -/
def callTokens (name : List Char) (args : List (List Token)) : List Token :=
  ⟨.At, "@"⟩ :: ⟨.Identifier, String.mk name⟩ :: ⟨.OpenParen, "("⟩ ::
    (joinWith ⟨.Comma, ","⟩ args ++ [⟨.CloseParen, ")"⟩])

/-- The infix text `@name(e1,...,en)` of a call with the argument texts `args`. -/
def callText (name : List Char) (args : List (List Char)) : List Char :=
  '@' :: (name ++ '(' :: (joinWith ',' args ++ [')']))

/-- The input `e` is accepted as a whole with the canonical form `E`: it is tokenized, and
the parser returns `E` having consumed all of its tokens. -/
def AcceptedWhole (e E : String) : Prop :=
  ∃ toks, tokenize e = .ok toks ∧ parseTokens toks = .ok (E, toks.length)

/-! ## Sums of variables and strings; logical operators in a row -/

/-- The infix text `$a+"s"+$b` of two variables with a string literal between them. -/
def sumText3 (a s b : List Char) : List Char :=
  '$' :: (a ++ ('+' :: ('"' :: (s ++ ['"']) ++ ('+' :: '$' :: b))))

/-- The infix text `$a+"s"+$b+"t"` of two variables each followed by a string literal. -/
def sumText4 (a s b t : List Char) : List Char :=
  sumText3 a s b ++ ('+' :: '"' :: (t ++ ['"']))

/-- The two logical operators of the infix language. -/
inductive LogicOp where
  | and | or
deriving DecidableEq, Repr

/-- The text of a logical operator. -/
def LogicOp.text : LogicOp → List Char
  | .and => ['&', '&']
  | .or => ['|', '|']

/-- The token `tokenize` emits for a logical operator. -/
def LogicOp.token : LogicOp → Token
  | .and => ⟨.And, "&&"⟩
  | .or => ⟨.Or, "||"⟩

/-- The built-in a logical operator stands for. -/
def LogicOp.builtin : LogicOp → String
  | .and => "and"
  | .or => "or"

/-- The infix text `x j1 y j2 z` of three simple comparisons joined by two logical operators,
with `s1`, `s2` spaces around `j1` and `s3`, `s4` around `j2`. -/
def flatText (x y z : Comparison) (j1 j2 : LogicOp) (s1 s2 s3 s4 : Nat) : List Char :=
  x.text ++ (List.replicate s1 ' ' ++ (j1.text ++ (List.replicate s2 ' ' ++ (y.text ++
    (List.replicate s3 ' ' ++ (j2.text ++ (List.replicate s4 ' ' ++ z.text)))))))

/-- The tokens of `flatText`. -/
def flatTokens (x y z : Comparison) (j1 j2 : LogicOp) : List Token :=
  x.tokens ++ j1.token :: (y.tokens ++ j2.token :: z.tokens)

/-! ## String literals through both parsers -/

/-- The infix text `$v=="s"` of a variable compared with a string literal. -/
def eqText (v s : List Char) : List Char :=
  '$' :: (v ++ ('=' :: '=' :: '"' :: (s ++ ['"'])))

/-- The two bytes `C2 A0` that encode U+00A0 (no-break space) in UTF-8. -/
def nbsp : List Char :=
  [Char.ofNat 0xC2, Char.ofNat 0xA0]

/-- A string body that the call-tree parser reads back as one string constant: it has no
double quote, comma or parenthesis, and does not start with `$` or with a white-space rune
(ASCII or UTF-8 encoded). -/
def plainString (s : List Char) : Bool :=
  s.all (fun c => c != '"' && c != ',' && c != '(' && c != ')') &&
    match s with
    | [] => true
    | c :: _ => c != '$' && spaceWidth s == 0

/-! ## Shape of the literal tokens -/

/-- A run of bytes as the number scan of `tokenize` reads it: a digit followed by digits and
dots. -/
def numberRun : List Char → Bool
  | [] => false
  | c :: cs => isDigit c && cs.all isNumberChar

/-- The type tag `tokenize` appends to a number: `:float` when the run contains `.`, and
`:int` otherwise. -/
def numberTag (run : List Char) : String :=
  if run.contains '.' then ":float" else ":int"

/-- The shape `digits` or `digits.digits` of a numeric literal. -/
def decimalShape (run : List Char) : Bool :=
  isNumeral run ||
    (isNumeral (run.takeWhile isDigit) &&
      match run.dropWhile isDigit with
      | [] => false
      | c :: frac => c == '.' && isNumeral frac)

/-- A literal token is either a string body tagged `:str`, or a number run with its tag. -/
def LiteralShape (t : Token) : Prop :=
  t.Typ = .Literal →
    (∃ body : List Char, t.Value = String.mk body ++ ":str") ∨
    (∃ run : List Char, numberRun run = true ∧ t.Value = String.mk run ++ numberTag run)


/-! ## Call trees and their canonical text -/

/-- A call tree in the abstract: a variable, a 64-bit integer constant, or a call of a
function on argument trees. -/
inductive CTree where
  | var (name : List Char)
  | const (n : Int)
  | call (fname : String) (args : List CTree)

mutual

/-- The canonical text of a tree: `$name`, `n:int`, or `fname(arg,...,arg)`. -/
def CTree.text : CTree → List Char
  | .var name => '$' :: name
  | .const n => (toString n).data ++ [':', 'i', 'n', 't']
  | .call fname args => fname.data ++ '(' :: (joinWith ',' (CTree.texts args) ++ [')'])

/-- The canonical texts of a list of trees. -/
def CTree.texts : List CTree → List (List Char)
  | [] => []
  | t :: rest => t.text :: CTree.texts rest

end

mutual

/-- The argument record that `parseArgument` is expected to build for a tree. -/
def CTree.arg (L : Lib) : CTree → FunctionArg
  | .var name => .mk none (String.mk name) .nil
  | .const n => .mk none "" (.int .int64 n)
  | .call fname args =>
    .mk (some (.mk (String.mk (fname.data ++ '(' :: (joinWith ',' (CTree.texts args) ++ [')'])))
      (funcMap L fname) fname (CTree.args L args) "" .nil)) "" .nil

/-- The argument records of a list of trees, in order. -/
def CTree.args (L : Lib) : List CTree → List FunctionArg
  | [] => []
  | t :: rest => CTree.arg L t :: CTree.args L rest

end

/-- The node that `ParseFunctionExpression` is expected to build for a tree. -/
def CTree.node (L : Lib) : CTree → FunctionCall
  | .var name => .mk (String.mk ('$' :: name)) none "" [] (String.mk name) .nil
  | .const n =>
    .mk (String.mk ((toString n).data ++ [':', 'i', 'n', 't'])) none "" [] ""
      (.int .int64 n)
  | .call fname args =>
    .mk (String.mk (CTree.text (.call fname args))) (funcMap L fname) fname
      (CTree.args L args) "" .nil

mutual

/-- Every call has a name of the function table and at least one argument, every variable
an identifier name, and every constant fits in 64 bits. -/
def CTree.wellFormed (L : Lib) : CTree → Bool
  | .var name => isIdentifier name
  | .const n => decide (-(2 ^ 63) ≤ n) && decide (n < 2 ^ 63)
  | .call fname args =>
    (funcMap L fname).isSome && !args.isEmpty && CTree.wellFormedAll L args

/-- All trees of a list are well formed. -/
def CTree.wellFormedAll (L : Lib) : List CTree → Bool
  | [] => true
  | t :: rest => CTree.wellFormed L t && CTree.wellFormedAll L rest

end

mutual

/-- Nesting depth of the calls of a tree. -/
def CTree.depth : CTree → Nat
  | .var _ => 0
  | .const _ => 0
  | .call _ args => CTree.depthAll args + 1

/-- The largest depth among a list of trees. -/
def CTree.depthAll : List CTree → Nat
  | [] => 0
  | t :: rest => max (CTree.depth t) (CTree.depthAll rest)

end

/-- The tree of `add(sub($a,-3:int),multi(2:int,$b,7:int))`. -/
def exampleTree : CTree :=
  .call "add" [.call "sub" [.var ['a'], .const (-3)], .call "multi" [.const 2, .var ['b'], .const 7]]

/-! # Theorems -/

/-! ## Evaluation at concrete inputs -/

theorem Parse_one_div_zero : Parse "1/0" = .ok "div(1:int,0:int)" := by rfl

theorem ParseExpression_one_div_zero (L : Lib) :
    ParseExpression L "1/0" =
      .ok (.mk "div(1:int,0:int)" (some (fnDiv L)) "div"
        [.mk none "" (.int .int64 1), .mk none "" (.int .int64 0)] "" .nil) := by
  rfl

/-- C9 (evaluation at the failing input): the tree compiled from `1/0` panics when executed,
for every binding map, as the divisor converts to the integer zero. -/
theorem C9_execute_div_zero_panics (L : Lib) (vars : Vars)
    (hzero : L.ToInt64 (.int .int64 0) = 0) :
    ParseAndExecute L "1/0" vars = .panic := by
  simp [ParseAndExecute, ParseExpression_one_div_zero, Outcome.bind, FunctionCall.Execute,
    executeFunctionCall, executeArgs, executeArg, fnDiv, getComputeType, getArgType, hzero]

theorem C9_execute_div_zero_panics_witness :
    refLib.ToInt64 (.int .int64 0) = 0 ∧ ParseAndExecute refLib "1/0" (fun _ => none) = .panic :=
  ⟨rfl, C9_execute_div_zero_panics refLib (fun _ => none) rfl⟩

/-- C10 (evaluation at failing inputs): `Parse` panics on inputs that end right after an
operator, `(`, `@`, `$`, or inside an unclosed call, because `factor` reads a token at or past
the end of the token sequence. -/
theorem C10_parse_reads_past_end :
    Parse "1+" = .panic ∧ Parse "(" = .panic ∧ Parse "@" = .panic ∧ Parse "$" = .panic ∧
      Parse "@f(1" = .panic ∧ Parse "2*" = .panic := by
  refine ⟨?_, ?_, ?_, ?_, ?_, ?_⟩ <;> rfl

theorem ParseExpression_group_times (L : Lib) :
    ParseExpression L "(1+2)*3" =
      .ok (.mk "add(1:int,2:int)" (some (fnAdd L)) "add"
        [.mk none "" (.int .int64 1), .mk none "" (.int .int64 2)] "" .nil) := by
  rfl

/-- C2 (evaluation at the failing input): `(1+2)*3` compiles to the tree of `1+2` alone, and
executing it returns 3, not 9. -/
theorem C2_leading_group_loses_factor (L : Lib) (vars : Vars)
    (hint : ∀ n, L.ToInt64 (.int .int64 n) = n) :
    Parse "(1+2)*3" = .ok "add(1:int,2:int)" ∧
      ParseAndExecute L "(1+2)*3" vars = .ok (.int .int64 3) := by
  refine ⟨rfl, ?_⟩
  simp [ParseAndExecute, ParseExpression_group_times, Outcome.bind, FunctionCall.Execute,
    executeFunctionCall, executeArgs, executeArg, fnAdd, getComputeType, getArgType, hint,
    wrapInt64]

theorem C2_leading_group_loses_factor_witness :
    (∀ n, refLib.ToInt64 (.int .int64 n) = n) ∧
      Parse "(1+2)*3" = .ok "add(1:int,2:int)" ∧
      ParseAndExecute refLib "(1+2)*3" (fun _ => none) = .ok (.int .int64 3) :=
  ⟨fun _ => rfl, C2_leading_group_loses_factor refLib (fun _ => none) (fun _ => rfl)⟩

/-! ## Conditional expressions: compilation -/

theorem Outcome.isOk_iff {α : Type} (r : Outcome α) : r.isOk = true ↔ ∃ a, r = .ok a := by
  cases r <;> simp [Outcome.isOk]

/-- C7: `Expression.Parse` fails with `then is required` and leaves the receiver untouched
whenever `Then` is empty; when `Then` is non-empty and every non-empty branch text compiles,
it succeeds, and a fresh expression then holds a compiled tree (the result of
`ParseExpression` on the branch text) for exactly its non-empty branches. -/
theorem C7_parse_requires_then (L : Lib) :
    (∀ e : Expression, e.Then = "" → e.Parse L = (e, .error "then is required")) ∧
    (∀ e : Expression, e.Then ≠ "" →
      (e.If ≠ "" → (ParseExpression L e.If).isOk = true) →
      (ParseExpression L e.Then).isOk = true →
      (e.Otherwise ≠ "" → (ParseExpression L e.Otherwise).isOk = true) →
      (e.Parse L).2 = .ok ()) ∧
    (∀ i t o : String, t ≠ "" →
      (i ≠ "" → (ParseExpression L i).isOk = true) →
      (ParseExpression L t).isOk = true →
      (o ≠ "" → (ParseExpression L o).isOk = true) →
      ((Expression.fresh i t o).Parse L).2 = .ok () ∧
      (∀ a, ((Expression.fresh i t o).Parse L).1.ifAction = some a ↔
        (i ≠ "" ∧ a.Expression = i ∧ ParseExpression L i = .ok a.execute)) ∧
      (∀ a, ((Expression.fresh i t o).Parse L).1.thenAction = some a ↔
        (a.Expression = t ∧ ParseExpression L t = .ok a.execute)) ∧
      (∀ a, ((Expression.fresh i t o).Parse L).1.otherwiseAction = some a ↔
        (o ≠ "" ∧ a.Expression = o ∧ ParseExpression L o = .ok a.execute))) := by
  refine ⟨?_, ?_, ?_⟩
  · intro e h
    simp [Expression.Parse, h]
  · intro e ht hi hth ho
    rw [Outcome.isOk_iff] at hth
    obtain ⟨ft, hft⟩ := hth
    by_cases hi0 : e.If = "" <;> by_cases ho0 : e.Otherwise = ""
    · simp [Expression.Parse, ht, hi0, ho0, hft]
    · obtain ⟨fo, hfo⟩ := (Outcome.isOk_iff _).1 (ho ho0)
      simp [Expression.Parse, ht, hi0, ho0, hft, hfo]
    · obtain ⟨fi, hfi⟩ := (Outcome.isOk_iff _).1 (hi hi0)
      simp [Expression.Parse, ht, hi0, ho0, hft, hfi]
    · obtain ⟨fi, hfi⟩ := (Outcome.isOk_iff _).1 (hi hi0)
      obtain ⟨fo, hfo⟩ := (Outcome.isOk_iff _).1 (ho ho0)
      simp [Expression.Parse, ht, hi0, ho0, hft, hfi, hfo]
  · intro i t o ht hi hth ho
    rw [Outcome.isOk_iff] at hth
    obtain ⟨ft, hft⟩ := hth
    have key : ∀ (a : Action) (x : String) (f : FunctionCall),
        (({ Expression := x, execute := f } : Action) = a) ↔ (a.Expression = x ∧ f = a.execute) := by
      intro a x f
      cases a
      simp only [Action.mk.injEq]
      exact ⟨fun h => ⟨h.1.symm, h.2⟩, fun h => ⟨h.1.symm, h.2⟩⟩
    by_cases hi0 : i = "" <;> by_cases ho0 : o = ""
    · simp [Expression.Parse, Expression.fresh, ht, hi0, ho0, hft, key]
    · obtain ⟨fo, hfo⟩ := (Outcome.isOk_iff _).1 (ho ho0)
      simp [Expression.Parse, Expression.fresh, ht, hi0, ho0, hft, hfo, key]
    · obtain ⟨fi, hfi⟩ := (Outcome.isOk_iff _).1 (hi hi0)
      simp [Expression.Parse, Expression.fresh, ht, hi0, ho0, hft, hfi, key]
    · obtain ⟨fi, hfi⟩ := (Outcome.isOk_iff _).1 (hi hi0)
      obtain ⟨fo, hfo⟩ := (Outcome.isOk_iff _).1 (ho ho0)
      simp [Expression.Parse, Expression.fresh, ht, hi0, ho0, hft, hfi, hfo, key]

theorem C7_parse_requires_then_witness :
    (Expression.fresh "1" "" "2").Parse refLib =
        (Expression.fresh "1" "" "2", .error "then is required") ∧
      ((Expression.fresh "$a>1" "1+2" "").Parse refLib).2 = .ok () ∧
      ((Expression.fresh "$a>1" "1+2" "").Parse refLib).1.otherwiseAction = none :=
  ⟨(C7_parse_requires_then refLib).1 _ rfl,
    ((C7_parse_requires_then refLib).2.2 "$a>1" "1+2" "" (by decide) (fun _ => rfl) rfl
      (fun h => absurd rfl h)).1,
    rfl⟩

/-- C8 (counterexample): with `If = "1"` and `Then = "+"`, `Expression.Parse` returns the
error `expected literal` of the then branch, and the compiled tree of the if branch has been
stored nevertheless. -/
theorem C8_partial_compile_counterexample :
    ((Expression.fresh "1" "+" "").Parse refLib).2 = .error "expected literal" ∧
      (Expression.fresh "1" "+" "").ifAction.isSome = false ∧
      ((Expression.fresh "1" "+" "").Parse refLib).1.ifAction.isSome = true :=
  ⟨rfl, rfl, rfl⟩

/-- C8 (amended): `Expression.Parse` compiles the branches in the order if, then, otherwise
and stops at the first failure.  When it does not succeed: with an empty `Then` the receiver
is untouched; when the if branch fails the receiver is untouched; when the then branch fails
only the if tree (if `If` is non-empty) has been stored; when the otherwise branch fails
the if tree (if `If` is non-empty) and the then tree have been stored.  The tree of the failing
branch and of the branches after it are as they were before the call. -/
theorem C8_parse_stops_at_first_failure (L : Lib) (e : Expression)
    (hfail : (e.Parse L).2 ≠ .ok ()) :
    (e.Then = "" ∧ (e.Parse L).1 = e) ∨
    (e.Then ≠ "" ∧ e.If ≠ "" ∧ (ParseExpression L e.If).isOk = false ∧ (e.Parse L).1 = e) ∨
    (e.Then ≠ "" ∧ (ParseExpression L e.Then).isOk = false ∧
      ((e.If = "" ∧ (e.Parse L).1 = e) ∨
        (∃ fi, e.If ≠ "" ∧ ParseExpression L e.If = .ok fi ∧
          (e.Parse L).1 = { e with ifAction := some ⟨e.If, fi⟩ }))) ∨
    (e.Then ≠ "" ∧ e.Otherwise ≠ "" ∧ (ParseExpression L e.Otherwise).isOk = false ∧
      ∃ ft, ParseExpression L e.Then = .ok ft ∧
        ((e.If = "" ∧ (e.Parse L).1 = { e with thenAction := some ⟨e.Then, ft⟩ }) ∨
          (∃ fi, e.If ≠ "" ∧ ParseExpression L e.If = .ok fi ∧
            (e.Parse L).1 =
              { e with ifAction := some ⟨e.If, fi⟩, thenAction := some ⟨e.Then, ft⟩ }))) := by
  by_cases ht : e.Then = ""
  · left
    simp [Expression.Parse, ht]
  · right
    by_cases hi0 : e.If = ""
    · right
      cases hth : ParseExpression L e.Then with
      | ok ft =>
        right
        by_cases ho0 : e.Otherwise = ""
        · simp [Expression.Parse, ht, hi0, ho0, hth] at hfail
        · cases hoo : ParseExpression L e.Otherwise with
          | ok fo => simp [Expression.Parse, ht, hi0, ho0, hth, hoo] at hfail
          | error m => simp [Expression.Parse, ht, hi0, ho0, hth, hoo, Outcome.isOk]
          | panic => simp [Expression.Parse, ht, hi0, ho0, hth, hoo, Outcome.isOk]
          | outOfFuel => simp [Expression.Parse, ht, hi0, ho0, hth, hoo, Outcome.isOk]
      | error m => left; simp [Expression.Parse, ht, hi0, hth, Outcome.isOk]
      | panic => left; simp [Expression.Parse, ht, hi0, hth, Outcome.isOk]
      | outOfFuel => left; simp [Expression.Parse, ht, hi0, hth, Outcome.isOk]
    · cases hif : ParseExpression L e.If with
      | ok fi =>
        right
        cases hth : ParseExpression L e.Then with
        | ok ft =>
          right
          by_cases ho0 : e.Otherwise = ""
          · simp [Expression.Parse, ht, hi0, ho0, hth, hif] at hfail
          · cases hoo : ParseExpression L e.Otherwise with
            | ok fo => simp [Expression.Parse, ht, hi0, ho0, hth, hoo, hif] at hfail
            | error m => simp [Expression.Parse, ht, hi0, ho0, hth, hoo, hif, Outcome.isOk]
            | panic => simp [Expression.Parse, ht, hi0, ho0, hth, hoo, hif, Outcome.isOk]
            | outOfFuel => simp [Expression.Parse, ht, hi0, ho0, hth, hoo, hif, Outcome.isOk]
        | error m => left; simp [Expression.Parse, ht, hi0, hth, hif, Outcome.isOk]
        | panic => left; simp [Expression.Parse, ht, hi0, hth, hif, Outcome.isOk]
        | outOfFuel => left; simp [Expression.Parse, ht, hi0, hth, hif, Outcome.isOk]
      | error m => left; simp [Expression.Parse, ht, hi0, hif, Outcome.isOk]
      | panic => left; simp [Expression.Parse, ht, hi0, hif, Outcome.isOk]
      | outOfFuel => left; simp [Expression.Parse, ht, hi0, hif, Outcome.isOk]

theorem C8_parse_stops_at_first_failure_witness :
    ((Expression.fresh "1" "+" "").Parse refLib).2 ≠ .ok () ∧
    (((Expression.fresh "1" "+" "").Then = "" ∧
        ((Expression.fresh "1" "+" "").Parse refLib).1 = Expression.fresh "1" "+" "") ∨
      ((Expression.fresh "1" "+" "").Then ≠ "" ∧ (Expression.fresh "1" "+" "").If ≠ "" ∧
        (ParseExpression refLib (Expression.fresh "1" "+" "").If).isOk = false ∧
        ((Expression.fresh "1" "+" "").Parse refLib).1 = Expression.fresh "1" "+" "") ∨
      ((Expression.fresh "1" "+" "").Then ≠ "" ∧
        (ParseExpression refLib (Expression.fresh "1" "+" "").Then).isOk = false ∧
        (((Expression.fresh "1" "+" "").If = "" ∧
            ((Expression.fresh "1" "+" "").Parse refLib).1 = Expression.fresh "1" "+" "") ∨
          (∃ fi, (Expression.fresh "1" "+" "").If ≠ "" ∧
            ParseExpression refLib (Expression.fresh "1" "+" "").If = .ok fi ∧
            ((Expression.fresh "1" "+" "").Parse refLib).1 =
              { Expression.fresh "1" "+" "" with
                ifAction := some ⟨(Expression.fresh "1" "+" "").If, fi⟩ }))) ∨
      ((Expression.fresh "1" "+" "").Then ≠ "" ∧ (Expression.fresh "1" "+" "").Otherwise ≠ "" ∧
        (ParseExpression refLib (Expression.fresh "1" "+" "").Otherwise).isOk = false ∧
        ∃ ft, ParseExpression refLib (Expression.fresh "1" "+" "").Then = .ok ft ∧
          (((Expression.fresh "1" "+" "").If = "" ∧
              ((Expression.fresh "1" "+" "").Parse refLib).1 =
                { Expression.fresh "1" "+" "" with
                  thenAction := some ⟨(Expression.fresh "1" "+" "").Then, ft⟩ }) ∨
            (∃ fi, (Expression.fresh "1" "+" "").If ≠ "" ∧
              ParseExpression refLib (Expression.fresh "1" "+" "").If = .ok fi ∧
              ((Expression.fresh "1" "+" "").Parse refLib).1 =
                { Expression.fresh "1" "+" "" with
                  ifAction := some ⟨(Expression.fresh "1" "+" "").If, fi⟩,
                  thenAction := some ⟨(Expression.fresh "1" "+" "").Then, ft⟩ })))) :=
  ⟨by decide!,
    C8_parse_stops_at_first_failure refLib (Expression.fresh "1" "+" "") (by decide!)⟩

/-! ## Conditional expressions: evaluation -/

theorem Expression.Parse_ok (L : Lib) (e e2 : Expression)
    (h : e.Parse L = (e2, .ok ())) :
    e.Then ≠ "" ∧ e2.If = e.If ∧ e2.Then = e.Then ∧ e2.Otherwise = e.Otherwise ∧
    (∃ ft, ParseExpression L e.Then = .ok ft ∧ e2.thenAction = some ⟨e.Then, ft⟩) ∧
    (e.If = "" → e2.ifAction = e.ifAction) ∧
    (e.If ≠ "" → ∃ fi, ParseExpression L e.If = .ok fi ∧ e2.ifAction = some ⟨e.If, fi⟩) ∧
    (e.Otherwise = "" → e2.otherwiseAction = e.otherwiseAction) ∧
    (e.Otherwise ≠ "" →
      ∃ fo, ParseExpression L e.Otherwise = .ok fo ∧
        e2.otherwiseAction = some ⟨e.Otherwise, fo⟩) := by
  by_cases ht : e.Then = ""
  · simp [Expression.Parse, ht] at h
  refine ⟨ht, ?_⟩
  cases hth : ParseExpression L e.Then with
  | ok ft =>
    by_cases hi0 : e.If = ""
    · by_cases ho0 : e.Otherwise = ""
      · simp [Expression.Parse, ht, hi0, ho0, hth] at h
        subst h
        simp [hi0, ho0]
      · cases hoo : ParseExpression L e.Otherwise with
        | ok fo =>
          simp [Expression.Parse, ht, hi0, ho0, hth, hoo] at h
          subst h
          simp [hi0, ho0]
        | error m => simp [Expression.Parse, ht, hi0, ho0, hth, hoo] at h
        | panic => simp [Expression.Parse, ht, hi0, ho0, hth, hoo] at h
        | outOfFuel => simp [Expression.Parse, ht, hi0, ho0, hth, hoo] at h
    · cases hif : ParseExpression L e.If with
      | ok fi =>
        by_cases ho0 : e.Otherwise = ""
        · simp [Expression.Parse, ht, hi0, ho0, hth, hif] at h
          subst h
          simp [hi0, ho0]
        · cases hoo : ParseExpression L e.Otherwise with
          | ok fo =>
            simp [Expression.Parse, ht, hi0, ho0, hth, hoo, hif] at h
            subst h
            simp [hi0, ho0]
          | error m => simp [Expression.Parse, ht, hi0, ho0, hth, hoo, hif] at h
          | panic => simp [Expression.Parse, ht, hi0, ho0, hth, hoo, hif] at h
          | outOfFuel => simp [Expression.Parse, ht, hi0, ho0, hth, hoo, hif] at h
      | error m => simp [Expression.Parse, ht, hi0, hif] at h
      | panic => simp [Expression.Parse, ht, hi0, hif] at h
      | outOfFuel => simp [Expression.Parse, ht, hi0, hif] at h
  | error m =>
    by_cases hi0 : e.If = ""
    · simp [Expression.Parse, ht, hi0, hth] at h
    · cases hif : ParseExpression L e.If <;> simp [Expression.Parse, ht, hi0, hth, hif] at h
  | panic =>
    by_cases hi0 : e.If = ""
    · simp [Expression.Parse, ht, hi0, hth] at h
    · cases hif : ParseExpression L e.If <;> simp [Expression.Parse, ht, hi0, hth, hif] at h
  | outOfFuel =>
    by_cases hi0 : e.If = ""
    · simp [Expression.Parse, ht, hi0, hth] at h
    · cases hif : ParseExpression L e.If <;> simp [Expression.Parse, ht, hi0, hth, hif] at h

theorem Expression.Eval_compiled (L : Lib) (e : Expression) (vars : Vars) (at_ : Action)
    (ht : e.Then ≠ "") (hta : e.thenAction = some at_) :
    (e.ifAction = none → e.Eval L vars = at_.execute.Execute vars) ∧
    (∀ act c, e.ifAction = some act → act.execute.Execute vars = .ok c →
      L.ToBool c = true → e.Eval L vars = at_.execute.Execute vars) ∧
    (∀ act c, e.ifAction = some act → act.execute.Execute vars = .ok c →
      L.ToBool c = false → e.Otherwise = "" → e.Eval L vars = .error "invalid expression") ∧
    (∀ act c ao, e.ifAction = some act → act.execute.Execute vars = .ok c →
      L.ToBool c = false → e.Otherwise ≠ "" → e.otherwiseAction = some ao →
      e.Eval L vars = ao.execute.Execute vars) := by
  refine ⟨?_, ?_, ?_, ?_⟩
  · intro hi
    simp [Expression.Eval, Outcome.bind, FunctionCall.Execute, ht, hta, hi]
  · intro act c hi hc hb
    simp [Expression.Eval, Outcome.bind, FunctionCall.Execute, ht, hta, hi, hb,
      show executeFunctionCall vars act.execute = .ok c from hc]
  · intro act c hi hc hb ho
    simp [Expression.Eval, Outcome.bind, FunctionCall.Execute, hi, hb, ho,
      show executeFunctionCall vars act.execute = .ok c from hc]
  · intro act c ao hi hc hb ho hoa
    simp [Expression.Eval, Outcome.bind, FunctionCall.Execute, hi, hb, ho, hoa,
      show executeFunctionCall vars act.execute = .ok c from hc]

theorem staleExpression_eq (L : Lib) :
    Expression.Parse L { ((Expression.fresh "$a>1" "1" "2").Parse L).1 with If := "" } =
      (⟨"", "1", "2",
        some ⟨"$a>1", .mk "gt($a,1:int)" (some (fnGt L)) "gt"
          [.mk none "a" .nil, .mk none "" (.int .int64 1)] "" .nil⟩,
        some ⟨"1", .mk "1:int" none "" [] "" (.int .int64 1)⟩,
        some ⟨"2", .mk "2:int" none "" [] "" (.int .int64 2)⟩⟩, .ok ()) := by
  rfl

/-- C6: `Eval` selects the branch by the stored if tree, not by the text `If`.  For every
expression `e` on which `Parse` succeeds, whatever trees it held before, and every binding
map: the then tree is the compiled `Then`; when no if tree is stored `Eval` is the execution
of the then tree; when `If` is non-empty the stored if tree is the compiled `If`, and `Eval`
is the execution of the then tree if it evaluates to a truthy value, of the compiled
`Otherwise` if it evaluates to a falsy value and `Otherwise` is non-empty, and the error
`invalid expression` if it is falsy and `Otherwise` is empty.  When `If` is empty `Parse`
leaves the stored if tree as it was, and `Eval` still evaluates it: a falsy value selects the
otherwise branch or the error.  So `Expression{If: "$a>1", Then: "1", Otherwise: "2"}`,
compiled, then given an empty `If` and compiled again, evaluates with `a = 0` to 2, while its
`If` is empty and its then tree gives 1. -/
theorem C6_eval_selects_branch (L : Lib) (e e2 : Expression) (vars : Vars)
    (hparse : e.Parse L = (e2, .ok ())) :
    (∃ ft, ParseExpression L e.Then = .ok ft ∧ e2.thenAction = some ⟨e.Then, ft⟩ ∧
      e2.If = e.If ∧ e2.Then = e.Then ∧ e2.Otherwise = e.Otherwise ∧
      (e2.ifAction = none → e2.Eval L vars = ft.Execute vars) ∧
      (e.If ≠ "" → ∃ fi, ParseExpression L e.If = .ok fi ∧ e2.ifAction = some ⟨e.If, fi⟩ ∧
        (∀ c, fi.Execute vars = .ok c → L.ToBool c = true →
          e2.Eval L vars = ft.Execute vars) ∧
        (∀ c, fi.Execute vars = .ok c → L.ToBool c = false → e.Otherwise ≠ "" →
          ∃ fo, ParseExpression L e.Otherwise = .ok fo ∧
            e2.otherwiseAction = some ⟨e.Otherwise, fo⟩ ∧
            e2.Eval L vars = fo.Execute vars) ∧
        (∀ c, fi.Execute vars = .ok c → L.ToBool c = false → e.Otherwise = "" →
          e2.Eval L vars = .error "invalid expression")) ∧
      (e.If = "" → e2.ifAction = e.ifAction ∧
        (e.ifAction = none → e2.Eval L vars = ft.Execute vars) ∧
        (∀ stale c, e.ifAction = some stale → stale.execute.Execute vars = .ok c →
          (L.ToBool c = true → e2.Eval L vars = ft.Execute vars) ∧
          (L.ToBool c = false → e.Otherwise ≠ "" →
            ∃ fo, ParseExpression L e.Otherwise = .ok fo ∧
              e2.Eval L vars = fo.Execute vars) ∧
          (L.ToBool c = false → e.Otherwise = "" →
            e2.Eval L vars = .error "invalid expression")))) ∧
    ((∀ k m, L.ToInt64 (.int k m) = m) → (∀ b, L.ToBool (.bool b) = b) →
      (staleExpression L).If = "" ∧
      (Expression.Parse L
        { ((Expression.fresh "$a>1" "1" "2").Parse L).1 with If := "" }).2 = .ok () ∧
      (staleExpression L).Eval L (aVars 0) = .ok (.int .int64 2) ∧
      ∃ ft, (staleExpression L).thenAction = some ⟨"1", ft⟩ ∧
        ft.Execute (aVars 0) = .ok (.int .int64 1)) := by
  constructor
  · obtain ⟨ht, hIf, hThen, hOth, ⟨ft, hft, hta⟩, hi0, hi1, ho0, ho1⟩ :=
      Expression.Parse_ok L e e2 hparse
    have hev := Expression.Eval_compiled L e2 vars ⟨e.Then, ft⟩ (by rw [hThen]; exact ht) hta
    obtain ⟨ev0, ev1, ev2, ev3⟩ := hev
    refine ⟨ft, hft, hta, hIf, hThen, hOth, ev0, ?_, ?_⟩
    · intro hne
      obtain ⟨fi, hfi, hia⟩ := hi1 hne
      refine ⟨fi, hfi, hia, fun c hc hb => ev1 _ c hia hc hb, ?_, ?_⟩
      · intro c hc hb ho
        obtain ⟨fo, hfo, hoa⟩ := ho1 ho
        exact ⟨fo, hfo, hoa, ev3 _ c _ hia hc hb (by rw [hOth]; exact ho) hoa⟩
      · intro c hc hb ho
        exact ev2 _ c hia hc hb (by rw [hOth]; exact ho)
    · intro hemp
      have hia := hi0 hemp
      refine ⟨hia, fun hnone => ev0 (by rw [hia]; exact hnone), ?_⟩
      intro stale c hst hc
      have hia2 : e2.ifAction = some stale := by rw [hia]; exact hst
      refine ⟨fun hb => ev1 _ c hia2 hc hb, ?_, ?_⟩
      · intro hb ho
        obtain ⟨fo, hfo, hoa⟩ := ho1 ho
        exact ⟨fo, hfo, ev3 _ c _ hia2 hc hb (by rw [hOth]; exact ho) hoa⟩
      · intro hb ho
        exact ev2 _ c hia2 hc hb (by rw [hOth]; exact ho)
  · intro hint hbool
    have hs : staleExpression L =
        ⟨"", "1", "2",
          some ⟨"$a>1", .mk "gt($a,1:int)" (some (fnGt L)) "gt"
            [.mk none "a" .nil, .mk none "" (.int .int64 1)] "" .nil⟩,
          some ⟨"1", .mk "1:int" none "" [] "" (.int .int64 1)⟩,
          some ⟨"2", .mk "2:int" none "" [] "" (.int .int64 2)⟩⟩ := by
      rw [staleExpression, staleExpression_eq]
    refine ⟨by rw [hs], by rw [staleExpression_eq], ?_,
      ⟨.mk "1:int" none "" [] "" (.int .int64 1), by rw [hs], rfl⟩⟩
    rw [hs]
    simp [Expression.Eval, Outcome.bind, FunctionCall.Execute, executeFunctionCall,
      executeArgs, executeArg, fnGt, getComputeType, getArgType, hint, hbool, aVars]

theorem C6_eval_selects_branch_witness :
    Expression.Parse refLib
        { ((Expression.fresh "$a>1" "1" "2").Parse refLib).1 with If := "" } =
        (staleExpression refLib, .ok ()) ∧
      (∀ k m, refLib.ToInt64 (.int k m) = m) ∧ (∀ b, refLib.ToBool (.bool b) = b) ∧
      (staleExpression refLib).If = "" ∧
      (staleExpression refLib).Eval refLib (aVars 0) = .ok (.int .int64 2) :=
  ⟨rfl, fun _ _ => rfl, fun _ => rfl,
    ((C6_eval_selects_branch refLib
      { ((Expression.fresh "$a>1" "1" "2").Parse refLib).1 with If := "" }
      (staleExpression refLib) (aVars 0) rfl).2 (fun _ _ => rfl) (fun _ => rfl)).1,
    ((C6_eval_selects_branch refLib
      { ((Expression.fresh "$a>1" "1" "2").Parse refLib).1 with If := "" }
      (staleExpression refLib) (aVars 0) rfl).2 (fun _ _ => rfl) (fun _ => rfl)).2.2.1⟩

/-! ## The conditional of the example program -/

theorem wrapInt64_of_range (x : Int) (hlo : -(2 ^ 63) ≤ x) (hhi : x < 2 ^ 63) :
    wrapInt64 x = x := by
  unfold wrapInt64
  have h63 : (2 : Int) ^ 63 = 9223372036854775808 := by norm_num
  have h64 : (2 : Int) ^ 64 = 18446744073709551616 := by norm_num
  rw [h63] at hlo hhi
  rw [h63, h64]
  omega

theorem stockExpression_eq (L : Lib) :
    (Expression.fresh "$stock>100" "$stock*100+5" "").Parse L =
      (⟨"$stock>100", "$stock*100+5", "",
        some ⟨"$stock>100", .mk "gt($stock,100:int)" (some (fnGt L)) "gt"
          [.mk none "stock" .nil, .mk none "" (.int .int64 100)] "" .nil⟩,
        some ⟨"$stock*100+5", .mk "add(multi($stock,100:int),5:int)" (some (fnAdd L)) "add"
          [.mk (some (.mk "multi($stock,100:int)" (some (fnMulti L)) "multi"
              [.mk none "stock" .nil, .mk none "" (.int .int64 100)] "" .nil)) "" .nil,
            .mk none "" (.int .int64 5)] "" .nil⟩,
        none⟩, .ok ()) := by
  rfl

/-- C5: the expression `If: $stock>100`, `Then: $stock*100+5` compiles; with `stock` bound to
the integer 120 `Eval` returns 12005; with `stock` bound to any integer `n > 100` such that
`n*100+5` is in the 64-bit range it returns `n*100+5`; with `stock` bound to any integer
`n <= 100` it fails with `invalid expression`. -/
theorem C5_stock_conditional (L : Lib)
    (hint : ∀ k m, L.ToInt64 (.int k m) = m) (hbool : ∀ b, L.ToBool (.bool b) = b) :
    ((Expression.fresh "$stock>100" "$stock*100+5" "").Parse L).2 = .ok () ∧
      (stockExpression L).Eval L (stockVars 120) = .ok (.int .int64 12005) ∧
      (∀ (vars : Vars) (k : IntKind) (n : Int), vars "stock" = some (.int k n) →
        100 < n → n * 100 + 5 < 2 ^ 63 →
        (stockExpression L).Eval L vars = .ok (.int .int64 (n * 100 + 5))) ∧
      (∀ (vars : Vars) (k : IntKind) (n : Int), vars "stock" = some (.int k n) →
        n ≤ 100 →
        (stockExpression L).Eval L vars = .error "invalid expression") := by
  have hgen : ∀ (vars : Vars) (k : IntKind) (n : Int), vars "stock" = some (.int k n) →
      100 < n → n * 100 + 5 < 2 ^ 63 →
      (stockExpression L).Eval L vars = .ok (.int .int64 (n * 100 + 5)) := by
    intro vars k n hv hn hr
    have h63 : (2 : Int) ^ 63 = 9223372036854775808 := by norm_num
    have w1 : wrapInt64 (n * 100) = n * 100 :=
      wrapInt64_of_range _ (by rw [h63]; omega) (by rw [h63] at hr ⊢; omega)
    have w2 : wrapInt64 (n * 100 + 5) = n * 100 + 5 :=
      wrapInt64_of_range _ (by rw [h63]; omega) hr
    simp [stockExpression, stockExpression_eq, Expression.Eval, Outcome.bind,
      FunctionCall.Execute, executeFunctionCall, executeArgs, executeArg, fnGt, fnAdd, fnMulti,
      getComputeType, getArgType, hint, hbool, hv, hn, w1, w2]
  refine ⟨by rw [stockExpression_eq], ?_, hgen, ?_⟩
  · exact hgen (stockVars 120) .int 120 rfl (by norm_num) (by norm_num)
  · intro vars k n hv hn
    simp [stockExpression, stockExpression_eq, Expression.Eval, Outcome.bind,
      FunctionCall.Execute, executeFunctionCall, executeArgs, executeArg, fnGt,
      getComputeType, getArgType, hint, hbool, hv, hn]

theorem C5_stock_conditional_witness :
    (∀ k m, refLib.ToInt64 (.int k m) = m) ∧ (∀ b, refLib.ToBool (.bool b) = b) ∧
      (stockExpression refLib).Eval refLib (stockVars 120) = .ok (.int .int64 12005) ∧
      (stockExpression refLib).Eval refLib (stockVars 100) = .error "invalid expression" :=
  ⟨fun _ _ => rfl, fun _ => rfl,
    (C5_stock_conditional refLib (fun _ _ => rfl) (fun _ => rfl)).2.1,
    (C5_stock_conditional refLib (fun _ _ => rfl) (fun _ => rfl)).2.2.2 (stockVars 100) .int 100
      rfl (by norm_num)⟩

/-! ## Tokenizer lemmas -/

theorem takeWhile_append_of_stop (p : Char → Bool) (xs rest : List Char)
    (hall : ∀ x ∈ xs, p x = true) (hstop : ∀ c ∈ rest.head?, p c = false) :
    (xs ++ rest).takeWhile p = xs ∧ (xs ++ rest).dropWhile p = rest := by
  induction xs with
  | nil =>
    cases rest with
    | nil => simp
    | cons c rest =>
      have hc : p c = false := hstop c (by simp)
      simp [List.takeWhile, List.dropWhile, hc]
  | cons x xs ih =>
    have hx : p x = true := hall x (by simp)
    have ih2 := ih (fun y hy => hall y (by simp [hy]))
    simp [List.takeWhile, List.dropWhile, hx, ih2.1, ih2.2]

theorem scanStops_ident (rest : List Char) (h : scanStops rest = true) :
    ∀ c ∈ rest.head?, isIdentChar c = false := by
  cases rest with
  | nil => simp
  | cons c rest =>
    intro d hd
    simp at hd
    subst hd
    simp [scanStops] at h
    exact h.1

theorem scanStops_number (rest : List Char) (h : scanStops rest = true) :
    ∀ c ∈ rest.head?, isNumberChar c = false := by
  cases rest with
  | nil => simp
  | cons c rest =>
    intro d hd
    simp at hd
    subst hd
    simp [scanStops] at h
    exact h.2

theorem digit_facts (c : Char) (hc : isDigit c = true) :
    c ≠ '+' ∧ c ≠ '-' ∧ c ≠ '*' ∧ c ≠ '/' ∧ c ≠ '%' ∧ c ≠ '(' ∧ c ≠ ')' ∧ c ≠ '@' ∧ c ≠ '$' ∧
    c ≠ ',' ∧ c ≠ '&' ∧ c ≠ '|' ∧ c ≠ '!' ∧ c ≠ '>' ∧ c ≠ '<' ∧ c ≠ '=' ∧ c ≠ '"' ∧
    isLetter c = false := by
  refine ⟨?_, ?_, ?_, ?_, ?_, ?_, ?_, ?_, ?_, ?_, ?_, ?_, ?_, ?_, ?_, ?_, ?_, ?_⟩
  all_goals first
    | (rintro rfl; revert hc; decide)
    | (simp only [isDigit, isLetter, Bool.and_eq_true, decide_eq_true_eq,
        Bool.or_eq_false_iff, Bool.and_eq_false_iff, beq_eq_false_iff_ne,
        decide_eq_false_iff_not] at hc ⊢; omega)

theorem letter_facts (c : Char) (hc : isLetter c = true) :
    c ≠ '+' ∧ c ≠ '-' ∧ c ≠ '*' ∧ c ≠ '/' ∧ c ≠ '%' ∧ c ≠ '(' ∧ c ≠ ')' ∧ c ≠ '@' ∧ c ≠ '$' ∧
    c ≠ ',' ∧ c ≠ '&' ∧ c ≠ '|' ∧ c ≠ '!' ∧ c ≠ '>' ∧ c ≠ '<' ∧ c ≠ '=' ∧ c ≠ '"' := by
  refine ⟨?_, ?_, ?_, ?_, ?_, ?_, ?_, ?_, ?_, ?_, ?_, ?_, ?_, ?_, ?_, ?_, ?_⟩
  all_goals (rintro rfl; revert hc; decide)

theorem digits_not_contains_dot (ds : List Char) (h : ds.all isDigit = true) :
    ds.contains '.' = false := by
  induction ds with
  | nil => rfl
  | cons d ds ih =>
    simp only [List.all_cons, Bool.and_eq_true] at h
    have hd : d ≠ '.' := by
      rintro rfl
      exact absurd h.1 (by decide)
    simp only [List.contains, List.elem_cons] at ih ⊢
    have : ('.' == d) = false := by
      simp [beq_eq_false_iff_ne, Ne.symm hd]
    rw [this]
    exact ih h.2

theorem tokenizeLoop_digit (c : Char) (rest : List Char) (fuel : Nat) (acc : List Token)
    (hc : isDigit c = true) :
    tokenizeLoop (fuel + 1) (c :: rest) acc =
      if ((c :: rest).takeWhile isNumberChar).contains '.' then
        tokenizeLoop fuel ((c :: rest).dropWhile isNumberChar)
          (acc ++ [⟨.Literal, String.mk ((c :: rest).takeWhile isNumberChar) ++ ":float"⟩])
      else
        tokenizeLoop fuel ((c :: rest).dropWhile isNumberChar)
          (acc ++ [⟨.Literal, String.mk ((c :: rest).takeWhile isNumberChar) ++ ":int"⟩]) := by
  obtain ⟨h1, h2, h3, h4, h5, h6, h7, h8, h9, h10, h11, h12, h13, h14, h15, h16, h17, h18⟩ :=
    digit_facts c hc
  rw [tokenizeLoop.eq_def]
  simp only [h1, h2, h3, h4, h5, h6, h7, h8, h9, h10, h11, h12, h13, h14, h15, h16, h17, h18, hc,
    if_false, if_true, Bool.false_eq_true]

theorem tokenizeLoop_letter (c : Char) (rest : List Char) (fuel : Nat) (acc : List Token)
    (hc : isLetter c = true) :
    tokenizeLoop (fuel + 1) (c :: rest) acc =
      tokenizeLoop fuel ((c :: rest).dropWhile isIdentChar)
        (acc ++ [⟨.Identifier, String.mk ((c :: rest).takeWhile isIdentChar)⟩]) := by
  obtain ⟨h1, h2, h3, h4, h5, h6, h7, h8, h9, h10, h11, h12, h13, h14, h15, h16, h17⟩ :=
    letter_facts c hc
  rw [tokenizeLoop.eq_def]
  simp only [h1, h2, h3, h4, h5, h6, h7, h8, h9, h10, h11, h12, h13, h14, h15, h16, h17, hc,
    if_false, if_true]

/-- A run of digits that is not continued by the rest of the input is one `:int` literal. -/
theorem tokenizeLoop_literal (ds rest : List Char) (fuel : Nat) (acc : List Token)
    (hwf : (Operand.lit ds).wellFormed = true) (hstop : scanStops rest = true) :
    tokenizeLoop (fuel + 1) (ds ++ rest) acc =
      tokenizeLoop fuel rest (acc ++ [⟨.Literal, String.mk ds ++ ":int"⟩]) := by
  cases ds with
  | nil => simp [Operand.wellFormed] at hwf
  | cons c cs =>
    simp only [Operand.wellFormed, Bool.and_eq_true] at hwf
    have hall : ∀ x ∈ c :: cs, isNumberChar x = true := by
      intro x hx
      have hx2 : isDigit x = true := by
        rcases List.mem_cons.1 hx with rfl | hx
        · exact hwf.1
        · exact List.all_eq_true.1 hwf.2 x hx
      simp [isNumberChar, hx2]
    have hspan := takeWhile_append_of_stop isNumberChar (c :: cs) rest hall
      (scanStops_number rest hstop)
    have hdot : (c :: cs).contains '.' = false :=
      digits_not_contains_dot (c :: cs) (by simp [List.all_cons, hwf.1, hwf.2])
    have hstep := tokenizeLoop_digit c (cs ++ rest) fuel acc hwf.1
    rw [List.cons_append, hstep, ← List.cons_append, hspan.1, hspan.2, hdot]
    simp

/-- A variable `$name` that is not continued by the rest of the input is a `$` token and an
identifier token. -/
theorem tokenizeLoop_variable (name rest : List Char) (fuel : Nat) (acc : List Token)
    (hwf : (Operand.var name).wellFormed = true) (hstop : scanStops rest = true) :
    tokenizeLoop (fuel + 2) ('$' :: name ++ rest) acc =
      tokenizeLoop fuel rest (acc ++ [⟨.Dollar, "$"⟩, ⟨.Identifier, String.mk name⟩]) := by
  cases name with
  | nil => simp [Operand.wellFormed] at hwf
  | cons c cs =>
    simp only [Operand.wellFormed, Bool.and_eq_true] at hwf
    have hall : ∀ x ∈ c :: cs, isIdentChar x = true := by
      intro x hx
      rcases List.mem_cons.1 hx with rfl | hx
      · simp [isIdentChar, hwf.1]
      · exact List.all_eq_true.1 hwf.2 x hx
    have hspan := takeWhile_append_of_stop isIdentChar (c :: cs) rest hall
      (scanStops_ident rest hstop)
    have hdollar : tokenizeLoop (fuel + 2) ('$' :: (c :: cs) ++ rest) acc =
        tokenizeLoop (fuel + 1) ((c :: cs) ++ rest) (acc ++ [⟨.Dollar, "$"⟩]) := rfl
    have hstep := tokenizeLoop_letter c (cs ++ rest) fuel (acc ++ [⟨.Dollar, "$"⟩]) hwf.1
    rw [hdollar, List.cons_append, hstep, ← List.cons_append, hspan.1, hspan.2]
    simp

/-- An operand that is not continued by the rest of the input is tokenized to its tokens, in
at most as many loop iterations as it has bytes. -/
theorem tokenizeLoop_operand (x : Operand) (rest : List Char)
    (hwf : x.wellFormed = true) (hstop : scanStops rest = true) :
    ∃ k, 1 ≤ k ∧ k ≤ x.text.length ∧ ∀ fuel acc,
      tokenizeLoop (fuel + k) (x.text ++ rest) acc = tokenizeLoop fuel rest (acc ++ x.tokens) := by
  cases x with
  | lit ds =>
    refine ⟨1, le_refl 1, ?_, fun fuel acc => tokenizeLoop_literal ds rest fuel acc hwf hstop⟩
    cases ds with
    | nil => simp [Operand.wellFormed] at hwf
    | cons c cs => simp [Operand.text]
  | var name =>
    refine ⟨2, by omega, ?_, fun fuel acc => tokenizeLoop_variable name rest fuel acc hwf hstop⟩
    cases name with
    | nil => simp [Operand.wellFormed] at hwf
    | cons c cs => simp [Operand.text]

/-- Tokens of `p op1 q op2 r` for operands `p`, `q`, `r` and two one-byte operators whose
bytes stop a scan. -/
theorem tokenize_three_operands (p q r : Operand) (c1 c2 : Char) (t1 t2 : Token)
    (hp : p.wellFormed = true) (hq : q.wellFormed = true) (hr : r.wellFormed = true)
    (h1 : ∀ fuel rest acc, tokenizeLoop (fuel + 1) (c1 :: rest) acc =
      tokenizeLoop fuel rest (acc ++ [t1]))
    (h2 : ∀ fuel rest acc, tokenizeLoop (fuel + 1) (c2 :: rest) acc =
      tokenizeLoop fuel rest (acc ++ [t2]))
    (hs1 : ∀ rest, scanStops (c1 :: rest) = true) (hs2 : ∀ rest, scanStops (c2 :: rest) = true) :
    tokenize (String.mk (p.text ++ c1 :: (q.text ++ c2 :: r.text))) =
      .ok (p.tokens ++ t1 :: (q.tokens ++ t2 :: r.tokens)) := by
  obtain ⟨kp, hkp1, hkp2, hP⟩ := tokenizeLoop_operand p (c1 :: (q.text ++ c2 :: r.text)) hp (hs1 _)
  obtain ⟨kq, hkq1, hkq2, hQ⟩ := tokenizeLoop_operand q (c2 :: r.text) hq (hs2 _)
  obtain ⟨kr, hkr1, hkr2, hR⟩ := tokenizeLoop_operand r [] hr rfl
  unfold tokenize
  simp only [List.length_append, List.length_cons]
  obtain ⟨f, hf⟩ : ∃ f, p.text.length + (q.text.length + (r.text.length + 1) + 1) + 1 =
      f + 1 + kr + 1 + kq + 1 + kp := ⟨p.text.length + q.text.length + r.text.length - kp - kq - kr,
        by omega⟩
  rw [hf, hP, h1, hQ, h2]
  have hR2 := hR (f + 1) ([] ++ p.tokens ++ [t1] ++ q.tokens ++ [t2])
  rw [List.append_nil] at hR2
  rw [hR2]
  simp [tokenizeLoop]

/-! ## Precedence and associativity on three operands -/

/-- C3 (counterexample): with a variable as middle operand, `1*$b+2` is parsed as
`multi(1:int,add($b,2:int))`, not as `add(multi(1:int,$b),2:int)`. -/
theorem C3_variable_factor_counterexample :
    Parse "1*$b+2" = .ok "multi(1:int,add($b,2:int))" ∧
      Parse "1*$b+2" ≠ .ok "add(multi(1:int,$b),2:int)" :=
  ⟨rfl, by decide!⟩

/-- C3 (amended): for all operands `p`, `q`, `r`, each an unsigned integer literal or a
`$name` variable, `Parse` of `p*q+r` returns `add(multi(P,Q),R)` when `q` is a literal, and
`multi(P,add(Q,R))` when `q` is a variable (the `$name` primary folds a directly following
`+` term into itself). -/
theorem C3_multiplication_then_addition (p q r : Operand)
    (hp : p.wellFormed = true) (hq : q.wellFormed = true) (hr : r.wellFormed = true) :
    Parse (String.mk (p.text ++ '*' :: (q.text ++ '+' :: r.text))) =
      .ok (match q with
        | .lit _ => call2 "add" (call2 "multi" p.canon q.canon) r.canon
        | .var _ => call2 "multi" p.canon (call2 "add" q.canon r.canon)) := by
  unfold Parse
  rw [tokenize_three_operands p q r '*' '+' ⟨.Mul, "*"⟩ ⟨.Add, "+"⟩ hp hq hr
    (fun _ _ _ => rfl) (fun _ _ _ => rfl) (fun _ => rfl) (fun _ => rfl)]
  cases p <;> cases q <;> cases r <;> rfl

theorem C3_multiplication_then_addition_witness :
    (Operand.var ['a']).wellFormed = true ∧ (Operand.lit ['2']).wellFormed = true ∧
      (Operand.var ['c', '1']).wellFormed = true ∧
      Parse "$a*2+$c1" = .ok "add(multi($a,2:int),$c1)" :=
  ⟨rfl, rfl, rfl,
    C3_multiplication_then_addition (.var ['a']) (.lit ['2']) (.var ['c', '1']) rfl rfl rfl⟩

/-- C4 (counterexample): with a variable as middle operand, `1-$b+2` is parsed as
`sub(1:int,add($b,2:int))`, not as `add(sub(1:int,$b),2:int)`. -/
theorem C4_variable_subtrahend_counterexample :
    Parse "1-$b+2" = .ok "sub(1:int,add($b,2:int))" ∧
      Parse "1-$b+2" ≠ .ok "add(sub(1:int,$b),2:int)" :=
  ⟨rfl, by decide!⟩

/-- C4 (amended): for all operands `p`, `q`, `r`, each an unsigned integer literal or a
`$name` variable, `Parse` of `p-q+r` returns `add(sub(P,Q),R)` when `q` is a literal, and
`sub(P,add(Q,R))` when `q` is a variable (the `$name` primary folds a directly following
`+` term into itself). -/
theorem C4_subtraction_then_addition (p q r : Operand)
    (hp : p.wellFormed = true) (hq : q.wellFormed = true) (hr : r.wellFormed = true) :
    Parse (String.mk (p.text ++ '-' :: (q.text ++ '+' :: r.text))) =
      .ok (match q with
        | .lit _ => call2 "add" (call2 "sub" p.canon q.canon) r.canon
        | .var _ => call2 "sub" p.canon (call2 "add" q.canon r.canon)) := by
  unfold Parse
  rw [tokenize_three_operands p q r '-' '+' ⟨.Sub, "-"⟩ ⟨.Add, "+"⟩ hp hq hr
    (fun _ _ _ => rfl) (fun _ _ _ => rfl) (fun _ => rfl) (fun _ => rfl)]
  cases p <;> cases q <;> cases r <;> rfl

theorem C4_subtraction_then_addition_witness :
    (Operand.var ['a']).wellFormed = true ∧ (Operand.lit ['2', '0']).wellFormed = true ∧
      (Operand.lit ['7']).wellFormed = true ∧
      Parse "$a-20+7" = .ok "add(sub($a,20:int),7:int)" :=
  ⟨rfl, rfl, rfl,
    C4_subtraction_then_addition (.var ['a']) (.lit ['2', '0']) (.lit ['7']) rfl rfl rfl⟩

/-! ## Chains of integer literals: tokens -/

theorem tokenizeLoop_arithOp (op : ArithOp) (fuel : Nat) (rest : List Char) (acc : List Token) :
    tokenizeLoop (fuel + 1) (op.char :: rest) acc = tokenizeLoop fuel rest (acc ++ [op.token]) := by
  cases op <;> rfl

theorem scanStops_chainTail (rest : List (ArithOp × List Char)) :
    scanStops (chainTail rest) = true := by
  cases rest with
  | nil => rfl
  | cons x rest =>
    obtain ⟨op, d⟩ := x
    cases op <;> rfl

theorem length_pos_of_wellFormed (ds : List Char) (h : (Operand.lit ds).wellFormed = true) :
    1 ≤ ds.length := by
  cases ds with
  | nil => simp [Operand.wellFormed] at h
  | cons c cs => simp

theorem tokenizeLoop_chainTail (rest : List (ArithOp × List Char)) :
    (rest.all fun x => (Operand.lit x.2).wellFormed) = true →
    ∀ fuel acc, (chainTail rest).length < fuel →
      tokenizeLoop fuel (chainTail rest) acc = .ok (acc ++ chainTailTokens rest) := by
  induction rest with
  | nil =>
    intro _ fuel acc hfuel
    obtain ⟨f, rfl⟩ : ∃ f, fuel = f + 1 := ⟨fuel - 1, by simp [chainTail] at hfuel; omega⟩
    simp [chainTail, chainTailTokens, tokenizeLoop]
  | cons x rest ih =>
    intro hwf fuel acc hfuel
    simp only [List.all_cons, Bool.and_eq_true] at hwf
    have hlen := length_pos_of_wellFormed x.2 hwf.1
    simp only [chainTail, List.length_cons, List.length_append] at hfuel
    obtain ⟨f, rfl⟩ : ∃ f, fuel = f + 1 + 1 := ⟨fuel - 2, by omega⟩
    simp only [chainTail, chainTailTokens]
    rw [tokenizeLoop_arithOp, tokenizeLoop_literal x.2 (chainTail rest) f _ hwf.1
      (scanStops_chainTail rest), ih hwf.2 f _ (by omega)]
    simp

theorem tokenize_chain (first : List Char) (rest : List (ArithOp × List Char))
    (hwf : chainWellFormed first rest = true) :
    tokenize (String.mk (chainText first rest)) =
      .ok (⟨.Literal, String.mk first ++ ":int"⟩ :: chainTailTokens rest) := by
  simp only [chainWellFormed, Bool.and_eq_true] at hwf
  unfold tokenize chainText
  simp only [List.length_append]
  rw [show first.length + (chainTail rest).length + 1 = ((chainTail rest).length + first.length) + 1
    by omega]
  rw [tokenizeLoop_literal first (chainTail rest) _ [] hwf.1 (scanStops_chainTail rest),
    tokenizeLoop_chainTail rest hwf.2 _ _ (by
      have := length_pos_of_wellFormed first hwf.1
      omega)]
  simp

/-! ## Chains of integer literals: parsing -/

theorem Outcome.bind_ok {α β : Type} (a : α) (f : α → Outcome β) :
    (Outcome.ok a).bind f = f a := rfl

theorem factor_literal (fuel : Nat) (tokens : List Token) (pos : Nat) (v : String)
    (h : tokens[pos]? = some ⟨.Literal, v⟩) :
    factor (fuel + 1) tokens pos = .ok (v, pos + 1) := by
  rw [factor.eq_def]
  simp [h]

theorem term_succ (fuel : Nat) (tokens : List Token) (pos : Nat) :
    term (fuel + 1) tokens pos =
      (factor fuel tokens pos).bind fun r => termLoop fuel tokens r.2 r.1 := rfl

theorem additive_succ (fuel : Nat) (tokens : List Token) (pos : Nat) :
    additive (fuel + 1) tokens pos =
      (term fuel tokens pos).bind fun r => additiveLoop fuel tokens r.2 r.1 := rfl

theorem termLoop_end (fuel : Nat) (tokens : List Token) (pos : Nat) (acc : String)
    (h : tokens[pos]? = none) : termLoop (fuel + 1) tokens pos acc = .ok (acc, pos) := by
  rw [termLoop.eq_def]
  simp [h]

theorem additiveLoop_end (fuel : Nat) (tokens : List Token) (pos : Nat) (acc : String)
    (h : tokens[pos]? = none) : additiveLoop (fuel + 1) tokens pos acc = .ok (acc, pos) := by
  rw [additiveLoop.eq_def]
  simp [h]

theorem termLoop_arithOp (op : ArithOp) (fuel : Nat) (tokens : List Token) (pos : Nat)
    (acc : String) (h : tokens[pos]? = some op.token) :
    termLoop (fuel + 1) tokens pos acc =
      if op.multiplicative then
        (factor fuel tokens (pos + 1)).bind fun r =>
          termLoop fuel tokens r.2 (call2 op.builtin acc r.1)
      else .ok (acc, pos) := by
  rw [termLoop.eq_def]
  cases op <;> simp [h, ArithOp.token, ArithOp.multiplicative, ArithOp.builtin]

theorem additiveLoop_arithOp (op : ArithOp) (fuel : Nat) (tokens : List Token) (pos : Nat)
    (acc : String) (h : tokens[pos]? = some op.token) (hop : op.multiplicative = false) :
    additiveLoop (fuel + 1) tokens pos acc =
      (term fuel tokens (pos + 1)).bind fun r =>
        additiveLoop fuel tokens r.2 (call2 op.builtin acc r.1) := by
  rw [additiveLoop.eq_def]
  cases op <;> simp [h, ArithOp.token, ArithOp.multiplicative, ArithOp.builtin] at hop ⊢

/-- The two loops `term` and `additive` run over the tail of a chain: after `termLoop` has
completed the current term `acc`, `additiveLoop` (entered with `g term`) consumes the rest; the
result is the two-pass grouping of the specification. -/
theorem parse_chainTail (rest : List (ArithOp × List Char)) :
    ∀ (pre : List Token) (acc : String) (g : String → String) (F G : Nat),
      2 * rest.length + 1 ≤ F → 2 * rest.length + 1 ≤ G →
      ((termLoop F (pre ++ chainTailTokens rest) pre.length acc).bind fun r =>
          additiveLoop G (pre ++ chainTailTokens rest) r.2 (g r.1)) =
        .ok ((specGroupTerms acc rest).2.foldl (fun sum x => call2 x.1.builtin sum x.2)
            (g (specGroupTerms acc rest).1),
          (pre ++ chainTailTokens rest).length) := by
  induction rest with
  | nil =>
    intro pre acc g F G hF hG
    obtain ⟨f, rfl⟩ : ∃ f, F = f + 1 := ⟨F - 1, by omega⟩
    obtain ⟨g', rfl⟩ : ∃ g', G = g' + 1 := ⟨G - 1, by omega⟩
    have hnone : (pre ++ chainTailTokens [])[pre.length]? = none := by
      simp [chainTailTokens]
    rw [termLoop_end _ _ _ _ hnone]
    simp only [Outcome.bind_ok]
    rw [additiveLoop_end _ _ _ _ hnone]
    simp [specGroupTerms, chainTailTokens]
  | cons x rest ih =>
    intro pre acc g F G hF hG
    simp only [List.length_cons] at hF hG
    obtain ⟨op, d⟩ := x
    have h0 : (pre ++ chainTailTokens ((op, d) :: rest))[pre.length]? = some op.token := by
      rw [List.getElem?_append_right (le_refl _)]
      simp [chainTailTokens]
    have h1 : (pre ++ chainTailTokens ((op, d) :: rest))[pre.length + 1]? =
        some ⟨.Literal, String.mk d ++ ":int"⟩ := by
      rw [List.getElem?_append_right (by omega)]
      simp [chainTailTokens]
    have hpre : pre ++ chainTailTokens ((op, d) :: rest) =
        (pre ++ [op.token, ⟨.Literal, String.mk d ++ ":int"⟩]) ++ chainTailTokens rest := by
      simp [chainTailTokens]
    have hlen : (pre ++ [op.token, (⟨.Literal, String.mk d ++ ":int"⟩ : Token)]).length =
        pre.length + 1 + 1 := by
      simp
    by_cases hm : op.multiplicative = true
    · obtain ⟨f, rfl⟩ : ∃ f, F = f + 1 + 1 := ⟨F - 2, by omega⟩
      rw [termLoop_arithOp op _ _ _ _ h0, if_pos hm, factor_literal _ _ _ _ h1]
      simp only [Outcome.bind_ok]
      have key := ih (pre ++ [op.token, ⟨.Literal, String.mk d ++ ":int"⟩])
        (call2 op.builtin acc (String.mk d ++ ":int")) g (f + 1) G (by omega) (by omega)
      rw [hlen, ← hpre] at key
      rw [key]
      simp [specGroupTerms, hm]
    · have hm2 : op.multiplicative = false := by simpa using hm
      obtain ⟨f, rfl⟩ : ∃ f, F = f + 1 := ⟨F - 1, by omega⟩
      obtain ⟨g', rfl⟩ : ∃ g', G = g' + 1 + 1 + 1 := ⟨G - 3, by omega⟩
      rw [termLoop_arithOp op _ _ _ _ h0, if_neg hm]
      simp only [Outcome.bind_ok]
      rw [additiveLoop_arithOp op _ _ _ _ h0 hm2, term_succ, factor_literal _ _ _ _ h1]
      simp only [Outcome.bind_ok]
      have key := ih (pre ++ [op.token, ⟨.Literal, String.mk d ++ ":int"⟩])
        (String.mk d ++ ":int") (fun t => call2 op.builtin (g acc) t) (g' + 1) (g' + 1 + 1)
        (by omega) (by omega)
      rw [hlen, ← hpre] at key
      rw [key]
      simp [specGroupTerms, hm2]

theorem parseTokens_chain (first : List Char) (rest : List (ArithOp × List Char)) :
    parseTokens (⟨.Literal, String.mk first ++ ":int"⟩ :: chainTailTokens rest) =
      .ok (specCanonical first rest, (chainTailTokens rest).length + 1) := by
  have hlen : (chainTailTokens rest).length = 2 * rest.length := by
    induction rest with
    | nil => rfl
    | cons x rest ih => simp [chainTailTokens, ih]; omega
  unfold parseTokens parseFuel
  obtain ⟨f, hf, hfuel⟩ : ∃ f, 8 * ((⟨.Literal, String.mk first ++ ":int"⟩ ::
      chainTailTokens rest : List Token)).length + 8 = f + 1 + 1 + 1 + 1 + 1 ∧
      2 * rest.length + 1 ≤ f := by
    refine ⟨8 * (chainTailTokens rest).length + 11, ?_, ?_⟩
    · simp only [List.length_cons]
      omega
    · omega
  rw [hf]
  have hchain := parse_chainTail rest [⟨.Literal, String.mk first ++ ":int"⟩]
    (String.mk first ++ ":int") id (f + 1) (f + 1 + 1) (by omega) (by omega)
  simp only [List.singleton_append, List.length_singleton, id] at hchain
  have h0 : (⟨.Literal, String.mk first ++ ":int"⟩ :: chainTailTokens rest : List Token)[0]? =
      some ⟨.Literal, String.mk first ++ ":int"⟩ := by
    simp
  have hend : (⟨.Literal, String.mk first ++ ":int"⟩ :: chainTailTokens rest :
      List Token)[(chainTailTokens rest).length + 1]? = none := by
    simp
  have hadd : additive (f + 1 + 1 + 1) (⟨.Literal, String.mk first ++ ":int"⟩ ::
      chainTailTokens rest) 0 = .ok (specCanonical first rest,
        (chainTailTokens rest).length + 1) := by
    rw [additive_succ, term_succ, factor_literal _ _ _ _ h0]
    simp only [Outcome.bind_ok]
    rw [hchain]
    simp [specCanonical]
  rw [parseLogicalExpression.eq_def]
  simp only []
  rw [parseComparisonExpression.eq_def]
  simp only [h0, hadd, Outcome.bind_ok, hend, reduceCtorEq, if_false]
  rw [parseLogicalLoop.eq_def]
  simp only [hend]

/-- C1: for every infix input made only of unsigned integer literals joined by the operators
`+ - * / %`, `Parse` returns the canonical prefix form in which `* / %` are grouped first,
left to right, and `+ -` are then grouped left to right; in particular for `1+2*3` and
`1+2*3-4/5`. -/
theorem C1_literal_chain_canonical :
    (∀ (first : List Char) (rest : List (ArithOp × List Char)),
      chainWellFormed first rest = true →
      Parse (String.mk (chainText first rest)) = .ok (specCanonical first rest)) ∧
    Parse "1+2*3" = .ok "add(1:int,multi(2:int,3:int))" ∧
    Parse "1+2*3-4/5" = .ok "sub(add(1:int,multi(2:int,3:int)),div(4:int,5:int))" := by
  refine ⟨?_, rfl, rfl⟩
  intro first rest hwf
  unfold Parse
  rw [tokenize_chain first rest hwf]
  rw [Outcome.bind_ok, parseTokens_chain, Outcome.bind_ok]

theorem C1_literal_chain_canonical_witness :
    chainWellFormed ['1', '0'] [(.sub, ['2']), (.mul, ['3']), (.mod, ['4']), (.add, ['5'])] =
        true ∧
      Parse "10-2*3%4+5" = .ok "add(sub(10:int,mod(multi(2:int,3:int),4:int)),5:int)" :=
  ⟨rfl, C1_literal_chain_canonical.1 ['1', '0']
    [(.sub, ['2']), (.mul, ['3']), (.mod, ['4']), (.add, ['5'])] rfl⟩

/-! ## Adequacy of the fuel budgets -/

theorem length_dropWhile_le (p : Char → Bool) (l : List Char) :
    (l.dropWhile p).length ≤ l.length := by
  induction l with
  | nil => simp
  | cons a l ih =>
    simp only [List.dropWhile]
    split
    · simp; omega
    · simp

theorem length_dropWhile_cons_le (p : Char → Bool) (c : Char) (l : List Char) (h : p c = true) :
    ((c :: l).dropWhile p).length ≤ l.length := by
  simp only [List.dropWhile, h]
  exact length_dropWhile_le p l

/-- One iteration of the tokenizer loop either stops with a panic or an error, or continues
on a strictly shorter input with one unit of fuel less; which of these happens, and the input
and tokens it continues with, do not depend on the fuel. -/
theorem tokenizeLoop_step (c : Char) (rest : List Char) (acc : List Token) :
    ((∀ n, tokenizeLoop (n + 1) (c :: rest) acc = .panic) ∨
      ∃ msg, ∀ n, tokenizeLoop (n + 1) (c :: rest) acc = .error msg) ∨
    ∃ s acc2, s.length ≤ rest.length ∧
      ∀ n, tokenizeLoop (n + 1) (c :: rest) acc = tokenizeLoop n s acc2 := by
  by_cases hl : isLetter c = true
  · exact Or.inr ⟨_, _, length_dropWhile_cons_le isIdentChar c rest (by simp [isIdentChar, hl]),
      fun n => tokenizeLoop_letter c rest n acc hl⟩
  by_cases hd : isDigit c = true
  · have hle := length_dropWhile_cons_le isNumberChar c rest (by simp [isNumberChar, hd])
    by_cases hdot : ((c :: rest).takeWhile isNumberChar).contains '.' = true
    · exact Or.inr ⟨_, _, hle, fun n => by rw [tokenizeLoop_digit c rest n acc hd, if_pos hdot]⟩
    · exact Or.inr ⟨_, _, hle, fun n => by rw [tokenizeLoop_digit c rest n acc hd, if_neg hdot]⟩
  by_cases h1 : c = '+'
  · subst h1; exact Or.inr ⟨rest, _, le_refl _, fun _ => rfl⟩
  by_cases h2 : c = '-'
  · subst h2; exact Or.inr ⟨rest, _, le_refl _, fun _ => rfl⟩
  by_cases h3 : c = '*'
  · subst h3; exact Or.inr ⟨rest, _, le_refl _, fun _ => rfl⟩
  by_cases h4 : c = '/'
  · subst h4; exact Or.inr ⟨rest, _, le_refl _, fun _ => rfl⟩
  by_cases h5 : c = '%'
  · subst h5; exact Or.inr ⟨rest, _, le_refl _, fun _ => rfl⟩
  by_cases h6 : c = '('
  · subst h6; exact Or.inr ⟨rest, _, le_refl _, fun _ => rfl⟩
  by_cases h7 : c = ')'
  · subst h7; exact Or.inr ⟨rest, _, le_refl _, fun _ => rfl⟩
  by_cases h8 : c = '@'
  · subst h8; exact Or.inr ⟨rest, _, le_refl _, fun _ => rfl⟩
  by_cases h9 : c = '$'
  · subst h9; exact Or.inr ⟨rest, _, le_refl _, fun _ => rfl⟩
  by_cases h10 : c = ','
  · subst h10; exact Or.inr ⟨rest, _, le_refl _, fun _ => rfl⟩
  by_cases h11 : c = '&'
  · subst h11
    cases rest with
    | nil => exact Or.inl (Or.inl fun _ => rfl)
    | cons d rest2 =>
      by_cases hd2 : d = '&'
      · subst hd2; exact Or.inr ⟨rest2, _, by simp, fun _ => rfl⟩
      · refine Or.inl (Or.inr ⟨"expected &&", ?_⟩)
        intro n
        show (if d = '&' then _ else _) = _
        rw [if_neg hd2]
  by_cases h12 : c = '|'
  · subst h12
    cases rest with
    | nil => exact Or.inl (Or.inl fun _ => rfl)
    | cons d rest2 =>
      by_cases hd2 : d = '|'
      · subst hd2; exact Or.inr ⟨rest2, _, by simp, fun _ => rfl⟩
      · refine Or.inl (Or.inr ⟨"expected ||", ?_⟩)
        intro n
        show (if d = '|' then _ else _) = _
        rw [if_neg hd2]
  by_cases h13 : c = '!'
  · subst h13
    cases rest with
    | nil => exact Or.inl (Or.inl fun _ => rfl)
    | cons d rest2 =>
      by_cases hd2 : d = '='
      · subst hd2; exact Or.inr ⟨rest2, _, by simp, fun _ => rfl⟩
      · refine Or.inr ⟨d :: rest2, acc ++ [⟨.Not, "!"⟩], le_refl _, ?_⟩
        intro n
        show (if d = '=' then _ else _) = _
        rw [if_neg hd2]
  by_cases h14 : c = '>'
  · subst h14
    cases rest with
    | nil => exact Or.inl (Or.inl fun _ => rfl)
    | cons d rest2 =>
      by_cases hd2 : d = '='
      · subst hd2; exact Or.inr ⟨rest2, _, by simp, fun _ => rfl⟩
      · refine Or.inr ⟨d :: rest2, acc ++ [⟨.Gt, ">"⟩], le_refl _, ?_⟩
        intro n
        show (if d = '=' then _ else _) = _
        rw [if_neg hd2]
  by_cases h15 : c = '<'
  · subst h15
    cases rest with
    | nil => exact Or.inl (Or.inl fun _ => rfl)
    | cons d rest2 =>
      by_cases hd2 : d = '='
      · subst hd2; exact Or.inr ⟨rest2, _, by simp, fun _ => rfl⟩
      · refine Or.inr ⟨d :: rest2, acc ++ [⟨.Lt, "<"⟩], le_refl _, ?_⟩
        intro n
        show (if d = '=' then _ else _) = _
        rw [if_neg hd2]
  by_cases h16 : c = '='
  · subst h16
    cases rest with
    | nil => exact Or.inl (Or.inr ⟨"expected ==", fun _ => rfl⟩)
    | cons d rest2 =>
      by_cases hd2 : d = '='
      · subst hd2; exact Or.inr ⟨rest2, _, by simp, fun _ => rfl⟩
      · refine Or.inl (Or.inr ⟨"expected ==", ?_⟩)
        intro n
        show (if d = '=' then _ else _) = _
        rw [if_neg hd2]
  by_cases h17 : c = '"'
  · subst h17
    have hlen := length_dropWhile_le (fun d => d != '"') rest
    cases hrest : rest.dropWhile (fun d => d != '"') with
    | nil =>
      refine Or.inl (Or.inr ⟨"expected \"", ?_⟩)
      intro n
      show (match rest.dropWhile (fun d => d != '"') with
        | [] => _
        | _ :: rest2 => _) = _
      rw [hrest]
    | cons q rest2 =>
      refine Or.inr ⟨rest2,
        acc ++ [⟨.Literal, String.mk (rest.takeWhile (fun d => d != '"')) ++ ":str"⟩], ?_, ?_⟩
      · rw [hrest] at hlen
        simp only [List.length_cons] at hlen
        omega
      · intro n
        show (match rest.dropWhile (fun d => d != '"') with
          | [] => _
          | _ :: rest2 => tokenizeLoop n rest2 _) = _
        rw [hrest]
  by_cases h18 : c = ' '
  · subst h18; exact Or.inr ⟨rest, _, le_refl _, fun _ => rfl⟩
  · refine Or.inl (Or.inr ⟨"unexpected character: " ++ String.mk (runeBytes c), ?_⟩)
    have hl2 : isLetter c = false := by simpa using hl
    have hd3 : isDigit c = false := by simpa using hd
    intro n
    rw [tokenizeLoop.eq_def]
    simp only [h1, h2, h3, h4, h5, h6, h7, h8, h9, h10, h11, h12, h13, h14, h15, h16, h17, h18,
      hl2, hd3, if_false, Bool.false_eq_true]

/-- The tokenizer loop never exhausts a budget larger than the number of unread bytes. -/
theorem tokenizeLoop_fuel_adequate :
    ∀ (fuel : Nat) (s : List Char) (acc : List Token),
      s.length < fuel → tokenizeLoop fuel s acc ≠ .outOfFuel := by
  intro fuel
  induction fuel with
  | zero => intro s acc h; omega
  | succ n ih =>
    intro s acc h
    cases s with
    | nil => simp [tokenizeLoop]
    | cons c rest =>
      simp only [List.length_cons] at h
      rcases tokenizeLoop_step c rest acc with (hp | ⟨msg, he⟩) | ⟨s2, acc2, hlen, hs⟩
      · rw [hp]; exact fun hcon => Outcome.noConfusion hcon
      · rw [he]; exact fun hcon => Outcome.noConfusion hcon
      · rw [hs]; exact ih s2 acc2 (by omega)

/-- More fuel does not change a result of the tokenizer loop. -/
theorem tokenizeLoop_fuel_succ :
    ∀ (n : Nat) (s : List Char) (acc : List Token),
      tokenizeLoop n s acc ≠ .outOfFuel → tokenizeLoop (n + 1) s acc = tokenizeLoop n s acc := by
  intro n
  induction n with
  | zero => intro s acc h; exact absurd rfl h
  | succ n ih =>
    intro s acc h
    cases s with
    | nil => rfl
    | cons c rest =>
      rcases tokenizeLoop_step c rest acc with (hp | ⟨msg, he⟩) | ⟨s2, acc2, _, hs⟩
      · rw [hp, hp]
      · rw [he, he]
      · rw [hs] at h
        rw [hs, hs]
        exact ih s2 acc2 h

theorem tokenizeLoop_fuel_add (k n : Nat) (s : List Char) (acc : List Token)
    (h : tokenizeLoop n s acc ≠ .outOfFuel) : tokenizeLoop (n + k) s acc = tokenizeLoop n s acc := by
  induction k with
  | zero => rfl
  | succ k ih =>
    rw [← Nat.add_assoc, tokenizeLoop_fuel_succ (n + k) s acc (by rw [ih]; exact h), ih]

/-- A result of the tokenizer loop from the start of the input, with any budget, is the result
of `tokenize`. -/
theorem tokenize_eq_of_loop (input : String) (n : Nat) (r : Outcome (List Token))
    (h : tokenizeLoop n input.data [] = r) (hr : r ≠ .outOfFuel) : tokenize input = r := by
  unfold tokenize
  rcases Nat.le_total n (input.data.length + 1) with hle | hle
  · obtain ⟨k, hk⟩ : ∃ k, input.data.length + 1 = n + k := ⟨input.data.length + 1 - n, by omega⟩
    rw [hk, tokenizeLoop_fuel_add k n _ _ (by rw [h]; exact hr), h]
  · obtain ⟨k, hk⟩ : ∃ k, n = input.data.length + 1 + k := ⟨n - (input.data.length + 1), by omega⟩
    rw [hk, tokenizeLoop_fuel_add k _ _ _
      (tokenizeLoop_fuel_adequate _ _ _ (Nat.lt_succ_self _))] at h
    exact h


/-- Go `tokenize` terminates: the model never runs out of fuel. -/
theorem tokenize_fuel_adequate (input : String) : tokenize input ≠ .outOfFuel :=
  tokenizeLoop_fuel_adequate _ _ _ (Nat.lt_succ_self _)

/-! ## Adequacy of the parser budget -/

theorem Progress.of_ok {α : Type} {pos p : Nat} (a : α) (h : pos ≤ p) :
    Progress pos (Outcome.ok (a, p)) :=
  ⟨fun hcon => Outcome.noConfusion hcon, fun b q hq => by
    cases hq
    exact h⟩

theorem Progress.of_error {α : Type} (pos : Nat) (msg : String) :
    Progress pos (Outcome.error msg : Outcome (α × Nat)) :=
  ⟨fun hcon => Outcome.noConfusion hcon, fun _ _ hq => Outcome.noConfusion hq⟩

theorem Progress.of_panic {α : Type} (pos : Nat) :
    Progress pos (Outcome.panic : Outcome (α × Nat)) :=
  ⟨fun hcon => Outcome.noConfusion hcon, fun _ _ hq => Outcome.noConfusion hq⟩

theorem Progress.mono {α : Type} {pos q : Nat} {r : Outcome (α × Nat)} (h : Progress q r)
    (hle : pos ≤ q) : Progress pos r :=
  ⟨h.1, fun a p hp => le_trans hle (h.2 a p hp)⟩

theorem Progress.bind {α β : Type} {pos q : Nat} {x : Outcome (α × Nat)}
    {f : α × Nat → Outcome (β × Nat)} (hx : Progress q x)
    (hf : ∀ a p, q ≤ p → x = .ok (a, p) → Progress pos (f (a, p))) :
    Progress pos (x.bind f) := by
  cases x with
  | ok r =>
    obtain ⟨a, p⟩ := r
    exact hf a p (hx.2 a p rfl) rfl
  | error msg => exact Progress.of_error pos msg
  | panic => exact Progress.of_panic pos
  | outOfFuel => exact absurd rfl hx.1

theorem lt_length_of_getElem? {α : Type} {l : List α} {i : Nat} {a : α} (h : l[i]? = some a) :
    i < l.length := by
  by_contra hcon
  rw [List.getElem?_eq_none (by omega)] at h
  cases h

/-- The budget each parser function needs at position `pos`: four units per unread token
and a rank that orders the functions along the call chains that consume nothing. -/
theorem parser_fuel_adequate (tokens : List Token) :
    ∀ n : Nat,
      (∀ pos, 4 * (tokens.length - pos) + 5 ≤ n →
        Progress pos (parseLogicalExpression n tokens pos)) ∧
      (∀ pos left, 4 * (tokens.length - pos) + 1 ≤ n →
        Progress pos (parseLogicalLoop n tokens pos left)) ∧
      (∀ pos, 4 * (tokens.length - pos) + 4 ≤ n →
        Progress pos (parseComparisonExpression n tokens pos)) ∧
      (∀ pos, 4 * (tokens.length - pos) + 3 ≤ n → Progress pos (additive n tokens pos)) ∧
      (∀ pos acc, 4 * (tokens.length - pos) + 1 ≤ n →
        Progress pos (additiveLoop n tokens pos acc)) ∧
      (∀ pos, 4 * (tokens.length - pos) + 2 ≤ n → Progress pos (term n tokens pos)) ∧
      (∀ pos acc, 4 * (tokens.length - pos) + 1 ≤ n →
        Progress pos (termLoop n tokens pos acc)) ∧
      (∀ pos, 4 * (tokens.length - pos) + 1 ≤ n → Progress pos (factor n tokens pos)) ∧
      (∀ pos args, 4 * (tokens.length - pos) + 6 ≤ n →
        Progress pos (factorArgs n tokens pos args)) := by
  intro n
  induction n with
  | zero =>
    refine ⟨?_, ?_, ?_, ?_, ?_, ?_, ?_, ?_, ?_⟩ <;> intros <;> omega
  | succ n ih =>
    obtain ⟨ihLog, ihLogLoop, ihCmp, ihAdd, ihAddLoop, ihTerm, ihTermLoop, ihFactor, ihArgs⟩ := ih
    refine ⟨?_, ?_, ?_, ?_, ?_, ?_, ?_, ?_, ?_⟩
    · -- parseLogicalExpression
      intro pos h
      rw [parseLogicalExpression.eq_def]
      simp only []
      exact Progress.bind (ihCmp pos (by omega)) fun a p hp _ =>
        (ihLogLoop p a (by omega)).mono hp
    · -- parseLogicalLoop
      intro pos left h
      rw [parseLogicalLoop.eq_def]
      simp only []
      cases htok : tokens[pos]? with
      | none => exact Progress.of_ok _ (le_refl _)
      | some tok =>
        have hlt := lt_length_of_getElem? htok
        simp only []
        cases hT : tok.Typ
        case And =>
          exact Progress.bind (ihCmp (pos + 1) (by omega)) fun a p hp _ =>
            (ihLogLoop p _ (by omega)).mono (by omega)
        case Or =>
          exact Progress.bind (ihCmp (pos + 1) (by omega)) fun a p hp _ =>
            (ihLogLoop p _ (by omega)).mono (by omega)
        all_goals exact Progress.of_ok _ (le_refl _)
    · -- parseComparisonExpression
      intro pos h
      rw [parseComparisonExpression.eq_def]
      simp only []
      cases htok : tokens[pos]? with
      | none => exact Progress.of_error _ _
      | some tok =>
        have hlt := lt_length_of_getElem? htok
        simp only []
        by_cases hN : tok.Typ = .Not
        · rw [if_pos hN]
          exact Progress.bind (ihCmp (pos + 1) (by omega)) fun a p hp _ =>
            Progress.of_ok _ (by omega)
        rw [if_neg hN]
        by_cases hP : tok.Typ = .OpenParen
        · rw [if_pos hP]
          refine @Progress.bind _ _ pos (pos + 1) _ _ ?_ ?_
          · cases hL : parseLogicalExpression n tokens (pos + 1) with
            | ok r =>
              have := ihLog (pos + 1) (by omega)
              rw [hL] at this
              exact this
            | error msg => exact ihAdd (pos + 1) (by omega)
            | panic => exact Progress.of_panic _
            | outOfFuel => exact absurd hL (ihLog (pos + 1) (by omega)).1
          · intro a p hp _
            simp only []
            cases hc : tokens[p]? with
            | none => exact Progress.of_error _ _
            | some close =>
              simp only []
              by_cases hC : close.Typ ≠ .CloseParen
              · rw [if_pos hC]
                exact Progress.of_error _ _
              rw [if_neg hC]
              cases ho : tokens[p + 1]? with
              | none => exact Progress.of_ok _ (by omega)
              | some op =>
                simp only []
                cases hn : comparisonName op.Typ with
                | none => exact Progress.of_ok _ (by omega)
                | some name =>
                  exact Progress.bind (ihAdd (p + 2) (by omega)) fun a2 p2 hp2 _ =>
                    Progress.of_ok _ (by omega)
        rw [if_neg hP]
        refine Progress.bind (ihAdd pos (by omega)) fun a p hp _ => ?_
        simp only []
        cases ho : tokens[p]? with
        | none => exact Progress.of_ok _ hp
        | some op =>
          have hlt2 := lt_length_of_getElem? ho
          simp only []
          cases hn : comparisonName op.Typ with
          | none => exact Progress.of_ok _ hp
          | some name =>
            exact Progress.bind (ihAdd (p + 1) (by omega)) fun a2 p2 hp2 _ =>
              Progress.of_ok _ (by omega)
    · -- additive
      intro pos h
      rw [additive.eq_def]
      simp only []
      exact Progress.bind (ihTerm pos (by omega)) fun a p hp _ =>
        (ihAddLoop p a (by omega)).mono hp
    · -- additiveLoop
      intro pos acc h
      rw [additiveLoop.eq_def]
      simp only []
      cases htok : tokens[pos]? with
      | none => exact Progress.of_ok _ (le_refl _)
      | some tok =>
        have hlt := lt_length_of_getElem? htok
        simp only []
        cases hT : tok.Typ
        case Add =>
          exact Progress.bind (ihTerm (pos + 1) (by omega)) fun a p hp _ =>
            (ihAddLoop p _ (by omega)).mono (by omega)
        case Sub =>
          exact Progress.bind (ihTerm (pos + 1) (by omega)) fun a p hp _ =>
            (ihAddLoop p _ (by omega)).mono (by omega)
        all_goals exact Progress.of_ok _ (le_refl _)
    · -- term
      intro pos h
      rw [term.eq_def]
      simp only []
      exact Progress.bind (ihFactor pos (by omega)) fun a p hp _ =>
        (ihTermLoop p a (by omega)).mono hp
    · -- termLoop
      intro pos acc h
      rw [termLoop.eq_def]
      simp only []
      cases htok : tokens[pos]? with
      | none => exact Progress.of_ok _ (le_refl _)
      | some tok =>
        have hlt := lt_length_of_getElem? htok
        simp only []
        cases hT : tok.Typ
        case Mul =>
          exact Progress.bind (ihFactor (pos + 1) (by omega)) fun a p hp _ =>
            (ihTermLoop p _ (by omega)).mono (by omega)
        case Div =>
          exact Progress.bind (ihFactor (pos + 1) (by omega)) fun a p hp _ =>
            (ihTermLoop p _ (by omega)).mono (by omega)
        case Mod =>
          exact Progress.bind (ihFactor (pos + 1) (by omega)) fun a p hp _ =>
            (ihTermLoop p _ (by omega)).mono (by omega)
        all_goals exact Progress.of_ok _ (le_refl _)
    · -- factor
      intro pos h
      rw [factor.eq_def]
      simp only []
      cases htok : tokens[pos]? with
      | none => exact Progress.of_panic _
      | some tok =>
        have hlt := lt_length_of_getElem? htok
        simp only []
        by_cases hP : tok.Typ = .OpenParen
        · rw [if_pos hP]
          refine Progress.bind (ihAdd (pos + 1) (by omega)) fun a p hp _ => ?_
          simp only []
          cases hc : tokens[p]? with
          | none => exact Progress.of_panic _
          | some close =>
            simp only []
            by_cases hC : close.Typ ≠ .CloseParen
            · rw [if_pos hC]
              exact Progress.of_error _ _
            · rw [if_neg hC]
              exact Progress.of_ok _ (by omega)
        rw [if_neg hP]
        by_cases hA : tok.Typ = .At
        · rw [if_pos hA]
          cases h1 : tokens[pos + 1]? with
          | none => exact Progress.of_panic _
          | some nameTok =>
            simp only []
            by_cases hI : nameTok.Typ ≠ .Identifier
            · rw [if_pos hI]
              exact Progress.of_error _ _
            rw [if_neg hI]
            cases h2 : tokens[pos + 2]? with
            | none => exact Progress.of_panic _
            | some open_ =>
              have hlt2 := lt_length_of_getElem? h2
              simp only []
              by_cases hO : open_.Typ ≠ .OpenParen
              · rw [if_pos hO]
                exact Progress.of_error _ _
              rw [if_neg hO]
              refine Progress.bind (ihArgs (pos + 3) [] (by omega)) fun a p hp _ => ?_
              simp only []
              cases hc : tokens[p]? with
              | none => exact Progress.of_panic _
              | some close =>
                simp only []
                by_cases hC : close.Typ ≠ .CloseParen
                · rw [if_pos hC]
                  exact Progress.of_error _ _
                · rw [if_neg hC]
                  exact Progress.of_ok _ (by omega)
        rw [if_neg hA]
        by_cases hD : tok.Typ = .Dollar
        · rw [if_pos hD]
          cases h1 : tokens[pos + 1]? with
          | none => exact Progress.of_panic _
          | some nameTok =>
            simp only []
            by_cases hI : nameTok.Typ ≠ .Identifier
            · rw [if_pos hI]
              exact Progress.of_error _ _
            rw [if_neg hI]
            cases h2 : tokens[pos + 2]? with
            | none => exact Progress.of_ok _ (by omega)
            | some next =>
              have hlt2 := lt_length_of_getElem? h2
              simp only []
              by_cases hAdd : next.Typ = .Add
              · rw [if_pos hAdd]
                exact Progress.bind (ihTerm (pos + 3) (by omega)) fun a p hp _ =>
                  Progress.of_ok _ (by omega)
              · rw [if_neg hAdd]
                exact Progress.of_ok _ (by omega)
        rw [if_neg hD]
        by_cases hLit : tok.Typ = .Literal
        · rw [if_pos hLit]
          exact Progress.of_ok _ (by omega)
        · rw [if_neg hLit]
          exact Progress.of_error _ _
    · -- factorArgs
      intro pos args h
      rw [factorArgs.eq_def]
      simp only []
      cases htok : tokens[pos]? with
      | none => exact Progress.of_panic _
      | some tok =>
        simp only []
        by_cases hC : tok.Typ = .CloseParen
        · rw [if_pos hC]
          exact Progress.of_ok _ (le_refl _)
        rw [if_neg hC]
        refine Progress.bind (ihLog pos (by omega)) fun a p hp _ => ?_
        simp only []
        cases hs : tokens[p]? with
        | none => exact Progress.of_panic _
        | some sep =>
          have hlt2 := lt_length_of_getElem? hs
          simp only []
          by_cases hC2 : sep.Typ = .CloseParen
          · rw [if_pos hC2]
            exact Progress.of_ok _ hp
          rw [if_neg hC2]
          by_cases hComma : sep.Typ ≠ .Comma
          · rw [if_pos hComma]
            exact Progress.of_error _ _
          rw [if_neg hComma]
          exact (ihArgs (p + 1) _ (by omega)).mono (by omega)

/-- Go `parser.parse` terminates on every token sequence: the model never runs out of
fuel. -/
theorem parseTokens_fuel_adequate (tokens : List Token) : parseTokens tokens ≠ .outOfFuel :=
  ((parser_fuel_adequate tokens (parseFuel tokens)).1 0 (by
    unfold parseFuel
    omega)).1

/-- Go `Parse` terminates on every input: the model never runs out of fuel. -/
theorem Parse_fuel_adequate (input : String) : Parse input ≠ .outOfFuel := by
  unfold Parse
  cases ht : tokenize input with
  | ok tokens =>
    rw [Outcome.bind_ok]
    cases hp : parseTokens tokens with
    | ok r => exact fun hcon => Outcome.noConfusion hcon
    | error msg => exact fun hcon => Outcome.noConfusion hcon
    | panic => exact fun hcon => Outcome.noConfusion hcon
    | outOfFuel => exact absurd hp (parseTokens_fuel_adequate tokens)
  | error msg => exact fun hcon => Outcome.noConfusion hcon
  | panic => exact fun hcon => Outcome.noConfusion hcon
  | outOfFuel => exact absurd ht (tokenize_fuel_adequate input)

/-! ## Adequacy of the call-tree parser budget -/

theorem Outcome.bind_ne_outOfFuel {α β : Type} (x : Outcome α) (f : α → Outcome β)
    (hx : x ≠ .outOfFuel) (hf : ∀ a, x = .ok a → f a ≠ .outOfFuel) :
    x.bind f ≠ .outOfFuel := by
  cases x with
  | ok a => exact hf a rfl
  | error msg => exact fun hcon => Outcome.noConfusion hcon
  | panic => exact fun hcon => Outcome.noConfusion hcon
  | outOfFuel => exact absurd rfl hx

theorem Outcome.mapM_ne_outOfFuel {α β : Type} (f : α → Outcome β) (l : List α)
    (h : ∀ a ∈ l, f a ≠ .outOfFuel) : Outcome.mapM f l ≠ .outOfFuel := by
  induction l with
  | nil => exact fun hcon => Outcome.noConfusion hcon
  | cons a l ih =>
    rw [Outcome.mapM]
    refine Outcome.bind_ne_outOfFuel _ _ (h a (by simp)) fun b _ => ?_
    refine Outcome.bind_ne_outOfFuel _ _ (ih fun x hx => h x (by simp [hx])) fun bs _ => ?_
    exact fun hcon => Outcome.noConfusion hcon

/-! ## White space at the ends of a text -/

theorem spaceRune2_second (b0 b1 : Nat) (h : b1 < 128 ∨ 170 ≤ b1) : spaceRune2 b0 b1 = false := by
  simp only [spaceRune2, Bool.and_eq_false_iff, Bool.or_eq_false_iff, beq_eq_false_iff_ne]
  omega

theorem spaceRune3_second (b0 b1 b2 : Nat) (h : b1 < 128 ∨ 170 ≤ b1) :
    spaceRune3 b0 b1 b2 = false := by
  simp only [spaceRune3, Bool.and_eq_false_iff, Bool.or_eq_false_iff, beq_eq_false_iff_ne]
  omega

theorem spaceRune2_last (b0 b1 : Nat) (h : b1 < 128 ∨ 176 ≤ b1 ∨ b1 = 170) :
    spaceRune2 b0 b1 = false := by
  simp only [spaceRune2, Bool.and_eq_false_iff, Bool.or_eq_false_iff, beq_eq_false_iff_ne]
  omega

theorem spaceRune3_last (b0 b1 b2 : Nat) (h : b2 < 128 ∨ 176 ≤ b2 ∨ b2 = 170) :
    spaceRune3 b0 b1 b2 = false := by
  simp only [spaceRune3, Bool.and_eq_false_iff, Bool.or_eq_false_iff, beq_eq_false_iff_ne,
    decide_eq_false_iff_not, Bool.and_eq_true, decide_eq_true_eq, not_and, not_le]
  omega

theorem spaceRune2_first (b0 b1 : Nat) (h : b0 < 128) : spaceRune2 b0 b1 = false := by
  simp only [spaceRune2, Bool.and_eq_false_iff, Bool.or_eq_false_iff, beq_eq_false_iff_ne]
  omega

theorem spaceRune3_first (b0 b1 b2 : Nat) (h : b0 < 128) : spaceRune3 b0 b1 b2 = false := by
  simp only [spaceRune3, Bool.and_eq_false_iff, Bool.or_eq_false_iff, beq_eq_false_iff_ne]
  omega

theorem spaceWidth_head_ascii (c : Char) (rest : List Char) (hs : isSpace c = false)
    (hlt : c.toNat < 128) : spaceWidth (c :: rest) = 0 := by
  have h0 : byteAt (c :: rest) 0 = c.toNat := rfl
  unfold spaceWidth
  rw [if_neg (by simp [hs]), h0, spaceRune2_first _ _ hlt, spaceRune3_first _ _ _ hlt]
  rfl

theorem spaceWidth_second (c : Char) (rest : List Char) (hs : isSpace c = false)
    (h : ∀ d, rest.head? = some d → d.toNat < 128 ∨ 170 ≤ d.toNat) :
    spaceWidth (c :: rest) = 0 := by
  have h1 : byteAt (c :: rest) 1 < 128 ∨ 170 ≤ byteAt (c :: rest) 1 := by
    cases rest with
    | nil => exact Or.inl (show (0 : Nat) < 128 by decide)
    | cons d rest => exact h d rfl
  unfold spaceWidth
  rw [if_neg (by simp [hs]), spaceRune2_second _ _ h1, spaceRune3_second _ _ _ h1]
  rfl

theorem lastSpaceWidth_eq_zero (s : List Char)
    (h : ∀ c, s.getLast? = some c →
      isSpace c = false ∧ (c.toNat < 128 ∨ 176 ≤ c.toNat ∨ c.toNat = 170)) :
    lastSpaceWidth s = 0 := by
  have h0 : byteAt s.reverse 0 < 128 ∨ 176 ≤ byteAt s.reverse 0 ∨ byteAt s.reverse 0 = 170 := by
    have hh : s.reverse.head? = s.getLast? := List.head?_reverse s
    cases hr : s.reverse with
    | nil => exact Or.inl (by decide)
    | cons c rest =>
      rw [hr] at hh
      exact (h c hh.symm).2
  have hsp : s.getLast?.any isSpace = false := by
    cases hl : s.getLast? with
    | none => rfl
    | some c => exact (h c hl).1
  unfold lastSpaceWidth
  rw [hsp, spaceRune2_last _ _ h0, spaceRune3_last _ _ _ h0]
  rfl

theorem trimLeft_eq_self (n : Nat) (s : List Char) (h : spaceWidth s = 0) :
    trimLeft n s = s := by
  cases n with
  | zero => rfl
  | succ n => rw [trimLeft, if_pos h]

theorem trimRight_eq_self (n : Nat) (s : List Char) (h : lastSpaceWidth s = 0) :
    trimRight n s = s := by
  cases n with
  | zero => rfl
  | succ n => rw [trimRight, if_pos h]

theorem length_trimLeft_le : ∀ (n : Nat) (s : List Char), (trimLeft n s).length ≤ s.length := by
  intro n
  induction n with
  | zero => intro s; exact Nat.le_refl _
  | succ n ih =>
    intro s
    rw [trimLeft]
    split_ifs
    · exact Nat.le_refl _
    · refine Nat.le_trans (ih _) ?_
      rw [List.length_drop]
      omega

theorem length_trimRight_le :
    ∀ (n : Nat) (s : List Char), (trimRight n s).length ≤ s.length := by
  intro n
  induction n with
  | zero => intro s; exact Nat.le_refl _
  | succ n ih =>
    intro s
    rw [trimRight]
    split_ifs
    · exact Nat.le_refl _
    · refine Nat.le_trans (ih _) ?_
      rw [List.length_take]
      omega

theorem trimLeft_done :
    ∀ (n : Nat) (s : List Char), s.length ≤ n → spaceWidth (trimLeft n s) = 0 := by
  intro n
  induction n with
  | zero =>
    intro s h
    have : s = [] := List.length_eq_zero.1 (by omega)
    subst this
    rfl
  | succ n ih =>
    intro s h
    rw [trimLeft]
    split_ifs with hw
    · exact hw
    · apply ih
      rw [List.length_drop]
      cases s with
      | nil => exact absurd rfl hw
      | cons c cs =>
        simp only [List.length_cons] at h ⊢
        omega

theorem trimRight_done :
    ∀ (n : Nat) (s : List Char), s.length ≤ n → lastSpaceWidth (trimRight n s) = 0 := by
  intro n
  induction n with
  | zero =>
    intro s h
    have : s = [] := List.length_eq_zero.1 (by omega)
    subst this
    rfl
  | succ n ih =>
    intro s h
    rw [trimRight]
    split_ifs with hw
    · exact hw
    · apply ih
      rw [List.length_take]
      cases s with
      | nil => exact absurd rfl hw
      | cons c cs =>
        simp only [List.length_cons] at h ⊢
        omega

theorem spaceWidth_append_colon (s t : List Char) (h : spaceWidth s = 0) :
    spaceWidth (s ++ ':' :: t) = 0 := by
  cases s with
  | nil => exact spaceWidth_head_ascii ':' t (by decide) (by decide)
  | cons c s1 =>
    have hs : isSpace c = false := by
      cases hsp : isSpace c with
      | false => rfl
      | true =>
        unfold spaceWidth at h
        rw [if_pos (by simp [hsp])] at h
        omega
    cases s1 with
    | nil => exact spaceWidth_second c _ hs (fun d hd => by cases hd; decide)
    | cons d s2 =>
      cases s2 with
      | nil =>
        unfold spaceWidth at h ⊢
        rw [if_neg (by simp [hs])] at h ⊢
        have e0 : byteAt ([c, d] ++ ':' :: t) 0 = byteAt [c, d] 0 := rfl
        have e1 : byteAt ([c, d] ++ ':' :: t) 1 = byteAt [c, d] 1 := rfl
        have e2 : byteAt ([c, d] ++ ':' :: t) 2 = 58 := rfl
        rw [e0, e1, e2]
        by_cases h2 : spaceRune2 (byteAt [c, d] 0) (byteAt [c, d] 1) = true
        · rw [if_pos h2] at h
          omega
        · rw [if_neg h2, spaceRune3_last _ _ 58 (Or.inl (by decide))]
          rfl
      | cons e s3 =>
        unfold spaceWidth at h ⊢
        exact h

theorem TrimSpace_examples :
    TrimSpace " \t a b \n" = "a b" ∧
    TrimSpace (String.mk (nbsp ++ [Char.ofNat 0xE3, Char.ofNat 0x80, Char.ofNat 0x80, 'x',
      Char.ofNat 0xE2, Char.ofNat 0x80, Char.ofNat 0x8A, Char.ofNat 0xC2, Char.ofNat 0x85])) =
        "x" ∧
    TrimSpace (String.mk [Char.ofNat 0xE1, Char.ofNat 0x9A, Char.ofNat 0x80, 'x',
      Char.ofNat 0xE2, Char.ofNat 0x81, Char.ofNat 0x9F]) = "x" ∧
    TrimSpace (String.mk [Char.ofNat 0xE2, Char.ofNat 0x80, Char.ofNat 0xA8, 'x',
      Char.ofNat 0xE2, Char.ofNat 0x80, Char.ofNat 0xAF, Char.ofNat 0xE2, Char.ofNat 0x80,
      Char.ofNat 0xA9]) = "x" ∧
    TrimSpace (String.mk [Char.ofNat 0xE2, Char.ofNat 0x80, Char.ofNat 0xA0]) =
      String.mk [Char.ofNat 0xE2, Char.ofNat 0x80, Char.ofNat 0xA0] ∧
    TrimSpace (String.mk [Char.ofNat 0xE2, Char.ofNat 0x80, Char.ofNat 0x8B]) =
      String.mk [Char.ofNat 0xE2, Char.ofNat 0x80, Char.ofNat 0x8B] ∧
    TrimSpace (String.mk [Char.ofNat 0xA0, 'x', Char.ofNat 0xA0]) =
      String.mk [Char.ofNat 0xA0, 'x', Char.ofNat 0xA0] ∧
    TrimSpace (String.mk [Char.ofNat 0xC2, 'x', Char.ofNat 0xC2]) =
      String.mk [Char.ofNat 0xC2, 'x', Char.ofNat 0xC2] ∧
    TrimSpace "  " = "" := by
  decide

theorem length_TrimSpace_le (s : String) : (TrimSpace s).data.length ≤ s.data.length := by
  unfold TrimSpace
  exact Nat.le_trans (length_trimRight_le _ _) (length_trimLeft_le _ _)

theorem length_splitParams_le (paramList : List Char) :
    ∀ (level : Int) (cur : List Char) (pieces : List String) (bound : Nat),
      cur.length + paramList.length ≤ bound →
      (∀ piece ∈ pieces, piece.data.length ≤ bound) →
      ∀ piece ∈ splitParams paramList level cur pieces, piece.data.length ≤ bound := by
  induction paramList with
  | nil =>
    intro level cur pieces bound hb hp piece hmem
    simp only [splitParams, List.mem_append, List.mem_singleton] at hmem
    rcases hmem with hmem | rfl
    · exact hp piece hmem
    · simp only [List.length_nil] at hb
      show cur.length ≤ bound
      omega
  | cons ch rest ih =>
    intro level cur pieces bound hb hp piece hmem
    simp only [List.length_cons] at hb
    have hcur : (cur ++ [ch]).length + rest.length ≤ bound := by
      simp only [List.length_append, List.length_singleton]
      omega
    have hpieces : ∀ q ∈ pieces ++ [String.mk cur], q.data.length ≤ bound := by
      intro q hq
      simp only [List.mem_append, List.mem_singleton] at hq
      rcases hq with hq | rfl
      · exact hp q hq
      · show cur.length ≤ bound
        omega
    rw [splitParams] at hmem
    split_ifs at hmem
    · exact ih _ _ _ bound hcur hp piece hmem
    · exact ih _ _ _ bound hcur hp piece hmem
    · exact ih _ _ _ bound (by simp only [List.length_nil]; omega) hpieces piece hmem
    · exact ih _ _ _ bound hcur hp piece hmem
    · exact ih _ _ _ bound hcur hp piece hmem

theorem lastIndexByte_lt (s : List Char) (c : Char) (r : Nat)
    (h : lastIndexByte s c = some r) : r < s.length := by
  unfold lastIndexByte at h
  split_ifs at h with hlt
  cases h
  omega

theorem parseVar_ne_outOfFuel (L : Lib) (arg : String) : parseVar L arg ≠ .outOfFuel := by
  unfold parseVar
  cases arg.data with
  | nil => exact fun hcon => Outcome.noConfusion hcon
  | cons c rest =>
    simp only []
    split_ifs <;> exact fun hcon => Outcome.noConfusion hcon

/-- The call-tree parser never exhausts a budget larger than the length of its text: a nested
call is parsed from a text at least two bytes shorter. -/
theorem callTree_fuel_adequate (L : Lib) :
    ∀ n : Nat,
      (∀ expr : String, expr.data.length + 1 ≤ n →
        ParseFunctionExpression L n expr ≠ .outOfFuel) ∧
      (∀ arg : String, arg.data.length + 2 ≤ n → parseArgument L n arg ≠ .outOfFuel) := by
  intro n
  induction n with
  | zero => exact ⟨fun _ h => by omega, fun _ h => by omega⟩
  | succ n ih =>
    obtain ⟨ihCall, ihArg⟩ := ih
    constructor
    · intro expr h
      rw [ParseFunctionExpression.eq_def]
      simp only []
      cases hleft : indexByte expr.data '(' with
      | none =>
        simp only []
        exact Outcome.bind_ne_outOfFuel _ _ (parseVar_ne_outOfFuel L expr) fun _ _ hcon =>
          Outcome.noConfusion hcon
      | some left =>
        cases hright : lastIndexByte expr.data ')' with
        | none =>
          simp only []
          exact Outcome.bind_ne_outOfFuel _ _ (parseVar_ne_outOfFuel L expr) fun _ _ hcon =>
            Outcome.noConfusion hcon
        | some right =>
          have hr := lastIndexByte_lt _ _ _ hright
          simp only []
          split_ifs with hlt
          · exact fun hcon => Outcome.noConfusion hcon
          · cases hf : funcMap L (TrimSpace (String.mk (expr.data.take left))) with
            | none => exact fun hcon => Outcome.noConfusion hcon
            | some f =>
              simp only []
              refine Outcome.bind_ne_outOfFuel _ _ ?_ fun _ _ hcon => Outcome.noConfusion hcon
              refine Outcome.mapM_ne_outOfFuel _ _ fun piece hpiece => ?_
              have hbound := length_splitParams_le ((expr.data.take right).drop (left + 1)) 0 []
                [] (expr.data.length - 2) (by
                  simp only [List.length_nil, List.length_drop, List.length_take]
                  omega) (by simp) piece hpiece
              have htrim := length_TrimSpace_le piece
              exact ihArg _ (by omega)
    · intro arg h
      rw [parseArgument.eq_def]
      simp only []
      by_cases hcall : arg.data.contains '(' = true
      · rw [if_pos hcall]
        exact Outcome.bind_ne_outOfFuel _ _ (ihCall arg (by omega)) fun _ _ hcon =>
          Outcome.noConfusion hcon
      · rw [if_neg hcall]
        split
        · exact fun hcon => Outcome.noConfusion hcon
        · split_ifs <;> exact fun hcon => Outcome.noConfusion hcon

/-- Go `ParseExpression` terminates on every input: the model never runs out of fuel. -/
theorem ParseExpression_fuel_adequate (L : Lib) (expr : String) :
    ParseExpression L expr ≠ .outOfFuel := by
  unfold ParseExpression
  refine Outcome.bind_ne_outOfFuel _ _ (Parse_fuel_adequate expr) fun canonical _ => ?_
  exact (callTree_fuel_adequate L (callFuel canonical)).1 canonical (by
    unfold callFuel
    omega)

/-! ## Lexemes -/

theorem LexesTo.append {f1 f2 : List Char → Bool} {s1 s2 : List Char} {t1 t2 : List Token}
    (h1 : LexesTo f1 s1 t1) (h2 : LexesTo f2 s2 t2)
    (hf : ∀ rest, f2 rest = true → f1 (s2 ++ rest) = true) :
    LexesTo f2 (s1 ++ s2) (t1 ++ t2) := by
  intro rest hrest
  obtain ⟨k2, hk2⟩ := h2 rest hrest
  obtain ⟨k1, hk1⟩ := h1 (s2 ++ rest) (hf rest hrest)
  refine ⟨k2 + k1, fun fuel acc => ?_⟩
  rw [← Nat.add_assoc, List.append_assoc, hk1, hk2, List.append_assoc]

theorem LexesTo.weaken {f g : List Char → Bool} {s : List Char} {toks : List Token}
    (h : LexesTo f s toks) (hg : ∀ rest, g rest = true → f rest = true) : LexesTo g s toks :=
  fun rest hrest => h rest (hg rest hrest)

/-- A lexeme sequence that may stand at the end of the input is tokenized by `tokenize`. -/
theorem LexesTo.tokenize {f : List Char → Bool} {s : List Char} {toks : List Token}
    (h : LexesTo f s toks) (hend : f [] = true) : tokenize (String.mk s) = .ok toks := by
  obtain ⟨k, hk⟩ := h [] hend
  have h1 := hk 1 []
  rw [List.append_nil] at h1
  exact tokenize_eq_of_loop (String.mk s) (1 + k) _ (by rw [h1]; rfl)
    (fun hcon => Outcome.noConfusion hcon)

theorem lexes_nil (f : List Char → Bool) : LexesTo f [] [] :=
  fun rest _ => ⟨0, fun fuel acc => by simp⟩

/-- A byte that is a token by itself, whatever follows. -/
theorem lexes_single (c : Char) (tok : Token)
    (h : ∀ fuel rest acc, tokenizeLoop (fuel + 1) (c :: rest) acc =
      tokenizeLoop fuel rest (acc ++ [tok])) :
    LexesTo followAny [c] [tok] :=
  fun rest _ => ⟨1, fun fuel acc => h fuel rest acc⟩

theorem lexes_open : LexesTo followAny ['('] [⟨.OpenParen, "("⟩] :=
  lexes_single _ _ fun _ _ _ => rfl

theorem lexes_close : LexesTo followAny [')'] [⟨.CloseParen, ")"⟩] :=
  lexes_single _ _ fun _ _ _ => rfl

theorem lexes_at : LexesTo followAny ['@'] [⟨.At, "@"⟩] :=
  lexes_single _ _ fun _ _ _ => rfl

theorem lexes_comma : LexesTo followAny [','] [⟨.Comma, ","⟩] :=
  lexes_single _ _ fun _ _ _ => rfl

theorem lexes_arithOp (op : ArithOp) : LexesTo followAny [op.char] [op.token] :=
  lexes_single _ _ fun fuel rest acc => tokenizeLoop_arithOp op fuel rest acc

theorem lexes_space : LexesTo followAny [' '] [] :=
  fun rest _ => ⟨1, fun fuel acc => by
    rw [List.append_nil]
    rfl⟩

theorem lexes_spaces (k : Nat) : LexesTo followAny (List.replicate k ' ') [] := by
  induction k with
  | zero => exact lexes_nil _
  | succ k ih =>
    have h := LexesTo.append lexes_space ih (fun _ _ => rfl)
    simpa [List.replicate_succ] using h

theorem lexes_and : LexesTo followAny ['&', '&'] [⟨.And, "&&"⟩] :=
  fun _ _ => ⟨1, fun _ _ => rfl⟩

theorem lexes_or : LexesTo followAny ['|', '|'] [⟨.Or, "||"⟩] :=
  fun _ _ => ⟨1, fun _ _ => rfl⟩

theorem lexes_not : LexesTo followNotEq ['!'] [⟨.Not, "!"⟩] := by
  intro rest hrest
  cases rest with
  | nil => simp [followNotEq] at hrest
  | cons d rest2 =>
    have hd : d ≠ '=' := by simpa [followNotEq] using hrest
    refine ⟨1, fun fuel acc => ?_⟩
    show (if d = '=' then _ else _) = _
    rw [if_neg hd]
    rfl

theorem lexes_cmpOp (op : CmpOp) : LexesTo followNotEq op.text [op.token] := by
  intro rest hrest
  cases rest with
  | nil => simp [followNotEq] at hrest
  | cons d rest2 =>
    have hd : d ≠ '=' := by simpa [followNotEq] using hrest
    refine ⟨1, fun fuel acc => ?_⟩
    cases op
    · rfl
    · rfl
    · show (if d = '=' then _ else _) = _
      rw [if_neg hd]
      rfl
    · rfl
    · show (if d = '=' then _ else _) = _
      rw [if_neg hd]
      rfl
    · rfl

theorem lexes_infixOp (op : InfixOp) : LexesTo followNotEq op.text [op.token] := by
  cases op with
  | arith o => exact (lexes_arithOp o).weaken fun _ _ => rfl
  | and => exact lexes_and.weaken fun _ _ => rfl
  | or => exact lexes_or.weaken fun _ _ => rfl
  | cmp o => exact lexes_cmpOp o

theorem lexes_numeral (ds : List Char) (h : isNumeral ds = true) :
    LexesTo scanStops ds [⟨.Literal, String.mk ds ++ ":int"⟩] :=
  fun rest hrest => ⟨1, fun fuel acc => tokenizeLoop_literal ds rest fuel acc h hrest⟩

theorem lexes_identifier (name : List Char) (h : isIdentifier name = true) :
    LexesTo scanStops name [⟨.Identifier, String.mk name⟩] := by
  intro rest hrest
  refine ⟨1, fun fuel acc => ?_⟩
  cases name with
  | nil => simp [isIdentifier, Operand.wellFormed] at h
  | cons c cs =>
    simp only [isIdentifier, Operand.wellFormed, Bool.and_eq_true] at h
    have hall : ∀ x ∈ c :: cs, isIdentChar x = true := by
      intro x hx
      rcases List.mem_cons.1 hx with rfl | hx
      · simp [isIdentChar, h.1]
      · exact List.all_eq_true.1 h.2 x hx
    have hspan := takeWhile_append_of_stop isIdentChar (c :: cs) rest hall
      (scanStops_ident rest hrest)
    rw [List.cons_append, tokenizeLoop_letter c (cs ++ rest) fuel acc h.1, ← List.cons_append,
      hspan.1, hspan.2]

theorem lexes_variable (name : List Char) (h : isIdentifier name = true) :
    LexesTo scanStops ('$' :: name) [⟨.Dollar, "$"⟩, ⟨.Identifier, String.mk name⟩] :=
  fun rest hrest => ⟨2, fun fuel acc => tokenizeLoop_variable name rest fuel acc h hrest⟩

theorem lexes_string (body : List Char) (h : body.contains '"' = false) :
    LexesTo followAny ('"' :: (body ++ ['"'])) [⟨.Literal, String.mk body ++ ":str"⟩] := by
  intro rest _
  refine ⟨1, fun fuel acc => ?_⟩
  have hall : ∀ x ∈ body, (fun d : Char => d != '"') x = true := by
    intro x hx
    have hne : x ≠ '"' := by
      rintro rfl
      have : body.contains '"' = true := List.elem_eq_true_of_mem hx
      rw [h] at this
      cases this
    simpa using hne
  have hspan := takeWhile_append_of_stop (fun d : Char => d != '"') body ('"' :: rest) hall
    (by simp)
  show (match ((body ++ ['"']) ++ rest).dropWhile (fun d => d != '"') with
    | [] => _
    | _ :: rest2 => tokenizeLoop fuel rest2
        (acc ++ [(⟨.Literal,
          String.mk (((body ++ ['"']) ++ rest).takeWhile (fun d => d != '"')) ++ ":str"⟩ :
            Token)])) = _
  rw [List.append_assoc, List.singleton_append, hspan.1, hspan.2]

theorem numberChar_of_numeral (ds : List Char) (h : isNumeral ds = true) :
    ∀ x ∈ ds, isNumberChar x = true := by
  intro x hx
  cases ds with
  | nil => cases hx
  | cons c cs =>
    simp only [isNumeral, Operand.wellFormed, Bool.and_eq_true] at h
    have hx2 : isDigit x = true := by
      rcases List.mem_cons.1 hx with rfl | hx
      · exact h.1
      · exact List.all_eq_true.1 h.2 x hx
    simp [isNumberChar, hx2]

theorem lexes_float (whole frac : List Char) (hw : isNumeral whole = true)
    (hf : isNumeral frac = true) :
    LexesTo scanStops (whole ++ '.' :: frac)
      [⟨.Literal, String.mk (whole ++ '.' :: frac) ++ ":float"⟩] := by
  intro rest hrest
  refine ⟨1, fun fuel acc => ?_⟩
  cases whole with
  | nil => simp [isNumeral, Operand.wellFormed] at hw
  | cons c cs =>
    have hc : isDigit c = true := by
      simp only [isNumeral, Operand.wellFormed, Bool.and_eq_true] at hw
      exact hw.1
    have hall : ∀ x ∈ (c :: cs) ++ '.' :: frac, isNumberChar x = true := by
      intro x hx
      rcases List.mem_append.1 hx with hx | hx
      · exact numberChar_of_numeral _ hw x hx
      · rcases List.mem_cons.1 hx with rfl | hx
        · rfl
        · exact numberChar_of_numeral _ hf x hx
    have hspan := takeWhile_append_of_stop isNumberChar ((c :: cs) ++ '.' :: frac) rest hall
      (scanStops_number rest hrest)
    have hdot : ((c :: cs) ++ '.' :: frac).contains '.' = true :=
      List.elem_eq_true_of_mem (by simp)
    have hstep := tokenizeLoop_digit c ((cs ++ '.' :: frac) ++ rest) fuel acc hc
    rw [show (c :: cs ++ '.' :: frac) ++ rest = c :: ((cs ++ '.' :: frac) ++ rest) by simp, hstep,
      show c :: ((cs ++ '.' :: frac) ++ rest) = ((c :: cs) ++ '.' :: frac) ++ rest by simp,
      hspan.1, hspan.2, hdot]
    simp

theorem lexes_literal (l : Literal) (h : l.wellFormed = true) :
    LexesTo scanStops l.text [⟨.Literal, l.canon⟩] := by
  cases l with
  | int ds => exact lexes_numeral ds h
  | float whole frac =>
    simp only [Literal.wellFormed, Bool.and_eq_true] at h
    exact lexes_float whole frac h.1 h.2
  | str body =>
    have hb : body.contains '"' = false := by simpa [Literal.wellFormed] using h
    exact (lexes_string body hb).weaken fun _ _ => rfl

/-! ## What may follow a lexeme -/

theorem numeral_head (ds : List Char) (h : isNumeral ds = true) :
    ∃ c cs, ds = c :: cs ∧ isDigit c = true := by
  cases ds with
  | nil => simp [isNumeral, Operand.wellFormed] at h
  | cons c cs =>
    simp only [isNumeral, Operand.wellFormed, Bool.and_eq_true] at h
    exact ⟨c, cs, rfl, h.1⟩

theorem followNotEq_numeral (ds rest : List Char) (h : isNumeral ds = true) :
    followNotEq (ds ++ rest) = true := by
  obtain ⟨c, cs, rfl, hc⟩ := numeral_head ds h
  have hne : c ≠ '=' := (digit_facts c hc).2.2.2.2.2.2.2.2.2.2.2.2.2.2.2.1
  simpa [followNotEq] using hne

theorem followNotEq_spaces (k : Nat) (x : List Char) (h : followNotEq x = true) :
    followNotEq (List.replicate k ' ' ++ x) = true := by
  cases k with
  | zero => simpa using h
  | succ k => rfl

theorem scanStops_spaces (k : Nat) (x : List Char) (h : scanStops x = true) :
    scanStops (List.replicate k ' ' ++ x) = true := by
  cases k with
  | zero => simpa using h
  | succ k => rfl

theorem scanStops_cmpOp (op : CmpOp) (rest : List Char) : scanStops (op.text ++ rest) = true := by
  cases op <;> rfl

theorem scanStops_infixOp (op : InfixOp) (rest : List Char) :
    scanStops (op.text ++ rest) = true := by
  cases op with
  | arith o => cases o <;> rfl
  | and => rfl
  | or => rfl
  | cmp o => exact scanStops_cmpOp o rest

theorem followNotEq_literal (l : Literal) (rest : List Char) (h : l.wellFormed = true) :
    followNotEq (l.text ++ rest) = true := by
  cases l with
  | int ds => exact followNotEq_numeral ds rest h
  | float whole frac =>
    simp only [Literal.wellFormed, Bool.and_eq_true] at h
    simp only [Literal.text, List.append_assoc]
    exact followNotEq_numeral whole _ h.1
  | str body => rfl

/-! ## One operator between two literals -/

theorem tokenize_binary (a b : List Char) (ha : isNumeral a = true) (hb : isNumeral b = true)
    (s1 s2 : Nat) (op : InfixOp) :
    tokenize (String.mk (a ++ (List.replicate s1 ' ' ++ (op.text ++
        (List.replicate s2 ' ' ++ b))))) =
      .ok [⟨.Literal, String.mk a ++ ":int"⟩, op.token, ⟨.Literal, String.mk b ++ ":int"⟩] := by
  have h4 := LexesTo.append (lexes_spaces s2) (lexes_numeral b hb) (fun _ _ => rfl)
  have h3 := LexesTo.append (lexes_infixOp op) h4
    (fun rest _ => by
      rw [List.append_assoc]
      exact followNotEq_spaces s2 _ (followNotEq_numeral b rest hb))
  have h2 := LexesTo.append (lexes_spaces s1) h3 (fun _ _ => rfl)
  have h1 := LexesTo.append (lexes_numeral a ha) h2
    (fun rest _ => by
      rw [List.append_assoc]
      exact scanStops_spaces s1 _ (by
        rw [List.append_assoc]
        exact scanStops_infixOp op _))
  exact h1.tokenize rfl

theorem tokenize_not (a : List Char) (ha : isNumeral a = true) :
    tokenize (String.mk ('!' :: a)) =
      .ok [⟨.Not, "!"⟩, ⟨.Literal, String.mk a ++ ":int"⟩] := by
  have h := LexesTo.append lexes_not (lexes_numeral a ha)
    (fun rest _ => followNotEq_numeral a rest ha)
  exact h.tokenize rfl

theorem Parse_binary (a b : List Char) (ha : isNumeral a = true) (hb : isNumeral b = true)
    (s1 s2 : Nat) (op : InfixOp) :
    Parse (String.mk (a ++ (List.replicate s1 ' ' ++ (op.text ++
        (List.replicate s2 ' ' ++ b))))) =
      .ok (call2 op.builtin (String.mk a ++ ":int") (String.mk b ++ ":int")) := by
  unfold Parse
  rw [tokenize_binary a b ha hb s1 s2 op, Outcome.bind_ok]
  cases op with
  | arith o => cases o <;> rfl
  | and => rfl
  | or => rfl
  | cmp o => cases o <;> rfl

/-- C17: each operator emits a call of its built-in.  For all unsigned integer literals `a`
and `b`, with any number of spaces around the operator, `Parse` of `a op b` returns
`name(a:int,b:int)`, where `name` is the built-in of `op` (`InfixOp.builtin`), and `Parse` of
`!a` returns `not(a:int)`; the fourteen instances on the literals 1 and 2 show the table
`+ add`, `- sub`, `* multi`, `/ div`, `% mod`, `&& and`, `|| or`, `== eq`, `!= ne`, `> gt`,
`>= gte`, `< lt`, `<= lte`, `! not`. -/
theorem C17_operator_emits_builtin :
    (∀ (a b : List Char), isNumeral a = true → isNumeral b = true →
      ∀ (s1 s2 : Nat) (op : InfixOp),
        Parse (String.mk (a ++ (List.replicate s1 ' ' ++ (op.text ++
            (List.replicate s2 ' ' ++ b))))) =
          .ok (call2 op.builtin (String.mk a ++ ":int") (String.mk b ++ ":int"))) ∧
    (∀ a : List Char, isNumeral a = true →
      Parse (String.mk ('!' :: a)) = .ok ("not(" ++ (String.mk a ++ ":int") ++ ")")) ∧
    Parse "1+2" = .ok "add(1:int,2:int)" ∧ Parse "1-2" = .ok "sub(1:int,2:int)" ∧
    Parse "1*2" = .ok "multi(1:int,2:int)" ∧ Parse "1/2" = .ok "div(1:int,2:int)" ∧
    Parse "1%2" = .ok "mod(1:int,2:int)" ∧ Parse "1&&2" = .ok "and(1:int,2:int)" ∧
    Parse "1||2" = .ok "or(1:int,2:int)" ∧ Parse "1==2" = .ok "eq(1:int,2:int)" ∧
    Parse "1!=2" = .ok "ne(1:int,2:int)" ∧ Parse "1>2" = .ok "gt(1:int,2:int)" ∧
    Parse "1>=2" = .ok "gte(1:int,2:int)" ∧ Parse "1<2" = .ok "lt(1:int,2:int)" ∧
    Parse "1<=2" = .ok "lte(1:int,2:int)" ∧ Parse "!1" = .ok "not(1:int)" := by
  refine ⟨?_, ?_, rfl, rfl, rfl, rfl, rfl, rfl, rfl, rfl, rfl, rfl, rfl, rfl, rfl, rfl⟩
  · intro a b ha hb s1 s2 op
    exact Parse_binary a b ha hb s1 s2 op
  · intro a ha
    unfold Parse
    rw [tokenize_not a ha, Outcome.bind_ok]
    rfl

theorem C17_operator_emits_builtin_witness :
    isNumeral ['1', '2'] = true ∧ isNumeral ['7'] = true ∧
      Parse "12 >=  7" = .ok "gte(12:int,7:int)" ∧ Parse "!7" = .ok "not(7:int)" :=
  ⟨rfl, rfl, C17_operator_emits_builtin.1 ['1', '2'] ['7'] rfl rfl 1 2 (.cmp .gte),
    C17_operator_emits_builtin.2.1 ['7'] rfl⟩

/-! ## A parenthesized sum compared with a literal -/

theorem tokenize_group_comparison (v n m : List Char) (hv : isIdentifier v = true)
    (hn : isNumeral n = true) (hm : isNumeral m = true) (s1 s2 : Nat) (op : CmpOp) :
    tokenize (String.mk ('(' :: ('$' :: v ++ ('+' :: (n ++ (')' :: (List.replicate s1 ' ' ++
        (op.text ++ (List.replicate s2 ' ' ++ m))))))))) =
      .ok [⟨.OpenParen, "("⟩, ⟨.Dollar, "$"⟩, ⟨.Identifier, String.mk v⟩, ⟨.Add, "+"⟩,
        ⟨.Literal, String.mk n ++ ":int"⟩, ⟨.CloseParen, ")"⟩, op.token,
        ⟨.Literal, String.mk m ++ ":int"⟩] := by
  have h8 := LexesTo.append (lexes_spaces s2) (lexes_numeral m hm) (fun _ _ => rfl)
  have h7 := LexesTo.append (lexes_cmpOp op) h8
    (fun rest _ => by
      rw [List.append_assoc]
      exact followNotEq_spaces s2 _ (followNotEq_numeral m rest hm))
  have h6 := LexesTo.append (lexes_spaces s1) h7 (fun _ _ => rfl)
  have h5 := LexesTo.append lexes_close h6 (fun _ _ => rfl)
  have h4 := LexesTo.append (lexes_numeral n hn) h5 (fun _ _ => rfl)
  have h3 := LexesTo.append (lexes_arithOp .add) h4 (fun _ _ => rfl)
  have h2 := LexesTo.append (lexes_variable v hv) h3 (fun _ _ => rfl)
  have h1 := LexesTo.append lexes_open h2 (fun _ _ => rfl)
  have := h1.tokenize rfl
  simpa [ArithOp.char, ArithOp.token] using this

/-- C15: a parenthesized arithmetic group can be the left operand of a comparison.  For every
variable name `v`, unsigned integer literals `n` and `m`, comparison operator `op`, and any
number of spaces around the operator, `Parse` of `($v+n) op m` returns
`F(add($v,n:int),m:int)` where `F` is the built-in of `op`; in particular
`Parse("($a+1)>=10") = "gte(add($a,1:int),10:int)"`. -/
theorem C15_group_left_of_comparison :
    (∀ (v n m : List Char), isIdentifier v = true → isNumeral n = true → isNumeral m = true →
      ∀ (s1 s2 : Nat) (op : CmpOp),
        Parse (String.mk ('(' :: ('$' :: v ++ ('+' :: (n ++ (')' :: (List.replicate s1 ' ' ++
            (op.text ++ (List.replicate s2 ' ' ++ m))))))))) =
          .ok (call2 op.builtin (call2 "add" ("$" ++ String.mk v) (String.mk n ++ ":int"))
            (String.mk m ++ ":int"))) ∧
    Parse "($a+1)>=10" = .ok "gte(add($a,1:int),10:int)" ∧
    Parse "($a+1)==10" = .ok "eq(add($a,1:int),10:int)" ∧
    Parse "($a+1)!=10" = .ok "ne(add($a,1:int),10:int)" ∧
    Parse "($a+1)>10" = .ok "gt(add($a,1:int),10:int)" ∧
    Parse "($a+1)<10" = .ok "lt(add($a,1:int),10:int)" ∧
    Parse "($a+1)<=10" = .ok "lte(add($a,1:int),10:int)" := by
  refine ⟨?_, rfl, rfl, rfl, rfl, rfl, rfl⟩
  intro v n m hv hn hm s1 s2 op
  unfold Parse
  rw [tokenize_group_comparison v n m hv hn hm s1 s2 op, Outcome.bind_ok]
  cases op <;> rfl

theorem C15_group_left_of_comparison_witness :
    isIdentifier ['q', 't', 'y'] = true ∧ isNumeral ['1'] = true ∧ isNumeral ['1', '0'] = true ∧
      Parse "($qty+1) < 10" = .ok "lt(add($qty,1:int),10:int)" :=
  ⟨rfl, rfl, rfl, C15_group_left_of_comparison.1 ['q', 't', 'y'] ['1'] ['1', '0'] rfl rfl rfl
    1 1 .lt⟩

/-! ## An unclosed parenthesis -/

theorem scanStops_chainTail_append (rest : List (ArithOp × List Char)) (tail : List Char)
    (h : scanStops tail = true) : scanStops (chainTail rest ++ tail) = true := by
  cases rest with
  | nil => simpa [chainTail] using h
  | cons x rest =>
    obtain ⟨op, d⟩ := x
    cases op <;> rfl

theorem lexes_chainTail (rest : List (ArithOp × List Char))
    (hwf : (rest.all fun x => (Operand.lit x.2).wellFormed) = true) :
    LexesTo scanStops (chainTail rest) (chainTailTokens rest) := by
  induction rest with
  | nil => exact lexes_nil _
  | cons x rest ih =>
    simp only [List.all_cons, Bool.and_eq_true] at hwf
    have h2 := LexesTo.append (lexes_numeral x.2 hwf.1) (ih hwf.2)
      (fun tail h => scanStops_chainTail_append rest tail h)
    have h1 := LexesTo.append (lexes_arithOp x.1) h2 (fun _ _ => rfl)
    simpa [chainTail, chainTailTokens] using h1

theorem lexes_chain (first : List Char) (rest : List (ArithOp × List Char))
    (hwf : chainWellFormed first rest = true) :
    LexesTo scanStops (chainText first rest)
      (⟨.Literal, String.mk first ++ ":int"⟩ :: chainTailTokens rest) := by
  simp only [chainWellFormed, Bool.and_eq_true] at hwf
  have h := LexesTo.append (lexes_numeral first hwf.1) (lexes_chainTail rest hwf.2)
    (fun tail h => scanStops_chainTail_append rest tail h)
  simpa [chainText] using h

theorem length_chainTailTokens (rest : List (ArithOp × List Char)) :
    (chainTailTokens rest).length = 2 * rest.length := by
  induction rest with
  | nil => rfl
  | cons x rest ih => simp [chainTailTokens, ih]; omega

theorem parseTokens_open_chain (first : List Char) (rest : List (ArithOp × List Char)) :
    parseTokens (⟨.OpenParen, "("⟩ :: ⟨.Literal, String.mk first ++ ":int"⟩ ::
      chainTailTokens rest) = .error "expected right parenthesis" := by
  have hlen := length_chainTailTokens rest
  unfold parseTokens parseFuel
  obtain ⟨f, hf, hfuel⟩ : ∃ f, 8 * ((⟨.OpenParen, "("⟩ ::
      ⟨.Literal, String.mk first ++ ":int"⟩ :: chainTailTokens rest : List Token)).length + 8 =
      f + 1 + 1 + 1 + 1 + 1 + 1 + 1 ∧ 2 * rest.length + 1 ≤ f := by
    refine ⟨8 * (chainTailTokens rest).length + 17, ?_, ?_⟩
    · simp only [List.length_cons]
      omega
    · omega
  rw [hf]
  have hchain := parse_chainTail rest [⟨.OpenParen, "("⟩, ⟨.Literal, String.mk first ++ ":int"⟩]
    (String.mk first ++ ":int") id (f + 1) (f + 1 + 1) (by omega) (by omega)
  simp only [List.cons_append, List.nil_append, List.length_cons, List.length_nil, id]
    at hchain
  have h0 : (⟨.OpenParen, "("⟩ :: ⟨.Literal, String.mk first ++ ":int"⟩ ::
      chainTailTokens rest : List Token)[0]? = some ⟨.OpenParen, "("⟩ := rfl
  have h1 : (⟨.OpenParen, "("⟩ :: ⟨.Literal, String.mk first ++ ":int"⟩ ::
      chainTailTokens rest : List Token)[0 + 1]? =
        some ⟨.Literal, String.mk first ++ ":int"⟩ := by
    simp
  have hend : (⟨.OpenParen, "("⟩ :: ⟨.Literal, String.mk first ++ ":int"⟩ ::
      chainTailTokens rest : List Token)[(chainTailTokens rest).length + 1 + 1]? = none := by
    simp
  have hadd : additive (f + 1 + 1 + 1) (⟨.OpenParen, "("⟩ ::
      ⟨.Literal, String.mk first ++ ":int"⟩ :: chainTailTokens rest) (0 + 1) =
        .ok (specCanonical first rest, (chainTailTokens rest).length + 1 + 1) := by
    rw [additive_succ, term_succ, factor_literal _ _ _ _ h1]
    simp only [Outcome.bind_ok]
    rw [hchain]
    simp [specCanonical]
  have hinner : parseLogicalExpression (f + 1 + 1 + 1 + 1 + 1) (⟨.OpenParen, "("⟩ ::
      ⟨.Literal, String.mk first ++ ":int"⟩ :: chainTailTokens rest) (0 + 1) =
        .ok (specCanonical first rest, (chainTailTokens rest).length + 1 + 1) := by
    rw [parseLogicalExpression.eq_def]
    simp only []
    rw [parseComparisonExpression.eq_def]
    simp only [h1, hadd, Outcome.bind_ok, hend, reduceCtorEq, if_false]
    rw [parseLogicalLoop.eq_def]
    simp only [hend]
  rw [parseLogicalExpression.eq_def]
  simp only []
  rw [parseComparisonExpression.eq_def]
  simp only [h0, hinner, Outcome.bind_ok, hend, reduceCtorEq, if_false, if_true]
  rfl

/-- C13: an unclosed parenthesis is a parse error.  For every arithmetic expression `e` of
unsigned integer literals joined by `+ - * / %`, `Parse` of `(` followed by `e` fails with the
error `expected right parenthesis`; in particular `Parse("(1+2")` fails with it. -/
theorem C13_unclosed_parenthesis :
    (∀ (first : List Char) (rest : List (ArithOp × List Char)),
      chainWellFormed first rest = true →
      Parse (String.mk ('(' :: chainText first rest)) = .error "expected right parenthesis") ∧
    Parse "(1+2" = .error "expected right parenthesis" := by
  refine ⟨?_, rfl⟩
  intro first rest hwf
  have hlex := (LexesTo.append lexes_open (lexes_chain first rest hwf) (fun _ _ => rfl)).tokenize
    rfl
  unfold Parse
  rw [show String.mk ('(' :: chainText first rest) = String.mk (['('] ++ chainText first rest)
    from rfl, hlex, Outcome.bind_ok]
  rw [show ([⟨.OpenParen, "("⟩] ++ ⟨.Literal, String.mk first ++ ":int"⟩ ::
    chainTailTokens rest : List Token) = ⟨.OpenParen, "("⟩ ::
      ⟨.Literal, String.mk first ++ ":int"⟩ :: chainTailTokens rest from rfl,
    parseTokens_open_chain first rest]
  rfl

theorem C13_unclosed_parenthesis_witness :
    chainWellFormed ['1', '2'] [(.mul, ['3']), (.sub, ['4', '0'])] = true ∧
      Parse "(12*3-40" = .error "expected right parenthesis" :=
  ⟨rfl, C13_unclosed_parenthesis.1 ['1', '2'] [(.mul, ['3']), (.sub, ['4', '0'])] rfl⟩

/-! ## A lone `&` or `|` -/

theorem tokenizeLoop_amp_end (fuel : Nat) (acc : List Token) :
    tokenizeLoop (fuel + 1) ['&'] acc = .panic := rfl

theorem tokenizeLoop_bar_end (fuel : Nat) (acc : List Token) :
    tokenizeLoop (fuel + 1) ['|'] acc = .panic := rfl

theorem tokenizeLoop_amp_lone (fuel : Nat) (d : Char) (rest : List Char) (acc : List Token)
    (hd : d ≠ '&') : tokenizeLoop (fuel + 1) ('&' :: d :: rest) acc = .error "expected &&" := by
  show (if d = '&' then _ else _) = _
  rw [if_neg hd]

theorem tokenizeLoop_bar_lone (fuel : Nat) (d : Char) (rest : List Char) (acc : List Token)
    (hd : d ≠ '|') : tokenizeLoop (fuel + 1) ('|' :: d :: rest) acc = .error "expected ||" := by
  show (if d = '|' then _ else _) = _
  rw [if_neg hd]

theorem tokenize_of_lexes_prefix (p tail : List Char) (toks : List Token)
    (r : Outcome (List Token)) (hp : LexesTo followAny p toks)
    (htail : ∀ fuel acc, tokenizeLoop (fuel + 1) tail acc = r) (hr : r ≠ .outOfFuel) :
    tokenize (String.mk (p ++ tail)) = r := by
  obtain ⟨k, hk⟩ := hp tail rfl
  exact tokenize_eq_of_loop (String.mk (p ++ tail)) (1 + k) r
    (by rw [hk 1 [], htail]) hr

/-- C14: a lone `&` or `|` that is the last byte of the input is not a lex error: the read
`input[i+1]` is out of range and the run panics.  For every text `p` that is tokenized in
front of any unread input, `tokenize` and `Parse` of `p&` and of `p|` panic, as on `$a &`
and `$a |`; when a byte other than `&` (resp. `|`) follows, they do return the error
`expected &&` (resp. `expected ||`); a lone `=` at the end of the input is the error
`expected ==`. -/
theorem C14_lone_ampersand_at_end_panics :
    (∀ (p : List Char) (toks : List Token), LexesTo followAny p toks →
      tokenize (String.mk (p ++ ['&'])) = .panic ∧ Parse (String.mk (p ++ ['&'])) = .panic ∧
      tokenize (String.mk (p ++ ['|'])) = .panic ∧ Parse (String.mk (p ++ ['|'])) = .panic) ∧
    (∀ (p : List Char) (toks : List Token) (d : Char) (rest : List Char),
      LexesTo followAny p toks →
      (d ≠ '&' → tokenize (String.mk (p ++ '&' :: d :: rest)) = .error "expected &&" ∧
        Parse (String.mk (p ++ '&' :: d :: rest)) = .error "expected &&") ∧
      (d ≠ '|' → tokenize (String.mk (p ++ '|' :: d :: rest)) = .error "expected ||" ∧
        Parse (String.mk (p ++ '|' :: d :: rest)) = .error "expected ||")) ∧
    tokenize "$a &" = .panic ∧ Parse "$a &" = .panic ∧
    tokenize "$a |" = .panic ∧ Parse "$a |" = .panic ∧
    (∀ L : Lib, ParseExpression L "$a &" = .panic) ∧
    Parse "$a & $b" = .error "expected &&" ∧ Parse "$a | $b" = .error "expected ||" ∧
    Parse "$a =" = .error "expected ==" := by
  refine ⟨?_, ?_, rfl, rfl, rfl, rfl, fun _ => rfl, rfl, rfl, rfl⟩
  · intro p toks hp
    have h1 := tokenize_of_lexes_prefix p ['&'] toks .panic hp
      (fun fuel acc => tokenizeLoop_amp_end fuel acc) (by simp)
    have h2 := tokenize_of_lexes_prefix p ['|'] toks .panic hp
      (fun fuel acc => tokenizeLoop_bar_end fuel acc) (by simp)
    refine ⟨h1, ?_, h2, ?_⟩
    · unfold Parse
      rw [h1]
      rfl
    · unfold Parse
      rw [h2]
      rfl
  · intro p toks d rest hp
    constructor
    · intro hd
      have h1 := tokenize_of_lexes_prefix p ('&' :: d :: rest) toks (.error "expected &&") hp
        (fun fuel acc => tokenizeLoop_amp_lone fuel d rest acc hd) (by simp)
      refine ⟨h1, ?_⟩
      unfold Parse
      rw [h1]
      rfl
    · intro hd
      have h1 := tokenize_of_lexes_prefix p ('|' :: d :: rest) toks (.error "expected ||") hp
        (fun fuel acc => tokenizeLoop_bar_lone fuel d rest acc hd) (by simp)
      refine ⟨h1, ?_⟩
      unfold Parse
      rw [h1]
      rfl

theorem C14_lone_ampersand_at_end_panics_witness :
    LexesTo followAny ['$', 'x', '1', ' '] [⟨.Dollar, "$"⟩, ⟨.Identifier, "x1"⟩] ∧
      tokenize "$x1 &" = .panic ∧ Parse "$x1 &" = .panic ∧
      tokenize "$x1 |" = .panic ∧ Parse "$x1 |" = .panic :=
  ⟨LexesTo.append (lexes_variable ['x', '1'] rfl) lexes_space (fun _ _ => rfl),
    C14_lone_ampersand_at_end_panics.1 ['$', 'x', '1', ' ']
      [⟨.Dollar, "$"⟩, ⟨.Identifier, "x1"⟩]
      (LexesTo.append (lexes_variable ['x', '1'] rfl) lexes_space (fun _ _ => rfl))⟩

/-! ## `and` and `or` with fewer than two arguments -/

/-- C20: with zero arguments `and` and `or` return false, but with exactly one argument they
read `args[1]` whenever the first operand does not decide the result: `and` panics when its
only argument converts to true (and returns false when it converts to false), `or` panics
when its only argument converts to false (and returns true, not false, when it converts to
true).  When the integer 1 converts to true, executing the tree compiled from `@and(1)`
panics and the tree compiled from `@or(1)` returns true. -/
theorem C20_and_or_one_argument (L : Lib) :
    fnAnd L [] = .ok (.bool false) ∧ fnOr L [] = .ok (.bool false) ∧
    (∀ a : Value, L.ToBool a = true → fnAnd L [a] = .panic ∧ fnOr L [a] = .ok (.bool true)) ∧
    (∀ a : Value, L.ToBool a = false → fnAnd L [a] = .ok (.bool false) ∧ fnOr L [a] = .panic) ∧
    Parse "@and(1)" = .ok "and(1:int)" ∧
    (L.ToBool (.int .int64 1) = true → ∀ vars : Vars,
      ParseAndExecute L "@and(1)" vars = .panic ∧
      ParseAndExecute L "@or(1)" vars = .ok (.bool true)) ∧
    (L.ToBool (.int .int64 0) = false → ∀ vars : Vars,
      ParseAndExecute L "@and(0)" vars = .ok (.bool false) ∧
      ParseAndExecute L "@or(0)" vars = .panic) := by
  refine ⟨rfl, rfl, ?_, ?_, rfl, ?_, ?_⟩
  · intro a ha
    simp [fnAnd, fnOr, ha]
  · intro a ha
    simp [fnAnd, fnOr, ha]
  · intro h vars
    have e1 : ParseAndExecute L "@and(1)" vars = fnAnd L [.int .int64 1] := rfl
    have e2 : ParseAndExecute L "@or(1)" vars = fnOr L [.int .int64 1] := rfl
    rw [e1, e2]
    simp [fnAnd, fnOr, h]
  · intro h vars
    have e1 : ParseAndExecute L "@and(0)" vars = fnAnd L [.int .int64 0] := rfl
    have e2 : ParseAndExecute L "@or(0)" vars = fnOr L [.int .int64 0] := rfl
    rw [e1, e2]
    simp [fnAnd, fnOr, h]

theorem C20_and_or_one_argument_witness :
    refLib.ToBool (.int .int64 1) = true ∧
      fnAnd refLib [.int .int64 1] = .panic ∧
      ParseAndExecute refLib "@and(1)" (fun _ => none) = .panic :=
  ⟨rfl, ((C20_and_or_one_argument refLib).2.2.1 (.int .int64 1) rfl).1,
    ((C20_and_or_one_argument refLib).2.2.2.2.2.1 rfl (fun _ => none)).1⟩

/-! ## Simple comparisons and logical groups -/

theorem lexes_comparison (x : Comparison) (h : x.wellFormed = true) :
    LexesTo scanStops x.text x.tokens := by
  simp only [Comparison.wellFormed, Bool.and_eq_true] at h
  have h5 := LexesTo.append (lexes_spaces x.after) (lexes_literal x.lit h.2) (fun _ _ => rfl)
  have h4 := LexesTo.append (lexes_cmpOp x.op) h5
    (fun rest _ => by
      rw [List.append_assoc]
      exact followNotEq_spaces x.after _ (followNotEq_literal x.lit rest h.2))
  have h3 := LexesTo.append (lexes_spaces x.before) h4 (fun _ _ => rfl)
  have h2 := LexesTo.append (lexes_variable x.var h.1) h3
    (fun rest _ => by
      rw [List.append_assoc]
      exact scanStops_spaces x.before _ (by
        rw [List.append_assoc]
        exact scanStops_cmpOp x.op _))
  simpa [Comparison.text, Comparison.tokens] using h2

theorem tokenize_group (x y z : Comparison) (hx : x.wellFormed = true)
    (hy : y.wellFormed = true) (hz : z.wellFormed = true) (j : List Char) (jt : Token)
    (hj : LexesTo followAny j [jt]) (s1 s2 s3 s4 : Nat) :
    tokenize (String.mk (groupText x y z j s1 s2 s3 s4)) = .ok (groupTokens x y z jt) := by
  have h10 := LexesTo.append (lexes_spaces s4) (lexes_comparison z hz) (fun _ _ => rfl)
  have h9 := LexesTo.append hj h10 (fun _ _ => rfl)
  have h8 := LexesTo.append (lexes_spaces s3) h9 (fun _ _ => rfl)
  have h7 := LexesTo.append lexes_close h8 (fun _ _ => rfl)
  have h6 := LexesTo.append (lexes_comparison y hy) h7 (fun _ _ => rfl)
  have h5 := LexesTo.append (lexes_spaces s2) h6 (fun _ _ => rfl)
  have h4 := LexesTo.append lexes_and h5 (fun _ _ => rfl)
  have h3 := LexesTo.append (lexes_spaces s1) h4 (fun _ _ => rfl)
  have h2 := LexesTo.append (lexes_comparison x hx) h3
    (fun rest _ => by
      rw [List.append_assoc]
      exact scanStops_spaces s1 _ rfl)
  have h1 := LexesTo.append lexes_open h2 (fun _ _ => rfl)
  have := h1.tokenize rfl
  simpa [groupText, groupTokens] using this

theorem termLoop_stop (fuel : Nat) (tokens : List Token) (pos : Nat) (acc : String)
    (h : arithStops tokens[pos]? = true) : termLoop (fuel + 1) tokens pos acc = .ok (acc, pos) := by
  cases ht : tokens[pos]? with
  | none =>
    rw [termLoop.eq_def]
    simp only [ht]
  | some t =>
    rw [ht] at h
    obtain ⟨ty, v⟩ := t
    rw [termLoop.eq_def]
    simp only [ht]
    cases ty <;> simp_all [arithStops]

theorem additiveLoop_stop (fuel : Nat) (tokens : List Token) (pos : Nat) (acc : String)
    (h : arithStops tokens[pos]? = true) :
    additiveLoop (fuel + 1) tokens pos acc = .ok (acc, pos) := by
  cases ht : tokens[pos]? with
  | none =>
    rw [additiveLoop.eq_def]
    simp only [ht]
  | some t =>
    rw [ht] at h
    obtain ⟨ty, v⟩ := t
    rw [additiveLoop.eq_def]
    simp only [ht]
    cases ty <;> simp_all [arithStops]

theorem additive_atom (fuel : Nat) (tokens : List Token) (pos p : Nat) (a : String)
    (hfac : factor (fuel + 1) tokens pos = .ok (a, p)) (hstop : arithStops tokens[p]? = true) :
    additive (fuel + 1 + 1 + 1) tokens pos = .ok (a, p) := by
  rw [additive_succ, term_succ, hfac, Outcome.bind_ok, termLoop_stop _ _ _ _ hstop,
    Outcome.bind_ok, additiveLoop_stop _ _ _ _ hstop]

theorem factor_variable (fuel : Nat) (tokens : List Token) (pos : Nat) (name : String)
    (h0 : tokens[pos]? = some ⟨.Dollar, "$"⟩)
    (h1 : tokens[pos + 1]? = some ⟨.Identifier, name⟩)
    (h2 : ∀ t, tokens[pos + 2]? = some t → t.Typ ≠ .Add) :
    factor (fuel + 1) tokens pos = .ok ("$" ++ name, pos + 2) := by
  rw [factor.eq_def]
  cases ht : tokens[pos + 2]? with
  | none => simp [h0, h1, ht]
  | some t => simp [h0, h1, ht, h2 t ht]

theorem parseComparison_simple (fuel : Nat) (tokens : List Token) (pos : Nat) (x : Comparison)
    (h0 : tokens[pos]? = some ⟨.Dollar, "$"⟩)
    (h1 : tokens[pos + 1]? = some ⟨.Identifier, String.mk x.var⟩)
    (h2 : tokens[pos + 2]? = some x.op.token)
    (h3 : tokens[pos + 3]? = some ⟨.Literal, x.lit.canon⟩)
    (h4 : arithStops tokens[pos + 4]? = true) :
    parseComparisonExpression (fuel + 4) tokens pos = .ok (x.canon, pos + 4) := by
  have hname : comparisonName x.op.token.Typ = some x.op.builtin := by
    cases x.op <;> rfl
  have hstop2 : arithStops tokens[pos + 2]? = true := by
    rw [h2]
    cases x.op <;> rfl
  have hleft := additive_atom fuel tokens pos (pos + 2) ("$" ++ String.mk x.var)
    (factor_variable fuel tokens pos _ h0 h1 (fun t ht => by
      rw [h2] at ht
      cases ht
      cases x.op <;> simp [CmpOp.token])) hstop2
  have hright := additive_atom fuel tokens (pos + 2 + 1) (pos + 4) x.lit.canon
    (factor_literal fuel tokens (pos + 2 + 1) _ h3) h4
  rw [parseComparisonExpression.eq_def]
  simp only [h0, hleft, Outcome.bind_ok, h2, hname, hright, reduceCtorEq, if_false]
  rfl

theorem parseLogicalLoop_end (fuel : Nat) (tokens : List Token) (pos : Nat) (left : String)
    (h : tokens[pos]? = none) : parseLogicalLoop (fuel + 1) tokens pos left = .ok (left, pos) := by
  rw [parseLogicalLoop.eq_def]
  simp only [h]

theorem parseLogicalLoop_other (fuel : Nat) (tokens : List Token) (pos : Nat) (left : String)
    (t : Token) (h : tokens[pos]? = some t) (hand : t.Typ ≠ .And) (hor : t.Typ ≠ .Or) :
    parseLogicalLoop (fuel + 1) tokens pos left = .ok (left, pos) := by
  obtain ⟨ty, v⟩ := t
  rw [parseLogicalLoop.eq_def]
  simp only [h]

theorem parseTokens_group (x y z : Comparison) (jt : Token) (name : String)
    (hj : (jt = ⟨.And, "&&"⟩ ∧ name = "and") ∨ (jt = ⟨.Or, "||"⟩ ∧ name = "or")) :
    (parseTokens (groupTokens x y z jt)).bind (fun r => Outcome.ok r.1) =
      .ok (call2 name (call2 "and" x.canon y.canon) z.canon) := by
  have hcmpJ : comparisonName jt.Typ = none := by
    rcases hj with ⟨rfl, _⟩ | ⟨rfl, _⟩ <;> rfl
  have hx : parseComparisonExpression 133 (groupTokens x y z jt) (0 + 1) = .ok (x.canon, 5) :=
    parseComparison_simple 129 (groupTokens x y z jt) 1 x rfl rfl rfl rfl rfl
  have hy : parseComparisonExpression 132 (groupTokens x y z jt) (5 + 1) = .ok (y.canon, 10) :=
    parseComparison_simple 128 (groupTokens x y z jt) 6 y rfl rfl rfl rfl rfl
  have hz : parseComparisonExpression 134 (groupTokens x y z jt) (10 + 1 + 1) =
      .ok (z.canon, 16) :=
    parseComparison_simple 130 (groupTokens x y z jt) 12 z rfl rfl rfl rfl rfl
  have hloop10 : ∀ s, parseLogicalLoop 132 (groupTokens x y z jt) 10 s = .ok (s, 10) :=
    fun s => parseLogicalLoop_other 131 _ 10 s ⟨.CloseParen, ")"⟩ rfl (by simp) (by simp)
  have hloop16 : ∀ s, parseLogicalLoop 134 (groupTokens x y z jt) 16 s = .ok (s, 16) :=
    fun s => parseLogicalLoop_end 133 _ 16 s rfl
  have hloop5 : parseLogicalLoop 133 (groupTokens x y z jt) 5 x.canon =
      .ok (call2 "and" x.canon y.canon, 10) := by
    rw [parseLogicalLoop.eq_def]
    simp only [show (groupTokens x y z jt)[5]? = some ⟨.And, "&&"⟩ from rfl]
    rw [hy, Outcome.bind_ok]
    exact hloop10 _
  have hinner : parseLogicalExpression 134 (groupTokens x y z jt) (0 + 1) =
      .ok (call2 "and" x.canon y.canon, 10) := by
    rw [parseLogicalExpression.eq_def]
    simp only []
    rw [hx, Outcome.bind_ok]
    exact hloop5
  have hgroup : parseComparisonExpression 135 (groupTokens x y z jt) 0 =
      .ok (call2 "and" x.canon y.canon, 10 + 1) := by
    rw [parseComparisonExpression.eq_def]
    simp only [show (groupTokens x y z jt)[0]? = some ⟨.OpenParen, "("⟩ from rfl, hinner,
      Outcome.bind_ok, show (groupTokens x y z jt)[10]? = some ⟨.CloseParen, ")"⟩ from rfl,
      show (groupTokens x y z jt)[10 + 1]? = some jt from rfl, hcmpJ, reduceCtorEq, if_false,
      if_true, ne_eq, not_true_eq_false]
  have houter : parseLogicalLoop 135 (groupTokens x y z jt) (10 + 1)
      (call2 "and" x.canon y.canon) =
        .ok (call2 name (call2 "and" x.canon y.canon) z.canon, 16) := by
    rw [parseLogicalLoop.eq_def]
    simp only [show (groupTokens x y z jt)[10 + 1]? = some jt from rfl]
    rcases hj with ⟨rfl, rfl⟩ | ⟨rfl, rfl⟩
    · simp only []
      rw [hz, Outcome.bind_ok]
      exact hloop16 _
    · simp only []
      rw [hz, Outcome.bind_ok]
      exact hloop16 _
  unfold parseTokens
  rw [show parseFuel (groupTokens x y z jt) = 136 from rfl, parseLogicalExpression.eq_def]
  simp only []
  rw [hgroup, Outcome.bind_ok]
  show (parseLogicalLoop 135 (groupTokens x y z jt) (10 + 1)
    (call2 "and" x.canon y.canon)).bind (fun r => Outcome.ok r.1) = _
  rw [houter]
  rfl

/-- C16: a parenthesized logical group can be the left operand of a further logical operator.
For all simple comparisons `x`, `y`, `z` (each `$var op literal`, the literal an unsigned
integer, a number with a fraction or a quoted string) and any number of spaces around the
operators, `Parse` of `(x && y) && z` returns `and(and(X,Y),Z)` and `Parse` of `(x && y) || z`
returns `or(and(X,Y),Z)`, where `X`, `Y`, `Z` are the canonical forms of the comparisons; in
particular on `($stock>100 && $stock<200) && $mfr=="motorola"`. -/
theorem C16_group_left_of_logical :
    (∀ (x y z : Comparison), x.wellFormed = true → y.wellFormed = true → z.wellFormed = true →
      ∀ s1 s2 s3 s4 : Nat,
        Parse (String.mk (groupText x y z ['&', '&'] s1 s2 s3 s4)) =
          .ok (call2 "and" (call2 "and" x.canon y.canon) z.canon) ∧
        Parse (String.mk (groupText x y z ['|', '|'] s1 s2 s3 s4)) =
          .ok (call2 "or" (call2 "and" x.canon y.canon) z.canon)) ∧
    Parse "($stock>100 && $stock<200) && $mfr==\"motorola\"" =
      .ok "and(and(gt($stock,100:int),lt($stock,200:int)),eq($mfr,motorola:str))" ∧
    Parse "($stock>100 && $stock<200) || $mfr==\"motorola\"" =
      .ok "or(and(gt($stock,100:int),lt($stock,200:int)),eq($mfr,motorola:str))" := by
  have hgen : ∀ (x y z : Comparison), x.wellFormed = true → y.wellFormed = true →
      z.wellFormed = true → ∀ s1 s2 s3 s4 : Nat,
        Parse (String.mk (groupText x y z ['&', '&'] s1 s2 s3 s4)) =
          .ok (call2 "and" (call2 "and" x.canon y.canon) z.canon) ∧
        Parse (String.mk (groupText x y z ['|', '|'] s1 s2 s3 s4)) =
          .ok (call2 "or" (call2 "and" x.canon y.canon) z.canon) := by
    intro x y z hx hy hz s1 s2 s3 s4
    constructor
    · unfold Parse
      rw [tokenize_group x y z hx hy hz _ _ lexes_and s1 s2 s3 s4, Outcome.bind_ok]
      exact parseTokens_group x y z _ "and" (Or.inl ⟨rfl, rfl⟩)
    · unfold Parse
      rw [tokenize_group x y z hx hy hz _ _ lexes_or s1 s2 s3 s4, Outcome.bind_ok]
      exact parseTokens_group x y z _ "or" (Or.inr ⟨rfl, rfl⟩)
  have hex := hgen ⟨['s', 't', 'o', 'c', 'k'], 0, .gt, 0, .int ['1', '0', '0']⟩
    ⟨['s', 't', 'o', 'c', 'k'], 0, .lt, 0, .int ['2', '0', '0']⟩
    ⟨['m', 'f', 'r'], 0, .eq, 0, .str ['m', 'o', 't', 'o', 'r', 'o', 'l', 'a']⟩ rfl rfl rfl
    1 1 1 1
  exact ⟨hgen, hex.1, hex.2⟩

theorem C16_group_left_of_logical_witness :
    (⟨['a'], 0, .gte, 0, .int ['1']⟩ : Comparison).wellFormed = true ∧
    (⟨['b'], 1, .ne, 1, .float ['2'] ['5']⟩ : Comparison).wellFormed = true ∧
    (⟨['c'], 0, .eq, 0, .str ['o', 'k']⟩ : Comparison).wellFormed = true ∧
      Parse "($a>=1 && $b != 2.5) && $c==\"ok\"" =
        .ok "and(and(gte($a,1:int),ne($b,2.5:float)),eq($c,ok:str))" ∧
      Parse "($a>=1 && $b != 2.5) || $c==\"ok\"" =
        .ok "or(and(gte($a,1:int),ne($b,2.5:float)),eq($c,ok:str))" :=
  ⟨rfl, rfl, rfl,
    C16_group_left_of_logical.1 ⟨['a'], 0, .gte, 0, .int ['1']⟩
      ⟨['b'], 1, .ne, 1, .float ['2'] ['5']⟩ ⟨['c'], 0, .eq, 0, .str ['o', 'k']⟩ rfl rfl rfl
      1 1 1 1⟩

/-! ## Bytes of identifiers and numerals; searching and trimming text -/

theorem identChar_toNat (c : Char) (h : isIdentChar c = true) :
    (48 ≤ c.toNat ∧ c.toNat ≤ 57) ∨ (65 ≤ c.toNat ∧ c.toNat ≤ 90) ∨ c.toNat = 95 ∨
      (97 ≤ c.toNat ∧ c.toNat ≤ 122) ∨ 170 ≤ c.toNat := by
  simp only [isIdentChar, isLetter, isDigit, Bool.or_eq_true, Bool.and_eq_true,
    decide_eq_true_eq, beq_iff_eq] at h
  rcases h with (h | h) | h
  · omega
  · omega
  · subst h
    decide

theorem identChar_facts (c : Char) (h : isIdentChar c = true) :
    c ≠ '(' ∧ c ≠ ')' ∧ c ≠ ',' ∧ c ≠ ':' ∧ c ≠ '$' ∧ isSpace c = false := by
  refine ⟨?_, ?_, ?_, ?_, ?_, ?_⟩
  · rintro rfl; revert h; decide
  · rintro rfl; revert h; decide
  · rintro rfl; revert h; decide
  · rintro rfl; revert h; decide
  · rintro rfl; revert h; decide
  · cases hs : isSpace c with
    | false => rfl
    | true =>
      exfalso
      have hn := identChar_toNat c h
      simp only [isSpace, Bool.or_eq_true, beq_iff_eq] at hs
      rcases hs with ((((rfl | rfl) | rfl) | rfl) | h11) | h12
      · revert h; decide
      · revert h; decide
      · revert h; decide
      · revert h; decide
      · omega
      · omega

theorem identChar_of_identifier (name : List Char) (h : isIdentifier name = true) :
    ∀ c ∈ name, isIdentChar c = true := by
  cases name with
  | nil => simp [isIdentifier, Operand.wellFormed] at h
  | cons d ds =>
    simp only [isIdentifier, Operand.wellFormed, Bool.and_eq_true] at h
    intro c hc
    rcases List.mem_cons.1 hc with rfl | hc
    · simp [isIdentChar, h.1]
    · exact List.all_eq_true.1 h.2 c hc

theorem identChar_of_numeral (ds : List Char) (h : isNumeral ds = true) :
    ∀ c ∈ ds, isIdentChar c = true := by
  cases ds with
  | nil => simp [isNumeral, Operand.wellFormed] at h
  | cons d ds =>
    simp only [isNumeral, Operand.wellFormed, Bool.and_eq_true] at h
    intro c hc
    rcases List.mem_cons.1 hc with rfl | hc
    · simp [isIdentChar, h.1]
    · simp [isIdentChar, List.all_eq_true.1 h.2 c hc]

theorem indexByte_none (s : List Char) (c : Char) (h : c ∉ s) : indexByte s c = none := by
  unfold indexByte
  rw [if_neg]
  rw [List.indexOf_lt_length]
  exact h

theorem indexByte_append (p rest : List Char) (c : Char) (h : c ∉ p) :
    indexByte (p ++ c :: rest) c = some p.length := by
  have hi : List.indexOf c (p ++ c :: rest) = p.length := by
    rw [List.indexOf_append_of_not_mem h, List.indexOf_cons_self]
    rfl
  unfold indexByte
  rw [hi, if_pos]
  simp

theorem lastIndexByte_none (s : List Char) (c : Char) (h : c ∉ s) :
    lastIndexByte s c = none := by
  unfold lastIndexByte
  rw [if_neg]
  rw [← List.length_reverse s, List.indexOf_lt_length]
  simpa using h

theorem lastIndexByte_append (p q : List Char) (c : Char) (h : c ∉ q) :
    lastIndexByte (p ++ c :: q) c = some p.length := by
  have hi : List.indexOf c (p ++ c :: q).reverse = q.length := by
    rw [List.reverse_append, List.reverse_cons, List.append_assoc,
      List.indexOf_append_of_not_mem (by simpa using h), List.length_reverse]
    simp
  unfold lastIndexByte
  rw [hi, if_pos]
  · simp only [List.length_append, List.length_cons]
    congr 1
    omega
  · simp only [List.length_append, List.length_cons]
    omega

theorem dropWhile_eq_self (p : Char → Bool) (l : List Char)
    (h : ∀ c, l.head? = some c → p c = false) : l.dropWhile p = l := by
  cases l with
  | nil => rfl
  | cons c cs => simp [List.dropWhile, h c rfl]

theorem tail_of_identChar (c : Char) (h : isIdentChar c = true) :
    isSpace c = false ∧ (c.toNat < 128 ∨ 176 ≤ c.toNat ∨ c.toNat = 170) := by
  refine ⟨(identChar_facts c h).2.2.2.2.2, ?_⟩
  simp only [isIdentChar, isLetter, isDigit, Bool.or_eq_true, Bool.and_eq_true,
    decide_eq_true_eq, beq_iff_eq] at h
  rcases h with (h | h) | h
  · omega
  · omega
  · subst h
    decide

theorem spaceWidth_identChars (s : List Char) (h : ∀ c ∈ s, isIdentChar c = true) :
    spaceWidth s = 0 := by
  cases s with
  | nil => rfl
  | cons c rest =>
    refine spaceWidth_second c rest (tail_of_identChar c (h c (by simp))).1 ?_
    intro d hd
    have := (tail_of_identChar d (h d (List.mem_cons_of_mem c (List.mem_of_mem_head? hd)))).2
    omega

theorem TrimSpace_eq_self (s : List Char) (h1 : spaceWidth s = 0)
    (h2 : ∀ c, s.getLast? = some c →
      isSpace c = false ∧ (c.toNat < 128 ∨ 176 ≤ c.toNat ∨ c.toNat = 170)) :
    TrimSpace (String.mk s) = String.mk s := by
  unfold TrimSpace
  simp only
  rw [trimLeft_eq_self _ s h1, trimRight_eq_self _ s (lastSpaceWidth_eq_zero s h2)]

theorem TrimSpace_ident (s : List Char) (h : ∀ c ∈ s, isIdentChar c = true) :
    TrimSpace (String.mk s) = String.mk s :=
  TrimSpace_eq_self s (spaceWidth_identChars s h)
    (fun c hc => tail_of_identChar c (h c (List.mem_of_mem_getLast? hc)))

theorem splitParams_plain (s : List Char) (h : ∀ c ∈ s, c ≠ '(' ∧ c ≠ ')' ∧ c ≠ ',') :
    ∀ (rest : List Char) (level : Int) (cur : List Char) (pieces : List String),
      splitParams (s ++ rest) level cur pieces = splitParams rest level (cur ++ s) pieces := by
  induction s with
  | nil => intro rest level cur pieces; simp
  | cons c cs ih =>
    intro rest level cur pieces
    obtain ⟨h1, h2, h3⟩ := h c (List.mem_cons_self c cs)
    rw [List.cons_append, splitParams, if_neg h1, if_neg h2, if_neg h3,
      ih (fun d hd => h d (List.mem_cons_of_mem c hd))]
    simp

theorem ParseFunctionExpression_call (L : Lib) (fuel : Nat) (name params : List Char)
    (hname : '(' ∉ name) :
    ParseFunctionExpression L (fuel + 1) (String.mk (name ++ '(' :: (params ++ [')']))) =
      match funcMap L (TrimSpace (String.mk name)) with
      | none => .error ("function not found: " ++ TrimSpace (String.mk name))
      | some f =>
        (Outcome.mapM (fun piece => parseArgument L fuel (TrimSpace piece))
            (splitParams params 0 [] [])).bind fun args =>
          .ok (.mk (String.mk (name ++ '(' :: (params ++ [')']))) (some f)
            (TrimSpace (String.mk name)) args "" .nil) := by
  have hleft : indexByte (name ++ '(' :: (params ++ [')'])) '(' = some name.length :=
    indexByte_append name _ '(' hname
  have hright : lastIndexByte (name ++ '(' :: (params ++ [')'])) ')' =
      some (name.length + 1 + params.length) := by
    have h := lastIndexByte_append (name ++ '(' :: params) [] ')' (by simp)
    rw [show name ++ '(' :: (params ++ [')']) = (name ++ '(' :: params) ++ [')'] by simp, h]
    simp only [List.length_append, List.length_cons]
    congr 1
    omega
  have htake : (name ++ '(' :: (params ++ [')'])).take name.length = name := by
    simp
  have hparams : ((name ++ '(' :: (params ++ [')'])).take
      (name.length + 1 + params.length)).drop (name.length + 1) = params := by
    rw [show name ++ '(' :: (params ++ [')']) = (name ++ '(' :: params) ++ [')'] by simp,
      List.take_left' (by simp only [List.length_append, List.length_cons]; omega),
      show name ++ '(' :: params = (name ++ ['(']) ++ params by simp,
      List.drop_left' (by simp)]
  rw [ParseFunctionExpression.eq_def]
  simp only [hleft, hright, htake, hparams]
  rw [if_neg (by omega)]

/-! ## A bare variable -/

theorem Parse_variable (name : List Char) (h : isIdentifier name = true) :
    Parse (String.mk ('$' :: name)) = .ok (String.mk ('$' :: name)) := by
  unfold Parse
  rw [(lexes_variable name h).tokenize rfl, Outcome.bind_ok]
  rfl

theorem paren_not_mem_of_identChars (s : List Char) (h : ∀ c ∈ s, isIdentChar c = true) :
    '(' ∉ s :=
  fun hmem => (identChar_facts _ (h _ hmem)).1 rfl

theorem ParseFunctionExpression_variable (L : Lib) (fuel : Nat) (name : List Char)
    (h : isIdentifier name = true) :
    ParseFunctionExpression L (fuel + 1) (String.mk ('$' :: name)) =
      .ok (.mk (String.mk ('$' :: name)) none "" [] (String.mk name) .nil) := by
  have hno : indexByte ('$' :: name) '(' = none :=
    indexByte_none _ _ (by
      intro hmem
      rcases List.mem_cons.1 hmem with h1 | h1
      · exact absurd h1 (by decide)
      · exact paren_not_mem_of_identChars name (identChar_of_identifier name h) h1)
  rw [ParseFunctionExpression.eq_def]
  simp only [hno]
  rfl

/-- C11: for every identifier `name` and every binding map `vars`, compiling the bare
variable `$name` succeeds and executing the compiled tree returns the value bound to `name`
when `name` is a key of the map, and otherwise the string `name` itself, without the `$`. -/
theorem C11_bare_variable (L : Lib) (name : List Char) (vars : Vars)
    (h : isIdentifier name = true) :
    ParseExpression L (String.mk ('$' :: name)) =
      .ok (.mk (String.mk ('$' :: name)) none "" [] (String.mk name) .nil) ∧
    ParseAndExecute L (String.mk ('$' :: name)) vars =
      .ok (match vars (String.mk name) with
        | some v => v
        | none => .str (String.mk name)) := by
  have hcompile : ParseExpression L (String.mk ('$' :: name)) =
      .ok (.mk (String.mk ('$' :: name)) none "" [] (String.mk name) .nil) := by
    unfold ParseExpression
    rw [Parse_variable name h, Outcome.bind_ok]
    exact ParseFunctionExpression_variable L _ name h
  refine ⟨hcompile, ?_⟩
  have hne : String.mk name ≠ "" := by
    cases name with
    | nil => simp [isIdentifier, Operand.wellFormed] at h
    | cons c cs =>
      intro hc
      have := congrArg String.data hc
      simp at this
  unfold ParseAndExecute
  rw [hcompile, Outcome.bind_ok]
  simp only [FunctionCall.Execute, executeFunctionCall, hne, ne_eq, not_false_eq_true, if_true]
  cases vars (String.mk name) <;> rfl

theorem C11_bare_variable_witness :
    isIdentifier ['q', 't', 'y'] = true ∧
      ParseAndExecute refLib "$qty" (fun k => if k = "qty" then some (.int .int 7) else none) =
        .ok (.int .int 7) ∧
      ParseAndExecute refLib "$qty" (fun _ => none) = .ok (.str "qty") :=
  ⟨rfl,
    (C11_bare_variable refLib ['q', 't', 'y']
      (fun k => if k = "qty" then some (.int .int 7) else none) rfl).2,
    (C11_bare_variable refLib ['q', 't', 'y'] (fun _ => none) rfl).2⟩

/-! ## Unknown function names -/

theorem Parse_call_one (name : List Char) (h : isIdentifier name = true) :
    Parse (String.mk ('@' :: (name ++ ['(', '1', ')']))) =
      .ok (String.mk (name ++ '(' :: (['1', ':', 'i', 'n', 't'] ++ [')']))) := by
  have h4 := LexesTo.append (lexes_numeral ['1'] rfl) lexes_close (fun _ _ => rfl)
  have h3 := LexesTo.append lexes_open h4 (fun _ _ => rfl)
  have h2 := LexesTo.append (lexes_identifier name h) h3 (fun _ _ => rfl)
  have h1 := LexesTo.append lexes_at h2 (fun _ _ => rfl)
  have htok := h1.tokenize rfl
  unfold Parse
  rw [show String.mk ('@' :: (name ++ ['(', '1', ')'])) =
    String.mk (['@'] ++ (name ++ (['('] ++ (['1'] ++ [')'])))) from rfl, htok, Outcome.bind_ok]
  have hp : parseTokens ([⟨.At, "@"⟩] ++ ([⟨.Identifier, String.mk name⟩] ++
      ([⟨.OpenParen, "("⟩] ++ ([⟨.Literal, String.mk ['1'] ++ ":int"⟩] ++
        [⟨.CloseParen, ")"⟩])))) =
      .ok (String.mk name ++ "(" ++ String.intercalate "," ["1:int"] ++ ")", 5) := rfl
  rw [hp, Outcome.bind_ok]
  congr 1
  apply String.ext
  simp [String.intercalate, String.intercalate.go]

/-- C12: for every identifier `name` that is not a key of the built-in function table,
compiling `@name(1)` with `ParseExpression` fails with `function not found: name`; and
`ParseFunctionExpression` fails with that error on every text whose last `)` comes after its
first `(` and whose trimmed prefix before the first `(` is not in the table, whatever the
text between the parentheses.  When the last `)` comes before the first `(`, as in `)(`, the
slice `expr[left+1:right]` is taken before the table is consulted and the run panics; the
text `)(` is reached by compiling the string literal `")("`.  The prefix is trimmed of
Unicode white space too: behind a no-break space `foo(1)` fails with
`function not found: foo` and `add(1:int,2:int)` is the call of `add`. -/
theorem C12_function_not_found (L : Lib) :
    (∀ name : List Char, isIdentifier name = true → funcMap L (String.mk name) = none →
      ParseExpression L (String.mk ('@' :: (name ++ ['(', '1', ')']))) =
        .error ("function not found: " ++ String.mk name)) ∧
    (∀ (fuel : Nat) (expr : String) (left right : Nat),
      indexByte expr.data '(' = some left → lastIndexByte expr.data ')' = some right →
      left < right → funcMap L (TrimSpace (String.mk (expr.data.take left))) = none →
      ParseFunctionExpression L (fuel + 1) expr =
        .error ("function not found: " ++ TrimSpace (String.mk (expr.data.take left)))) ∧
    (∀ (fuel : Nat) (expr : String) (left right : Nat),
      indexByte expr.data '(' = some left → lastIndexByte expr.data ')' = some right →
      right < left → ParseFunctionExpression L (fuel + 1) expr = .panic) ∧
    funcMap L ")" = none ∧
    (∀ fuel : Nat, ParseFunctionExpression L (fuel + 1) ")(" = .panic) ∧
    Parse "\")(\"" = .ok ")(:str" ∧
    ParseExpression L "\")(\"" = .panic ∧
    ParseExpression L "@unknownFn(1)" = .error "function not found: unknownFn" ∧
    (∀ fuel : Nat, ParseFunctionExpression L (fuel + 1) (String.mk (nbsp ++ "foo(1)".data)) =
      .error "function not found: foo") ∧
    ParseFunctionExpression L 2 (String.mk (nbsp ++ "add(1:int,2:int)".data)) =
      .ok (.mk (String.mk (nbsp ++ "add(1:int,2:int)".data)) (some (fnAdd L)) "add"
        [.mk none "" (.int .int64 1), .mk none "" (.int .int64 2)] "" .nil) := by
  refine ⟨?_, ?_, ?_, rfl, fun _ => rfl, rfl, rfl, rfl, fun _ => rfl, rfl⟩
  · intro name h hnone
    unfold ParseExpression
    rw [Parse_call_one name h, Outcome.bind_ok]
    show ParseFunctionExpression L (_ + 1) _ = _
    rw [ParseFunctionExpression_call L _ name _
      (paren_not_mem_of_identChars name (identChar_of_identifier name h)),
      TrimSpace_ident name (identChar_of_identifier name h), hnone]
  · intro fuel expr left right hl hr hlt hnone
    rw [ParseFunctionExpression.eq_def]
    simp only [hl, hr, hnone]
    rw [if_neg (by omega)]
  · intro fuel expr left right hl hr hlt
    rw [ParseFunctionExpression.eq_def]
    simp only [hl, hr]
    rw [if_pos (by omega)]

theorem C12_function_not_found_witness :
    isIdentifier ['n', 'o', 'p', 'e'] = true ∧ funcMap refLib "nope" = none ∧
      ParseExpression refLib "@nope(1)" = .error "function not found: nope" ∧
      ParseFunctionExpression refLib 1 " f (x))" = .error "function not found: f" ∧
      ParseFunctionExpression refLib 1 "a)b(" = .panic :=
  ⟨rfl, rfl, (C12_function_not_found refLib).1 ['n', 'o', 'p', 'e'] rfl rfl,
    (C12_function_not_found refLib).2.1 0 " f (x))" 3 6 rfl rfl (by decide) rfl,
    (C12_function_not_found refLib).2.2.1 0 "a)b(" 3 1 rfl rfl (by decide)⟩

/-! ## Typed literal arguments and modulo by zero -/

theorem splitType_typed (body typ : List Char) (h : ':' ∉ typ) :
    splitType (String.mk (body ++ ':' :: typ)) = (String.mk typ, String.mk body) := by
  unfold splitType
  simp only [lastIndexByte_append body typ ':' h]
  rw [show body ++ ':' :: typ = (body ++ [':']) ++ typ by simp,
    List.drop_left' (by simp), List.append_assoc, List.take_left' rfl]

theorem parseArgument_int (L : Lib) (fuel : Nat) (n : List Char) (h : isNumeral n = true) :
    parseArgument L (fuel + 1) (String.mk (n ++ [':', 'i', 'n', 't'])) =
      .ok (.mk none "" (.int .int64 (ParseInt (String.mk n)))) := by
  have hid := identChar_of_numeral n h
  have hcont : (n ++ [':', 'i', 'n', 't']).contains '(' = false := by
    have hn := paren_not_mem_of_identChars n hid
    simp [hn]
  have hsplit := splitType_typed n ['i', 'n', 't'] (by decide)
  obtain ⟨d, ds, rfl, hd⟩ := numeral_head n h
  have hdollar : d ≠ '$' :=
    (identChar_facts d (hid d (List.mem_cons_self d ds))).2.2.2.2.1
  have hcont2 : (d :: (ds ++ [':', 'i', 'n', 't'])).contains '(' = false := hcont
  have hsplit2 : splitType (String.mk (d :: (ds ++ [':', 'i', 'n', 't']))) =
      (String.mk ['i', 'n', 't'], String.mk (d :: ds)) := hsplit
  rw [parseArgument.eq_def]
  simp only [List.cons_append, hcont2, hsplit2, if_neg hdollar, Bool.false_eq_true, if_false]
  rfl

theorem canonical_mod_zero (n : List Char) :
    call2 "mod" (String.mk n ++ ":int") (String.mk ['0'] ++ ":int") =
      String.mk (['m', 'o', 'd'] ++ '(' ::
        ((n ++ [':', 'i', 'n', 't'] ++ ',' :: ['0', ':', 'i', 'n', 't']) ++ [')'])) := by
  apply String.ext
  simp [call2]

theorem ParseFunctionExpression_mod_zero (L : Lib) (fuel : Nat) (n : List Char)
    (h : isNumeral n = true) :
    ParseFunctionExpression L (fuel + 1 + 1)
        (call2 "mod" (String.mk n ++ ":int") (String.mk ['0'] ++ ":int")) =
      .ok (.mk (call2 "mod" (String.mk n ++ ":int") (String.mk ['0'] ++ ":int"))
        (some (fnMod L)) "mod"
        [.mk none "" (.int .int64 (ParseInt (String.mk n))),
          .mk none "" (.int .int64 (ParseInt (String.mk ['0'])))] "" .nil) := by
  have hid := identChar_of_numeral n h
  have hplain : ∀ c ∈ n ++ [':', 'i', 'n', 't'], c ≠ '(' ∧ c ≠ ')' ∧ c ≠ ',' := by
    intro c hc
    rcases List.mem_append.1 hc with hc | hc
    · have := identChar_facts c (hid c hc)
      exact ⟨this.1, this.2.1, this.2.2.1⟩
    · simp only [List.mem_cons, List.mem_singleton, List.not_mem_nil, or_false] at hc
      rcases hc with rfl | rfl | rfl | rfl <;> decide
  have hsplit : splitParams (n ++ [':', 'i', 'n', 't'] ++ ',' :: ['0', ':', 'i', 'n', 't'])
      0 [] [] = [String.mk (n ++ [':', 'i', 'n', 't']), String.mk ['0', ':', 'i', 'n', 't']] := by
    rw [splitParams_plain _ hplain]
    rfl
  have htrim1 : TrimSpace (String.mk (n ++ [':', 'i', 'n', 't'])) =
      String.mk (n ++ [':', 'i', 'n', 't']) := by
    refine TrimSpace_eq_self _ ?_ ?_
    · exact spaceWidth_append_colon n _ (spaceWidth_identChars n hid)
    · intro c hc
      rw [List.getLast?_append_of_ne_nil _ (by simp)] at hc
      cases hc
      exact ⟨rfl, Or.inl (by decide)⟩
  have htrim2 : TrimSpace (String.mk ['0', ':', 'i', 'n', 't']) =
      String.mk (['0'] ++ [':', 'i', 'n', 't']) := rfl
  rw [canonical_mod_zero n, ParseFunctionExpression_call L (fuel + 1) ['m', 'o', 'd'] _
    (by decide)]
  rw [show TrimSpace (String.mk ['m', 'o', 'd']) = "mod" from rfl,
    show funcMap L "mod" = some (fnMod L) from rfl]
  simp only [hsplit, Outcome.mapM, htrim1, htrim2, parseArgument_int L fuel n h,
    parseArgument_int L fuel ['0'] rfl, Outcome.bind_ok]

/-- C19: for every first operand and every second operand whose integer conversion is zero,
the `mod` built-in returns the integer 0 and does not fail; hence, when the integer 0
converts to 0, for every unsigned integer literal `n` (and any number of spaces around the
operator) executing the tree compiled from `n % 0` returns 0. -/
theorem C19_mod_by_zero (L : Lib) :
    (∀ (a b : Value) (rest : List Value), L.ToInt64 b = 0 →
      fnMod L (a :: b :: rest) = .ok (.int .int 0)) ∧
    funcMap L "mod" = some (fnMod L) ∧
    (L.ToInt64 (.int .int64 0) = 0 →
      ∀ (n : List Char), isNumeral n = true → ∀ (s1 s2 : Nat) (vars : Vars),
        ParseAndExecute L (String.mk (n ++ (List.replicate s1 ' ' ++ ('%' ::
          (List.replicate s2 ' ' ++ ['0']))))) vars = .ok (.int .int 0)) := by
  refine ⟨?_, rfl, ?_⟩
  · intro a b rest hb
    simp [fnMod, hb]
  · intro h0 n hn s1 s2 vars
    have hparse := Parse_binary n ['0'] hn rfl s1 s2 (.arith .mod)
    have hzero : ParseInt (String.mk ['0']) = 0 := by decide
    unfold ParseAndExecute ParseExpression
    rw [show String.mk (n ++ (List.replicate s1 ' ' ++ ('%' ::
        (List.replicate s2 ' ' ++ ['0'])))) =
      String.mk (n ++ (List.replicate s1 ' ' ++ ((InfixOp.arith .mod).text ++
        (List.replicate s2 ' ' ++ ['0'])))) from rfl, hparse, Outcome.bind_ok]
    show (ParseFunctionExpression L (_ + 1 + 1)
      (call2 "mod" (String.mk n ++ ":int") (String.mk ['0'] ++ ":int"))).bind _ = _
    rw [ParseFunctionExpression_mod_zero L _ n hn, Outcome.bind_ok, hzero]
    show (Outcome.ok [Value.int .int64 (ParseInt (String.mk n)), Value.int .int64 0]).bind
      (fnMod L) = _
    rw [Outcome.bind_ok]
    simp [fnMod, h0]

theorem C19_mod_by_zero_witness :
    refLib.ToInt64 (.int .int64 0) = 0 ∧ isNumeral ['1', '7'] = true ∧
      fnMod refLib [.int .int64 17, .int .int64 0] = .ok (.int .int 0) ∧
      ParseAndExecute refLib "17 % 0" (fun _ => none) = .ok (.int .int 0) :=
  ⟨rfl, rfl, (C19_mod_by_zero refLib).1 (.int .int64 17) (.int .int64 0) [] rfl,
    (C19_mod_by_zero refLib).2.2 rfl ['1', '7'] rfl 1 1 (fun _ => none)⟩

/-! ## Parenthesis balance of what the parser consumes -/

theorem drop_of_getElem? {T : List Token} {x : Nat} {t : Token} (h : T[x]? = some t) :
    T.drop x = t :: T.drop (x + 1) := by
  have hlt := lt_length_of_getElem? h
  rw [List.getElem?_eq_getElem hlt] at h
  cases h
  exact List.drop_eq_getElem_cons hlt

theorem closes_none {T : List Token} {x : Nat} (h : T[x]? = none) (d : Nat) :
    closes (T.drop x) d = false := by
  rw [List.drop_eq_nil_of_le (by
    by_contra hcon
    rw [List.getElem?_eq_getElem (by omega)] at h
    cases h)]
  rfl

theorem closes_other {T : List Token} {x : Nat} {t : Token} (h : T[x]? = some t)
    (h1 : t.Typ ≠ .OpenParen) (h2 : t.Typ ≠ .CloseParen) (d : Nat) :
    closes (T.drop x) d = closes (T.drop (x + 1)) d := by
  rw [drop_of_getElem? h, closes, if_neg h1, if_neg h2]

theorem closes_open {T : List Token} {x : Nat} {t : Token} (h : T[x]? = some t)
    (h1 : t.Typ = .OpenParen) (d : Nat) :
    closes (T.drop x) d = closes (T.drop (x + 1)) (d + 1) := by
  rw [drop_of_getElem? h, closes, if_pos h1]

theorem closes_close {T : List Token} {x : Nat} {t : Token} (h : T[x]? = some t)
    (h2 : t.Typ = .CloseParen) (d : Nat) :
    closes (T.drop x) (d + 1) = closes (T.drop (x + 1)) d := by
  rw [drop_of_getElem? h, closes, if_neg (by rw [h2]; decide), if_pos h2]
  simp

theorem closes_close_zero {T : List Token} {x : Nat} {t : Token} (h : T[x]? = some t)
    (h2 : t.Typ = .CloseParen) : closes (T.drop x) 0 = true := by
  rw [drop_of_getElem? h, closes, if_neg (by rw [h2]; decide), if_pos h2]
  simp

theorem closes_succ (ts : List Token) :
    ∀ d, closes ts (d + 1) = true → closes ts d = true := by
  induction ts with
  | nil => intro d h; exact h
  | cons t ts ih =>
    intro d h
    rw [closes] at h ⊢
    by_cases h1 : t.Typ = .OpenParen
    · rw [if_pos h1] at h ⊢
      exact ih _ h
    rw [if_neg h1] at h ⊢
    by_cases h2 : t.Typ = .CloseParen
    · rw [if_pos h2] at h ⊢
      cases d with
      | zero => rfl
      | succ d =>
        simp only [Nat.add_sub_cancel, Bool.or_eq_true, beq_iff_eq] at h ⊢
        rcases h with h | h
        · omega
        · exact Or.inr (ih _ h)
    rw [if_neg h2] at h ⊢
    exact ih _ h

theorem Bal.ret {α : Type} {T : List Token} {x p : Nat} (a : α) (h1 : x ≤ p)
    (h2 : p ≤ T.length) (h3 : ∀ d, closes (T.drop x) d = closes (T.drop p) d) :
    Bal T x (Outcome.ok (a, p)) := by
  intro b q hq
  cases hq
  exact ⟨h1, h2, h3⟩

theorem Bal.err {α : Type} (T : List Token) (x : Nat) (msg : String) :
    Bal T x (Outcome.error msg : Outcome (α × Nat)) :=
  fun _ _ hq => Outcome.noConfusion hq

theorem Bal.crash {α : Type} (T : List Token) (x : Nat) :
    Bal T x (Outcome.panic : Outcome (α × Nat)) :=
  fun _ _ hq => Outcome.noConfusion hq

theorem Bal.starved {α : Type} (T : List Token) (x : Nat) :
    Bal T x (Outcome.outOfFuel : Outcome (α × Nat)) :=
  fun _ _ hq => Outcome.noConfusion hq

theorem Bal.trans {α : Type} {T : List Token} {x y : Nat} {R : Outcome (α × Nat)}
    (h : Bal T y R) (hxy : x ≤ y) (hcl : ∀ d, closes (T.drop x) d = closes (T.drop y) d) :
    Bal T x R := by
  intro a p hp
  obtain ⟨h1, h2, h3⟩ := h a p hp
  exact ⟨le_trans hxy h1, h2, fun d => (hcl d).trans (h3 d)⟩

theorem Bal.seq {α β : Type} {T : List Token} {x y : Nat} {R : Outcome (α × Nat)}
    {f : α × Nat → Outcome (β × Nat)} (hR : Bal T y R)
    (hf : ∀ a p, R = .ok (a, p) → y ≤ p → p ≤ T.length →
      (∀ d, closes (T.drop y) d = closes (T.drop p) d) → Bal T x (f (a, p))) :
    Bal T x (R.bind f) := by
  cases R with
  | ok r =>
    obtain ⟨a, p⟩ := r
    obtain ⟨h1, h2, h3⟩ := hR a p rfl
    exact hf a p rfl h1 h2 h3
  | error msg => exact Bal.err T x msg
  | panic => exact Bal.crash T x
  | outOfFuel => exact Bal.starved T x

theorem Bal.step {α : Type} {T : List Token} {x : Nat} {t : Token} {R : Outcome (α × Nat)}
    (h : Bal T (x + 1) R) (ht : T[x]? = some t) (h1 : t.Typ ≠ .OpenParen)
    (h2 : t.Typ ≠ .CloseParen) : Bal T x R :=
  h.trans (Nat.le_succ x) (closes_other ht h1 h2)

/-- A group `( ... )`: after the opening parenthesis at `x` a balanced stretch up to `p`, and
a closing parenthesis at `p`. -/
theorem closes_group {T : List Token} {x p : Nat} {t c : Token} (ht : T[x]? = some t)
    (hopen : t.Typ = .OpenParen) (hin : ∀ d, closes (T.drop (x + 1)) d = closes (T.drop p) d)
    (hc : T[p]? = some c) (hclose : c.Typ = .CloseParen) (d : Nat) :
    closes (T.drop x) d = closes (T.drop (p + 1)) d := by
  rw [closes_open ht hopen, hin, closes_close hc hclose]

/-- Every parser function that returns has consumed a stretch of tokens in which the
parentheses are balanced, and has stopped inside the token sequence. -/
theorem parser_balanced (T : List Token) :
    ∀ n : Nat,
      (∀ x, x ≤ T.length → Bal T x (parseLogicalExpression n T x)) ∧
      (∀ x left, x ≤ T.length → Bal T x (parseLogicalLoop n T x left)) ∧
      (∀ x, x ≤ T.length → Bal T x (parseComparisonExpression n T x)) ∧
      (∀ x, x ≤ T.length → Bal T x (additive n T x)) ∧
      (∀ x acc, x ≤ T.length → Bal T x (additiveLoop n T x acc)) ∧
      (∀ x, x ≤ T.length → Bal T x (term n T x)) ∧
      (∀ x acc, x ≤ T.length → Bal T x (termLoop n T x acc)) ∧
      (∀ x, x ≤ T.length → Bal T x (factor n T x)) ∧
      (∀ x args, x ≤ T.length → Bal T x (factorArgs n T x args)) := by
  intro n
  induction n with
  | zero =>
    refine ⟨?_, ?_, ?_, ?_, ?_, ?_, ?_, ?_, ?_⟩ <;> intros <;> exact Bal.starved _ _
  | succ n ih =>
    obtain ⟨ihLog, ihLogLoop, ihCmp, ihAdd, ihAddLoop, ihTerm, ihTermLoop, ihFactor, ihArgs⟩ := ih
    refine ⟨?_, ?_, ?_, ?_, ?_, ?_, ?_, ?_, ?_⟩
    · -- parseLogicalExpression
      intro x hx
      rw [parseLogicalExpression.eq_def]
      simp only []
      exact Bal.seq (ihCmp x hx) fun a p _ hp hpL hcl => (ihLogLoop p a hpL).trans hp hcl
    · -- parseLogicalLoop
      intro x left hx
      rw [parseLogicalLoop.eq_def]
      simp only []
      cases htok : T[x]? with
      | none => exact Bal.ret _ (le_refl _) hx (fun _ => rfl)
      | some tok =>
        have hlt := lt_length_of_getElem? htok
        simp only []
        cases hT : tok.Typ
        case And =>
          exact (Bal.seq (ihCmp (x + 1) hlt) fun a p _ hp hpL hcl =>
            (ihLogLoop p _ hpL).trans hp hcl).step htok (by rw [hT]; decide) (by rw [hT]; decide)
        case Or =>
          exact (Bal.seq (ihCmp (x + 1) hlt) fun a p _ hp hpL hcl =>
            (ihLogLoop p _ hpL).trans hp hcl).step htok (by rw [hT]; decide) (by rw [hT]; decide)
        all_goals exact Bal.ret _ (le_refl _) hx (fun _ => rfl)
    · -- parseComparisonExpression
      intro x hx
      rw [parseComparisonExpression.eq_def]
      simp only []
      cases htok : T[x]? with
      | none => exact Bal.err _ _ _
      | some tok =>
        have hlt := lt_length_of_getElem? htok
        simp only []
        by_cases hN : tok.Typ = .Not
        · rw [if_pos hN]
          refine Bal.step ?_ htok (by rw [hN]; decide) (by rw [hN]; decide)
          exact Bal.seq (ihCmp (x + 1) hlt) fun a p _ hp hpL hcl => Bal.ret _ hp hpL hcl
        rw [if_neg hN]
        by_cases hP : tok.Typ = .OpenParen
        · rw [if_pos hP]
          refine @Bal.seq _ _ T x (x + 1) _ _ ?_ ?_
          · cases hL : parseLogicalExpression n T (x + 1) with
            | ok r =>
              have := ihLog (x + 1) hlt
              rw [hL] at this
              exact this
            | error msg => exact ihAdd (x + 1) hlt
            | panic => exact Bal.crash _ _
            | outOfFuel => exact Bal.starved _ _
          · intro a p _ hp hpL hcl
            simp only []
            cases hc : T[p]? with
            | none => exact Bal.err _ _ _
            | some close =>
              have hltp := lt_length_of_getElem? hc
              simp only []
              by_cases hC : close.Typ ≠ .CloseParen
              · rw [if_pos hC]
                exact Bal.err _ _ _
              rw [if_neg hC]
              have hC2 : close.Typ = .CloseParen := not_not.1 hC
              have hgroup := closes_group htok hP hcl hc hC2
              cases ho : T[p + 1]? with
              | none => exact Bal.ret _ (by omega) hltp hgroup
              | some op =>
                have hlto := lt_length_of_getElem? ho
                simp only []
                cases hn : comparisonName op.Typ with
                | none => exact Bal.ret _ (by omega) hltp hgroup
                | some name =>
                  have hop1 : op.Typ ≠ .OpenParen := by
                    intro hcon
                    rw [hcon] at hn
                    cases hn
                  have hop2 : op.Typ ≠ .CloseParen := by
                    intro hcon
                    rw [hcon] at hn
                    cases hn
                  exact Bal.seq (ihAdd (p + 2) hlto) fun a2 p2 _ hp2 hp2L hcl2 =>
                    Bal.ret _ (by omega) hp2L (fun d => by
                      rw [hgroup d, closes_other ho hop1 hop2 d, hcl2 d])
        rw [if_neg hP]
        refine Bal.seq (ihAdd x hx) fun a p _ hp hpL hcl => ?_
        simp only []
        cases ho : T[p]? with
        | none => exact Bal.ret _ hp hpL hcl
        | some op =>
          have hlt2 := lt_length_of_getElem? ho
          simp only []
          cases hn : comparisonName op.Typ with
          | none => exact Bal.ret _ hp hpL hcl
          | some name =>
            have hop1 : op.Typ ≠ .OpenParen := by
              intro hcon
              rw [hcon] at hn
              cases hn
            have hop2 : op.Typ ≠ .CloseParen := by
              intro hcon
              rw [hcon] at hn
              cases hn
            exact Bal.seq (ihAdd (p + 1) hlt2) fun a2 p2 _ hp2 hp2L hcl2 =>
              Bal.ret _ (by omega) hp2L (fun d => by
                rw [hcl d, closes_other ho hop1 hop2 d, hcl2 d])
    · -- additive
      intro x hx
      rw [additive.eq_def]
      simp only []
      exact Bal.seq (ihTerm x hx) fun a p _ hp hpL hcl => (ihAddLoop p a hpL).trans hp hcl
    · -- additiveLoop
      intro x acc hx
      rw [additiveLoop.eq_def]
      simp only []
      cases htok : T[x]? with
      | none => exact Bal.ret _ (le_refl _) hx (fun _ => rfl)
      | some tok =>
        have hlt := lt_length_of_getElem? htok
        simp only []
        cases hT : tok.Typ
        case Add =>
          exact (Bal.seq (ihTerm (x + 1) hlt) fun a p _ hp hpL hcl =>
            (ihAddLoop p _ hpL).trans hp hcl).step htok (by rw [hT]; decide) (by rw [hT]; decide)
        case Sub =>
          exact (Bal.seq (ihTerm (x + 1) hlt) fun a p _ hp hpL hcl =>
            (ihAddLoop p _ hpL).trans hp hcl).step htok (by rw [hT]; decide) (by rw [hT]; decide)
        all_goals exact Bal.ret _ (le_refl _) hx (fun _ => rfl)
    · -- term
      intro x hx
      rw [term.eq_def]
      simp only []
      exact Bal.seq (ihFactor x hx) fun a p _ hp hpL hcl => (ihTermLoop p a hpL).trans hp hcl
    · -- termLoop
      intro x acc hx
      rw [termLoop.eq_def]
      simp only []
      cases htok : T[x]? with
      | none => exact Bal.ret _ (le_refl _) hx (fun _ => rfl)
      | some tok =>
        have hlt := lt_length_of_getElem? htok
        simp only []
        cases hT : tok.Typ
        case Mul =>
          exact (Bal.seq (ihFactor (x + 1) hlt) fun a p _ hp hpL hcl =>
            (ihTermLoop p _ hpL).trans hp hcl).step htok (by rw [hT]; decide) (by rw [hT]; decide)
        case Div =>
          exact (Bal.seq (ihFactor (x + 1) hlt) fun a p _ hp hpL hcl =>
            (ihTermLoop p _ hpL).trans hp hcl).step htok (by rw [hT]; decide) (by rw [hT]; decide)
        case Mod =>
          exact (Bal.seq (ihFactor (x + 1) hlt) fun a p _ hp hpL hcl =>
            (ihTermLoop p _ hpL).trans hp hcl).step htok (by rw [hT]; decide) (by rw [hT]; decide)
        all_goals exact Bal.ret _ (le_refl _) hx (fun _ => rfl)
    · -- factor
      intro x hx
      rw [factor.eq_def]
      simp only []
      cases htok : T[x]? with
      | none => exact Bal.crash _ _
      | some tok =>
        have hlt := lt_length_of_getElem? htok
        simp only []
        by_cases hP : tok.Typ = .OpenParen
        · rw [if_pos hP]
          refine Bal.seq (ihAdd (x + 1) hlt) fun a p _ hp hpL hcl => ?_
          simp only []
          cases hc : T[p]? with
          | none => exact Bal.crash _ _
          | some close =>
            have hltp := lt_length_of_getElem? hc
            simp only []
            by_cases hC : close.Typ ≠ .CloseParen
            · rw [if_pos hC]
              exact Bal.err _ _ _
            · rw [if_neg hC]
              exact Bal.ret _ (by omega) hltp (closes_group htok hP hcl hc (not_not.1 hC))
        rw [if_neg hP]
        by_cases hA : tok.Typ = .At
        · rw [if_pos hA]
          cases h1 : T[x + 1]? with
          | none => exact Bal.crash _ _
          | some nameTok =>
            simp only []
            by_cases hI : nameTok.Typ ≠ .Identifier
            · rw [if_pos hI]
              exact Bal.err _ _ _
            rw [if_neg hI]
            have hI2 : nameTok.Typ = .Identifier := not_not.1 hI
            cases h2 : T[x + 2]? with
            | none => exact Bal.crash _ _
            | some open_ =>
              have hlt2 := lt_length_of_getElem? h2
              simp only []
              by_cases hO : open_.Typ ≠ .OpenParen
              · rw [if_pos hO]
                exact Bal.err _ _ _
              rw [if_neg hO]
              have hO2 : open_.Typ = .OpenParen := not_not.1 hO
              refine Bal.seq (ihArgs (x + 3) [] hlt2) fun a p _ hp hpL hcl => ?_
              simp only []
              cases hc : T[p]? with
              | none => exact Bal.crash _ _
              | some close =>
                have hltp := lt_length_of_getElem? hc
                simp only []
                by_cases hC : close.Typ ≠ .CloseParen
                · rw [if_pos hC]
                  exact Bal.err _ _ _
                · rw [if_neg hC]
                  exact Bal.ret _ (by omega) hltp (fun d => by
                    rw [closes_other htok hP (by rw [hA]; decide) d,
                      closes_other h1 (by rw [hI2]; decide) (by rw [hI2]; decide) d,
                      closes_group h2 hO2 hcl hc (not_not.1 hC) d])
        rw [if_neg hA]
        by_cases hD : tok.Typ = .Dollar
        · rw [if_pos hD]
          cases h1 : T[x + 1]? with
          | none => exact Bal.crash _ _
          | some nameTok =>
            have hlt1 := lt_length_of_getElem? h1
            simp only []
            by_cases hI : nameTok.Typ ≠ .Identifier
            · rw [if_pos hI]
              exact Bal.err _ _ _
            rw [if_neg hI]
            have hI2 : nameTok.Typ = .Identifier := not_not.1 hI
            have hstep2 : ∀ d, closes (T.drop x) d = closes (T.drop (x + 2)) d := fun d => by
              rw [closes_other htok hP (by rw [hD]; decide) d,
                closes_other h1 (by rw [hI2]; decide) (by rw [hI2]; decide) d]
            cases h2 : T[x + 2]? with
            | none => exact Bal.ret _ (by omega) hlt1 hstep2
            | some next =>
              have hlt2 := lt_length_of_getElem? h2
              simp only []
              by_cases hAdd : next.Typ = .Add
              · rw [if_pos hAdd]
                exact Bal.seq (ihTerm (x + 3) hlt2) fun a p _ hp hpL hcl =>
                  Bal.ret _ (by omega) hpL (fun d => by
                    rw [hstep2 d, closes_other h2 (by rw [hAdd]; decide)
                      (by rw [hAdd]; decide) d, hcl d])
              · rw [if_neg hAdd]
                exact Bal.ret _ (by omega) hlt1 hstep2
        rw [if_neg hD]
        by_cases hLit : tok.Typ = .Literal
        · rw [if_pos hLit]
          exact Bal.ret _ (by omega) hlt (closes_other htok hP (by rw [hLit]; decide))
        · rw [if_neg hLit]
          exact Bal.err _ _ _
    · -- factorArgs
      intro x args hx
      rw [factorArgs.eq_def]
      simp only []
      cases htok : T[x]? with
      | none => exact Bal.crash _ _
      | some tok =>
        simp only []
        by_cases hC : tok.Typ = .CloseParen
        · rw [if_pos hC]
          exact Bal.ret _ (le_refl _) hx (fun _ => rfl)
        rw [if_neg hC]
        refine Bal.seq (ihLog x hx) fun a p _ hp hpL hcl => ?_
        simp only []
        cases hs : T[p]? with
        | none => exact Bal.crash _ _
        | some sep =>
          have hlt2 := lt_length_of_getElem? hs
          simp only []
          by_cases hC2 : sep.Typ = .CloseParen
          · rw [if_pos hC2]
            exact Bal.ret _ hp hpL hcl
          rw [if_neg hC2]
          by_cases hComma : sep.Typ ≠ .Comma
          · rw [if_pos hComma]
            exact Bal.err _ _ _
          rw [if_neg hComma]
          have hComma2 : sep.Typ = .Comma := not_not.1 hComma
          exact (ihArgs (p + 1) _ hlt2).trans (by omega) (fun d => by
            rw [hcl d, closes_other hs (by rw [hComma2]; decide) hC2 d])

/-! ## A token sequence parsed inside a larger one -/

theorem Embeds.get {T T2 : List Token} {k x : Nat} {t : Token} (hE : Embeds T T2 k)
    (h : T[x]? = some t) : T2[k + x]? = some t :=
  (hE.1 x (lt_length_of_getElem? h)).trans h

theorem Embeds.last {T T2 : List Token} {k x : Nat} (hE : Embeds T T2 k) (hx : x ≤ T.length)
    (h : T[x]? = none) :
    ∃ c, T2[k + x]? = some c ∧ (c.Typ = .Comma ∨ c.Typ = .CloseParen) := by
  have hx2 : x = T.length := by
    by_contra hcon
    rw [List.getElem?_eq_getElem (by omega)] at h
    cases h
  subst hx2
  exact hE.2

theorem Sim.of_exact {α : Type} {k : Nat} {D : Prop} {R R2 : Outcome (α × Nat)}
    (h : R2 = R.shift k) : Sim k D R R2 := by
  subst h
  exact ⟨fun a p hR => by subst hR; rfl, fun _ _ => rfl⟩

theorem Sim.exhausted {α : Type} (k : Nat) (D : Prop) (R2 : Outcome (α × Nat)) :
    Sim k D (Outcome.outOfFuel : Outcome (α × Nat)) R2 :=
  ⟨fun _ _ hR => Outcome.noConfusion hR, fun _ h => absurd rfl h⟩

theorem Sim.of_absurd {α : Type} {k : Nat} {D : Prop} {R R2 : Outcome (α × Nat)}
    (hD : ¬D) (hR : ∀ a p, R ≠ .ok (a, p)) : Sim k D R R2 :=
  ⟨fun a p h => absurd h (hR a p), fun h _ => absurd h hD⟩

theorem Sim.relax {α : Type} {k : Nat} {D D1 : Prop} {R R2 : Outcome (α × Nat)}
    (h : Sim k D1 R R2) (hD : D → D1) : Sim k D R R2 :=
  ⟨h.1, fun hd hne => h.2 (hD hd) hne⟩

theorem Sim.chain {α β : Type} {T : List Token} {k y : Nat} {D D1 : Prop}
    {R R2 : Outcome (α × Nat)} {f f2 : α × Nat → Outcome (β × Nat)}
    (hR : Sim k D1 R R2) (hbal : Bal T y R) (hD : D → D1)
    (hf : ∀ a p, R = .ok (a, p) → y ≤ p → p ≤ T.length →
      (∀ d, closes (T.drop y) d = closes (T.drop p) d) → Sim k D (f (a, p)) (f2 (a, k + p))) :
    Sim k D (R.bind f) (R2.bind f2) := by
  cases R with
  | ok r =>
    obtain ⟨a, p⟩ := r
    obtain ⟨h1, h2, h3⟩ := hbal a p rfl
    rw [hR.1 a p rfl]
    exact hf a p rfl h1 h2 h3
  | error msg =>
    refine ⟨fun _ _ h => Outcome.noConfusion h, fun hd _ => ?_⟩
    rw [hR.2 (hD hd) (by simp)]
    rfl
  | panic =>
    refine ⟨fun _ _ h => Outcome.noConfusion h, fun hd _ => ?_⟩
    rw [hR.2 (hD hd) (by simp)]
    rfl
  | outOfFuel => exact Sim.exhausted _ _ _

theorem not_ok_of_bind {α β : Type} {R : Outcome α} {f : α → Outcome β}
    (h : ∀ a, R = .ok a → ∀ b, f a ≠ .ok b) : ∀ b, R.bind f ≠ .ok b := by
  intro b
  cases R with
  | ok a => exact h a rfl b
  | error msg => exact fun hcon => Outcome.noConfusion hcon
  | panic => exact fun hcon => Outcome.noConfusion hcon
  | outOfFuel => exact fun hcon => Outcome.noConfusion hcon

theorem Sim.failed {α : Type} {k : Nat} {D : Prop} (hD : ¬D) (msg : String)
    (R2 : Outcome (α × Nat)) : Sim k D (Outcome.error msg : Outcome (α × Nat)) R2 :=
  Sim.of_absurd hD fun _ _ h => Outcome.noConfusion h

theorem Sim.panicked {α : Type} {k : Nat} {D : Prop} (hD : ¬D) (R2 : Outcome (α × Nat)) :
    Sim k D (Outcome.panic : Outcome (α × Nat)) R2 :=
  Sim.of_absurd hD fun _ _ h => Outcome.noConfusion h

theorem Sim.absurd_bind {α β : Type} {T : List Token} {k y : Nat} {D : Prop}
    {R R2 : Outcome (α × Nat)} {f f2 : α × Nat → Outcome (β × Nat)}
    (hD : ¬D) (hbal : Bal T y R)
    (hf : ∀ a p, R = .ok (a, p) → y ≤ p → p ≤ T.length →
      (∀ d, closes (T.drop y) d = closes (T.drop p) d) → ∀ b, f (a, p) ≠ .ok b) :
    Sim k D (R.bind f) (R2.bind f2) := by
  refine Sim.of_absurd hD fun b q => ?_
  refine not_ok_of_bind (fun r hr c => ?_) (b, q)
  obtain ⟨a, p⟩ := r
  obtain ⟨h1, h2, h3⟩ := hbal a p hr
  exact hf a p hr h1 h2 h3 c

theorem Embeds.get1 {T T2 : List Token} {k x : Nat} {t : Token} (hE : Embeds T T2 k)
    (h : T[x + 1]? = some t) : T2[k + x + 1]? = some t :=
  hE.get h

theorem Embeds.get2 {T T2 : List Token} {k x : Nat} {t : Token} (hE : Embeds T T2 k)
    (h : T[x + 2]? = some t) : T2[k + x + 2]? = some t :=
  hE.get h

theorem Embeds.last1 {T T2 : List Token} {k x : Nat} (hE : Embeds T T2 k)
    (hx : x + 1 ≤ T.length) (h : T[x + 1]? = none) :
    ∃ c, T2[k + x + 1]? = some c ∧ (c.Typ = .Comma ∨ c.Typ = .CloseParen) :=
  hE.last hx h

theorem Embeds.last2 {T T2 : List Token} {k x : Nat} (hE : Embeds T T2 k)
    (hx : x + 2 ≤ T.length) (h : T[x + 2]? = none) :
    ∃ c, T2[k + x + 2]? = some c ∧ (c.Typ = .Comma ∨ c.Typ = .CloseParen) :=
  hE.last hx h

theorem comparisonName_separator (c : Token) (h : c.Typ = .Comma ∨ c.Typ = .CloseParen) :
    comparisonName c.Typ = none := by
  rcases h with h | h <;> rw [h] <;> rfl

/-- A token sequence `T` that stands inside a larger one, followed there by a comma or a
closing parenthesis, is parsed there as it is parsed alone: every parser function started at
a position of `T` returns the same result (shifted) when it returns on `T`, and behaves in
exactly the same way when a closing parenthesis without partner lies ahead of it in `T`.  A
larger budget inside changes nothing. -/
theorem parser_embedded (T T2 : List Token) (k : Nat) (hE : Embeds T T2 k) :
    ∀ n m : Nat, n ≤ m →
      (∀ x, x ≤ T.length → Sim k (closes (T.drop x) 0 = true)
        (parseLogicalExpression n T x) (parseLogicalExpression m T2 (k + x))) ∧
      (∀ x left, x ≤ T.length → Sim k (closes (T.drop x) 0 = true)
        (parseLogicalLoop n T x left) (parseLogicalLoop m T2 (k + x) left)) ∧
      (∀ x, x ≤ T.length → Sim k (closes (T.drop x) 0 = true)
        (parseComparisonExpression n T x) (parseComparisonExpression m T2 (k + x))) ∧
      (∀ x, x ≤ T.length → Sim k (closes (T.drop x) 0 = true)
        (additive n T x) (additive m T2 (k + x))) ∧
      (∀ x acc, x ≤ T.length → Sim k (closes (T.drop x) 0 = true)
        (additiveLoop n T x acc) (additiveLoop m T2 (k + x) acc)) ∧
      (∀ x, x ≤ T.length → Sim k (closes (T.drop x) 0 = true)
        (term n T x) (term m T2 (k + x))) ∧
      (∀ x acc, x ≤ T.length → Sim k (closes (T.drop x) 0 = true)
        (termLoop n T x acc) (termLoop m T2 (k + x) acc)) ∧
      (∀ x, x ≤ T.length → Sim k (closes (T.drop x) 0 = true)
        (factor n T x) (factor m T2 (k + x))) ∧
      (∀ x args, x ≤ T.length → Sim k (closes (T.drop x) 0 = true)
        (factorArgs n T x args) (factorArgs m T2 (k + x) args)) := by
  intro n
  induction n with
  | zero =>
    intro m _
    refine ⟨?_, ?_, ?_, ?_, ?_, ?_, ?_, ?_, ?_⟩ <;> intros <;> exact Sim.exhausted _ _ _
  | succ n ih =>
    intro m1 hm
    obtain ⟨m, rfl⟩ : ∃ m, m1 = m + 1 := ⟨m1 - 1, by omega⟩
    obtain ⟨ihLog, ihLogLoop, ihCmp, ihAdd, ihAddLoop, ihTerm, ihTermLoop, ihFactor, ihArgs⟩ :=
      ih m (by omega)
    obtain ⟨bLog, _, bCmp, bAdd, _, bTerm, _, bFactor, bArgs⟩ := parser_balanced T n
    refine ⟨?_, ?_, ?_, ?_, ?_, ?_, ?_, ?_, ?_⟩
    · -- parseLogicalExpression
      intro x hx
      rw [parseLogicalExpression.eq_def (n + 1) T x,
        parseLogicalExpression.eq_def (m + 1) T2 (k + x)]
      simp only []
      exact Sim.chain (ihCmp x hx) (bCmp x hx) id fun a p _ hp hpL hcl =>
        (ihLogLoop p a hpL).relax (fun hd => by rw [← hcl 0]; exact hd)
    · -- parseLogicalLoop
      intro x left hx
      rw [parseLogicalLoop.eq_def (n + 1) T x left,
        parseLogicalLoop.eq_def (m + 1) T2 (k + x) left]
      simp only []
      cases htok : T[x]? with
      | none =>
        obtain ⟨c, hc, hcT⟩ := hE.last hx htok
        simp only [hc]
        rcases hcT with hcT | hcT <;> simp only [hcT] <;> exact Sim.of_exact rfl
      | some tok =>
        have hlt := lt_length_of_getElem? htok
        simp only [hE.get htok]
        cases hT : tok.Typ
        case And =>
          exact Sim.chain (ihCmp (x + 1) hlt) (bCmp (x + 1) hlt)
            (fun hd => by
              rw [← closes_other htok (by rw [hT]; decide) (by rw [hT]; decide) 0]
              exact hd)
            fun a p _ hp hpL hcl => (ihLogLoop p _ hpL).relax (fun hd => by
              rw [← hcl 0, ← closes_other htok (by rw [hT]; decide) (by rw [hT]; decide) 0]
              exact hd)
        case Or =>
          exact Sim.chain (ihCmp (x + 1) hlt) (bCmp (x + 1) hlt)
            (fun hd => by
              rw [← closes_other htok (by rw [hT]; decide) (by rw [hT]; decide) 0]
              exact hd)
            fun a p _ hp hpL hcl => (ihLogLoop p _ hpL).relax (fun hd => by
              rw [← hcl 0, ← closes_other htok (by rw [hT]; decide) (by rw [hT]; decide) 0]
              exact hd)
        all_goals exact Sim.of_exact rfl
    · -- parseComparisonExpression
      intro x hx
      rw [parseComparisonExpression.eq_def (n + 1) T x,
        parseComparisonExpression.eq_def (m + 1) T2 (k + x)]
      simp only []
      cases htok : T[x]? with
      | none => exact Sim.failed (by rw [closes_none htok]; simp) _ _
      | some tok =>
        have hlt := lt_length_of_getElem? htok
        simp only [hE.get htok]
        by_cases hN : tok.Typ = .Not
        · rw [if_pos hN, if_pos hN]
          exact Sim.chain (ihCmp (x + 1) hlt) (bCmp (x + 1) hlt)
            (fun hd => by
              rw [← closes_other htok (by rw [hN]; decide) (by rw [hN]; decide) 0]
              exact hd)
            fun a p _ _ _ _ => Sim.of_exact rfl
        rw [if_neg hN, if_neg hN]
        by_cases hP : tok.Typ = .OpenParen
        · rw [if_pos hP, if_pos hP]
          have hL : Sim k (closes (T.drop (x + 1)) 0 = true)
              (parseLogicalExpression n T (x + 1)) (parseLogicalExpression m T2 (k + x + 1)) :=
            ihLog (x + 1) hlt
          have hA : Sim k (closes (T.drop (x + 1)) 0 = true)
              (additive n T (x + 1)) (additive m T2 (k + x + 1)) :=
            ihAdd (x + 1) hlt
          have hopen : closes (T.drop x) 0 = true → closes (T.drop (x + 1)) 0 = true :=
            fun hd => closes_succ _ 0 (by rw [← closes_open htok hP 0]; exact hd)
          by_cases hdeep : closes (T.drop (x + 1)) 0 = true
          · refine @Sim.chain _ _ T k (x + 1) _ (closes (T.drop x) 0 = true) _ _ _ _ ?_ ?_ id ?_
            · cases hLr : parseLogicalExpression n T (x + 1) with
              | ok r =>
                obtain ⟨a, p⟩ := r
                rw [hL.1 a p hLr]
                exact Sim.of_exact rfl
              | error msg =>
                have h2 : parseLogicalExpression m T2 (k + x + 1) = .error msg := by
                  rw [hL.2 hdeep (by rw [hLr]; simp), hLr]
                  rfl
                rw [h2]
                exact hA.relax hopen
              | panic =>
                have h2 : parseLogicalExpression m T2 (k + x + 1) = .panic := by
                  rw [hL.2 hdeep (by rw [hLr]; simp), hLr]
                  rfl
                rw [h2]
                exact Sim.of_exact rfl
              | outOfFuel => exact Sim.exhausted _ _ _
            · cases hLr : parseLogicalExpression n T (x + 1) with
              | ok r =>
                have := bLog (x + 1) hlt
                rw [hLr] at this
                exact this
              | error msg => exact bAdd (x + 1) hlt
              | panic => exact Bal.crash _ _
              | outOfFuel => exact Bal.starved _ _
            · intro a p _ hp hpL hcl
              simp only []
              have hdeepP : closes (T.drop p) 0 = true := by
                rw [← hcl 0]
                exact hdeep
              cases hc : T[p]? with
              | none =>
                rw [closes_none hc] at hdeepP
                cases hdeepP
              | some close =>
                have hltp := lt_length_of_getElem? hc
                simp only [hE.get hc]
                by_cases hC : close.Typ ≠ .CloseParen
                · rw [if_pos hC, if_pos hC]
                  exact Sim.of_exact rfl
                rw [if_neg hC, if_neg hC]
                have hgroup := closes_group htok hP hcl hc (not_not.1 hC)
                cases ho : T[p + 1]? with
                | none =>
                  obtain ⟨c, hcc, hcT⟩ := hE.last1 hltp ho
                  simp only [hcc, comparisonName_separator c hcT]
                  exact Sim.of_exact rfl
                | some op =>
                  have hlto := lt_length_of_getElem? ho
                  simp only [hE.get1 ho]
                  cases hn : comparisonName op.Typ with
                  | none => exact Sim.of_exact rfl
                  | some name =>
                    have hop1 : op.Typ ≠ .OpenParen := by
                      intro hcon
                      rw [hcon] at hn
                      cases hn
                    have hop2 : op.Typ ≠ .CloseParen := by
                      intro hcon
                      rw [hcon] at hn
                      cases hn
                    exact Sim.chain (ihAdd (p + 2) hlto) (bAdd (p + 2) hlto)
                      (fun hd => by
                        rw [← closes_other ho hop1 hop2 0, ← hgroup 0]
                        exact hd)
                      fun a2 p2 _ _ _ _ => Sim.of_exact rfl
          · refine @Sim.absurd_bind _ _ T k (x + 1) _ _ _ _ _ (fun hd => hdeep (hopen hd)) ?_ ?_
            · cases hLr : parseLogicalExpression n T (x + 1) with
              | ok r =>
                have := bLog (x + 1) hlt
                rw [hLr] at this
                exact this
              | error msg => exact bAdd (x + 1) hlt
              | panic => exact Bal.crash _ _
              | outOfFuel => exact Bal.starved _ _
            · intro a p _ hp hpL hcl b
              simp only []
              cases hc : T[p]? with
              | none => simp
              | some close =>
                simp only []
                by_cases hC : close.Typ ≠ .CloseParen
                · rw [if_pos hC]
                  simp
                · exfalso
                  apply hdeep
                  rw [hcl 0]
                  exact closes_close_zero hc (not_not.1 hC)
        rw [if_neg hP, if_neg hP]
        refine Sim.chain (ihAdd x hx) (bAdd x hx) id fun a p _ hp hpL hcl => ?_
        simp only []
        cases ho : T[p]? with
        | none =>
          obtain ⟨c, hcc, hcT⟩ := hE.last hpL ho
          simp only [hcc, comparisonName_separator c hcT]
          exact Sim.of_exact rfl
        | some op =>
          have hlt2 := lt_length_of_getElem? ho
          simp only [hE.get ho]
          cases hn : comparisonName op.Typ with
          | none => exact Sim.of_exact rfl
          | some name =>
            have hop1 : op.Typ ≠ .OpenParen := by
              intro hcon
              rw [hcon] at hn
              cases hn
            have hop2 : op.Typ ≠ .CloseParen := by
              intro hcon
              rw [hcon] at hn
              cases hn
            exact Sim.chain (ihAdd (p + 1) hlt2) (bAdd (p + 1) hlt2)
              (fun hd => by
                rw [← closes_other ho hop1 hop2 0, ← hcl 0]
                exact hd)
              fun a2 p2 _ _ _ _ => Sim.of_exact rfl
    · -- additive
      intro x hx
      rw [additive.eq_def (n + 1) T x, additive.eq_def (m + 1) T2 (k + x)]
      simp only []
      exact Sim.chain (ihTerm x hx) (bTerm x hx) id fun a p _ hp hpL hcl =>
        (ihAddLoop p a hpL).relax (fun hd => by rw [← hcl 0]; exact hd)
    · -- additiveLoop
      intro x acc hx
      rw [additiveLoop.eq_def (n + 1) T x acc, additiveLoop.eq_def (m + 1) T2 (k + x) acc]
      simp only []
      cases htok : T[x]? with
      | none =>
        obtain ⟨c, hc, hcT⟩ := hE.last hx htok
        simp only [hc]
        rcases hcT with hcT | hcT <;> simp only [hcT] <;> exact Sim.of_exact rfl
      | some tok =>
        have hlt := lt_length_of_getElem? htok
        simp only [hE.get htok]
        cases hT : tok.Typ
        case Add =>
          exact Sim.chain (ihTerm (x + 1) hlt) (bTerm (x + 1) hlt)
            (fun hd => by
              rw [← closes_other htok (by rw [hT]; decide) (by rw [hT]; decide) 0]
              exact hd)
            fun a p _ hp hpL hcl => (ihAddLoop p _ hpL).relax (fun hd => by
              rw [← hcl 0, ← closes_other htok (by rw [hT]; decide) (by rw [hT]; decide) 0]
              exact hd)
        case Sub =>
          exact Sim.chain (ihTerm (x + 1) hlt) (bTerm (x + 1) hlt)
            (fun hd => by
              rw [← closes_other htok (by rw [hT]; decide) (by rw [hT]; decide) 0]
              exact hd)
            fun a p _ hp hpL hcl => (ihAddLoop p _ hpL).relax (fun hd => by
              rw [← hcl 0, ← closes_other htok (by rw [hT]; decide) (by rw [hT]; decide) 0]
              exact hd)
        all_goals exact Sim.of_exact rfl
    · -- term
      intro x hx
      rw [term.eq_def (n + 1) T x, term.eq_def (m + 1) T2 (k + x)]
      simp only []
      exact Sim.chain (ihFactor x hx) (bFactor x hx) id fun a p _ hp hpL hcl =>
        (ihTermLoop p a hpL).relax (fun hd => by rw [← hcl 0]; exact hd)
    · -- termLoop
      intro x acc hx
      rw [termLoop.eq_def (n + 1) T x acc, termLoop.eq_def (m + 1) T2 (k + x) acc]
      simp only []
      cases htok : T[x]? with
      | none =>
        obtain ⟨c, hc, hcT⟩ := hE.last hx htok
        simp only [hc]
        rcases hcT with hcT | hcT <;> simp only [hcT] <;> exact Sim.of_exact rfl
      | some tok =>
        have hlt := lt_length_of_getElem? htok
        simp only [hE.get htok]
        cases hT : tok.Typ
        case Mul =>
          exact Sim.chain (ihFactor (x + 1) hlt) (bFactor (x + 1) hlt)
            (fun hd => by
              rw [← closes_other htok (by rw [hT]; decide) (by rw [hT]; decide) 0]
              exact hd)
            fun a p _ hp hpL hcl => (ihTermLoop p _ hpL).relax (fun hd => by
              rw [← hcl 0, ← closes_other htok (by rw [hT]; decide) (by rw [hT]; decide) 0]
              exact hd)
        case Div =>
          exact Sim.chain (ihFactor (x + 1) hlt) (bFactor (x + 1) hlt)
            (fun hd => by
              rw [← closes_other htok (by rw [hT]; decide) (by rw [hT]; decide) 0]
              exact hd)
            fun a p _ hp hpL hcl => (ihTermLoop p _ hpL).relax (fun hd => by
              rw [← hcl 0, ← closes_other htok (by rw [hT]; decide) (by rw [hT]; decide) 0]
              exact hd)
        case Mod =>
          exact Sim.chain (ihFactor (x + 1) hlt) (bFactor (x + 1) hlt)
            (fun hd => by
              rw [← closes_other htok (by rw [hT]; decide) (by rw [hT]; decide) 0]
              exact hd)
            fun a p _ hp hpL hcl => (ihTermLoop p _ hpL).relax (fun hd => by
              rw [← hcl 0, ← closes_other htok (by rw [hT]; decide) (by rw [hT]; decide) 0]
              exact hd)
        all_goals exact Sim.of_exact rfl
    · -- factor
      intro x hx
      rw [factor.eq_def (n + 1) T x, factor.eq_def (m + 1) T2 (k + x)]
      simp only []
      cases htok : T[x]? with
      | none => exact Sim.panicked (by rw [closes_none htok]; simp) _
      | some tok =>
        have hlt := lt_length_of_getElem? htok
        simp only [hE.get htok]
        by_cases hP : tok.Typ = .OpenParen
        · rw [if_pos hP, if_pos hP]
          refine Sim.chain (ihAdd (x + 1) hlt) (bAdd (x + 1) hlt)
            (fun hd => closes_succ _ 0 (by rw [← closes_open htok hP 0]; exact hd))
            fun a p _ hp hpL hcl => ?_
          simp only []
          cases hc : T[p]? with
          | none =>
            exact Sim.panicked (fun hd => by
              rw [closes_open htok hP 0, hcl 1, closes_none hc] at hd
              cases hd) _
          | some close =>
            simp only [hE.get hc]
            by_cases hC : close.Typ ≠ .CloseParen
            · rw [if_pos hC, if_pos hC]
              exact Sim.of_exact rfl
            · rw [if_neg hC, if_neg hC]
              exact Sim.of_exact rfl
        rw [if_neg hP, if_neg hP]
        by_cases hA : tok.Typ = .At
        · rw [if_pos hA, if_pos hA]
          have hs1 : ∀ d, closes (T.drop x) d = closes (T.drop (x + 1)) d :=
            closes_other htok hP (by rw [hA]; decide)
          cases h1 : T[x + 1]? with
          | none =>
            exact Sim.panicked (fun hd => by
              rw [hs1 0, closes_none h1] at hd
              cases hd) _
          | some nameTok =>
            simp only [hE.get1 h1]
            by_cases hI : nameTok.Typ ≠ .Identifier
            · rw [if_pos hI, if_pos hI]
              exact Sim.of_exact rfl
            rw [if_neg hI, if_neg hI]
            have hI2 : nameTok.Typ = .Identifier := not_not.1 hI
            have hs2 : ∀ d, closes (T.drop x) d = closes (T.drop (x + 2)) d := fun d => by
              rw [hs1 d, closes_other h1 (by rw [hI2]; decide) (by rw [hI2]; decide) d]
            cases h2 : T[x + 2]? with
            | none =>
              exact Sim.panicked (fun hd => by
                rw [hs2 0, closes_none h2] at hd
                cases hd) _
            | some open_ =>
              have hlt2 := lt_length_of_getElem? h2
              simp only [hE.get2 h2]
              by_cases hO : open_.Typ ≠ .OpenParen
              · rw [if_pos hO, if_pos hO]
                exact Sim.of_exact rfl
              rw [if_neg hO, if_neg hO]
              have hO2 : open_.Typ = .OpenParen := not_not.1 hO
              refine Sim.chain (ihArgs (x + 3) [] hlt2) (bArgs (x + 3) [] hlt2)
                (fun hd => closes_succ _ 0 (by
                  rw [← closes_open h2 hO2 0, ← hs2 0]
                  exact hd))
                fun a p _ hp hpL hcl => ?_
              simp only []
              cases hc : T[p]? with
              | none =>
                exact Sim.panicked (fun hd => by
                  rw [hs2 0, closes_open h2 hO2 0, hcl 1, closes_none hc] at hd
                  cases hd) _
              | some close =>
                simp only [hE.get hc]
                by_cases hC : close.Typ ≠ .CloseParen
                · rw [if_pos hC, if_pos hC]
                  exact Sim.of_exact rfl
                · rw [if_neg hC, if_neg hC]
                  exact Sim.of_exact rfl
        rw [if_neg hA, if_neg hA]
        by_cases hDol : tok.Typ = .Dollar
        · rw [if_pos hDol, if_pos hDol]
          have hs1 : ∀ d, closes (T.drop x) d = closes (T.drop (x + 1)) d :=
            closes_other htok hP (by rw [hDol]; decide)
          cases h1 : T[x + 1]? with
          | none =>
            exact Sim.panicked (fun hd => by
              rw [hs1 0, closes_none h1] at hd
              cases hd) _
          | some nameTok =>
            have hlt1 := lt_length_of_getElem? h1
            simp only [hE.get1 h1]
            by_cases hI : nameTok.Typ ≠ .Identifier
            · rw [if_pos hI, if_pos hI]
              exact Sim.of_exact rfl
            rw [if_neg hI, if_neg hI]
            have hI2 : nameTok.Typ = .Identifier := not_not.1 hI
            have hs2 : ∀ d, closes (T.drop x) d = closes (T.drop (x + 2)) d := fun d => by
              rw [hs1 d, closes_other h1 (by rw [hI2]; decide) (by rw [hI2]; decide) d]
            cases h2 : T[x + 2]? with
            | none =>
              obtain ⟨c, hcc, hcT⟩ := hE.last2 hlt1 h2
              have hna : ¬c.Typ = .Add := by
                rcases hcT with h | h <;> rw [h] <;> decide
              simp only [hcc, if_neg hna]
              exact Sim.of_exact rfl
            | some next =>
              have hlt2 := lt_length_of_getElem? h2
              simp only [hE.get2 h2]
              by_cases hAdd : next.Typ = .Add
              · rw [if_pos hAdd, if_pos hAdd]
                exact Sim.chain (ihTerm (x + 3) hlt2) (bTerm (x + 3) hlt2)
                  (fun hd => by
                    rw [← closes_other h2 (by rw [hAdd]; decide) (by rw [hAdd]; decide) 0,
                      ← hs2 0]
                    exact hd)
                  fun a p _ _ _ _ => Sim.of_exact rfl
              · rw [if_neg hAdd, if_neg hAdd]
                exact Sim.of_exact rfl
        rw [if_neg hDol, if_neg hDol]
        by_cases hLit : tok.Typ = .Literal
        · rw [if_pos hLit, if_pos hLit]
          exact Sim.of_exact rfl
        · rw [if_neg hLit, if_neg hLit]
          exact Sim.of_exact rfl
    · -- factorArgs
      intro x args hx
      rw [factorArgs.eq_def (n + 1) T x args, factorArgs.eq_def (m + 1) T2 (k + x) args]
      simp only []
      cases htok : T[x]? with
      | none => exact Sim.panicked (by rw [closes_none htok]; simp) _
      | some tok =>
        simp only [hE.get htok]
        by_cases hC : tok.Typ = .CloseParen
        · rw [if_pos hC, if_pos hC]
          exact Sim.of_exact rfl
        rw [if_neg hC, if_neg hC]
        refine Sim.chain (ihLog x hx) (bLog x hx) id fun a p _ hp hpL hcl => ?_
        simp only []
        cases hs : T[p]? with
        | none =>
          exact Sim.panicked (fun hd => by
            rw [hcl 0, closes_none hs] at hd
            cases hd) _
        | some sep =>
          have hlt2 := lt_length_of_getElem? hs
          simp only [hE.get hs]
          by_cases hC2 : sep.Typ = .CloseParen
          · rw [if_pos hC2, if_pos hC2]
            exact Sim.of_exact rfl
          rw [if_neg hC2, if_neg hC2]
          by_cases hComma : sep.Typ ≠ .Comma
          · rw [if_pos hComma, if_pos hComma]
            exact Sim.of_exact rfl
          rw [if_neg hComma, if_neg hComma]
          exact (ihArgs (p + 1) _ hlt2).relax (fun hd => by
            rw [← closes_other hs (by rw [not_not.1 hComma]; decide) hC2 0, ← hcl 0]
            exact hd)

/-! ## Tokenizing a text that is followed by more input -/

theorem scan_append_stop (p : Char → Bool) (l r : List Char)
    (hr : ∀ c ∈ r.head?, p c = false) :
    (l ++ r).takeWhile p = l.takeWhile p ∧ (l ++ r).dropWhile p = l.dropWhile p ++ r := by
  induction l with
  | nil =>
    cases r with
    | nil => simp
    | cons c r =>
      have hc : p c = false := hr c (by simp)
      simp [List.takeWhile, List.dropWhile, hc]
  | cons x l ih =>
    by_cases hx : p x = true
    · simp [List.takeWhile, List.dropWhile, hx, ih.1, ih.2]
    · have hx2 : p x = false := by simpa using hx
      simp [List.takeWhile, List.dropWhile, hx2]

theorem scan_append_found (p : Char → Bool) (l r : List Char) (h : l.dropWhile p ≠ []) :
    (l ++ r).takeWhile p = l.takeWhile p ∧ (l ++ r).dropWhile p = l.dropWhile p ++ r := by
  induction l with
  | nil => exact absurd rfl h
  | cons x l ih =>
    by_cases hx : p x = true
    · have h2 : l.dropWhile p ≠ [] := by simpa [List.dropWhile, hx] using h
      simp [List.takeWhile, List.dropWhile, hx, (ih h2).1, (ih h2).2]
    · have hx2 : p x = false := by simpa using hx
      simp [List.takeWhile, List.dropWhile, hx2]

theorem followSep_stops (rest : List Char) (h : followSep rest = true) :
    (∀ c ∈ rest.head?, isIdentChar c = false) ∧ (∀ c ∈ rest.head?, isNumberChar c = false) := by
  cases rest with
  | nil => simp [followSep] at h
  | cons d rest =>
    simp only [followSep, Bool.or_eq_true, beq_iff_eq] at h
    constructor
    · intro c hc
      simp only [List.head?_cons, Option.mem_def, Option.some.injEq] at hc
      subst hc
      rcases h with rfl | rfl <;> decide
    · intro c hc
      simp only [List.head?_cons, Option.mem_def, Option.some.injEq] at hc
      subst hc
      rcases h with rfl | rfl <;> decide

/-- One iteration of the tokenizer loop on a text and on the same text followed by more input
that starts with `,` or `)`: unless the iteration stops without tokens, both iterations
continue in step, on the same unread text and with the same new tokens. -/
theorem tokenizeLoop_step_append (c : Char) (s rest : List Char)
    (hrest : followSep rest = true) :
    (∀ n acc toks, tokenizeLoop (n + 1) (c :: s) acc ≠ .ok toks) ∨
    ∃ s2 tk, s2.length ≤ s.length ∧
      (∀ n acc, tokenizeLoop (n + 1) (c :: s) acc = tokenizeLoop n s2 (acc ++ tk)) ∧
      (∀ n acc, tokenizeLoop (n + 1) (c :: (s ++ rest)) acc =
        tokenizeLoop n (s2 ++ rest) (acc ++ tk)) := by
  obtain ⟨hstopI, hstopN⟩ := followSep_stops rest hrest
  by_cases hl : isLetter c = true
  · have hsc := scan_append_stop isIdentChar (c :: s) rest hstopI
    refine Or.inr ⟨_, _, length_dropWhile_cons_le isIdentChar c s (by simp [isIdentChar, hl]),
      fun n acc => tokenizeLoop_letter c s n acc hl, fun n acc => ?_⟩
    rw [tokenizeLoop_letter c (s ++ rest) n acc hl, ← List.cons_append, hsc.1, hsc.2]
  by_cases hd : isDigit c = true
  · have hle := length_dropWhile_cons_le isNumberChar c s (by simp [isNumberChar, hd])
    have hsc := scan_append_stop isNumberChar (c :: s) rest hstopN
    by_cases hdot : ((c :: s).takeWhile isNumberChar).contains '.' = true
    · refine Or.inr ⟨_, _, hle,
        fun n acc => by rw [tokenizeLoop_digit c s n acc hd, if_pos hdot], fun n acc => ?_⟩
      rw [tokenizeLoop_digit c (s ++ rest) n acc hd, ← List.cons_append, hsc.1, hsc.2,
        if_pos hdot]
    · refine Or.inr ⟨_, _, hle,
        fun n acc => by rw [tokenizeLoop_digit c s n acc hd, if_neg hdot], fun n acc => ?_⟩
      rw [tokenizeLoop_digit c (s ++ rest) n acc hd, ← List.cons_append, hsc.1, hsc.2,
        if_neg hdot]
  by_cases h1 : c = '+'
  · subst h1; exact Or.inr ⟨s, [_], le_refl _, fun _ _ => rfl, fun _ _ => rfl⟩
  by_cases h2 : c = '-'
  · subst h2; exact Or.inr ⟨s, [_], le_refl _, fun _ _ => rfl, fun _ _ => rfl⟩
  by_cases h3 : c = '*'
  · subst h3; exact Or.inr ⟨s, [_], le_refl _, fun _ _ => rfl, fun _ _ => rfl⟩
  by_cases h4 : c = '/'
  · subst h4; exact Or.inr ⟨s, [_], le_refl _, fun _ _ => rfl, fun _ _ => rfl⟩
  by_cases h5 : c = '%'
  · subst h5; exact Or.inr ⟨s, [_], le_refl _, fun _ _ => rfl, fun _ _ => rfl⟩
  by_cases h6 : c = '('
  · subst h6; exact Or.inr ⟨s, [_], le_refl _, fun _ _ => rfl, fun _ _ => rfl⟩
  by_cases h7 : c = ')'
  · subst h7; exact Or.inr ⟨s, [_], le_refl _, fun _ _ => rfl, fun _ _ => rfl⟩
  by_cases h8 : c = '@'
  · subst h8; exact Or.inr ⟨s, [_], le_refl _, fun _ _ => rfl, fun _ _ => rfl⟩
  by_cases h9 : c = '$'
  · subst h9; exact Or.inr ⟨s, [_], le_refl _, fun _ _ => rfl, fun _ _ => rfl⟩
  by_cases h10 : c = ','
  · subst h10; exact Or.inr ⟨s, [_], le_refl _, fun _ _ => rfl, fun _ _ => rfl⟩
  by_cases h11 : c = '&'
  · subst h11
    cases s with
    | nil => exact Or.inl fun _ _ _ hcon => Outcome.noConfusion hcon
    | cons d s2 =>
      by_cases hd2 : d = '&'
      · subst hd2
        exact Or.inr ⟨s2, [_], by simp, fun _ _ => rfl, fun _ _ => rfl⟩
      · refine Or.inl fun n acc toks => ?_
        show (if d = '&' then _ else _) ≠ _
        rw [if_neg hd2]
        exact fun hcon => Outcome.noConfusion hcon
  by_cases h12 : c = '|'
  · subst h12
    cases s with
    | nil => exact Or.inl fun _ _ _ hcon => Outcome.noConfusion hcon
    | cons d s2 =>
      by_cases hd2 : d = '|'
      · subst hd2
        exact Or.inr ⟨s2, [_], by simp, fun _ _ => rfl, fun _ _ => rfl⟩
      · refine Or.inl fun n acc toks => ?_
        show (if d = '|' then _ else _) ≠ _
        rw [if_neg hd2]
        exact fun hcon => Outcome.noConfusion hcon
  by_cases h13 : c = '!'
  · subst h13
    cases s with
    | nil => exact Or.inl fun _ _ _ hcon => Outcome.noConfusion hcon
    | cons d s2 =>
      by_cases hd2 : d = '='
      · subst hd2
        exact Or.inr ⟨s2, [_], by simp, fun _ _ => rfl, fun _ _ => rfl⟩
      · refine Or.inr ⟨d :: s2, [⟨.Not, "!"⟩], le_refl _, fun n acc => ?_, fun n acc => ?_⟩
        · show (if d = '=' then _ else _) = _
          rw [if_neg hd2]
        · show (if d = '=' then _ else _) = _
          rw [if_neg hd2]
  by_cases h14 : c = '>'
  · subst h14
    cases s with
    | nil => exact Or.inl fun _ _ _ hcon => Outcome.noConfusion hcon
    | cons d s2 =>
      by_cases hd2 : d = '='
      · subst hd2
        exact Or.inr ⟨s2, [_], by simp, fun _ _ => rfl, fun _ _ => rfl⟩
      · refine Or.inr ⟨d :: s2, [⟨.Gt, ">"⟩], le_refl _, fun n acc => ?_, fun n acc => ?_⟩
        · show (if d = '=' then _ else _) = _
          rw [if_neg hd2]
        · show (if d = '=' then _ else _) = _
          rw [if_neg hd2]
  by_cases h15 : c = '<'
  · subst h15
    cases s with
    | nil => exact Or.inl fun _ _ _ hcon => Outcome.noConfusion hcon
    | cons d s2 =>
      by_cases hd2 : d = '='
      · subst hd2
        exact Or.inr ⟨s2, [_], by simp, fun _ _ => rfl, fun _ _ => rfl⟩
      · refine Or.inr ⟨d :: s2, [⟨.Lt, "<"⟩], le_refl _, fun n acc => ?_, fun n acc => ?_⟩
        · show (if d = '=' then _ else _) = _
          rw [if_neg hd2]
        · show (if d = '=' then _ else _) = _
          rw [if_neg hd2]
  by_cases h16 : c = '='
  · subst h16
    cases s with
    | nil => exact Or.inl fun _ _ _ hcon => Outcome.noConfusion hcon
    | cons d s2 =>
      by_cases hd2 : d = '='
      · subst hd2
        exact Or.inr ⟨s2, [_], by simp, fun _ _ => rfl, fun _ _ => rfl⟩
      · refine Or.inl fun n acc toks => ?_
        show (if d = '=' then _ else _) ≠ _
        rw [if_neg hd2]
        exact fun hcon => Outcome.noConfusion hcon
  by_cases h17 : c = '"'
  · subst h17
    have hlen := length_dropWhile_le (fun d => d != '"') s
    cases hs : s.dropWhile (fun d => d != '"') with
    | nil =>
      refine Or.inl fun n acc toks => ?_
      show (match s.dropWhile (fun d => d != '"') with
        | [] => _
        | _ :: rest2 => _) ≠ _
      rw [hs]
      exact fun hcon => Outcome.noConfusion hcon
    | cons q s2 =>
      have hsc := scan_append_found (fun d => d != '"') s rest (by rw [hs]; simp)
      refine Or.inr ⟨s2,
        [⟨.Literal, String.mk (s.takeWhile (fun d => d != '"')) ++ ":str"⟩], ?_, ?_, ?_⟩
      · rw [hs] at hlen
        simp only [List.length_cons] at hlen
        omega
      · intro n acc
        show (match s.dropWhile (fun d => d != '"') with
          | [] => _
          | _ :: rest2 => tokenizeLoop n rest2 _) = _
        rw [hs]
      · intro n acc
        show (match (s ++ rest).dropWhile (fun d => d != '"') with
          | [] => _
          | _ :: rest2 => tokenizeLoop n rest2 _) = _
        rw [hsc.2, hs, hsc.1]
        rfl
  by_cases h18 : c = ' '
  · subst h18; exact Or.inr ⟨s, [], le_refl _, fun _ _ => by simp; rfl, fun _ _ => by simp; rfl⟩
  · refine Or.inl fun n acc toks => ?_
    have hl2 : isLetter c = false := by simpa using hl
    have hd3 : isDigit c = false := by simpa using hd
    rw [tokenizeLoop.eq_def]
    simp only [h1, h2, h3, h4, h5, h6, h7, h8, h9, h10, h11, h12, h13, h14, h15, h16, h17, h18,
      hl2, hd3, if_false, Bool.false_eq_true]
    exact fun hcon => Outcome.noConfusion hcon

/-- A text that `tokenize` accepts is tokenized to the same tokens in front of any input that
starts with `,` or `)`. -/
theorem tokenizeLoop_append (rest : List Char) (hrest : followSep rest = true) :
    ∀ (n : Nat) (s : List Char) (acc toks : List Token),
      tokenizeLoop n s acc = .ok toks →
      ∃ t0, toks = acc ++ t0 ∧ ∃ j, ∀ fuel acc2,
        tokenizeLoop (fuel + j) (s ++ rest) acc2 = tokenizeLoop fuel rest (acc2 ++ t0) := by
  intro n
  induction n with
  | zero => intro s acc toks h; exact Outcome.noConfusion h
  | succ n ih =>
    intro s acc toks h
    cases s with
    | nil =>
      have : acc = toks := by
        have h2 : tokenizeLoop (n + 1) [] acc = .ok acc := rfl
        rw [h2] at h
        cases h
        rfl
      exact ⟨[], by simp [this], 0, fun fuel acc2 => by simp⟩
    | cons c s =>
      rcases tokenizeLoop_step_append c s rest hrest with hno | ⟨s2, tk, _, h1, h2⟩
      · exact absurd h (hno n acc toks)
      · rw [h1] at h
        obtain ⟨t0, ht0, j, hj⟩ := ih s2 (acc ++ tk) toks h
        refine ⟨tk ++ t0, by rw [ht0, List.append_assoc], j + 1, fun fuel acc2 => ?_⟩
        rw [List.cons_append, ← Nat.add_assoc, h2, hj, List.append_assoc]

theorem lexes_of_tokenize (s : List Char) (toks : List Token)
    (h : tokenize (String.mk s) = .ok toks) : LexesTo followSep s toks := by
  intro rest hrest
  obtain ⟨t0, ht0, j, hj⟩ := tokenizeLoop_append rest hrest _ s [] toks h
  rw [List.nil_append] at ht0
  subst ht0
  exact ⟨j, hj⟩

/-! ## Calls whose arguments are accepted inputs -/

theorem embeds_mid (pre t post : List Token) (c : Token)
    (hc : c.Typ = .Comma ∨ c.Typ = .CloseParen) :
    Embeds t (pre ++ (t ++ c :: post)) pre.length := by
  refine ⟨fun i hi => ?_, c, ?_, hc⟩
  · rw [List.getElem?_append_right (by omega), Nat.add_sub_cancel_left,
      List.getElem?_append_left hi]
  · rw [List.getElem?_append_right (by omega), Nat.add_sub_cancel_left,
      List.getElem?_append_right (le_refl _), Nat.sub_self]
    simp

theorem head_of_accepted (t : List Token) (E : String)
    (h : parseTokens t = .ok (E, t.length)) :
    ∃ tok rest, t = tok :: rest ∧ tok.Typ ≠ .CloseParen := by
  cases t with
  | nil =>
    have h2 : parseTokens [] = .error "unexpected end of input" := rfl
    rw [h2] at h
    cases h
  | cons tok rest =>
    refine ⟨tok, rest, rfl, fun hcon => ?_⟩
    obtain ⟨_, _, hcl⟩ := (parser_balanced (tok :: rest) (parseFuel (tok :: rest))).1 0
      (Nat.zero_le _) E (tok :: rest).length h
    have h1 := hcl 0
    have h2 : closes (tok :: rest) 0 = true := by
      rw [closes, if_neg (by rw [hcon]; decide), if_pos hcon]
      simp
    rw [List.drop_length, List.drop_zero, h2] at h1
    simp [closes] at h1

theorem accepted_embedded (t T2 : List Token) (k : Nat) (E : String) (fuel : Nat)
    (hE : Embeds t T2 k) (h : parseTokens t = .ok (E, t.length)) (hfuel : parseFuel t ≤ fuel) :
    parseLogicalExpression fuel T2 k = .ok (E, k + t.length) :=
  ((parser_embedded t T2 k hE (parseFuel t) fuel hfuel).1 0 (Nat.zero_le _)).1 E t.length h

theorem lexes_join (args : List (String × String)) (ts : List (List Token))
    (hF : List.Forall₂ (fun a t => tokenize a.1 = .ok t ∧ parseTokens t = .ok (a.2, t.length))
      args ts) (hne : args ≠ []) :
    LexesTo followSep (joinWith ',' (args.map fun a => a.1.data))
      (joinWith ⟨.Comma, ","⟩ ts) := by
  induction hF with
  | nil => exact absurd rfl hne
  | @cons a t args2 ts2 hat hrest ih =>
    have h1 : LexesTo followSep a.1.data t := lexes_of_tokenize a.1.data t hat.1
    cases hrest with
    | nil => exact h1
    | @cons a2 t2 args3 ts3 hat2 hrest2 =>
      have ih2 := ih (by simp)
      have h2 := LexesTo.append lexes_comma ih2 (fun _ _ => rfl)
      exact LexesTo.append h1 h2 (fun _ _ => rfl)

/-- The argument loop of `factor` on the tokens of accepted inputs joined by commas and
followed by the closing parenthesis: it collects their canonical forms in order and stops at
the closing parenthesis. -/
theorem factorArgs_join (args : List (String × String)) (ts : List (List Token))
    (hF : List.Forall₂ (fun a t => tokenize a.1 = .ok t ∧ parseTokens t = .ok (a.2, t.length))
      args ts) (hne : args ≠ []) :
    ∀ (pre post : List Token) (acc : List String) (fuel : Nat),
      8 * (joinWith (⟨.Comma, ","⟩ : Token) ts).length + 9 ≤ fuel →
      factorArgs fuel (pre ++ (joinWith ⟨.Comma, ","⟩ ts ++ ⟨.CloseParen, ")"⟩ :: post))
          pre.length acc =
        .ok (acc ++ args.map Prod.snd, pre.length + (joinWith (⟨.Comma, ","⟩ : Token) ts).length) := by
  induction hF with
  | nil => exact absurd rfl hne
  | @cons a t args2 ts2 hat hrest ih =>
    intro pre post acc fuel hfuel
    obtain ⟨f, rfl⟩ : ∃ f, fuel = f + 1 := ⟨fuel - 1, by omega⟩
    obtain ⟨tok, trest, htok, hclose⟩ := head_of_accepted t a.2 hat.2
    cases hrest with
    | nil =>
      simp only [joinWith] at hfuel ⊢
      have hE := embeds_mid pre t post ⟨.CloseParen, ")"⟩ (Or.inr rfl)
      have h0 : (pre ++ (t ++ ⟨.CloseParen, ")"⟩ :: post))[pre.length]? = some tok := by
        have := hE.1 0 (by rw [htok]; simp)
        rw [Nat.add_zero] at this
        rw [this, htok]
        simp
      have hp := accepted_embedded t _ pre.length a.2 f hE hat.2 (by
        unfold parseFuel
        omega)
      obtain ⟨c, hc, _⟩ := hE
      have hsep : (pre ++ (t ++ ⟨.CloseParen, ")"⟩ :: post))[pre.length + t.length]? =
          some ⟨.CloseParen, ")"⟩ := by
        rw [List.getElem?_append_right (by omega), Nat.add_sub_cancel_left,
          List.getElem?_append_right (le_refl _), Nat.sub_self]
        simp
      rw [factorArgs.eq_def]
      simp only [h0, if_neg hclose, hp, Outcome.bind_ok, hsep, if_true, List.map_cons,
        List.map_nil]
    | @cons a2 t2 args3 ts3 hat2 hrest2 =>
      have hjoin : joinWith (⟨.Comma, ","⟩ : Token) (t :: t2 :: ts3) =
          t ++ ⟨.Comma, ","⟩ :: joinWith ⟨.Comma, ","⟩ (t2 :: ts3) := rfl
      rw [hjoin] at hfuel ⊢
      simp only [List.length_append, List.length_cons] at hfuel
      have hlist : pre ++ ((t ++ ⟨.Comma, ","⟩ :: joinWith ⟨.Comma, ","⟩ (t2 :: ts3)) ++
          ⟨.CloseParen, ")"⟩ :: post) =
          pre ++ (t ++ ⟨.Comma, ","⟩ :: (joinWith ⟨.Comma, ","⟩ (t2 :: ts3) ++
            ⟨.CloseParen, ")"⟩ :: post)) := by
        simp
      have hlist2 : pre ++ (t ++ ⟨.Comma, ","⟩ :: (joinWith ⟨.Comma, ","⟩ (t2 :: ts3) ++
            ⟨.CloseParen, ")"⟩ :: post)) =
          (pre ++ (t ++ [⟨.Comma, ","⟩])) ++ (joinWith ⟨.Comma, ","⟩ (t2 :: ts3) ++
            ⟨.CloseParen, ")"⟩ :: post) := by
        simp
      have hE := embeds_mid pre t (joinWith ⟨.Comma, ","⟩ (t2 :: ts3) ++
        ⟨.CloseParen, ")"⟩ :: post) ⟨.Comma, ","⟩ (Or.inl rfl)
      have h0 : (pre ++ (t ++ ⟨.Comma, ","⟩ :: (joinWith ⟨.Comma, ","⟩ (t2 :: ts3) ++
          ⟨.CloseParen, ")"⟩ :: post)))[pre.length]? = some tok := by
        have := hE.1 0 (by rw [htok]; simp)
        rw [Nat.add_zero] at this
        rw [this, htok]
        simp
      have hp := accepted_embedded t _ pre.length a.2 f hE hat.2 (by
        unfold parseFuel
        omega)
      have hsep : (pre ++ (t ++ ⟨.Comma, ","⟩ :: (joinWith ⟨.Comma, ","⟩ (t2 :: ts3) ++
          ⟨.CloseParen, ")"⟩ :: post)))[pre.length + t.length]? = some ⟨.Comma, ","⟩ := by
        rw [List.getElem?_append_right (by omega), Nat.add_sub_cancel_left,
          List.getElem?_append_right (le_refl _), Nat.sub_self]
        simp
      have ih2 := ih (by simp) (pre ++ (t ++ [⟨.Comma, ","⟩])) post (acc ++ [a.2]) f (by omega)
      rw [hlist, factorArgs.eq_def]
      simp only [h0, if_neg hclose, hp, Outcome.bind_ok, hsep, reduceCtorEq, if_false,
        ne_eq, not_true_eq_false]
      rw [hlist2]
      have hlen : (pre ++ (t ++ [(⟨.Comma, ","⟩ : Token)])).length = pre.length + t.length + 1 := by
        simp only [List.length_append, List.length_cons, List.length_nil]
        omega
      rw [hlen] at ih2
      rw [ih2]
      simp only [List.map_cons, List.append_assoc, List.singleton_append, List.length_append,
        List.length_cons]
      congr 2
      omega

/-- The parser on the tokens of a call whose arguments are accepted inputs. -/
theorem parseTokens_call (name : List Char) (args : List (String × String))
    (ts : List (List Token))
    (hF : List.Forall₂ (fun a t => tokenize a.1 = .ok t ∧ parseTokens t = .ok (a.2, t.length))
      args ts) (hne : args ≠ []) :
    parseTokens (callTokens name ts) =
      .ok (String.mk name ++ "(" ++ String.intercalate "," (args.map Prod.snd) ++ ")",
        (callTokens name ts).length) := by
  have hlen : (callTokens name ts).length =
      3 + (joinWith (⟨.Comma, ","⟩ : Token) ts).length + 1 := by
    simp only [callTokens, List.length_cons, List.length_append, List.length_nil]
    omega
  obtain ⟨f, hf, hbound⟩ : ∃ f, parseFuel (callTokens name ts) = f + 1 + 1 + 1 + 1 + 1 ∧
      8 * (joinWith (⟨.Comma, ","⟩ : Token) ts).length + 9 ≤ f := by
    refine ⟨8 * (joinWith (⟨.Comma, ","⟩ : Token) ts).length + 35, ?_, by omega⟩
    unfold parseFuel
    rw [hlen]
    omega
  have h0 : (callTokens name ts)[0]? = some ⟨.At, "@"⟩ := rfl
  have h1 : (callTokens name ts)[0 + 1]? = some ⟨.Identifier, String.mk name⟩ := rfl
  have h2 : (callTokens name ts)[0 + 2]? = some ⟨.OpenParen, "("⟩ := by
    simp [callTokens]
  have hclose : (callTokens name ts)[3 + (joinWith (⟨.Comma, ","⟩ : Token) ts).length]? =
      some ⟨.CloseParen, ")"⟩ := by
    show ([⟨.At, "@"⟩, ⟨.Identifier, String.mk name⟩, ⟨.OpenParen, "("⟩] ++
      (joinWith ⟨.Comma, ","⟩ ts ++ [⟨.CloseParen, ")"⟩]))[3 + _]? = _
    rw [List.getElem?_append_right (by simp), List.getElem?_append_right (by simp)]
    simp
  have hend : (callTokens name ts)[3 + (joinWith (⟨.Comma, ","⟩ : Token) ts).length + 1]? =
      none := by
    rw [List.getElem?_eq_none]
    omega
  have hargs : factorArgs f (callTokens name ts) (0 + 3) [] =
      .ok (args.map Prod.snd, 3 + (joinWith (⟨.Comma, ","⟩ : Token) ts).length) :=
    factorArgs_join args ts hF hne
      [⟨.At, "@"⟩, ⟨.Identifier, String.mk name⟩, ⟨.OpenParen, "("⟩] [] [] f hbound
  have hfac : factor (f + 1) (callTokens name ts) 0 =
      .ok (String.mk name ++ "(" ++ String.intercalate "," (args.map Prod.snd) ++ ")",
        3 + (joinWith (⟨.Comma, ","⟩ : Token) ts).length + 1) := by
    rw [factor.eq_def]
    simp only [h0, h1, h2, hargs, Outcome.bind_ok, hclose, reduceCtorEq, if_false, ne_eq,
      not_true_eq_false, if_true]
  have hadd : additive (f + 1 + 1 + 1) (callTokens name ts) 0 =
      .ok (String.mk name ++ "(" ++ String.intercalate "," (args.map Prod.snd) ++ ")",
        3 + (joinWith (⟨.Comma, ","⟩ : Token) ts).length + 1) := by
    rw [additive_succ, term_succ, hfac, Outcome.bind_ok, termLoop_end _ _ _ _ hend,
      Outcome.bind_ok, additiveLoop_end _ _ _ _ hend]
  unfold parseTokens
  rw [hf, parseLogicalExpression.eq_def]
  simp only []
  rw [parseComparisonExpression.eq_def]
  simp only [h0, hadd, Outcome.bind_ok, hend, reduceCtorEq, if_false]
  rw [parseLogicalLoop_end _ _ _ _ hend, hlen]

/-- C18: for a call `@name(e1,...,en)` with `n ≥ 1` whose function name is an identifier and
whose arguments are inputs that `Parse` accepts while consuming all of their tokens, with
canonical forms `E1`, ..., `En`, `Parse` returns `name(E1,...,En)`: the canonical forms of the
arguments in the same order, joined by commas; in particular on `@funA($a+1,2)` and, as the
last operand of a sum, on `1+2*3-4/5+@sum(1,2,3)`. -/
theorem C18_call_arguments :
    (∀ (name : List Char) (args : List (String × String)), isIdentifier name = true →
      args ≠ [] → (∀ a ∈ args, AcceptedWhole a.1 a.2) →
      (∀ a ∈ args, Parse a.1 = .ok a.2) ∧
      Parse (String.mk (callText name (args.map fun a => a.1.data))) =
        .ok (String.mk name ++ "(" ++ String.intercalate "," (args.map Prod.snd) ++ ")")) ∧
    Parse "@funA($a+1,2)" = .ok "funA(add($a,1:int),2:int)" ∧
    Parse "1+2*3-4/5+@sum(1,2,3)" =
      .ok "add(sub(add(1:int,multi(2:int,3:int)),div(4:int,5:int)),sum(1:int,2:int,3:int))" := by
  refine ⟨?_, by decide!, by decide!⟩
  intro name args hname hne hacc
  constructor
  · intro a ha
    obtain ⟨toks, h1, h2⟩ := hacc a ha
    unfold Parse
    rw [h1, Outcome.bind_ok, h2]
    rfl
  obtain ⟨ts, hF⟩ : ∃ ts : List (List Token), List.Forall₂
      (fun a t => tokenize a.1 = .ok t ∧ parseTokens t = .ok (a.2, t.length)) args ts := by
    clear hne
    induction args with
    | nil => exact ⟨[], List.Forall₂.nil⟩
    | cons a args ih =>
      obtain ⟨toks, h1⟩ := hacc a (by simp)
      obtain ⟨ts, h2⟩ := ih (fun b hb => hacc b (by simp [hb]))
      exact ⟨toks :: ts, List.Forall₂.cons h1 h2⟩
  have h4 := LexesTo.append (lexes_join args ts hF hne) lexes_close (fun _ _ => rfl)
  have h3 := LexesTo.append lexes_open h4 (fun _ _ => rfl)
  have h2 := LexesTo.append (lexes_identifier name hname) h3 (fun _ _ => rfl)
  have h1 := LexesTo.append lexes_at h2 (fun _ _ => rfl)
  have htok : tokenize (String.mk (callText name (args.map fun a => a.1.data))) =
      .ok (callTokens name ts) := h1.tokenize rfl
  unfold Parse
  rw [htok, Outcome.bind_ok, parseTokens_call name args ts hF hne]
  rfl

theorem C18_call_arguments_witness :
    isIdentifier ['f', 'u', 'n', 'A'] = true ∧
    AcceptedWhole "$a+1" "add($a,1:int)" ∧ AcceptedWhole "!2 > 3" "not(gt(2:int,3:int))" ∧
      Parse "@funA($a+1,!2 > 3)" = .ok "funA(add($a,1:int),not(gt(2:int,3:int)))" :=
  ⟨rfl, ⟨_, rfl, rfl⟩, ⟨_, rfl, rfl⟩,
    (C18_call_arguments.1 ['f', 'u', 'n', 'A']
      [("$a+1", "add($a,1:int)"), ("!2 > 3", "not(gt(2:int,3:int))")] rfl (by simp)
      (fun a ha => by
        simp only [List.mem_cons, List.mem_singleton, List.not_mem_nil, or_false] at ha
        rcases ha with rfl | rfl
        · exact ⟨_, rfl, rfl⟩
        · exact ⟨_, rfl, rfl⟩)).2⟩

/-! ## The compute domain of two operands -/

theorem isContainDot_iff (s : String) : isContainDot s = true ↔ '.' ∈ s.data := by
  unfold isContainDot Contains
  show (s.data.tails.any fun t => ['.'].isPrefixOf t) = true ↔ '.' ∈ s.data
  induction s.data with
  | nil => simp [List.isPrefixOf]
  | cons c l ih =>
    rw [List.tails, List.any_cons, Bool.or_eq_true, ih]
    simp only [List.isPrefixOf, Bool.and_true, beq_iff_eq, List.mem_cons]

/-- C23: `getComputeType(a, b)` selects the floating domain exactly when `a` or `b` is a
floating value, or at least one of them is neither an integer nor a floating value and the
text of `a` or of `b` contains the byte `.`; otherwise it selects the integer domain.  Two
integer operands, of any integer kinds, compute in the integer domain, and the result is
symmetric. -/
theorem C23_compute_type (L : Lib) (a b : Value) :
    (getComputeType L a b = .ArgTypeFloat ↔
      ((∃ x, a = .float x) ∨ (∃ y, b = .float y)) ∨
      ((((∀ k n, a ≠ .int k n) ∧ (∀ x, a ≠ .float x)) ∨
          ((∀ k n, b ≠ .int k n) ∧ (∀ y, b ≠ .float y))) ∧
        ('.' ∈ (L.ToString a).data ∨ '.' ∈ (L.ToString b).data))) ∧
    (getComputeType L a b ≠ .ArgTypeFloat → getComputeType L a b = .ArgTypeInt) ∧
    ((∃ k n, a = .int k n) → (∃ k n, b = .int k n) → getComputeType L a b = .ArgTypeInt) ∧
    getComputeType L a b = getComputeType L b a := by
  have hda := isContainDot_iff (L.ToString a)
  have hdb := isContainDot_iff (L.ToString b)
  unfold getComputeType
  cases hca : isContainDot (L.ToString a) <;> cases hcb : isContainDot (L.ToString b) <;>
    rw [hca] at hda <;> rw [hcb] at hdb <;>
    cases a <;> cases b <;> simp_all [getArgType]

theorem C23_compute_type_witness :
    getComputeType refLib (.int .int 1) (.int .int64 2) = .ArgTypeInt ∧
      getComputeType refLib (.int .int 1) (.str "2.5") = .ArgTypeFloat ∧
      getComputeType refLib (.str "2.5") (.int .int 1) = .ArgTypeFloat ∧
      getComputeType refLib (.str "25") (.int .int 1) = .ArgTypeInt ∧
      getComputeType refLib (.float 0) (.int .int 1) = .ArgTypeFloat :=
  ⟨(C23_compute_type refLib (.int .int 1) (.int .int64 2)).2.2.1 ⟨_, _, rfl⟩ ⟨_, _, rfl⟩,
    (C23_compute_type refLib (.int .int 1) (.str "2.5")).1.2
      (Or.inr ⟨Or.inr ⟨fun _ _ h => Value.noConfusion h, fun _ h => Value.noConfusion h⟩,
        Or.inr (by decide)⟩),
    (C23_compute_type refLib (.str "2.5") (.int .int 1)).1.2
      (Or.inr ⟨Or.inl ⟨fun _ _ h => Value.noConfusion h, fun _ h => Value.noConfusion h⟩,
        Or.inl (by decide)⟩),
    (C23_compute_type refLib (.str "25") (.int .int 1)).2.1 (by decide),
    (C23_compute_type refLib (.float 0) (.int .int 1)).1.2 (Or.inl (Or.inl ⟨0, rfl⟩))⟩

/-! ## Equality of renderings -/

/-- C21: the `eq` and `ne` built-ins compare the string renderings of their first two
operands and nothing else: `eq(a, b)` is the test `ToString a = ToString b` and `ne(a, b)` is
its negation.  When an integer renders as its decimal text and a string as itself, `eq(n, s)`
is true exactly when `s` is the decimal text of `n`: `eq(5, "5")` is true and `eq(5, "05")`
is false although `"05"` converts to the integer 5. -/
theorem C21_eq_compares_renderings (L : Lib) :
    (∀ (a b : Value) (rest : List Value),
      fnEq L (a :: b :: rest) = .ok (.bool (decide (L.ToString a = L.ToString b))) ∧
      fnNe L (a :: b :: rest) = .ok (.bool (!decide (L.ToString a = L.ToString b)))) ∧
    ((∀ (k : IntKind) (n : Int), L.ToString (.int k n) = toString n) →
      (∀ s : String, L.ToString (.str s) = s) →
      (∀ (k : IntKind) (n : Int) (s : String),
        (fnEq L [.int k n, .str s] = .ok (.bool true) ↔ s = toString n) ∧
        (fnEq L [.int k n, .str s] = .ok (.bool false) ↔ s ≠ toString n) ∧
        (fnNe L [.int k n, .str s] = .ok (.bool true) ↔ s ≠ toString n)) ∧
      fnEq L [.int .int 5, .str "5"] = .ok (.bool true) ∧
      fnEq L [.int .int 5, .str "05"] = .ok (.bool false) ∧
      (∀ vars : Vars, ParseAndExecute L "5==\"5\"" vars = .ok (.bool true) ∧
        ParseAndExecute L "5==\"05\"" vars = .ok (.bool false) ∧
        ParseAndExecute L "5!=\"05\"" vars = .ok (.bool true))) ∧
    funcMap L "eq" = some (fnEq L) ∧ funcMap L "ne" = some (fnNe L) := by
  refine ⟨fun a b rest => ⟨?_, ?_⟩, ?_, rfl, rfl⟩
  · by_cases h : L.ToString a = L.ToString b <;> simp [fnEq, h]
  · by_cases h : L.ToString a = L.ToString b <;> simp [fnNe, bne, h]
  · intro hInt hStr
    have hgen : ∀ (k : IntKind) (n : Int) (s : String),
        (fnEq L [.int k n, .str s] = .ok (.bool true) ↔ s = toString n) ∧
        (fnEq L [.int k n, .str s] = .ok (.bool false) ↔ s ≠ toString n) ∧
        (fnNe L [.int k n, .str s] = .ok (.bool true) ↔ s ≠ toString n) := by
      intro k n s
      simp only [fnEq, fnNe, hInt, hStr, Outcome.ok.injEq, Value.bool.injEq, beq_iff_eq,
        bne_iff_ne, beq_eq_false_iff_ne, ne_eq]
      exact ⟨eq_comm, ⟨fun h hc => h hc.symm, fun h hc => h hc.symm⟩,
        ⟨fun h hc => h hc.symm, fun h hc => h hc.symm⟩⟩
    refine ⟨hgen, (hgen .int 5 "5").1.2 (by decide), (hgen .int 5 "05").2.1.2 (by decide), ?_⟩
    intro vars
    have e1 : ParseAndExecute L "5==\"5\"" vars = fnEq L [.int .int64 5, .str "5"] := rfl
    have e2 : ParseAndExecute L "5==\"05\"" vars = fnEq L [.int .int64 5, .str "05"] := rfl
    have e3 : ParseAndExecute L "5!=\"05\"" vars = fnNe L [.int .int64 5, .str "05"] := rfl
    rw [e1, e2, e3]
    exact ⟨(hgen .int64 5 "5").1.2 (by decide), (hgen .int64 5 "05").2.1.2 (by decide),
      (hgen .int64 5 "05").2.2.2 (by decide)⟩

theorem C21_eq_compares_renderings_witness :
    (∀ (k : IntKind) (n : Int), refLib.ToString (.int k n) = toString n) ∧
    (∀ s : String, refLib.ToString (.str s) = s) ∧
      fnEq refLib [.int .int 5, .str "5"] = .ok (.bool true) ∧
      fnEq refLib [.int .int 5, .str "05"] = .ok (.bool false) ∧
      refLib.ToInt64 (.str "05") = 5 ∧
      ParseAndExecute refLib "5==\"05\"" (fun _ => none) = .ok (.bool false) :=
  ⟨fun _ _ => rfl, fun _ => rfl,
    ((C21_eq_compares_renderings refLib).2.1 (fun _ _ => rfl) (fun _ => rfl)).2.1,
    ((C21_eq_compares_renderings refLib).2.1 (fun _ _ => rfl) (fun _ => rfl)).2.2.1,
    by decide,
    (((C21_eq_compares_renderings refLib).2.1 (fun _ _ => rfl) (fun _ => rfl)).2.2.2
      (fun _ => none)).2.1⟩

/-! ## Nodes with and without a callable -/

theorem indexByte_eq_none_iff (s : List Char) (c : Char) : indexByte s c = none ↔ c ∉ s := by
  unfold indexByte
  rw [← List.indexOf_lt_length]
  by_cases h : List.indexOf c s < s.length <;> simp [h]

theorem lastIndexByte_eq_none_iff (s : List Char) (c : Char) :
    lastIndexByte s c = none ↔ c ∉ s := by
  unfold lastIndexByte
  rw [← List.mem_reverse, ← List.indexOf_lt_length, List.length_reverse]
  by_cases h : List.indexOf c s.reverse < s.length <;> simp [h]

/-- C28: for every text on which `ParseFunctionExpression` succeeds, the returned node has a
callable bound if and only if the text contains both `(` and `)`; a node with a callable has
a name that is a key of the function table and its callable is the table's entry for that
name, and a node without a callable has an empty name and no arguments. -/
theorem C28_callable_iff_call_text (L : Lib) (fuel : Nat) (expr : String)
    (node : FunctionCall) (h : ParseFunctionExpression L fuel expr = .ok node) :
    (node.Function.isSome = true ↔ ('(' ∈ expr.data ∧ ')' ∈ expr.data)) ∧
    (∀ f, node.Function = some f → funcMap L node.FunctionName = some f) ∧
    (node.Function = none → node.FunctionName = "" ∧ node.Args = []) := by
  cases fuel with
  | zero => exact Outcome.noConfusion h
  | succ fuel =>
    rw [ParseFunctionExpression.eq_def] at h
    simp only [] at h
    have hplain : ('(' ∉ expr.data ∨ ')' ∉ expr.data) →
        ((parseVar L expr).bind fun fVar =>
          Outcome.ok (FunctionCall.mk expr none "" [] fVar.Variable fVar.Const)) = .ok node →
        (node.Function.isSome = true ↔ ('(' ∈ expr.data ∧ ')' ∈ expr.data)) ∧
        (∀ f, node.Function = some f → funcMap L node.FunctionName = some f) ∧
        (node.Function = none → node.FunctionName = "" ∧ node.Args = []) := by
      intro hno hv
      cases hp : parseVar L expr with
      | ok fVar =>
        rw [hp, Outcome.bind_ok] at hv
        cases hv
        refine ⟨⟨fun hc => (by cases hc), fun hc => ?_⟩, fun f hf => (by cases hf),
          fun _ => ⟨rfl, rfl⟩⟩
        rcases hno with hno | hno
        · exact absurd hc.1 hno
        · exact absurd hc.2 hno
      | error msg => rw [hp] at hv; exact Outcome.noConfusion hv
      | panic => rw [hp] at hv; exact Outcome.noConfusion hv
      | outOfFuel => rw [hp] at hv; exact Outcome.noConfusion hv
    cases hl : indexByte expr.data '(' with
    | none =>
      rw [hl] at h
      exact hplain (Or.inl ((indexByte_eq_none_iff _ _).1 hl)) h
    | some left =>
      cases hr : lastIndexByte expr.data ')' with
      | none =>
        rw [hl, hr] at h
        exact hplain (Or.inr ((lastIndexByte_eq_none_iff _ _).1 hr)) h
      | some right =>
        have hboth : '(' ∈ expr.data ∧ ')' ∈ expr.data := by
          constructor
          · by_contra hc
            rw [(indexByte_eq_none_iff _ _).2 hc] at hl
            cases hl
          · by_contra hc
            rw [(lastIndexByte_eq_none_iff _ _).2 hc] at hr
            cases hr
        rw [hl, hr] at h
        simp only [] at h
        by_cases hlt : right < left + 1
        · rw [if_pos hlt] at h
          exact Outcome.noConfusion h
        rw [if_neg hlt] at h
        cases hf : funcMap L (TrimSpace (String.mk (expr.data.take left))) with
        | none =>
          rw [hf] at h
          exact Outcome.noConfusion h
        | some f =>
          rw [hf] at h
          simp only [] at h
          cases hm : Outcome.mapM (fun piece => parseArgument L fuel (TrimSpace piece))
              (splitParams ((expr.data.take right).drop (left + 1)) 0 [] []) with
          | ok args =>
            rw [hm, Outcome.bind_ok] at h
            cases h
            refine ⟨⟨fun _ => hboth, fun _ => rfl⟩, fun g hg => ?_, fun hc => (by cases hc)⟩
            cases hg
            exact hf
          | error msg => rw [hm] at h; exact Outcome.noConfusion h
          | panic => rw [hm] at h; exact Outcome.noConfusion h
          | outOfFuel => rw [hm] at h; exact Outcome.noConfusion h

theorem C28_callable_iff_call_text_witness :
    ParseFunctionExpression refLib 2 "add($a,1:int)" =
      .ok (.mk "add($a,1:int)" (some (fnAdd refLib)) "add"
        [.mk none "a" .nil, .mk none "" (.int .int64 1)] "" .nil) ∧
    (some (fnAdd refLib)).isSome = true ∧ '(' ∈ "add($a,1:int)".data ∧
      ')' ∈ "add($a,1:int)".data ∧ funcMap refLib "add" = some (fnAdd refLib) :=
  ⟨rfl, rfl,
    ((C28_callable_iff_call_text refLib 2 "add($a,1:int)"
      (.mk "add($a,1:int)" (some (fnAdd refLib)) "add"
        [.mk none "a" .nil, .mk none "" (.int .int64 1)] "" .nil) rfl).1.1 rfl).1,
    ((C28_callable_iff_call_text refLib 2 "add($a,1:int)"
      (.mk "add($a,1:int)" (some (fnAdd refLib)) "add"
        [.mk none "a" .nil, .mk none "" (.int .int64 1)] "" .nil) rfl).1.1 rfl).2,
    (C28_callable_iff_call_text refLib 2 "add($a,1:int)"
      (.mk "add($a,1:int)" (some (fnAdd refLib)) "add"
        [.mk none "a" .nil, .mk none "" (.int .int64 1)] "" .nil) rfl).2.1 _ rfl⟩

/-! ## Tokens the parser leaves unread -/

theorem tokenize_two_numerals (a b : List Char) (ha : isNumeral a = true)
    (hb : isNumeral b = true) (k : Nat) :
    tokenize (String.mk (a ++ (List.replicate (k + 1) ' ' ++ b))) =
      .ok [⟨.Literal, String.mk a ++ ":int"⟩, ⟨.Literal, String.mk b ++ ":int"⟩] := by
  have h2 := LexesTo.append (lexes_spaces (k + 1)) (lexes_numeral b hb) (fun _ _ => rfl)
  have h1 := LexesTo.append (lexes_numeral a ha) h2 (fun _ _ => rfl)
  exact h1.tokenize rfl

/-- C29: `Parse` can succeed without having consumed the whole input.  For all unsigned
integer literals `a` and `b` separated by spaces, `Parse` of `a b` returns `a:int` with the
parser stopped at position 1 of 2 tokens, so `b` is left out of the result; and `Parse` of
`(1+2)*3` returns `add(1:int,2:int)` with the parser stopped at position 5 of 7 tokens, so
`*3` is left out.  Inside parentheses and inside an argument list the same stray literal is
refused: `(1 2)` fails with `expected right parenthesis` and `@f(1 2)` with `expected ,`. -/
theorem C29_parse_leaves_tokens :
    (∀ (a b : List Char), isNumeral a = true → isNumeral b = true → ∀ k : Nat,
      tokenize (String.mk (a ++ (List.replicate (k + 1) ' ' ++ b))) =
        .ok [⟨.Literal, String.mk a ++ ":int"⟩, ⟨.Literal, String.mk b ++ ":int"⟩] ∧
      parseTokens [⟨.Literal, String.mk a ++ ":int"⟩, ⟨.Literal, String.mk b ++ ":int"⟩] =
        .ok (String.mk a ++ ":int", 1) ∧
      Parse (String.mk (a ++ (List.replicate (k + 1) ' ' ++ b))) =
        .ok (String.mk a ++ ":int")) ∧
    tokenize "(1+2)*3" = .ok [⟨.OpenParen, "("⟩, ⟨.Literal, "1:int"⟩, ⟨.Add, "+"⟩,
      ⟨.Literal, "2:int"⟩, ⟨.CloseParen, ")"⟩, ⟨.Mul, "*"⟩, ⟨.Literal, "3:int"⟩] ∧
    parseTokens [⟨.OpenParen, "("⟩, ⟨.Literal, "1:int"⟩, ⟨.Add, "+"⟩,
      ⟨.Literal, "2:int"⟩, ⟨.CloseParen, ")"⟩, ⟨.Mul, "*"⟩, ⟨.Literal, "3:int"⟩] =
        .ok ("add(1:int,2:int)", 5) ∧
    Parse "(1+2)*3" = .ok "add(1:int,2:int)" ∧
    Parse "1 2" = .ok "1:int" ∧
    Parse "(1 2)" = .error "expected right parenthesis" ∧
    Parse "@f(1 2)" = .error "expected ," := by
  refine ⟨?_, rfl, rfl, rfl, rfl, by decide!, by decide!⟩
  intro a b ha hb k
  have htok := tokenize_two_numerals a b ha hb k
  refine ⟨htok, rfl, ?_⟩
  unfold Parse
  rw [htok, Outcome.bind_ok]
  rfl

theorem C29_parse_leaves_tokens_witness :
    isNumeral ['4', '2'] = true ∧ isNumeral ['7'] = true ∧
      parseTokens [⟨.Literal, "42:int"⟩, ⟨.Literal, "7:int"⟩] = .ok ("42:int", 1) ∧
      Parse "42  7" = .ok "42:int" :=
  ⟨rfl, rfl, (C29_parse_leaves_tokens.1 ['4', '2'] ['7'] rfl rfl 1).2.1,
    (C29_parse_leaves_tokens.1 ['4', '2'] ['7'] rfl rfl 1).2.2⟩

/-! ## A variable followed by `+` -/

theorem tokenize_sum3 (a s b : List Char) (ha : isIdentifier a = true)
    (hs : s.contains '"' = false) (hb : isIdentifier b = true) :
    LexesTo scanStops (sumText3 a s b)
      [⟨.Dollar, "$"⟩, ⟨.Identifier, String.mk a⟩, ⟨.Add, "+"⟩,
        ⟨.Literal, String.mk s ++ ":str"⟩, ⟨.Add, "+"⟩, ⟨.Dollar, "$"⟩,
        ⟨.Identifier, String.mk b⟩] := by
  have h5 := LexesTo.append (lexes_arithOp .add) (lexes_variable b hb) (fun _ _ => rfl)
  have h4 := LexesTo.append (lexes_string s hs) h5 (fun _ _ => rfl)
  have h3 := LexesTo.append (lexes_arithOp .add) h4 (fun _ _ => rfl)
  have h2 := LexesTo.append (lexes_variable a ha) h3 (fun _ _ => rfl)
  simpa [sumText3, ArithOp.char, ArithOp.token] using h2

/-- C24: when a `$name` primary is directly followed by `+`, the parser folds the next
multiplicative term into it before returning to the enclosing level.  For all variable names
`a`, `b` and string literals `s`, `t`, `Parse` of `$a+"s"+$b+"t"` returns
`add(add($a,s:str),add($b,t:str))`, and `Parse` of `$a+"s"+$b` returns
`add(add($a,s:str),$b)`. -/
theorem C24_variable_folds_next_term :
    (∀ (a s b t : List Char), isIdentifier a = true → s.contains '"' = false →
      isIdentifier b = true → t.contains '"' = false →
      Parse (String.mk (sumText4 a s b t)) =
        .ok (call2 "add" (call2 "add" ("$" ++ String.mk a) (String.mk s ++ ":str"))
          (call2 "add" ("$" ++ String.mk b) (String.mk t ++ ":str"))) ∧
      Parse (String.mk (sumText3 a s b)) =
        .ok (call2 "add" (call2 "add" ("$" ++ String.mk a) (String.mk s ++ ":str"))
          ("$" ++ String.mk b))) ∧
    Parse "$a+\"s\"+$b+\"t\"" = .ok "add(add($a,s:str),add($b,t:str))" ∧
    Parse "$a+\"s\"+$b" = .ok "add(add($a,s:str),$b)" ∧
    Parse "$a+\"s\"" = .ok "add($a,s:str)" ∧
    Parse "$a+\"s\"+$b+\"t\"+$c" = .ok "add(add(add($a,s:str),add($b,t:str)),$c)" := by
  refine ⟨?_, by decide!, by decide!, by decide!, by decide!⟩
  intro a s b t ha hs hb ht
  have h3 := tokenize_sum3 a s b ha hs hb
  have h6 := LexesTo.append (lexes_arithOp .add) (lexes_string t ht) (fun _ _ => rfl)
  have h4 := LexesTo.append h3 h6 (fun _ _ => rfl)
  constructor
  · unfold Parse
    rw [show sumText4 a s b t = sumText3 a s b ++ ([ArithOp.add.char] ++
      '"' :: (t ++ ['"'])) from rfl, h4.tokenize rfl, Outcome.bind_ok]
    rfl
  · unfold Parse
    rw [h3.tokenize rfl, Outcome.bind_ok]
    rfl

theorem C24_variable_folds_next_term_witness :
    isIdentifier ['x', '1'] = true ∧ isIdentifier ['y'] = true ∧
      Parse "$x1+\"a b\"+$y+\"\"" = .ok "add(add($x1,a b:str),add($y,:str))" ∧
      Parse "$x1+\"a b\"+$y" = .ok "add(add($x1,a b:str),$y)" :=
  ⟨rfl, rfl,
    (C24_variable_folds_next_term.1 ['x', '1'] ['a', ' ', 'b'] ['y'] [] rfl rfl rfl rfl).1,
    (C24_variable_folds_next_term.1 ['x', '1'] ['a', ' ', 'b'] ['y'] [] rfl rfl rfl rfl).2⟩

/-! ## Logical operators in a row -/

theorem lexes_logicOp (j : LogicOp) : LexesTo followAny j.text [j.token] := by
  cases j
  · exact lexes_and
  · exact lexes_or

theorem tokenize_flat (x y z : Comparison) (hx : x.wellFormed = true)
    (hy : y.wellFormed = true) (hz : z.wellFormed = true) (j1 j2 : LogicOp)
    (s1 s2 s3 s4 : Nat) :
    tokenize (String.mk (flatText x y z j1 j2 s1 s2 s3 s4)) = .ok (flatTokens x y z j1 j2) := by
  have hstop : ∀ (j : LogicOp) (k : Nat) (tail : List Char),
      scanStops (List.replicate k ' ' ++ (j.text ++ tail)) = true := by
    intro j k tail
    exact scanStops_spaces k _ (by cases j <;> rfl)
  have h8 := LexesTo.append (lexes_spaces s4) (lexes_comparison z hz) (fun _ _ => rfl)
  have h7 := LexesTo.append (lexes_logicOp j2) h8 (fun _ _ => rfl)
  have h6 := LexesTo.append (lexes_spaces s3) h7 (fun _ _ => rfl)
  have h5 := LexesTo.append (lexes_comparison y hy) h6
    (fun rest _ => by
      rw [List.append_assoc, List.append_assoc]
      exact hstop j2 s3 _)
  have h4 := LexesTo.append (lexes_spaces s2) h5 (fun _ _ => rfl)
  have h3 := LexesTo.append (lexes_logicOp j1) h4 (fun _ _ => rfl)
  have h2 := LexesTo.append (lexes_spaces s1) h3 (fun _ _ => rfl)
  have h1 := LexesTo.append (lexes_comparison x hx) h2
    (fun rest _ => by
      rw [List.append_assoc, List.append_assoc]
      exact hstop j1 s1 _)
  have := h1.tokenize rfl
  simpa [flatText, flatTokens] using this

theorem parseTokens_flat (x y z : Comparison) (j1 j2 : LogicOp) :
    (parseTokens (flatTokens x y z j1 j2)).bind (fun r => Outcome.ok r.1) =
      .ok (call2 j2.builtin (call2 j1.builtin x.canon y.canon) z.canon) := by
  have hx : parseComparisonExpression 119 (flatTokens x y z j1 j2) 0 = .ok (x.canon, 4) :=
    parseComparison_simple 115 (flatTokens x y z j1 j2) 0 x rfl rfl rfl rfl
      (by cases j1 <;> rfl)
  have hy : parseComparisonExpression 118 (flatTokens x y z j1 j2) (4 + 1) =
      .ok (y.canon, 9) :=
    parseComparison_simple 114 (flatTokens x y z j1 j2) 5 y rfl rfl rfl rfl
      (by cases j2 <;> rfl)
  have hz : parseComparisonExpression 117 (flatTokens x y z j1 j2) (9 + 1) =
      .ok (z.canon, 14) :=
    parseComparison_simple 113 (flatTokens x y z j1 j2) 10 z rfl rfl rfl rfl rfl
  have hend : ∀ s, parseLogicalLoop 117 (flatTokens x y z j1 j2) 14 s = .ok (s, 14) :=
    fun s => parseLogicalLoop_end 116 _ 14 s rfl
  have hloop9 : ∀ s, parseLogicalLoop 118 (flatTokens x y z j1 j2) 9 s =
      .ok (call2 j2.builtin s z.canon, 14) := by
    intro s
    rw [parseLogicalLoop.eq_def]
    simp only [show (flatTokens x y z j1 j2)[9]? = some j2.token from rfl]
    cases j2
    · simp only [LogicOp.token]
      rw [hz, Outcome.bind_ok]
      exact hend _
    · simp only [LogicOp.token]
      rw [hz, Outcome.bind_ok]
      exact hend _
  have hloop4 : parseLogicalLoop 119 (flatTokens x y z j1 j2) 4 x.canon =
      .ok (call2 j2.builtin (call2 j1.builtin x.canon y.canon) z.canon, 14) := by
    rw [parseLogicalLoop.eq_def]
    simp only [show (flatTokens x y z j1 j2)[4]? = some j1.token from rfl]
    cases j1
    · simp only [LogicOp.token]
      rw [hy, Outcome.bind_ok]
      exact hloop9 _
    · simp only [LogicOp.token]
      rw [hy, Outcome.bind_ok]
      exact hloop9 _
  unfold parseTokens
  rw [show parseFuel (flatTokens x y z j1 j2) = 120 from rfl, parseLogicalExpression.eq_def]
  simp only []
  rw [hx, Outcome.bind_ok]
  show (parseLogicalLoop 119 (flatTokens x y z j1 j2) 4 x.canon).bind
    (fun r => Outcome.ok r.1) = _
  rw [hloop4]
  rfl

/-- C25: `&&` and `||` have equal precedence and group left to right.  For all simple
comparisons `x`, `y`, `z` (each `$var op literal`), all logical operators `j1`, `j2` and any
number of spaces around them, `Parse` of `x j1 y j2 z` returns `J2(J1(X,Y),Z)`; in particular
`Parse` of `x || y && z` returns `and(or(X,Y),Z)` and `Parse` of `x && y || z` returns
`or(and(X,Y),Z)`. -/
theorem C25_logical_left_to_right :
    (∀ (x y z : Comparison), x.wellFormed = true → y.wellFormed = true → z.wellFormed = true →
      ∀ s1 s2 s3 s4 : Nat,
        (∀ j1 j2 : LogicOp, Parse (String.mk (flatText x y z j1 j2 s1 s2 s3 s4)) =
          .ok (call2 j2.builtin (call2 j1.builtin x.canon y.canon) z.canon)) ∧
        Parse (String.mk (flatText x y z .or .and s1 s2 s3 s4)) =
          .ok (call2 "and" (call2 "or" x.canon y.canon) z.canon) ∧
        Parse (String.mk (flatText x y z .and .or s1 s2 s3 s4)) =
          .ok (call2 "or" (call2 "and" x.canon y.canon) z.canon)) ∧
    Parse "$a>1 || $b<2 && $c==3" = .ok "and(or(gt($a,1:int),lt($b,2:int)),eq($c,3:int))" ∧
    Parse "$a>1 && $b<2 || $c==3" = .ok "or(and(gt($a,1:int),lt($b,2:int)),eq($c,3:int))" := by
  refine ⟨?_, by decide!, by decide!⟩
  intro x y z hx hy hz s1 s2 s3 s4
  have hgen : ∀ j1 j2 : LogicOp, Parse (String.mk (flatText x y z j1 j2 s1 s2 s3 s4)) =
      .ok (call2 j2.builtin (call2 j1.builtin x.canon y.canon) z.canon) := by
    intro j1 j2
    unfold Parse
    rw [tokenize_flat x y z hx hy hz j1 j2 s1 s2 s3 s4, Outcome.bind_ok]
    exact parseTokens_flat x y z j1 j2
  exact ⟨hgen, hgen .or .and, hgen .and .or⟩

theorem C25_logical_left_to_right_witness :
    (⟨['a'], 0, .gt, 0, .int ['1']⟩ : Comparison).wellFormed = true ∧
    (⟨['b'], 1, .ne, 1, .str ['o', 'k']⟩ : Comparison).wellFormed = true ∧
    (⟨['c'], 0, .lte, 0, .float ['2'] ['5']⟩ : Comparison).wellFormed = true ∧
      Parse "$a>1 || $b != \"ok\" && $c<=2.5" =
        .ok "and(or(gt($a,1:int),ne($b,ok:str)),lte($c,2.5:float))" ∧
      Parse "$a>1 && $b != \"ok\" || $c<=2.5" =
        .ok "or(and(gt($a,1:int),ne($b,ok:str)),lte($c,2.5:float))" :=
  ⟨rfl, rfl, rfl,
    (C25_logical_left_to_right.1 ⟨['a'], 0, .gt, 0, .int ['1']⟩
      ⟨['b'], 1, .ne, 1, .str ['o', 'k']⟩ ⟨['c'], 0, .lte, 0, .float ['2'] ['5']⟩ rfl rfl rfl
      1 1 1 1).2⟩

/-! ## String literals through both parsers -/

theorem parseArgument_var (L : Lib) (fuel : Nat) (v : List Char) (h : isIdentifier v = true) :
    parseArgument L (fuel + 1) (String.mk ('$' :: v)) = .ok (.mk none (String.mk v) .nil) := by
  have hcont : ('$' :: v).contains '(' = false := by
    have hn := paren_not_mem_of_identChars v (identChar_of_identifier v h)
    simp [hn]
  rw [parseArgument.eq_def]
  simp only [hcont, Bool.false_eq_true, if_false, if_true]

theorem parseArgument_str (L : Lib) (fuel : Nat) (s : List Char)
    (hparen : '(' ∉ s) (hhead : ∀ c ∈ s.head?, c ≠ '$') :
    parseArgument L (fuel + 1) (String.mk (s ++ [':', 's', 't', 'r'])) =
      .ok (.mk none "" (.str (String.mk s))) := by
  have hcont : (s ++ [':', 's', 't', 'r']).contains '(' = false := by
    simp [hparen]
  have hsplit := splitType_typed s ['s', 't', 'r'] (by decide)
  have h1 : ¬(String.mk ['s', 't', 'r'] = "int") := by decide
  have h2 : ¬(String.mk ['s', 't', 'r'] = "float") := by decide
  have h3 : String.mk ['s', 't', 'r'] = "str" := by decide
  rw [parseArgument.eq_def]
  cases s with
  | nil =>
    have hsplit2 : splitType (String.mk [':', 's', 't', 'r']) =
        (String.mk ['s', 't', 'r'], String.mk []) := hsplit
    simp only [List.nil_append, hsplit2, h1, h2, h3]
    rfl
  | cons c cs =>
    have hc : c ≠ '$' := hhead c (by simp)
    have hcont2 : (c :: (cs ++ [':', 's', 't', 'r'])).contains '(' = false := hcont
    have hsplit2 : splitType (String.mk (c :: (cs ++ [':', 's', 't', 'r']))) =
        (String.mk ['s', 't', 'r'], String.mk (c :: cs)) := hsplit
    simp only [List.cons_append, hcont2, hsplit2, if_neg hc, h1, h2, h3, Bool.false_eq_true,
      if_false, if_true]

theorem plainString_facts (s : List Char) (h : plainString s = true) :
    s.contains '"' = false ∧ (∀ c ∈ s, c ≠ '(' ∧ c ≠ ')' ∧ c ≠ ',') ∧
      (∀ c ∈ s.head?, c ≠ '$') ∧ spaceWidth s = 0 := by
  simp only [plainString, Bool.and_eq_true, List.all_eq_true, bne_iff_ne, ne_eq] at h
  obtain ⟨hall, hhead⟩ := h
  refine ⟨?_, fun c hc => ⟨(hall c hc).1.2, (hall c hc).2, (hall c hc).1.1.2⟩, ?_, ?_⟩
  · rw [Bool.eq_false_iff]
    intro hc
    have hmem : '"' ∈ s := by simpa using hc
    exact (hall _ hmem).1.1.1 rfl
  · cases s with
    | nil => intro c hc; simp at hc
    | cons d ds =>
      intro c hc
      simp only [List.head?_cons, Option.mem_def, Option.some.injEq] at hc
      subst hc
      simp only [Bool.and_eq_true, bne_iff_ne, ne_eq, Bool.not_eq_true'] at hhead
      exact hhead.1
  · cases s with
    | nil => rfl
    | cons d ds =>
      simp only [Bool.and_eq_true, bne_iff_ne, ne_eq, beq_iff_eq] at hhead
      exact hhead.2

theorem Parse_eqText (v s : List Char) (hv : isIdentifier v = true)
    (hs : s.contains '"' = false) :
    Parse (String.mk (eqText v s)) =
      .ok (call2 "eq" ("$" ++ String.mk v) (String.mk s ++ ":str")) := by
  have h2 := LexesTo.append (lexes_cmpOp .eq) (lexes_string s hs) (fun _ _ => rfl)
  have h1 := LexesTo.append (lexes_variable v hv) h2 (fun _ _ => rfl)
  unfold Parse
  rw [show eqText v s = ('$' :: v) ++ (CmpOp.eq.text ++ '"' :: (s ++ ['"'])) from rfl,
    h1.tokenize rfl, Outcome.bind_ok]
  rfl

theorem canonical_eq_string (v s : List Char) :
    call2 "eq" ("$" ++ String.mk v) (String.mk s ++ ":str") =
      String.mk (['e', 'q'] ++ '(' ::
        ((('$' :: v) ++ ',' :: (s ++ [':', 's', 't', 'r'])) ++ [')'])) := by
  apply String.ext
  simp [call2]

theorem ParseFunctionExpression_eq_string (L : Lib) (fuel : Nat) (v s : List Char)
    (hv : isIdentifier v = true) (hs : plainString s = true) :
    ParseFunctionExpression L (fuel + 1 + 1)
        (call2 "eq" ("$" ++ String.mk v) (String.mk s ++ ":str")) =
      .ok (.mk (call2 "eq" ("$" ++ String.mk v) (String.mk s ++ ":str")) (some (fnEq L)) "eq"
        [.mk none (String.mk v) .nil, .mk none "" (.str (String.mk s))] "" .nil) := by
  obtain ⟨_, hplain, hdollar, hspace⟩ := plainString_facts s hs
  have hid := identChar_of_identifier v hv
  have hplainV : ∀ c ∈ '$' :: v, c ≠ '(' ∧ c ≠ ')' ∧ c ≠ ',' := by
    intro c hc
    rcases List.mem_cons.1 hc with rfl | hc
    · decide
    · have := identChar_facts c (hid c hc)
      exact ⟨this.1, this.2.1, this.2.2.1⟩
  have hplainS : ∀ c ∈ s ++ [':', 's', 't', 'r'], c ≠ '(' ∧ c ≠ ')' ∧ c ≠ ',' := by
    intro c hc
    rcases List.mem_append.1 hc with hc | hc
    · exact hplain c hc
    · simp only [List.mem_cons, List.mem_singleton, List.not_mem_nil, or_false] at hc
      rcases hc with rfl | rfl | rfl | rfl <;> decide
  have hsplit : splitParams (('$' :: v) ++ ',' :: (s ++ [':', 's', 't', 'r'])) 0 [] [] =
      [String.mk ('$' :: v), String.mk (s ++ [':', 's', 't', 'r'])] := by
    rw [splitParams_plain _ hplainV, splitParams, if_neg (by decide), if_neg (by decide),
      if_pos rfl, if_pos rfl]
    have := splitParams_plain _ hplainS [] 0 [] ([] ++ [String.mk ([] ++ ('$' :: v))])
    rw [List.append_nil] at this
    rw [this]
    rfl
  have htrim1 : TrimSpace (String.mk ('$' :: v)) = String.mk ('$' :: v) := by
    refine TrimSpace_eq_self _ (spaceWidth_head_ascii '$' v (by decide) (by decide)) ?_
    intro c hc
    have hmem := List.mem_of_mem_getLast? hc
    rcases List.mem_cons.1 hmem with rfl | hmem
    · exact ⟨by decide, Or.inl (by decide)⟩
    · exact tail_of_identChar c (hid c hmem)
  have htrim2 : TrimSpace (String.mk (s ++ [':', 's', 't', 'r'])) =
      String.mk (s ++ [':', 's', 't', 'r']) := by
    refine TrimSpace_eq_self _ (spaceWidth_append_colon s _ hspace) ?_
    intro c hc
    rw [List.getLast?_append_of_ne_nil _ (by simp)] at hc
    cases hc
    exact ⟨rfl, Or.inl (by decide)⟩
  rw [canonical_eq_string v s, ParseFunctionExpression_call L (fuel + 1) ['e', 'q'] _
    (by decide)]
  rw [show TrimSpace (String.mk ['e', 'q']) = "eq" from rfl,
    show funcMap L "eq" = some (fnEq L) from rfl]
  simp only [hsplit, Outcome.mapM, htrim1, htrim2, parseArgument_var L fuel v hv,
    parseArgument_str L fuel s (fun hc => (hplain _ hc).1 rfl) hdollar, Outcome.bind_ok]

/-- C22: a string literal does not always survive the two-stage compile.  For every variable
name `v` and every string `s` without double quote, comma or parenthesis that does not start
with `$` or with a white-space rune (ASCII or UTF-8 encoded), `ParseExpression` of `$v=="s"`
yields an `eq` call with exactly two arguments, the variable `v` and the string constant `s`.
But the canonical text does not quote the string: `$v=="a,b"` yields an `eq` call with three
arguments (`$v`, the integer 0 and the string `b`), `$v=="$x"` yields the variable `x:str` as
second argument, `$v==" x"` yields the string `x` without its leading space, a leading
no-break space is lost the same way, and `$v=="(a,b)"` fails with `function not found: `. -/
theorem C22_string_literal_reparse (L : Lib) :
    (∀ (v s : List Char), isIdentifier v = true → plainString s = true →
      ParseExpression L (String.mk (eqText v s)) =
        .ok (.mk (call2 "eq" ("$" ++ String.mk v) (String.mk s ++ ":str")) (some (fnEq L)) "eq"
          [.mk none (String.mk v) .nil, .mk none "" (.str (String.mk s))] "" .nil)) ∧
    Parse "$v==\"a,b\"" = .ok "eq($v,a,b:str)" ∧
    ParseExpression L "$v==\"a,b\"" =
      .ok (.mk "eq($v,a,b:str)" (some (fnEq L)) "eq"
        [.mk none "v" .nil, .mk none "" (.int .int64 0), .mk none "" (.str "b")] "" .nil) ∧
    ParseExpression L "$v==\"$x\"" =
      .ok (.mk "eq($v,$x:str)" (some (fnEq L)) "eq"
        [.mk none "v" .nil, .mk none "x:str" .nil] "" .nil) ∧
    ParseExpression L "$v==\" x\"" =
      .ok (.mk "eq($v, x:str)" (some (fnEq L)) "eq"
        [.mk none "v" .nil, .mk none "" (.str "x")] "" .nil) ∧
    ParseExpression L "$v==\"(a,b)\"" = .error "function not found: " ∧
    ParseExpression L (String.mk ("$v==\"".data ++ nbsp ++ "x\"".data)) =
      .ok (.mk (String.mk ("eq($v,".data ++ nbsp ++ "x:str)".data)) (some (fnEq L)) "eq"
        [.mk none "v" .nil, .mk none "" (.str "x")] "" .nil) ∧
    (L.ToString (.str "a,b") = "a,b" → L.ToString (.int .int64 0) = "0" →
      ∀ vars : Vars, vars "v" = some (.str "a,b") →
        ParseAndExecute L "$v==\"a,b\"" vars = .ok (.bool false)) := by
  refine ⟨?_, by decide!, rfl, rfl, rfl, rfl, rfl, ?_⟩
  · intro v s hv hs
    unfold ParseExpression
    rw [Parse_eqText v s hv (plainString_facts s hs).1, Outcome.bind_ok]
    exact ParseFunctionExpression_eq_string L _ v s hv hs
  · intro h1 h2 vars hvars
    have e : ParseAndExecute L "$v==\"a,b\"" vars =
        (match vars "v" with
          | some val => fnEq L [val, .int .int64 0, .str "b"]
          | none => fnEq L [.str "v", .int .int64 0, .str "b"]) := by
      unfold ParseAndExecute
      rw [show ParseExpression L "$v==\"a,b\"" =
        .ok (.mk "eq($v,a,b:str)" (some (fnEq L)) "eq"
          [.mk none "v" .nil, .mk none "" (.int .int64 0), .mk none "" (.str "b")] "" .nil)
        from rfl, Outcome.bind_ok]
      simp only [FunctionCall.Execute, executeFunctionCall, executeArgs, executeArg]
      cases vars "v" <;> rfl
    rw [e, hvars]
    simp [fnEq, h1, h2]

theorem C22_string_literal_reparse_witness :
    isIdentifier ['m', 'f', 'r'] = true ∧ plainString ['a', ' ', 'b', ':', '$'] = true ∧
      ParseExpression refLib "$mfr==\"a b:$\"" =
        .ok (.mk "eq($mfr,a b:$:str)" (some (fnEq refLib)) "eq"
          [.mk none "mfr" .nil, .mk none "" (.str "a b:$")] "" .nil) ∧
      ParseAndExecute refLib "$v==\"a,b\""
        (fun k => if k = "v" then some (.str "a,b") else none) = .ok (.bool false) :=
  ⟨rfl, rfl, (C22_string_literal_reparse refLib).1 ['m', 'f', 'r'] ['a', ' ', 'b', ':', '$']
    rfl rfl,
    (C22_string_literal_reparse refLib).2.2.2.2.2.2.2 rfl rfl
      (fun k => if k = "v" then some (.str "a,b") else none) rfl⟩

/-! ## Shape of the literal tokens -/

theorem all_takeWhile (p : Char → Bool) (l : List Char) : (l.takeWhile p).all p = true := by
  induction l with
  | nil => rfl
  | cons a l ih =>
    by_cases ha : p a = true
    · simp [List.takeWhile, ha, ih]
    · have ha2 : p a = false := by simpa using ha
      simp [List.takeWhile, ha2]

theorem LiteralShape.of_other (t : Token) (h : t.Typ ≠ .Literal) : LiteralShape t :=
  fun hc => absurd hc h

/-- One iteration of the tokenizer loop, unless it stops without tokens, continues with new
tokens whose literals have the shape of a string or of a number run. -/
theorem tokenizeLoop_step_shape (c : Char) (s : List Char) :
    (∀ n acc toks, tokenizeLoop (n + 1) (c :: s) acc ≠ .ok toks) ∨
    ∃ s2 tk, (∀ n acc, tokenizeLoop (n + 1) (c :: s) acc = tokenizeLoop n s2 (acc ++ tk)) ∧
      ∀ t ∈ tk, LiteralShape t := by
  have hone : ∀ (tok : Token), tok.Typ ≠ .Literal → ∀ t ∈ [tok], LiteralShape t := by
    intro tok htok t ht
    rw [List.mem_singleton] at ht
    subst ht
    exact LiteralShape.of_other _ htok
  by_cases hl : isLetter c = true
  · exact Or.inr ⟨_, _, fun n acc => tokenizeLoop_letter c s n acc hl,
      hone ⟨.Identifier, String.mk ((c :: s).takeWhile isIdentChar)⟩ (by simp)⟩
  by_cases hd : isDigit c = true
  · have hrun : numberRun ((c :: s).takeWhile isNumberChar) = true := by
      have hc : isNumberChar c = true := by simp [isNumberChar, hd]
      simp only [List.takeWhile, hc, numberRun, hd, Bool.true_and]
      exact all_takeWhile isNumberChar s
    by_cases hdot : ((c :: s).takeWhile isNumberChar).contains '.' = true
    · refine Or.inr ⟨_, _,
        fun n acc => by rw [tokenizeLoop_digit c s n acc hd, if_pos hdot], ?_⟩
      intro t ht _
      rw [List.mem_singleton] at ht
      subst ht
      exact Or.inr ⟨_, hrun, by unfold numberTag; rw [if_pos hdot]⟩
    · refine Or.inr ⟨_, _,
        fun n acc => by rw [tokenizeLoop_digit c s n acc hd, if_neg hdot], ?_⟩
      intro t ht _
      rw [List.mem_singleton] at ht
      subst ht
      exact Or.inr ⟨_, hrun, by unfold numberTag; rw [if_neg hdot]⟩
  by_cases h1 : c = '+'
  · subst h1; exact Or.inr ⟨s, [_], fun _ _ => rfl, hone _ (by decide)⟩
  by_cases h2 : c = '-'
  · subst h2; exact Or.inr ⟨s, [_], fun _ _ => rfl, hone _ (by decide)⟩
  by_cases h3 : c = '*'
  · subst h3; exact Or.inr ⟨s, [_], fun _ _ => rfl, hone _ (by decide)⟩
  by_cases h4 : c = '/'
  · subst h4; exact Or.inr ⟨s, [_], fun _ _ => rfl, hone _ (by decide)⟩
  by_cases h5 : c = '%'
  · subst h5; exact Or.inr ⟨s, [_], fun _ _ => rfl, hone _ (by decide)⟩
  by_cases h6 : c = '('
  · subst h6; exact Or.inr ⟨s, [_], fun _ _ => rfl, hone _ (by decide)⟩
  by_cases h7 : c = ')'
  · subst h7; exact Or.inr ⟨s, [_], fun _ _ => rfl, hone _ (by decide)⟩
  by_cases h8 : c = '@'
  · subst h8; exact Or.inr ⟨s, [_], fun _ _ => rfl, hone _ (by decide)⟩
  by_cases h9 : c = '$'
  · subst h9; exact Or.inr ⟨s, [_], fun _ _ => rfl, hone _ (by decide)⟩
  by_cases h10 : c = ','
  · subst h10; exact Or.inr ⟨s, [_], fun _ _ => rfl, hone _ (by decide)⟩
  by_cases h11 : c = '&'
  · subst h11
    cases s with
    | nil => exact Or.inl fun _ _ _ hcon => Outcome.noConfusion hcon
    | cons d s2 =>
      by_cases hd2 : d = '&'
      · subst hd2
        exact Or.inr ⟨s2, [_], fun _ _ => rfl, hone _ (by decide)⟩
      · refine Or.inl fun n acc toks => ?_
        show (if d = '&' then _ else _) ≠ _
        rw [if_neg hd2]
        exact fun hcon => Outcome.noConfusion hcon
  by_cases h12 : c = '|'
  · subst h12
    cases s with
    | nil => exact Or.inl fun _ _ _ hcon => Outcome.noConfusion hcon
    | cons d s2 =>
      by_cases hd2 : d = '|'
      · subst hd2
        exact Or.inr ⟨s2, [_], fun _ _ => rfl, hone _ (by decide)⟩
      · refine Or.inl fun n acc toks => ?_
        show (if d = '|' then _ else _) ≠ _
        rw [if_neg hd2]
        exact fun hcon => Outcome.noConfusion hcon
  by_cases h13 : c = '!'
  · subst h13
    cases s with
    | nil => exact Or.inl fun _ _ _ hcon => Outcome.noConfusion hcon
    | cons d s2 =>
      by_cases hd2 : d = '='
      · subst hd2
        exact Or.inr ⟨s2, [_], fun _ _ => rfl, hone _ (by decide)⟩
      · refine Or.inr ⟨d :: s2, [⟨.Not, "!"⟩], fun n acc => ?_, hone _ (by decide)⟩
        show (if d = '=' then _ else _) = _
        rw [if_neg hd2]
  by_cases h14 : c = '>'
  · subst h14
    cases s with
    | nil => exact Or.inl fun _ _ _ hcon => Outcome.noConfusion hcon
    | cons d s2 =>
      by_cases hd2 : d = '='
      · subst hd2
        exact Or.inr ⟨s2, [_], fun _ _ => rfl, hone _ (by decide)⟩
      · refine Or.inr ⟨d :: s2, [⟨.Gt, ">"⟩], fun n acc => ?_, hone _ (by decide)⟩
        show (if d = '=' then _ else _) = _
        rw [if_neg hd2]
  by_cases h15 : c = '<'
  · subst h15
    cases s with
    | nil => exact Or.inl fun _ _ _ hcon => Outcome.noConfusion hcon
    | cons d s2 =>
      by_cases hd2 : d = '='
      · subst hd2
        exact Or.inr ⟨s2, [_], fun _ _ => rfl, hone _ (by decide)⟩
      · refine Or.inr ⟨d :: s2, [⟨.Lt, "<"⟩], fun n acc => ?_, hone _ (by decide)⟩
        show (if d = '=' then _ else _) = _
        rw [if_neg hd2]
  by_cases h16 : c = '='
  · subst h16
    cases s with
    | nil => exact Or.inl fun _ _ _ hcon => Outcome.noConfusion hcon
    | cons d s2 =>
      by_cases hd2 : d = '='
      · subst hd2
        exact Or.inr ⟨s2, [_], fun _ _ => rfl, hone _ (by decide)⟩
      · refine Or.inl fun n acc toks => ?_
        show (if d = '=' then _ else _) ≠ _
        rw [if_neg hd2]
        exact fun hcon => Outcome.noConfusion hcon
  by_cases h17 : c = '"'
  · subst h17
    cases hs : s.dropWhile (fun d => d != '"') with
    | nil =>
      refine Or.inl fun n acc toks => ?_
      show (match s.dropWhile (fun d => d != '"') with
        | [] => _
        | _ :: rest2 => _) ≠ _
      rw [hs]
      exact fun hcon => Outcome.noConfusion hcon
    | cons q s2 =>
      refine Or.inr ⟨s2,
        [⟨.Literal, String.mk (s.takeWhile (fun d => d != '"')) ++ ":str"⟩], ?_, ?_⟩
      · intro n acc
        show (match s.dropWhile (fun d => d != '"') with
          | [] => _
          | _ :: rest2 => tokenizeLoop n rest2 _) = _
        rw [hs]
      · intro t ht _
        rw [List.mem_singleton] at ht
        subst ht
        exact Or.inl ⟨_, rfl⟩
  by_cases h18 : c = ' '
  · subst h18
    exact Or.inr ⟨s, [], fun _ _ => by simp; rfl, fun t ht => absurd ht (List.not_mem_nil t)⟩
  · refine Or.inl fun n acc toks => ?_
    have hl2 : isLetter c = false := by simpa using hl
    have hd3 : isDigit c = false := by simpa using hd
    rw [tokenizeLoop.eq_def]
    simp only [h1, h2, h3, h4, h5, h6, h7, h8, h9, h10, h11, h12, h13, h14, h15, h16, h17, h18,
      hl2, hd3, if_false, Bool.false_eq_true]
    exact fun hcon => Outcome.noConfusion hcon

theorem tokenizeLoop_shape :
    ∀ (n : Nat) (s : List Char) (acc toks : List Token),
      tokenizeLoop n s acc = .ok toks → (∀ t ∈ acc, LiteralShape t) →
      ∀ t ∈ toks, LiteralShape t := by
  intro n
  induction n with
  | zero => intro s acc toks h; exact Outcome.noConfusion h
  | succ n ih =>
    intro s acc toks h hacc
    cases s with
    | nil =>
      have h2 : tokenizeLoop (n + 1) [] acc = .ok acc := rfl
      rw [h2] at h
      cases h
      exact hacc
    | cons c s =>
      rcases tokenizeLoop_step_shape c s with hno | ⟨s2, tk, h1, htk⟩
      · exact absurd h (hno n acc toks)
      · rw [h1] at h
        refine ih s2 (acc ++ tk) toks h fun t ht => ?_
        rcases List.mem_append.1 ht with ht | ht
        · exact hacc t ht
        · exact htk t ht

theorem numberTag_float_iff (run : List Char) :
    (numberTag run = ":float" ↔ run.contains '.' = true) ∧
      (numberTag run = ":int" ↔ run.contains '.' = false) := by
  unfold numberTag
  by_cases h : run.contains '.' = true
  · rw [if_pos h]
    exact ⟨⟨fun _ => h, fun _ => rfl⟩,
      ⟨fun hc => absurd hc (by decide), fun hc => by rw [h] at hc; cases hc⟩⟩
  · rw [if_neg h]
    have h2 : run.contains '.' = false := by simpa using h
    exact ⟨⟨fun hc => absurd hc (by decide), fun hc => by rw [h2] at hc; cases hc⟩,
      ⟨fun _ => h2, fun _ => rfl⟩⟩

theorem lexes_numberRun (run : List Char) (h : numberRun run = true) :
    LexesTo scanStops run [⟨.Literal, String.mk run ++ numberTag run⟩] := by
  intro rest hrest
  refine ⟨1, fun fuel acc => ?_⟩
  cases run with
  | nil => simp [numberRun] at h
  | cons c cs =>
    simp only [numberRun, Bool.and_eq_true] at h
    have hc : isDigit c = true := h.1
    have hall : ∀ x ∈ c :: cs, isNumberChar x = true := by
      intro x hx
      rcases List.mem_cons.1 hx with rfl | hx
      · simp [isNumberChar, hc]
      · exact List.all_eq_true.1 h.2 x hx
    have hspan := takeWhile_append_of_stop isNumberChar (c :: cs) rest hall
      (scanStops_number rest hrest)
    have hstep := tokenizeLoop_digit c (cs ++ rest) fuel acc hc
    rw [List.cons_append, hstep, ← List.cons_append, hspan.1, hspan.2]
    unfold numberTag
    by_cases hdot : (c :: cs).contains '.' = true
    · rw [if_pos hdot, if_pos hdot]
    · rw [if_neg hdot, if_neg hdot]

/-- C26 (counterexample): the input `1.2.3` tokenizes successfully to the single literal
`1.2.3:float`; its text `1.2.3` is a digit-initial run that has neither the shape `digits` nor
the shape `digits.digits`. -/
theorem C26_dotted_run_counterexample :
    tokenize "1.2.3" = .ok [⟨.Literal, "1.2.3:float"⟩] ∧ numberRun "1.2.3".data = true ∧
      decimalShape "1.2.3".data = false := by
  decide!

/-- C26 (amended): for every input that tokenizes successfully, each literal token is a string
body tagged `:str` or a number run, a digit followed by digits and dots in any arrangement,
tagged `:float` exactly when it contains `.` and `:int` otherwise; and every such run is
emitted whole as one literal.  Runs of the shape `digits` and `digits.digits` are emitted as
such, and so are `1.2.3`, `1.` and `1..2`, which do not have that shape; `ParseExpression`
turns `1.2.3` into the float constant that `ParseFloat` gives for the text `1.2.3`. -/
theorem C26_number_runs (L : Lib) :
    (∀ (input : String) (toks : List Token), tokenize input = .ok toks →
      ∀ t ∈ toks, LiteralShape t) ∧
    (∀ run : List Char, (numberTag run = ":float" ↔ run.contains '.' = true) ∧
      (numberTag run = ":int" ↔ run.contains '.' = false)) ∧
    (∀ ds : List Char, isNumeral ds = true →
      tokenize (String.mk ds) = .ok [⟨.Literal, String.mk ds ++ ":int"⟩]) ∧
    (∀ whole frac : List Char, isNumeral whole = true → isNumeral frac = true →
      tokenize (String.mk (whole ++ '.' :: frac)) =
        .ok [⟨.Literal, String.mk (whole ++ '.' :: frac) ++ ":float"⟩]) ∧
    (∀ run : List Char, numberRun run = true →
      tokenize (String.mk run) = .ok [⟨.Literal, String.mk run ++ numberTag run⟩]) ∧
    tokenize "1.2.3" = .ok [⟨.Literal, "1.2.3:float"⟩] ∧
    tokenize "1." = .ok [⟨.Literal, "1.:float"⟩] ∧
    tokenize "1..2" = .ok [⟨.Literal, "1..2:float"⟩] ∧
    decimalShape "1.2.3".data = false ∧ decimalShape "1.".data = false ∧
    decimalShape "1..2".data = false ∧ decimalShape "12".data = true ∧
    decimalShape "1.25".data = true ∧
    Parse "1.2.3" = .ok "1.2.3:float" ∧
    ParseExpression L "1.2.3" =
      .ok (.mk "1.2.3:float" none "" [] "" (.float (L.ParseFloat "1.2.3"))) := by
  refine ⟨?_, numberTag_float_iff, ?_, ?_, ?_, by decide!, by decide!, by decide!, by decide!,
    by decide!, by decide!, by decide!, by decide!, by decide!, rfl⟩
  · intro input toks h t ht
    exact tokenizeLoop_shape _ _ [] toks h (fun t ht => absurd ht (List.not_mem_nil t)) t ht
  · intro ds hds
    exact (lexes_numeral ds hds).tokenize rfl
  · intro whole frac hw hf
    exact (lexes_float whole frac hw hf).tokenize rfl
  · intro run hrun
    exact (lexes_numberRun run hrun).tokenize rfl

theorem C26_number_runs_witness :
    tokenize "1.2.3+7" = .ok [⟨.Literal, "1.2.3:float"⟩, ⟨.Add, "+"⟩, ⟨.Literal, "7:int"⟩] ∧
      LiteralShape ⟨.Literal, "1.2.3:float"⟩ ∧ isNumeral ['4', '2'] = true ∧
      tokenize "42" = .ok [⟨.Literal, "42:int"⟩] :=
  ⟨by decide!,
    (C26_number_runs refLib).1 "1.2.3+7"
      [⟨.Literal, "1.2.3:float"⟩, ⟨.Add, "+"⟩, ⟨.Literal, "7:int"⟩] (by decide!)
      ⟨.Literal, "1.2.3:float"⟩ (by simp),
    rfl, (C26_number_runs refLib).2.2.1 ['4', '2'] rfl⟩

/-! ## Decimal text of integers -/

theorem digitChar_facts : ∀ d, d < 10 →
    isDigit (Nat.digitChar d) = true ∧ (Nat.digitChar d).toNat - 48 = d := by
  decide

theorem toDigitsCore_step (fuel n : Nat) (ds : List Char) :
    Nat.toDigitsCore 10 (fuel + 1) n ds =
      if n / 10 = 0 then Nat.digitChar (n % 10) :: ds
      else Nat.toDigitsCore 10 fuel (n / 10) (Nat.digitChar (n % 10) :: ds) := by
  simp [Nat.toDigitsCore]

theorem toDigitsCore_append :
    ∀ (fuel n : Nat) (ds : List Char),
      Nat.toDigitsCore 10 fuel n ds = Nat.toDigitsCore 10 fuel n [] ++ ds := by
  intro fuel
  induction fuel with
  | zero => intro n ds; simp [Nat.toDigitsCore]
  | succ fuel ih =>
    intro n ds
    rw [toDigitsCore_step, toDigitsCore_step]
    by_cases h : n / 10 = 0
    · rw [if_pos h, if_pos h]
      rfl
    · rw [if_neg h, if_neg h, ih (n / 10) (Nat.digitChar (n % 10) :: ds),
        ih (n / 10) [Nat.digitChar (n % 10)], List.append_assoc]
      rfl

theorem digitsValue_append_single (xs : List Char) (d : Char) :
    digitsValue (xs ++ [d]) = 10 * digitsValue xs + (d.toNat - 48) := by
  unfold digitsValue
  rw [List.foldl_append]
  rfl

theorem toDigitsCore_spec :
    ∀ (fuel n : Nat), n < fuel →
      Nat.toDigitsCore 10 fuel n [] ≠ [] ∧
      (Nat.toDigitsCore 10 fuel n []).all isDigit = true ∧
      digitsValue (Nat.toDigitsCore 10 fuel n []) = n := by
  intro fuel
  induction fuel with
  | zero => intro n h; omega
  | succ fuel ih =>
    intro n hn
    rw [toDigitsCore_step]
    have hd := digitChar_facts (n % 10) (Nat.mod_lt n (by decide))
    by_cases h : n / 10 = 0
    · rw [if_pos h]
      have hmod : n % 10 = n := Nat.mod_eq_of_lt (by omega)
      refine ⟨by simp, by simp [hd.1], ?_⟩
      have := digitsValue_append_single [] (Nat.digitChar (n % 10))
      rw [List.nil_append] at this
      rw [this, hd.2, hmod]
      show 10 * 0 + n = n
      omega
    · rw [if_neg h, toDigitsCore_append]
      obtain ⟨h1, h2, h3⟩ := ih (n / 10) (by omega)
      refine ⟨by simp, ?_, ?_⟩
      · rw [List.all_append, h2]
        simp [hd.1]
      · rw [digitsValue_append_single, h3, hd.2]
        omega

theorem toDigits_spec (m : Nat) :
    Nat.toDigits 10 m ≠ [] ∧ (Nat.toDigits 10 m).all isDigit = true ∧
      digitsValue (Nat.toDigits 10 m) = m :=
  toDigitsCore_spec (m + 1) m (Nat.lt_succ_self m)

theorem toDigits_head (m : Nat) :
    ∃ c cs, Nat.toDigits 10 m = c :: cs ∧ isDigit c = true ∧ cs.all isDigit = true := by
  obtain ⟨h1, h2, _⟩ := toDigits_spec m
  cases h : Nat.toDigits 10 m with
  | nil => exact absurd h h1
  | cons c cs =>
    rw [h] at h2
    simp only [List.all_cons, Bool.and_eq_true] at h2
    exact ⟨c, cs, rfl, h2.1, h2.2⟩

theorem ParseInt_of_digits (c : Char) (cs : List Char) (hc : isDigit c = true)
    (hcs : cs.all isDigit = true) (hrange : digitsValue (c :: cs) < 2 ^ 63) :
    ParseInt (String.mk (c :: cs)) = (digitsValue (c :: cs) : Int) := by
  have hplus : c ≠ '+' := (digit_facts c hc).1
  have hminus : c ≠ '-' := (digit_facts c hc).2.1
  have hall : (c :: cs).all isDigit = true := by simp [hc, hcs]
  unfold ParseInt
  simp only [hplus, hminus, or_self, if_false, hall, beq_iff_eq, reduceCtorEq, or_false,
    Bool.true_eq_false, false_and, false_or, decide_eq_true_eq]
  rw [if_neg (fun h => absurd h.2 (by omega))]

theorem ParseInt_of_minus_digits (ds : List Char) (hne : ds ≠ []) (hds : ds.all isDigit = true)
    (hrange : digitsValue ds ≤ 2 ^ 63) :
    ParseInt (String.mk ('-' :: ds)) = -(digitsValue ds : Int) := by
  unfold ParseInt
  simp only [or_true, if_true, hds, hne, beq_self_eq_true, Bool.true_eq_false, false_or,
    if_false, true_and, not_true_eq_false, false_and, Bool.false_eq_true]
  rw [if_neg (by omega)]

theorem ParseInt_toString (n : Int) (h1 : -(2 ^ 63) ≤ n) (h2 : n < 2 ^ 63) :
    ParseInt (toString n) = n := by
  cases n with
  | ofNat m =>
    obtain ⟨c, cs, hd, hc, hcs⟩ := toDigits_head m
    have hval := (toDigits_spec m).2.2
    rw [hd] at hval
    have hm : m < 2 ^ 63 := by
      have : (m : Int) < 2 ^ 63 := h2
      omega
    have hs : toString (Int.ofNat m) = String.mk (c :: cs) := by
      apply String.ext
      exact hd
    rw [hs, ParseInt_of_digits c cs hc hcs (by rw [hval]; exact hm), hval]
    rfl
  | negSucc m =>
    obtain ⟨hne, hds, hval⟩ := toDigits_spec (m + 1)
    have hm : m + 1 ≤ 2 ^ 63 := by
      have : -(2 ^ 63 : Int) ≤ Int.negSucc m := h1
      rw [Int.negSucc_eq] at this
      omega
    have hs : toString (Int.negSucc m) = String.mk ('-' :: Nat.toDigits 10 (m + 1)) := by
      apply String.ext
      rfl
    rw [hs, ParseInt_of_minus_digits _ hne hds (by rw [hval]; exact hm), hval, Int.negSucc_eq]
    rfl

theorem toString_int_chars (n : Int) :
    (∃ c cs, (toString n).data = c :: cs ∧ (isDigit c = true ∨ c = '-')) ∧
      ∀ c ∈ (toString n).data, isDigit c = true ∨ c = '-' := by
  cases n with
  | ofNat m =>
    obtain ⟨c, cs, hd, hc, hcs⟩ := toDigits_head m
    have hs : (toString (Int.ofNat m)).data = c :: cs := hd
    rw [hs]
    refine ⟨⟨c, cs, rfl, Or.inl hc⟩, fun x hx => Or.inl ?_⟩
    rcases List.mem_cons.1 hx with rfl | hx
    · exact hc
    · exact List.all_eq_true.1 hcs x hx
  | negSucc m =>
    obtain ⟨_, hds, _⟩ := toDigits_spec (m + 1)
    have hs : (toString (Int.negSucc m)).data = '-' :: Nat.toDigits 10 (m + 1) := rfl
    rw [hs]
    refine ⟨⟨'-', _, rfl, Or.inr rfl⟩, fun x hx => ?_⟩
    rcases List.mem_cons.1 hx with rfl | hx
    · exact Or.inr rfl
    · exact Or.inl (List.all_eq_true.1 hds x hx)

/-! ## The call-tree parser on canonical text -/

theorem funcMap_name_chars (L : Lib) (f : String) (h : (funcMap L f).isSome = true) :
    ∀ c ∈ f.data, isIdentChar c = true := by
  unfold funcMap at h
  by_cases h0 : f = "append"
  · subst h0; decide
  rw [if_neg h0] at h
  by_cases h1 : f = "trim"
  · subst h1; decide
  rw [if_neg h1] at h
  by_cases h2 : f = "trimInt"
  · subst h2; decide
  rw [if_neg h2] at h
  by_cases h3 : f = "add"
  · subst h3; decide
  rw [if_neg h3] at h
  by_cases h4 : f = "sub"
  · subst h4; decide
  rw [if_neg h4] at h
  by_cases h5 : f = "multi"
  · subst h5; decide
  rw [if_neg h5] at h
  by_cases h6 : f = "div"
  · subst h6; decide
  rw [if_neg h6] at h
  by_cases h7 : f = "mod"
  · subst h7; decide
  rw [if_neg h7] at h
  by_cases h8 : f = "eq"
  · subst h8; decide
  rw [if_neg h8] at h
  by_cases h9 : f = "ne"
  · subst h9; decide
  rw [if_neg h9] at h
  by_cases h10 : f = "gt"
  · subst h10; decide
  rw [if_neg h10] at h
  by_cases h11 : f = "gte"
  · subst h11; decide
  rw [if_neg h11] at h
  by_cases h12 : f = "lt"
  · subst h12; decide
  rw [if_neg h12] at h
  by_cases h13 : f = "lte"
  · subst h13; decide
  rw [if_neg h13] at h
  by_cases h14 : f = "hasPrefix"
  · subst h14; decide
  rw [if_neg h14] at h
  by_cases h15 : f = "hasSuffix"
  · subst h15; decide
  rw [if_neg h15] at h
  by_cases h16 : f = "contains"
  · subst h16; decide
  rw [if_neg h16] at h
  by_cases h17 : f = "regexp"
  · subst h17; decide
  rw [if_neg h17] at h
  by_cases h18 : f = "not"
  · subst h18; decide
  rw [if_neg h18] at h
  by_cases h19 : f = "and"
  · subst h19; decide
  rw [if_neg h19] at h
  by_cases h20 : f = "or"
  · subst h20; decide
  rw [if_neg h20] at h
  exact absurd h (by decide)

theorem const_text_chars (n : Int) :
    ∀ c ∈ (toString n).data ++ [':', 'i', 'n', 't'],
      c ≠ '(' ∧ c ≠ ')' ∧ c ≠ ',' ∧ c ≠ '$' ∧ isSpace c = false := by
  intro c hc
  rcases List.mem_append.1 hc with hc | hc
  · rcases (toString_int_chars n).2 c hc with hd | rfl
    · have := identChar_facts c (by simp [isIdentChar, hd])
      exact ⟨this.1, this.2.1, this.2.2.1, this.2.2.2.2.1, this.2.2.2.2.2⟩
    · decide
  · simp only [List.mem_cons, List.mem_singleton, List.not_mem_nil, or_false] at hc
    rcases hc with rfl | rfl | rfl | rfl <;> decide

theorem var_text_chars (name : List Char) (h : isIdentifier name = true) :
    ∀ c ∈ '$' :: name, c ≠ '(' ∧ c ≠ ')' ∧ c ≠ ',' ∧ isSpace c = false := by
  intro c hc
  rcases List.mem_cons.1 hc with rfl | hc
  · decide
  · have := identChar_facts c (identChar_of_identifier name h c hc)
    exact ⟨this.1, this.2.1, this.2.2.1, this.2.2.2.2.2⟩

theorem wellFormedAll_mem (L : Lib) (args : List CTree)
    (h : CTree.wellFormedAll L args = true) : ∀ a ∈ args, CTree.wellFormed L a = true := by
  induction args with
  | nil => intro a ha; cases ha
  | cons t ts ih =>
    simp only [CTree.wellFormedAll, Bool.and_eq_true] at h
    intro a ha
    rcases List.mem_cons.1 ha with rfl | ha
    · exact h.1
    · exact ih h.2 a ha

theorem length_le_joined (args : List CTree) :
    ∀ a ∈ args, a.text.length ≤ (joinWith ',' (CTree.texts args)).length := by
  induction args with
  | nil => intro a ha; cases ha
  | cons t ts ih =>
    cases ts with
    | nil =>
      intro a ha
      rcases List.mem_cons.1 ha with rfl | ha
      · exact Nat.le_refl _
      · cases ha
    | cons t2 ts =>
      intro a ha
      have hj : joinWith ',' (CTree.texts (t :: t2 :: ts)) =
          t.text ++ ',' :: joinWith ',' (CTree.texts (t2 :: ts)) := rfl
      rw [hj, List.length_append, List.length_cons]
      rcases List.mem_cons.1 ha with rfl | ha
      · omega
      · have := ih a ha
        omega

theorem length_arg_lt_call (fname : String) (args : List CTree) :
    ∀ a ∈ args, a.text.length + 2 ≤ (CTree.text (.call fname args)).length := by
  intro a ha
  have h := length_le_joined args a ha
  have ht : CTree.text (.call fname args) =
      fname.data ++ '(' :: (joinWith ',' (CTree.texts args) ++ [')']) := rfl
  rw [ht]
  simp only [List.length_append, List.length_cons, List.length_nil]
  omega

theorem splitParams_joined (args : List CTree)
    (hS : ∀ a ∈ args, ∀ (rest : List Char) (level : Int) (cur : List Char)
      (pieces : List String), 0 ≤ level →
      splitParams (a.text ++ rest) level cur pieces =
        splitParams rest level (cur ++ a.text) pieces) :
    ∀ (rest : List Char) (level : Int) (cur : List Char) (pieces : List String), 1 ≤ level →
      splitParams (joinWith ',' (CTree.texts args) ++ rest) level cur pieces =
        splitParams rest level (cur ++ joinWith ',' (CTree.texts args)) pieces := by
  induction args with
  | nil =>
    intro rest level cur pieces _
    show splitParams ([] ++ rest) level cur pieces = splitParams rest level (cur ++ []) pieces
    simp
  | cons t ts ih =>
    cases ts with
    | nil =>
      intro rest level cur pieces hl
      exact hS t (List.mem_cons_self t []) rest level cur pieces (by omega)
    | cons t2 ts =>
      intro rest level cur pieces hl
      have hj : joinWith ',' (CTree.texts (t :: t2 :: ts)) =
          t.text ++ ',' :: joinWith ',' (CTree.texts (t2 :: ts)) := rfl
      rw [hj, List.append_assoc, hS t (List.mem_cons_self t _) _ level cur pieces (by omega),
        List.cons_append, splitParams, if_neg (by decide), if_neg (by decide),
        if_pos rfl, if_neg (by omega),
        ih (fun a ha => hS a (List.mem_cons_of_mem t ha)) rest level _ pieces hl]
      simp

theorem splitParams_tree (L : Lib) :
    ∀ (n : Nat) (t : CTree), t.text.length < n → CTree.wellFormed L t = true →
      ∀ (rest : List Char) (level : Int) (cur : List Char) (pieces : List String),
        0 ≤ level →
        splitParams (t.text ++ rest) level cur pieces =
          splitParams rest level (cur ++ t.text) pieces := by
  intro n
  induction n with
  | zero => intro t h; omega
  | succ n ih =>
    intro t hlen hwf rest level cur pieces hl
    cases t with
    | var name =>
      exact splitParams_plain _ (fun c hc =>
        have := var_text_chars name hwf c hc
        ⟨this.1, this.2.1, this.2.2.1⟩) rest level cur pieces
    | const k =>
      exact splitParams_plain _ (fun c hc =>
        have := const_text_chars k c hc
        ⟨this.1, this.2.1, this.2.2.1⟩) rest level cur pieces
    | call fname args =>
      simp only [CTree.wellFormed, Bool.and_eq_true] at hwf
      obtain ⟨⟨hf, _⟩, hall⟩ := hwf
      have hname : ∀ c ∈ fname.data, c ≠ '(' ∧ c ≠ ')' ∧ c ≠ ',' := fun c hc =>
        have := identChar_facts c (funcMap_name_chars L fname hf c hc)
        ⟨this.1, this.2.1, this.2.2.1⟩
      have hargs := splitParams_joined args (fun a ha =>
        ih a (by have := length_arg_lt_call fname args a ha; omega)
          (wellFormedAll_mem L args hall a ha))
      have ht : CTree.text (.call fname args) =
          fname.data ++ '(' :: (joinWith ',' (CTree.texts args) ++ [')']) := rfl
      rw [ht, List.append_assoc, splitParams_plain _ hname, List.cons_append, splitParams,
        if_pos rfl, List.append_assoc, hargs _ (level + 1) _ pieces (by omega),
        List.cons_append, splitParams, if_neg (by decide), if_pos rfl, List.nil_append]
      have hlev : level + 1 - 1 = level := by omega
      rw [hlev]
      simp

theorem splitParams_arguments (args : List CTree)
    (hS : ∀ a ∈ args, ∀ (rest : List Char) (level : Int) (cur : List Char)
      (pieces : List String), 0 ≤ level →
      splitParams (a.text ++ rest) level cur pieces =
        splitParams rest level (cur ++ a.text) pieces)
    (hne : args ≠ []) :
    ∀ pieces : List String,
      splitParams (joinWith ',' (CTree.texts args)) 0 [] pieces =
        pieces ++ (CTree.texts args).map String.mk := by
  induction args with
  | nil => exact absurd rfl hne
  | cons t ts ih =>
    cases ts with
    | nil =>
      intro pieces
      have hj : joinWith ',' (CTree.texts [t]) = t.text ++ [] := (List.append_nil _).symm
      rw [hj, hS t (List.mem_cons_self t []) [] 0 [] pieces (Int.le_refl 0)]
      rfl
    | cons t2 ts =>
      intro pieces
      have hj : joinWith ',' (CTree.texts (t :: t2 :: ts)) =
          t.text ++ ',' :: joinWith ',' (CTree.texts (t2 :: ts)) := rfl
      rw [hj, hS t (List.mem_cons_self t _) _ 0 [] pieces (Int.le_refl 0), splitParams,
        if_neg (by decide), if_neg (by decide), if_pos rfl, if_pos rfl,
        ih (fun a ha => hS a (List.mem_cons_of_mem t ha)) (by simp)]
      simp [CTree.texts]

theorem mapM_arguments (L : Lib) (fuel : Nat) (args : List CTree)
    (h : ∀ a ∈ args, parseArgument L fuel (TrimSpace (String.mk a.text)) = .ok (CTree.arg L a)) :
    Outcome.mapM (fun piece => parseArgument L fuel (TrimSpace piece))
        ((CTree.texts args).map String.mk) = .ok (CTree.args L args) := by
  induction args with
  | nil => rfl
  | cons t ts ih =>
    simp only [CTree.texts, CTree.args, List.map_cons, Outcome.mapM]
    rw [h t (List.mem_cons_self t ts), Outcome.bind_ok,
      ih (fun a ha => h a (List.mem_cons_of_mem t ha)), Outcome.bind_ok]

theorem const_text_ascii (n : Int) :
    ∀ c ∈ (toString n).data ++ [':', 'i', 'n', 't'], c.toNat < 128 := by
  intro c hc
  rcases List.mem_append.1 hc with hc | hc
  · rcases (toString_int_chars n).2 c hc with hd | rfl
    · simp only [isDigit, Bool.and_eq_true, decide_eq_true_eq] at hd
      omega
    · decide
  · simp only [List.mem_cons, List.mem_singleton, List.not_mem_nil, or_false] at hc
    rcases hc with rfl | rfl | rfl | rfl <;> decide

theorem TrimSpace_const (n : Int) :
    TrimSpace (String.mk ((toString n).data ++ [':', 'i', 'n', 't'])) =
      String.mk ((toString n).data ++ [':', 'i', 'n', 't']) := by
  refine TrimSpace_eq_self _ ?_ ?_
  · obtain ⟨⟨d, ds, hd, _⟩, _⟩ := toString_int_chars n
    rw [hd]
    have hmem : d ∈ (toString n).data ++ [':', 'i', 'n', 't'] := by rw [hd]; simp
    exact spaceWidth_head_ascii d _ (const_text_chars n d hmem).2.2.2.2
      (const_text_ascii n d hmem)
  · intro c hc
    exact ⟨(const_text_chars n c (List.mem_of_mem_getLast? hc)).2.2.2.2,
      Or.inl (const_text_ascii n c (List.mem_of_mem_getLast? hc))⟩

theorem TrimSpace_call (L : Lib) (fname : String) (params : List Char)
    (hf : (funcMap L fname).isSome = true) :
    TrimSpace (String.mk (fname.data ++ '(' :: (params ++ [')']))) =
      String.mk (fname.data ++ '(' :: (params ++ [')'])) := by
  refine TrimSpace_eq_self _ ?_ ?_
  · have hchars := funcMap_name_chars L fname hf
    cases hd : fname.data with
    | nil => exact spaceWidth_head_ascii '(' _ (by decide) (by decide)
    | cons d ds =>
      rw [hd] at hchars
      refine spaceWidth_second d _ (tail_of_identChar d (hchars d (by simp))).1 ?_
      intro x hx
      cases ds with
      | nil =>
        cases hx
        exact Or.inl (by decide)
      | cons y ys =>
        cases hx
        have := (tail_of_identChar x (hchars x (by simp))).2
        omega
  · intro c hc
    rw [show fname.data ++ '(' :: (params ++ [')']) = (fname.data ++ '(' :: params) ++ [')'] by
      simp, List.getLast?_append_of_ne_nil _ (by simp)] at hc
    cases hc
    exact ⟨by decide, Or.inl (by decide)⟩

theorem parseConst (L : Lib) (n : Int) (h1 : -(2 ^ 63) ≤ n) (h2 : n < 2 ^ 63) :
    (∀ fuel, parseArgument L (fuel + 1) (String.mk ((toString n).data ++ [':', 'i', 'n', 't'])) =
      .ok (.mk none "" (.int .int64 n))) ∧
    parseVar L (String.mk ((toString n).data ++ [':', 'i', 'n', 't'])) =
      .ok (.mk none "" (.int .int64 n)) := by
  have hchars := const_text_chars n
  have hcont : ((toString n).data ++ [':', 'i', 'n', 't']).contains '(' = false := by
    cases hc : ((toString n).data ++ [':', 'i', 'n', 't']).contains '(' with
    | false => rfl
    | true =>
      rw [List.contains_iff_exists_mem_beq] at hc
      obtain ⟨c, hmem, hbeq⟩ := hc
      have hceq : c = '(' := by simpa using Eq.symm (beq_iff_eq.1 hbeq)
      exact absurd hceq (hchars c hmem).1
  have hsplit := splitType_typed (toString n).data ['i', 'n', 't'] (by decide)
  have hint : ParseInt (String.mk (toString n).data) = n := ParseInt_toString n h1 h2
  obtain ⟨⟨d, ds, hd, _⟩, _⟩ := toString_int_chars n
  have hdollar : d ≠ '$' :=
    (hchars d (by rw [hd]; simp)).2.2.2.1
  rw [hd] at hcont hsplit hint
  rw [List.cons_append] at hcont hsplit
  rw [hd]
  constructor
  · intro fuel
    rw [parseArgument.eq_def]
    simp only [List.cons_append, hcont, hsplit, if_neg hdollar, Bool.false_eq_true, if_false]
    rw [if_pos trivial, hint]
  · unfold parseVar
    simp only [List.cons_append, hsplit, if_neg hdollar]
    rw [if_pos trivial, hint]

theorem parse_tree (L : Lib) :
    ∀ (n : Nat) (t : CTree), t.text.length < n → CTree.wellFormed L t = true →
      (∀ fuel, t.text.length + 1 ≤ fuel →
        ParseFunctionExpression L fuel (String.mk t.text) = .ok (CTree.node L t)) ∧
      (∀ fuel, t.text.length + 2 ≤ fuel →
        parseArgument L fuel (TrimSpace (String.mk t.text)) = .ok (CTree.arg L t)) := by
  intro n
  induction n with
  | zero => intro t h; omega
  | succ n ih =>
    intro t hlen hwf
    cases t with
    | var name =>
      constructor
      · intro fuel hfuel
        obtain ⟨f, rfl⟩ : ∃ f, fuel = f + 1 := ⟨fuel - 1, by omega⟩
        exact ParseFunctionExpression_variable L f name hwf
      · intro fuel hfuel
        obtain ⟨f, rfl⟩ : ∃ f, fuel = f + 1 := ⟨fuel - 1, by omega⟩
        have htrim : TrimSpace (String.mk (CTree.text (.var name))) =
            String.mk ('$' :: name) :=
          TrimSpace_eq_self _ (spaceWidth_head_ascii '$' name (by decide) (by decide))
            (fun c hc => by
              rcases List.mem_cons.1 (List.mem_of_mem_getLast? hc) with rfl | hmem
              · exact ⟨by decide, Or.inl (by decide)⟩
              · exact tail_of_identChar c (identChar_of_identifier name hwf c hmem))
        rw [htrim]
        exact parseArgument_var L f name hwf
    | const k =>
      simp only [CTree.wellFormed, Bool.and_eq_true, decide_eq_true_eq] at hwf
      obtain ⟨hk1, hk2⟩ := hwf
      have hleaf := parseConst L k hk1 hk2
      constructor
      · intro fuel hfuel
        obtain ⟨f, rfl⟩ : ∃ f, fuel = f + 1 := ⟨fuel - 1, by omega⟩
        have hno : indexByte ((toString k).data ++ [':', 'i', 'n', 't']) '(' = none :=
          indexByte_none _ _ (fun hmem => (const_text_chars k _ hmem).1 rfl)
        show ParseFunctionExpression L (f + 1)
          (String.mk ((toString k).data ++ [':', 'i', 'n', 't'])) = _
        rw [ParseFunctionExpression.eq_def]
        simp only [hno, hleaf.2]
        rfl
      · intro fuel hfuel
        obtain ⟨f, rfl⟩ : ∃ f, fuel = f + 1 := ⟨fuel - 1, by omega⟩
        show parseArgument L (f + 1)
          (TrimSpace (String.mk ((toString k).data ++ [':', 'i', 'n', 't']))) = _
        rw [TrimSpace_const]
        exact hleaf.1 f
    | call fname args =>
      have hwf2 := hwf
      simp only [CTree.wellFormed, Bool.and_eq_true, Bool.not_eq_true', List.isEmpty_eq_false]
        at hwf2
      obtain ⟨⟨hf, hne⟩, hall⟩ := hwf2
      have hwfa := wellFormedAll_mem L args hall
      have hlena := length_arg_lt_call fname args
      have ht : CTree.text (.call fname args) =
          fname.data ++ '(' :: (joinWith ',' (CTree.texts args) ++ [')']) := rfl
      have hsplit := splitParams_arguments args
        (fun a ha => splitParams_tree L (a.text.length + 1) a (Nat.lt_succ_self _) (hwfa a ha))
        hne []
      have hchars := funcMap_name_chars L fname hf
      obtain ⟨g, hg⟩ : ∃ g, funcMap L fname = some g := Option.isSome_iff_exists.1 hf
      have htrim : TrimSpace (String.mk fname.data) = fname := TrimSpace_ident fname.data hchars
      have hP : ∀ fuel, (CTree.text (.call fname args)).length + 1 ≤ fuel →
          ParseFunctionExpression L fuel (String.mk (CTree.text (.call fname args))) =
            .ok (CTree.node L (.call fname args)) := by
        intro fuel hfuel
        obtain ⟨f, rfl⟩ : ∃ f, fuel = f + 1 := ⟨fuel - 1, by omega⟩
        have hmap := mapM_arguments L f args (fun a ha =>
          (ih a (by have := hlena a ha; omega) (hwfa a ha)).2 f
            (by have := hlena a ha; omega))
        rw [ht, ParseFunctionExpression_call L f fname.data _
          (paren_not_mem_of_identChars _ hchars), htrim, hg]
        simp only [hsplit, List.nil_append, hmap, Outcome.bind_ok]
        simp only [CTree.node, ht, hg]
      refine ⟨hP, ?_⟩
      intro fuel hfuel
      obtain ⟨f, rfl⟩ : ∃ f, fuel = f + 1 := ⟨fuel - 1, by omega⟩
      have hcont : (fname.data ++ '(' :: (joinWith ',' (CTree.texts args) ++ [')'])).contains
          '(' = true := by simp
      have hPf := hP f (by omega)
      rw [ht] at hPf
      rw [ht, TrimSpace_call L fname _ hf, parseArgument.eq_def]
      simp only [hcont, if_true, hPf, Outcome.bind_ok]
      rfl

theorem wellFormed_example (L : Lib) : CTree.wellFormed L exampleTree = true := rfl

theorem text_example :
    String.mk exampleTree.text = "add(sub($a,-3:int),multi(2:int,$b,7:int))" := by decide

/-- C27: the call-tree parser inverts canonical notation.  For every tree whose calls each
have a name of the built-in table and at least one argument and whose leaves are
identifier-named variables or 64-bit integer constants, `ParseFunctionExpression` on the
tree's canonical text, with the budget `callFuel` or any larger one, returns the node of
that tree: every call keeps its name, its callable, and its arguments in number and order;
as an argument the same text is read by `parseArgument` as that tree's argument record.
The text `add(sub($a,-3:int),multi(2:int,$b,7:int))` is the instance shown. -/
theorem C27_call_tree_inverts_canonical (L : Lib) (t : CTree)
    (hwf : CTree.wellFormed L t = true) :
    ParseFunctionExpression L (callFuel (String.mk t.text)) (String.mk t.text) =
        .ok (CTree.node L t) ∧
      (∀ fuel, callFuel (String.mk t.text) ≤ fuel →
        ParseFunctionExpression L fuel (String.mk t.text) = .ok (CTree.node L t) ∧
        parseArgument L fuel (TrimSpace (String.mk t.text)) = .ok (CTree.arg L t)) ∧
      (∀ fname args, t = .call fname args →
        (CTree.node L t).FunctionName = fname ∧
        (CTree.node L t).Function = funcMap L fname ∧
        (CTree.node L t).Args = CTree.args L args ∧
        (CTree.node L t).Args.length = args.length) := by
  have h := parse_tree L (t.text.length + 1) t (Nat.lt_succ_self _) hwf
  have hfuel : t.text.length + 2 ≤ callFuel (String.mk t.text) := by
    unfold callFuel
    show t.text.length + 2 ≤ 2 * t.text.length + 2
    omega
  refine ⟨h.1 _ (by omega), fun fuel hf => ⟨h.1 fuel (by omega), h.2 fuel (by omega)⟩, ?_⟩
  rintro fname args rfl
  refine ⟨rfl, rfl, rfl, ?_⟩
  show (CTree.args L args).length = args.length
  clear h hfuel hwf
  induction args with
  | nil => rfl
  | cons a as ih => simp only [CTree.args, List.length_cons, ih]

theorem C27_call_tree_inverts_canonical_witness :
    CTree.wellFormed refLib exampleTree = true ∧
      ParseFunctionExpression refLib (callFuel "add(sub($a,-3:int),multi(2:int,$b,7:int))")
          "add(sub($a,-3:int),multi(2:int,$b,7:int))" =
        .ok (.mk "add(sub($a,-3:int),multi(2:int,$b,7:int))" (some (fnAdd refLib)) "add"
          [.mk (some (.mk "sub($a,-3:int)" (some (fnSub refLib)) "sub"
              [.mk none "a" .nil, .mk none "" (.int .int64 (-3))] "" .nil)) "" .nil,
            .mk (some (.mk "multi(2:int,$b,7:int)" (some (fnMulti refLib)) "multi"
              [.mk none "" (.int .int64 2), .mk none "b" .nil, .mk none "" (.int .int64 7)]
              "" .nil)) "" .nil] "" .nil) :=
  ⟨rfl, (C27_call_tree_inverts_canonical refLib exampleTree rfl).1⟩

end GoParser
